import Mathlib

/-!
# Graph search toolkit (`template/graph_search.h`)

A shallow embedding of the three traversal engines `DFS`, `BFS` and `Dijkstra`, of the
ranges `Bounds`, `ManhattanSpiral` and `ChessSpiral` of `10/grid.h`, and of the runs
`TestDFS`, `TestDijkstra`, `TestManhattanSpiral` and `TestChessSpiral` of
`tests/tests.cpp`.

Modelling conventions.

* `std::unordered_map<Node, V>` is a partial function `Node → Option V`;
  `insert` keeps an existing entry and reports whether it inserted.
* `int` counters (`time_`, `depth_`, `depth`) are `Int`; signed overflow is undefined
  behaviour in the source and is not modelled.
* The seed and visit callbacks are arbitrary caller code. A callback is a finite
  interaction tree: it either finishes with a new caller state `σ`, or issues one
  `Look` and continues with what the call reported. `σ` stands for everything the two
  closures capture by reference.
* A recursion or loop that need not end takes a `Nat` budget and answers `none` when the
  budget is used up. `none` also stands for a thrown exception or a failed `assert`.
* `Look` of the Dijkstra engine returns nothing, so a Dijkstra callback is given by the
  list of `Look` calls it issues together with the caller state it leaves.
* `std::push_heap` and `std::pop_heap` belong to the standard library. The engine takes
  them as a parameter `StdHeap` that carries the contract of the C++ standard, so every
  statement holds for every conforming implementation and every way of breaking ties;
  `sortHeap` is one such implementation, used where a run is evaluated.
* Every engine state carries a field `log`, newest entry first. It is bookkeeping of the
  model only (no branch reads it): it records the `Look` calls and the callback
  invocations so that statements about "how often" and "in which order" can be written.
* The test runs use `Fin n` for the nodes, numbered in the order the tests name them;
  what the test callbacks store in captured variables is the caller state `σ`.
-/

namespace GraphSearch

/-- The member `insert` of `std::unordered_map`: an existing entry wins. The answer is the
map afterwards, the value the returned iterator points at, and the flag `inserted`. -/
def mapInsert {K V : Type} [DecidableEq K] (m : K → Option V) (k : K) (v : V) :
    (K → Option V) × V × Bool :=
  match m k with
  | some old => (m, old, false)
  | none => (fun k' => if k' = k then some v else m k', v, true)

/-! ## DFS -/

inductive DFSEdge where
  | kTree
  | kBack
  | kForward
  | kCross
  deriving DecidableEq, Repr

structure DFSResult (Node : Type) where
  enter_times : Node → Option Int
  exit_times : Node → Option Int

/-- Entries of the DFS log: a call `Look(n)`, and an invocation of the visit callback. -/
inductive DFSEvent (Node : Type) where
  | look (n : Node)
  | visit (n : Node)
  deriving DecidableEq, Repr

/-- The fields of `DFSState`. `path_` lists the active path outermost first, as the
vector does; `log` is the model's record of calls. -/
structure DFSState (Node : Type) where
  time_ : Int
  enter_times_ : Node → Option Int
  exit_times_ : Node → Option Int
  path_ : List Node
  log : List (DFSEvent Node)

/-- What a DFS callback does: finish with caller state `s`, or call `Look(n)` while the
caller state is `s` and go on with the returned edge class, the value of `Path()` and the
caller state as the nested visits left it. -/
inductive DFSProg (Node σ : Type) where
  | done (s : σ) : DFSProg Node σ
  | look (s : σ) (n : Node) (k : DFSEdge → List Node → σ → DFSProg Node σ) : DFSProg Node σ

variable {Node σ : Type}

def DFSState.init : DFSState Node :=
  { time_ := 0, enter_times_ := fun _ => none, exit_times_ := fun _ => none,
    path_ := [], log := [] }

def DFSState.Path (st : DFSState Node) : List Node := st.path_

def DFSState.Depth (st : DFSState Node) : Int := (st.path_.length : Int) - 1

def DFSState.Parent (st : DFSState Node) : Option Node :=
  if st.path_.length < 2 then none else st.path_.get? (st.path_.length - 2)

/-- Runs a callback body against the state, answering each of its `Look` calls with
`look`. -/
def DFSState.runProg (look : DFSState Node → σ → Node → Option (DFSEdge × DFSState Node × σ)) :
    DFSState Node → DFSProg Node σ → Option (DFSState Node × σ)
  | st, .done s => some (st, s)
  | st, .look s n k =>
    match look st s n with
    | none => none
    | some (e, st', s') => DFSState.runProg look st' (k e st'.Path s')

/-- The method `DFSState::Look`. `depth` bounds the nesting of visit callbacks still
allowed (the call stack). -/
def DFSState.Look [DecidableEq Node] (visit : List Node → σ → Node → DFSProg Node σ) :
    Nat → DFSState Node → σ → Node → Option (DFSEdge × DFSState Node × σ)
  | depth, st, s, n =>
    let st := { st with log := DFSEvent.look n :: st.log }
    match mapInsert st.enter_times_ n st.time_ with
    | (enter_times, _, true) =>
      match depth with
      | 0 => none
      | depth + 1 =>
        let st1 : DFSState Node :=
          { st with enter_times_ := enter_times, time_ := st.time_ + 1,
                    path_ := st.path_ ++ [n], log := DFSEvent.visit n :: st.log }
        match DFSState.runProg (DFSState.Look visit depth) st1 (visit st1.Path s n) with
        | none => none
        | some (st2, s2) =>
          some (DFSEdge.kTree,
            { st2 with path_ := st2.path_.dropLast,
                       exit_times_ := (mapInsert st2.exit_times_ n st2.time_).1,
                       time_ := st2.time_ + 1 }, s2)
    | (_, _, false) =>
      match st.exit_times_ n with
      | none => some (DFSEdge.kBack, st, s)
      | some exit =>
        match st.path_.getLast? with
        | none => some (DFSEdge.kForward, st, s)
        | some top =>
          match st.enter_times_ top with
          | none => none
          | some enter =>
            if exit < enter then some (DFSEdge.kCross, st, s)
            else some (DFSEdge.kForward, st, s)

/-- The body of `DFS` up to the `return`: the seed callback runs on a fresh state. -/
def DFSState.Run [DecidableEq Node] (start : List Node → σ → DFSProg Node σ)
    (visit : List Node → σ → Node → DFSProg Node σ) (depth : Nat) (s0 : σ) :
    Option (DFSState Node × σ) :=
  DFSState.runProg (DFSState.Look visit depth) DFSState.init (start DFSState.init.Path s0)

/-- The function `DFS`: run the seed callback on a fresh state and hand back the two
maps. -/
def DFS [DecidableEq Node] (start : List Node → σ → DFSProg Node σ)
    (visit : List Node → σ → Node → DFSProg Node σ) (depth : Nat) (s0 : σ) :
    Option (DFSResult Node × σ) :=
  match DFSState.Run start visit depth s0 with
  | none => none
  | some (st, s) => some ({ enter_times := st.enter_times_, exit_times := st.exit_times_ }, s)

/-- The function `DFSFrom`: the seed is the one call `Look(start)`. -/
def DFSFrom [DecidableEq Node] (start : Node)
    (visit : List Node → σ → Node → DFSProg Node σ) (depth : Nat) (s0 : σ) :
    Option (DFSResult Node × σ) :=
  DFS (fun _ s => DFSProg.look s start (fun _ _ s' => DFSProg.done s')) visit depth s0

/-- A callback body that looks at the given nodes in turn and ignores the answers. -/
def DFSProg.lookAll : List Node → σ → DFSProg Node σ
  | [], s => DFSProg.done s
  | v :: vs, s => DFSProg.look s v (fun _ _ s' => DFSProg.lookAll vs s')

/-- A small graph for concrete runs: `0 → 1, 0 → 0, 1 → 0`, and no other edge. -/
def exampleSucc : Nat → List Nat
  | 0 => [1, 0]
  | 1 => [0]
  | _ => []

/-- The seed callback that looks at `0` and then at `1`. -/
def exampleDFSStart : List Nat → Unit → DFSProg Nat Unit :=
  fun _ s => DFSProg.lookAll [0, 1] s

/-- The visit callback that looks at the successors of its node in `exampleSucc`. -/
def exampleDFSVisit : List Nat → Unit → Nat → DFSProg Nat Unit :=
  fun _ s u => DFSProg.lookAll (exampleSucc u) s

/-! ## BFS -/

inductive BFSEdge where
  | kTree
  | kTight
  | kLoose
  deriving DecidableEq, Repr

/-- Entries of the BFS log: a call `Look(n)`, and an invocation of the visit callback
together with the value `Depth()` has during it. -/
inductive BFSEvent (Node : Type) where
  | look (n : Node)
  | visit (n : Node) (depth : Int)
  deriving DecidableEq, Repr

/-- The fields of `BFSState`; the front of `queue_` is the head of the list. -/
structure BFSState (Node : Type) where
  queue_ : List Node
  depths_ : Node → Option Int
  depth_ : Int
  log : List (BFSEvent Node)

/-- What a BFS callback does: finish with caller state `s`, or call `Look(n)` and go on
with the returned edge class. `Depth()` does not change while a callback runs, so the
callback is given it once, when it starts. -/
inductive BFSProg (Node σ : Type) where
  | done (s : σ) : BFSProg Node σ
  | look (n : Node) (k : BFSEdge → BFSProg Node σ) : BFSProg Node σ

def BFSState.init : BFSState Node :=
  { queue_ := [], depths_ := fun _ => none, depth_ := -1, log := [] }

def BFSState.Depth (st : BFSState Node) : Int := st.depth_

/-- The method `BFSState::Look`; `none` is the failed `assert`. -/
def BFSState.Look [DecidableEq Node] (st : BFSState Node) (n : Node) :
    Option (BFSEdge × BFSState Node) :=
  let st := { st with log := BFSEvent.look n :: st.log }
  match mapInsert st.depths_ n (st.depth_ + 1) with
  | (depths, _, true) =>
    some (BFSEdge.kTree, { st with depths_ := depths, queue_ := st.queue_ ++ [n] })
  | (_, second, false) =>
    if second = st.depth_ + 1 then some (BFSEdge.kTight, st)
    else if second ≤ st.depth_ then some (BFSEdge.kLoose, st)
    else none

/-- Runs a callback body against the state. -/
def BFSState.runProg [DecidableEq Node] :
    BFSState Node → BFSProg Node σ → Option (BFSState Node × σ)
  | st, .done s => some (st, s)
  | st, .look n k =>
    match st.Look n with
    | none => none
    | some (e, st') => BFSState.runProg st' (k e)

/-- The `while` loop of `BFS`; `steps` bounds the number of iterations. -/
def BFSState.loop [DecidableEq Node] (visit : Int → σ → Node → BFSProg Node σ) :
    Nat → BFSState Node → σ → Option (BFSState Node × σ)
  | steps, st, s =>
    match st.queue_ with
    | [] => some (st, s)
    | node :: rest =>
      match steps with
      | 0 => none
      | steps + 1 =>
        match st.depths_ node with
        | none => none
        | some d =>
          let st1 : BFSState Node :=
            { st with queue_ := rest, depth_ := d, log := BFSEvent.visit node d :: st.log }
          match st1.runProg (visit st1.Depth s node) with
          | none => none
          | some (st2, s2) => BFSState.loop visit steps st2 s2

/-- The body of `BFS` up to the `return`. -/
def BFSState.Run [DecidableEq Node] (start : Int → σ → BFSProg Node σ)
    (visit : Int → σ → Node → BFSProg Node σ) (steps : Nat) (s0 : σ) :
    Option (BFSState Node × σ) :=
  let st0 : BFSState Node := BFSState.init
  match st0.runProg (start st0.Depth s0) with
  | none => none
  | some (st, s) => BFSState.loop visit steps st s

/-- The function `BFS`: the result is the map of depths. -/
def BFS [DecidableEq Node] (start : Int → σ → BFSProg Node σ)
    (visit : Int → σ → Node → BFSProg Node σ) (steps : Nat) (s0 : σ) :
    Option ((Node → Option Int) × σ) :=
  match BFSState.Run start visit steps s0 with
  | none => none
  | some (st, s) => some (st.depths_, s)

/-- The function `BFSFrom`: the seed is the one call `Look(start)`. -/
def BFSFrom [DecidableEq Node] (start : Node)
    (visit : Int → σ → Node → BFSProg Node σ) (steps : Nat) (s0 : σ) :
    Option ((Node → Option Int) × σ) :=
  BFS (fun _ s => BFSProg.look start (fun _ => BFSProg.done s)) visit steps s0

/-- A callback body that looks at the given nodes in turn and ignores the answers. -/
def BFSProg.lookAll (s : σ) : List Node → BFSProg Node σ
  | [] => BFSProg.done s
  | v :: vs => BFSProg.look v (fun _ => BFSProg.lookAll s vs)

/-- A small finite graph for concrete runs: `0 → 1, 0 → 2, 1 → 2` on three nodes. -/
def exampleFinSucc : Fin 3 → List (Fin 3) :=
  fun u => if u = 0 then [1, 2] else if u = 1 then [2] else []

/-! ## Dijkstra -/

structure DistUpdate (Node Dist : Type) where
  node : Node
  dist : Dist
  parent : Option Node
  depth : Int
  deriving DecidableEq, Repr

variable {Dist : Type}

/-- The `operator<` that `operator<=>` of `DistUpdate` induces: `a < b` is
`(other.dist <=> dist) < 0` with `other = b`, that is `b.dist < a.dist`. -/
def DistUpdate.lt [LinearOrder Dist] (a b : DistUpdate Node Dist) : Prop :=
  b.dist < a.dist

instance DistUpdate.decidableLt [LinearOrder Dist] (a b : DistUpdate Node Dist) :
    Decidable (DistUpdate.lt a b) :=
  inferInstanceAs (Decidable (b.dist < a.dist))

/-- The predicate `std::is_heap` for the order `lt`: no element is less than a child of
it, the children of index `i` being `2 i + 1` and `2 i + 2`. -/
def IsHeap {α : Type} (lt : α → α → Prop) (v : List α) : Prop :=
  ∀ i a b, 0 < i → v[(i - 1) / 2]? = some a → v[i]? = some b → ¬ lt a b

/-- The functions `std::push_heap` and `std::pop_heap` of the standard library, on a
whole vector and for the order `lt`. They are not part of the repository; they are taken
with the contract the C++ standard gives them. `push_heap` expects all but the last
element to form a heap and makes the whole vector one. `pop_heap` expects a non-empty
heap, moves its first element to the back and makes the rest a heap. Both only rearrange
the vector. -/
structure StdHeap (α : Type) (lt : α → α → Prop) where
  push_heap : List α → List α
  pop_heap : List α → List α
  push_heap_perm : ∀ v, IsHeap lt v.dropLast → (push_heap v).Perm v
  push_heap_heap : ∀ v, IsHeap lt v.dropLast → IsHeap lt (push_heap v)
  pop_heap_perm : ∀ v, IsHeap lt v → (pop_heap v).Perm v
  pop_heap_last : ∀ v, IsHeap lt v → (pop_heap v).getLast? = v.head?
  pop_heap_heap : ∀ v, IsHeap lt v → IsHeap lt (pop_heap v).dropLast

/-- Entries of the Dijkstra log: the candidate a call of `Look` pushed, a candidate
taken by `Pop`, and an invocation of the visit callback for the candidate that is
`current_` during it. -/
inductive DijkstraEvent (Node Dist : Type) where
  | look (u : DistUpdate Node Dist)
  | pop (u : DistUpdate Node Dist)
  | visit (u : DistUpdate Node Dist)

/-- The fields of `DiskstraState`. -/
structure DiskstraState (Node Dist : Type) where
  distances_ : Node → Option Dist
  queue_ : List (DistUpdate Node Dist)
  current_ : Option (DistUpdate Node Dist)
  log : List (DijkstraEvent Node Dist)

def DiskstraState.init : DiskstraState Node Dist :=
  { distances_ := fun _ => none, queue_ := [], current_ := none, log := [] }

def DiskstraState.Depth (st : DiskstraState Node Dist) : Int :=
  match st.current_ with
  | some c => c.depth
  | none => -1

def DiskstraState.Parent (st : DiskstraState Node Dist) : Option Node :=
  match st.current_ with
  | some c => c.parent
  | none => none

section Dijkstra

variable [LinearOrder Dist] (H : StdHeap (DistUpdate Node Dist) DistUpdate.lt)

def DiskstraState.Push (st : DiskstraState Node Dist) (update : DistUpdate Node Dist) :
    DiskstraState Node Dist :=
  { st with queue_ := H.push_heap (st.queue_ ++ [update]) }

/-- The method `Pop`; `none` stands for reading `back()` of an empty vector. -/
def DiskstraState.Pop (st : DiskstraState Node Dist) :
    Option (DistUpdate Node Dist × DiskstraState Node Dist) :=
  let queue := H.pop_heap st.queue_
  match queue.getLast? with
  | none => none
  | some update => some (update, { st with queue_ := queue.dropLast })

def DiskstraState.Look (st : DiskstraState Node Dist) (node : Node) (dist : Dist) :
    DiskstraState Node Dist :=
  let update : DistUpdate Node Dist :=
    { node := node, dist := dist,
      parent := match st.current_ with
        | some c => some c.node
        | none => none,
      depth := st.Depth + 1 }
  DiskstraState.Push H { st with log := DijkstraEvent.look update :: st.log } update

/-- A Dijkstra callback issues `Look` calls one after the other. `Look` returns nothing
and leaves `Depth()` and `Parent()` as they are, so the calls a callback makes are a list
fixed by its arguments and the caller state. -/
def DiskstraState.LookAll (st : DiskstraState Node Dist) (looks : List (Node × Dist)) :
    DiskstraState Node Dist :=
  looks.foldl (fun st l => DiskstraState.Look H st l.1 l.2) st

/-- The `while` loop of `Run`; `steps` bounds the number of iterations. -/
def DiskstraState.loop [DecidableEq Node]
    (visit : Int → Option Node → σ → Node → Dist → List (Node × Dist) × σ) :
    Nat → DiskstraState Node Dist → σ → Option (DiskstraState Node Dist × σ)
  | steps, st, s =>
    match st.queue_ with
    | [] => some (st, s)
    | _ :: _ =>
      match steps with
      | 0 => none
      | steps + 1 =>
        match DiskstraState.Pop H st with
        | none => none
        | some (update, st1) =>
          let st2 : DiskstraState Node Dist :=
            { st1 with current_ := some update, log := DijkstraEvent.pop update :: st1.log }
          match mapInsert st2.distances_ update.node update.dist with
          | (distances, _, true) =>
            let st3 : DiskstraState Node Dist :=
              { st2 with distances_ := distances, log := DijkstraEvent.visit update :: st2.log }
            let r := visit st3.Depth st3.Parent s update.node update.dist
            DiskstraState.loop visit steps (DiskstraState.LookAll H st3 r.1) r.2
          | (_, _, false) => DiskstraState.loop visit steps st2 s

/-- The method `Run`. -/
def DiskstraState.Run [DecidableEq Node] (start : σ → List (Node × Dist) × σ)
    (visit : Int → Option Node → σ → Node → Dist → List (Node × Dist) × σ)
    (steps : Nat) (s0 : σ) : Option (DiskstraState Node Dist × σ) :=
  let r := start s0
  DiskstraState.loop H visit steps (DiskstraState.LookAll H DiskstraState.init r.1) r.2

/-- The function `Dijkstra`: the result is the map of finalized distances. -/
def Dijkstra [DecidableEq Node] (start : σ → List (Node × Dist) × σ)
    (visit : Int → Option Node → σ → Node → Dist → List (Node × Dist) × σ)
    (steps : Nat) (s0 : σ) : Option ((Node → Option Dist) × σ) :=
  match DiskstraState.Run H start visit steps s0 with
  | none => none
  | some (st, s) => some (st.distances_, s)

/-- The function `DijkstraFrom`: the seed is the one call `Look(start, dist)`. -/
def DijkstraFrom [DecidableEq Node] (start : Node) (dist : Dist)
    (visit : Int → Option Node → σ → Node → Dist → List (Node × Dist) × σ)
    (steps : Nat) (s0 : σ) : Option ((Node → Option Dist) × σ) :=
  Dijkstra H (fun s => ([(start, dist)], s)) visit steps s0

end Dijkstra

/-- The seed callback of a run on a graph: `Look(s, 0)` for every source `s`. -/
def graphSeed [Zero Dist] (S : List Node) : σ → List (Node × Dist) × σ :=
  fun s => (S.map (fun n => (n, 0)), s)

/-- The visit callback of a run on a graph with weighted edge lists `edges`:
`Look(v, d + w)` for every edge from `u` to `v` of weight `w`. -/
def graphVisit [Add Dist] (edges : Node → List (Node × Dist)) :
    Int → Option Node → σ → Node → Dist → List (Node × Dist) × σ :=
  fun _ _ s u d => ((edges u).map (fun e => (e.1, d + e.2)), s)

/-- A small weighted graph for concrete runs: `0 → 1` of weight `5`, `0 → 2` of weight
`1` and `2 → 1` of weight `1`, on three nodes. -/
def exampleEdges : Fin 3 → List (Fin 3 × Int) :=
  fun u => if u = 0 then [(1, 5), (2, 1)] else if u = 2 then [(1, 1)] else []

/-- Sorting by increasing `dist`. -/
def sortByDist [LinearOrder Dist] (v : List (DistUpdate Node Dist)) :
    List (DistUpdate Node Dist) :=
  v.insertionSort (fun a b => a.dist ≤ b.dist)

/-- An implementation of the two heap functions for `DistUpdate`, used for concrete runs:
`push_heap` sorts the vector by increasing `dist` (a sorted vector is a heap), `pop_heap`
moves the first element to the back and sorts the rest. -/
def sortHeap (Node Dist : Type) [LinearOrder Dist] :
    StdHeap (DistUpdate Node Dist) DistUpdate.lt :=
  have total : IsTotal (DistUpdate Node Dist) (fun a b => a.dist ≤ b.dist) :=
    ⟨fun a b => le_total a.dist b.dist⟩
  have trans : IsTrans (DistUpdate Node Dist) (fun a b => a.dist ≤ b.dist) :=
    ⟨fun _ _ _ h1 h2 => le_trans h1 h2⟩
  have sorted_heap : ∀ v : List (DistUpdate Node Dist), IsHeap DistUpdate.lt (sortByDist v) := by
    intro v i a b hi ha hb
    rw [List.getElem?_eq_some] at ha hb
    obtain ⟨hp, rfl⟩ := ha
    obtain ⟨hi', rfl⟩ := hb
    have hs : (sortByDist v).Pairwise (fun a b => a.dist ≤ b.dist) :=
      List.sorted_insertionSort _ v
    exact not_lt.mpr ((List.pairwise_iff_getElem.mp hs) ((i - 1) / 2) i hp hi' (by omega))
  { push_heap := sortByDist
    pop_heap := fun v =>
      match v with
      | [] => []
      | a :: r => sortByDist r ++ [a]
    push_heap_perm := fun v _ => List.perm_insertionSort _ v
    push_heap_heap := fun v _ => sorted_heap v
    pop_heap_perm := fun v _ => by
      cases v with
      | nil => exact List.Perm.refl _
      | cons a r =>
        exact (List.perm_append_singleton a _).trans
          (List.Perm.cons a (List.perm_insertionSort _ r))
    pop_heap_last := fun v _ => by
      cases v with
      | nil => rfl
      | cons a r => simp
    pop_heap_heap := fun v _ => by
      cases v with
      | nil => intro i a b _ h; simp at h
      | cons a r =>
        simp only [List.dropLast_concat]
        exact sorted_heap r }

/-! ## Grid (`grid.h`) -/

/-- Coordinates on a grid: `i` grows down, `j` grows right. The two `int` fields are
`Int`; signed overflow is undefined behaviour in the source and is not modelled. -/
structure Coord where
  i : Int
  j : Int
  deriving DecidableEq, Repr

/-- The `operator+` of `Coord`. -/
def Coord.add (a b : Coord) : Coord := { i := a.i + b.i, j := a.j + b.j }

/-- The `operator-` of `Coord`. -/
def Coord.sub (a b : Coord) : Coord := { i := a.i - b.i, j := a.j - b.j }

/-- The method `Manhattan`: `abs(i) + abs(j)`. -/
def Coord.Manhattan (c : Coord) : Int := |c.i| + |c.j|

/-- The method `Chess`: `max(abs(i), abs(j))`. -/
def Coord.Chess (c : Coord) : Int := max |c.i| |c.j|

/-- The fields of `ManhattanSpiral::Iterator`. -/
structure ManhattanSpiral.Iterator where
  start_ : Coord
  cur_ : Coord
  deriving DecidableEq, Repr

/-- The `operator*` of the iterator. -/
def ManhattanSpiral.Iterator.deref (it : ManhattanSpiral.Iterator) : Coord := it.cur_

/-- The `operator++` of the iterator: one diagonal step chosen by the quadrant `cur_` lies
in, and then a step down when that brought `cur_` onto the column of `start_` at or below
it. -/
def ManhattanSpiral.Iterator.next (it : ManhattanSpiral.Iterator) : ManhattanSpiral.Iterator :=
  let cur1 : Coord :=
    if it.cur_.i < it.start_.i ∧ it.cur_.j ≤ it.start_.j then it.cur_.add { i := 1, j := -1 }
    else if it.cur_.i ≥ it.start_.i ∧ it.cur_.j < it.start_.j then
      it.cur_.add { i := 1, j := 1 }
    else if it.cur_.i > it.start_.i ∧ it.cur_.j ≥ it.start_.j then
      it.cur_.add { i := -1, j := 1 }
    else if it.cur_.i ≤ it.start_.i ∧ it.cur_.j > it.start_.j then
      it.cur_.add { i := -1, j := -1 }
    else it.cur_
  let cur2 : Coord :=
    if cur1.j = it.start_.j ∧ cur1.i ≥ it.start_.i then cur1.add { i := 1, j := 0 }
    else cur1
  { it with cur_ := cur2 }

/-- The method `begin` of `ManhattanSpiral`. -/
def ManhattanSpiral.begin (start : Coord) : ManhattanSpiral.Iterator :=
  { start_ := start, cur_ := start }

/-- The element a range-based loop over `ManhattanSpiral(start)` sees in its iteration
number `k`, counted from `0`: the iterator of `begin` after `k` increments. -/
def ManhattanSpiral.nth (start : Coord) (k : Nat) : Coord :=
  (ManhattanSpiral.Iterator.next^[k] (ManhattanSpiral.begin start)).deref

/-- The function `InBounds`. -/
def InBounds (c : Coord) (size_i size_j : Int) : Bool :=
  decide (c.i ≥ 0 ∧ c.i < size_i ∧ c.j ≥ 0 ∧ c.j < size_j)

/-- The fields of `Bounds::Iterator`. -/
structure Bounds.Iterator where
  cur_ : Coord
  size_j_ : Int
  deriving DecidableEq, Repr

/-- The `operator*` of the iterator. -/
def Bounds.Iterator.deref (it : Bounds.Iterator) : Coord := it.cur_

/-- The `while` loop in `operator++`: as long as `j` is not below `size_j`, take `size_j`
off `j` and step to the next row. The loop stands under `if (size_j_ > 0)` in the source;
that condition is part of the test here, which is what makes the loop end. -/
def Bounds.Iterator.wrap (size_j : Int) (c : Coord) : Coord :=
  if 0 < size_j ∧ size_j ≤ c.j then
    Bounds.Iterator.wrap size_j { i := c.i + 1, j := c.j - size_j }
  else c
termination_by c.j.toNat
decreasing_by
  simp_wf
  omega

/-- The `operator++` of the iterator. -/
def Bounds.Iterator.next (it : Bounds.Iterator) : Bounds.Iterator :=
  if it.size_j_ > 0 then
    { it with cur_ := Bounds.Iterator.wrap it.size_j_ { it.cur_ with j := it.cur_.j + 1 } }
  else it

/-- The `operator==` of the iterator. -/
def Bounds.Iterator.eq (a b : Bounds.Iterator) : Bool :=
  if a.size_j_ ≠ b.size_j_ then false
  else if a.size_j_ ≤ 0 then true
  else decide (a.cur_ = b.cur_)

/-- The fields of `Bounds`. -/
structure Bounds where
  size_i_ : Int
  size_j_ : Int
  deriving DecidableEq, Repr

/-- The constructor of `Bounds`; `none` is a failed `assert`. -/
def Bounds.new (size_i size_j : Int) : Option Bounds :=
  if size_i ≥ 0 ∧ size_j ≥ 0 then some { size_i_ := size_i, size_j_ := size_j } else none

/-- The method `begin` of `Bounds`. -/
def Bounds.begin (b : Bounds) : Bounds.Iterator :=
  { cur_ := { i := 0, j := 0 }, size_j_ := b.size_j_ }

/-- The method `end` of `Bounds`. -/
def Bounds.end_ (b : Bounds) : Bounds.Iterator :=
  { cur_ := { i := b.size_i_, j := 0 }, size_j_ := b.size_j_ }

/-- The cells a loop `for (it = begin; !(it == end); ++it)` sees, in order; `fuel` bounds
the number of iterations, and `none` says that it did not suffice. -/
def Bounds.Iterator.collect : Nat → Bounds.Iterator → Bounds.Iterator → Option (List Coord)
  | 0, it, e => if it.eq e then some [] else none
  | fuel + 1, it, e =>
    if it.eq e then some []
    else (Bounds.Iterator.collect fuel it.next e).map (fun l => it.deref :: l)

/-- The cells a range-based loop over `Bounds(size_i, size_j)` sees, in order. -/
def Bounds.toList (size_i size_j : Int) (fuel : Nat) : Option (List Coord) :=
  match Bounds.new size_i size_j with
  | none => none
  | some b => Bounds.Iterator.collect fuel b.begin b.end_

/-- The fields of `ChessSpiral::Iterator`. -/
structure ChessSpiral.Iterator where
  start_ : Coord
  cur_ : Coord
  deriving DecidableEq, Repr

/-- The `operator*` of the iterator. -/
def ChessSpiral.Iterator.deref (it : ChessSpiral.Iterator) : Coord := it.cur_

/-- The helper `InRange`. -/
def ChessSpiral.Iterator.InRange (a b c : Int) : Bool := decide (a ≤ b ∧ b < c)

/-- The `operator++` of the iterator: one step along the side of the square `cur_` lies
on, and then a diagonal step when that brought `cur_` onto the diagonal below and to the
right of `start_`, or onto `start_`. -/
def ChessSpiral.Iterator.next (it : ChessSpiral.Iterator) : ChessSpiral.Iterator :=
  let delta : Coord := it.cur_.sub it.start_
  let cur1 : Coord :=
    if ChessSpiral.Iterator.InRange delta.j delta.i (-delta.j) then
      it.cur_.add { i := 1, j := 0 }
    else if ChessSpiral.Iterator.InRange (-delta.i) delta.j delta.i then
      it.cur_.add { i := 0, j := 1 }
    else if ChessSpiral.Iterator.InRange (-delta.j) (-delta.i) delta.j then
      it.cur_.add { i := -1, j := 0 }
    else if ChessSpiral.Iterator.InRange delta.i (-delta.j) (-delta.i) then
      it.cur_.add { i := 0, j := -1 }
    else it.cur_
  let delta2 : Coord := cur1.sub it.start_
  let cur2 : Coord :=
    if delta2.i = delta2.j ∧ delta2.i ≥ 0 then cur1.add { i := 1, j := 1 } else cur1
  { it with cur_ := cur2 }

/-- The method `begin` of `ChessSpiral`. -/
def ChessSpiral.begin (start : Coord) : ChessSpiral.Iterator :=
  { start_ := start, cur_ := start }

/-- The element a range-based loop over `ChessSpiral(start)` sees in its iteration
number `k`, counted from `0`: the iterator of `begin` after `k` increments. -/
def ChessSpiral.nth (start : Coord) (k : Nat) : Coord :=
  (ChessSpiral.Iterator.next^[k] (ChessSpiral.begin start)).deref

/-- Modelled from the spec: the call `Box(7, 7).contains(c)` of the two spiral tests.
The class `Box` is not among the sources; the tests use the call to guard a write to
`matrix[c.i][c.j]` of a 7 by 7 matrix and expect every cell of the matrix to be written,
so it is taken to hold of the cells of that matrix. -/
def testBoxContains (c : Coord) : Bool := InBounds c 7 7

/-- The loop of `TestManhattanSpiral` and `TestChessSpiral` over a spiral given by its
increment `next` and its `deref`: cells outside the box are skipped, a cell inside gets
the current `count`, and the loop ends when `count` reaches `7 * 7`. `fuel` bounds the
number of iterations. -/
def testSpiralFill {ι : Type} (next : ι → ι) (deref : ι → Coord) :
    Nat → ι → Int → List (List Int) → Option (List (List Int))
  | 0, _, _, _ => none
  | fuel + 1, it, count, matrix =>
    let c := deref it
    if ¬ testBoxContains c then testSpiralFill next deref fuel (next it) count matrix
    else
      let matrix1 := matrix.modify (fun row => row.set c.j.toNat count) c.i.toNat
      if count + 1 ≥ 7 * 7 then some matrix1
      else testSpiralFill next deref fuel (next it) (count + 1) matrix1

/-- The function `TestManhattanSpiral` up to its `assert`: the matrix it fills. -/
def TestManhattanSpiral (fuel : Nat) : Option (List (List Int)) :=
  testSpiralFill ManhattanSpiral.Iterator.next ManhattanSpiral.Iterator.deref fuel
    (ManhattanSpiral.begin { i := 2, j := 3 }) 0 (List.replicate 7 (List.replicate 7 (-1)))

/-- The function `TestChessSpiral` up to its `assert`: the matrix it fills. -/
def TestChessSpiral (fuel : Nat) : Option (List (List Int)) :=
  testSpiralFill ChessSpiral.Iterator.next ChessSpiral.Iterator.deref fuel
    (ChessSpiral.begin { i := 2, j := 3 }) 0 (List.replicate 7 (List.replicate 7 (-1)))

/-! ## Auxiliary definitions for the statements and proofs -/

/-- The state as `Look(n)` leaves it when `n` was seen before: only the log grows. -/
def DFSState.noteLook (st : DFSState Node) (n : Node) : DFSState Node :=
  { st with log := DFSEvent.look n :: st.log }

/-- The state in which the visit callback of a new node `n` starts. -/
def DFSState.enterNode [DecidableEq Node] (st : DFSState Node) (n : Node) : DFSState Node :=
  { st with enter_times_ := fun k => if k = n then some st.time_ else st.enter_times_ k,
            time_ := st.time_ + 1,
            path_ := st.path_ ++ [n],
            log := DFSEvent.visit n :: DFSEvent.look n :: st.log }

/-- The state after the visit callback of `n` has returned into `Look`. -/
def DFSState.leaveNode [DecidableEq Node] (st : DFSState Node) (n : Node) : DFSState Node :=
  { st with path_ := st.path_.dropLast,
            exit_times_ := (mapInsert st.exit_times_ n st.time_).1,
            time_ := st.time_ + 1 }

/-- The answer of `Look(n)` for a node seen before. -/
def DFSState.classify (st : DFSState Node) (n : Node) : Option DFSEdge :=
  match st.exit_times_ n with
  | none => some DFSEdge.kBack
  | some exit =>
    match st.path_.getLast? with
    | none => some DFSEdge.kForward
    | some top =>
      match st.enter_times_ top with
      | none => none
      | some enter => if exit < enter then some DFSEdge.kCross else some DFSEdge.kForward

/-- The nodes the visit callback was invoked for, latest first. -/
def DFSState.visited (st : DFSState Node) : List Node :=
  st.log.filterMap (fun ev => match ev with
    | DFSEvent.visit n => some n
    | DFSEvent.look _ => none)

/-- What holds of the DFS state whenever callback code runs. -/
structure DFSInv (st : DFSState Node) : Prop where
  time_nonneg : 0 ≤ st.time_
  enter_lt : ∀ n e, st.enter_times_ n = some e → 0 ≤ e ∧ e < st.time_
  exit_lt : ∀ n x, st.exit_times_ n = some x →
    ∃ e, st.enter_times_ n = some e ∧ e < x ∧ x < st.time_
  path_open : ∀ n, n ∈ st.path_ ↔ (∃ e, st.enter_times_ n = some e) ∧ st.exit_times_ n = none
  path_sorted : st.path_.Pairwise (fun a b =>
    ∀ ea eb, st.enter_times_ a = some ea → st.enter_times_ b = some eb → ea < eb)
  nested : ∀ a b ea xa eb xb, a ≠ b →
    st.enter_times_ a = some ea → st.exit_times_ a = some xa →
    st.enter_times_ b = some eb → st.exit_times_ b = some xb →
    xa < eb ∨ xb < ea ∨ (ea < eb ∧ xb < xa) ∨ (eb < ea ∧ xa < xb)
  open_fin : ∀ p a ep ea xa, st.enter_times_ p = some ep → st.exit_times_ p = none →
    st.enter_times_ a = some ea → st.exit_times_ a = some xa → xa < ep ∨ ep < ea
  look_iff : ∀ n, DFSEvent.look n ∈ st.log ↔ ∃ e, st.enter_times_ n = some e
  visited_iff : ∀ n, n ∈ st.visited ↔ ∃ e, st.enter_times_ n = some e
  visited_sorted : st.visited.Pairwise (fun a b =>
    ∀ ea eb, st.enter_times_ a = some ea → st.enter_times_ b = some eb → eb < ea)
  visit_after_look : ∀ pre post n, st.log = pre ++ DFSEvent.visit n :: post →
    ∃ post', post = DFSEvent.look n :: post' ∧ DFSEvent.look n ∉ post'

/-- How the DFS state at a later moment of the same callback relates to an earlier one. -/
structure DFSExt (st st' : DFSState Node) : Prop where
  path_eq : st'.path_ = st.path_
  time_le : st.time_ ≤ st'.time_
  enter_mono : ∀ n e, st.enter_times_ n = some e → st'.enter_times_ n = some e
  exit_mono : ∀ n x, st.exit_times_ n = some x → st'.exit_times_ n = some x
  enter_new : ∀ n e, st'.enter_times_ n = some e → st.enter_times_ n = none → st.time_ ≤ e
  log_suffix : ∃ new, st'.log = new ++ st.log

/-- The states in which callback code can be running in a DFS with callback `visit`: the
fresh state (the seed starts), the state a visit starts in, and any state in which a
`Look` issued from such a state returns. -/
inductive DFSReach [DecidableEq Node] (visit : List Node → σ → Node → DFSProg Node σ) :
    DFSState Node → Prop where
  | init : DFSReach visit DFSState.init
  | enter (st : DFSState Node) (n : Node) :
      DFSReach visit st → st.enter_times_ n = none → DFSReach visit (st.enterNode n)
  | ret (st : DFSState Node) (depth : Nat) (s : σ) (n : Node) (e : DFSEdge)
      (st' : DFSState Node) (s' : σ) :
      DFSReach visit st → DFSState.Look visit depth st s n = some (e, st', s') →
      DFSReach visit st'

/-- The nodes the BFS visit callback was invoked for, latest first. -/
def BFSState.visited (st : BFSState Node) : List Node :=
  st.log.filterMap (fun ev => match ev with
    | BFSEvent.visit n _ => some n
    | BFSEvent.look _ => none)

/-- The state `Look(n)` leaves when `n` has no depth yet. -/
def BFSState.discover [DecidableEq Node] (st : BFSState Node) (n : Node) : BFSState Node :=
  { st with depths_ := fun k => if k = n then some (st.depth_ + 1) else st.depths_ k,
            queue_ := st.queue_ ++ [n],
            log := BFSEvent.look n :: st.log }

/-- The state `Look(n)` leaves when `n` has a depth: only the log grows. -/
def BFSState.noteLook (st : BFSState Node) (n : Node) : BFSState Node :=
  { st with log := BFSEvent.look n :: st.log }

/-- The state in which the visit callback of the dequeued node starts. -/
def BFSState.dequeue (st : BFSState Node) (node : Node) (rest : List Node) (d : Int) :
    BFSState Node :=
  { st with queue_ := rest, depth_ := d, log := BFSEvent.visit node d :: st.log }

/-- What holds of the BFS state whenever callback code runs and between two iterations
of the loop. -/
structure BFSInv (st : BFSState Node) : Prop where
  depth_ge : -1 ≤ st.depth_
  depth_bound : ∀ n d, st.depths_ n = some d → 0 ≤ d ∧ d ≤ st.depth_ + 1
  queue_sorted : st.queue_.Pairwise (fun a b =>
    ∀ da db, st.depths_ a = some da → st.depths_ b = some db → da ≤ db)
  queue_ge : ∀ n ∈ st.queue_, ∀ d, st.depths_ n = some d → st.depth_ ≤ d
  look_iff : ∀ n, BFSEvent.look n ∈ st.log ↔ ∃ d, st.depths_ n = some d
  visit_depth : ∀ n d, BFSEvent.visit n d ∈ st.log → st.depths_ n = some d
  queue_nodup : st.queue_.Nodup
  queue_mem : ∀ n ∈ st.queue_, (∃ d, st.depths_ n = some d) ∧ n ∉ st.visited
  disc : ∀ n d, st.depths_ n = some d → n ∈ st.queue_ ∨ n ∈ st.visited
  visited_nodup : st.visited.Nodup

/-- How the BFS state at a later moment of the same callback relates to an earlier one. -/
structure BFSExt (st st' : BFSState Node) : Prop where
  depth_eq : st'.depth_ = st.depth_
  depths_mono : ∀ n d, st.depths_ n = some d → st'.depths_ n = some d
  depths_new : ∀ n d, st'.depths_ n = some d → st.depths_ n = none → d = st.depth_ + 1
  visited_eq : st'.visited = st.visited
  log_suffix : ∃ new, st'.log = new ++ st.log

/-- The relation `PathLen succ S n k`: the graph with successor lists `succ` has a path of `k` edges
from some node of `S` to `n`. -/
inductive PathLen (succ : Node → List Node) (S : List Node) : Node → Nat → Prop where
  | seed (s : Node) : s ∈ S → PathLen succ S s 0
  | step (u v : Node) (k : Nat) : PathLen succ S u k → v ∈ succ u → PathLen succ S v (k + 1)

/-- The number of nodes without a depth plus the length of the queue: it bounds the
iterations the loop still makes. -/
def BFSState.potential [Fintype Node] (st : BFSState Node) : Nat :=
  (Finset.univ.filter (fun n => st.depths_ n = none)).card + st.queue_.length

/-- What holds between two iterations of the loop when the callbacks follow a graph:
every depth is the length of a path from a seed, every seed has depth `0`, and the
successors of a visited node have depths at most one more than the node's. -/
structure BFSGraphInv (succ : Node → List Node) (S : List Node) (st : BFSState Node) :
    Prop where
  sound : ∀ n d, st.depths_ n = some d → ∃ k : Nat, (k : Int) = d ∧ PathLen succ S n k
  seeds : ∀ n ∈ S, st.depths_ n = some 0
  closed : ∀ u ∈ st.visited, ∀ v ∈ succ u, ∀ du, st.depths_ u = some du →
    ∃ dv, st.depths_ v = some dv ∧ dv ≤ du + 1

/-- The candidates pushed by `Look`, latest first. -/
def DijkstraEvent.looksOf (log : List (DijkstraEvent Node Dist)) : List (DistUpdate Node Dist) :=
  log.filterMap (fun ev => match ev with
    | DijkstraEvent.look u => some u
    | _ => none)

/-- The candidates taken by `Pop`, latest first. -/
def DijkstraEvent.popsOf (log : List (DijkstraEvent Node Dist)) : List (DistUpdate Node Dist) :=
  log.filterMap (fun ev => match ev with
    | DijkstraEvent.pop u => some u
    | _ => none)

/-- The candidates the visit callback was invoked for, latest first. -/
def DijkstraEvent.visitsOf (log : List (DijkstraEvent Node Dist)) : List (DistUpdate Node Dist) :=
  log.filterMap (fun ev => match ev with
    | DijkstraEvent.visit u => some u
    | _ => none)

/-- The state after an iteration of the loop that popped `u` for a node not finalized
before, up to the start of the visit callback. -/
def DiskstraState.finalize [DecidableEq Node] (st : DiskstraState Node Dist)
    (u : DistUpdate Node Dist) (rest : List (DistUpdate Node Dist)) : DiskstraState Node Dist :=
  { distances_ := fun k => if k = u.node then some u.dist else st.distances_ k,
    queue_ := rest,
    current_ := some u,
    log := DijkstraEvent.visit u :: DijkstraEvent.pop u :: st.log }

/-- The state after an iteration of the loop that popped `u` for a finalized node. -/
def DiskstraState.discard (st : DiskstraState Node Dist)
    (u : DistUpdate Node Dist) (rest : List (DistUpdate Node Dist)) : DiskstraState Node Dist :=
  { st with queue_ := rest, current_ := some u, log := DijkstraEvent.pop u :: st.log }

/-- The candidate `Look(node, dist)` builds in state `st`. -/
def DiskstraState.candidate (st : DiskstraState Node Dist) (node : Node) (dist : Dist) :
    DistUpdate Node Dist :=
  { node := node, dist := dist,
    parent := match st.current_ with
      | some c => some c.node
      | none => none,
    depth := st.Depth + 1 }

/-- What holds of the Dijkstra state whenever callback code runs and between two
iterations of the loop. -/
structure DijInv [LinearOrder Dist] (st : DiskstraState Node Dist) : Prop where
  heap : IsHeap DistUpdate.lt st.queue_
  conserve : (DijkstraEvent.looksOf st.log).Perm (DijkstraEvent.popsOf st.log ++ st.queue_)
  visits_sub : (DijkstraEvent.visitsOf st.log).Sublist (DijkstraEvent.popsOf st.log)
  dist_pop : ∀ n, (∃ d, st.distances_ n = some d) ↔
    ∃ u ∈ DijkstraEvent.popsOf st.log, u.node = n
  dist_visit : ∀ n d, st.distances_ n = some d ↔
    ∃ u ∈ DijkstraEvent.visitsOf st.log, u.node = n ∧ u.dist = d
  visit_nodup : ((DijkstraEvent.visitsOf st.log).map (fun u => u.node)).Nodup
  visit_first : ∀ pre post u, st.log = pre ++ DijkstraEvent.visit u :: post →
    ∃ post', post = DijkstraEvent.pop u :: post' ∧
      ∀ u' ∈ DijkstraEvent.popsOf post', u'.node ≠ u.node
  current_eq : st.current_ = (DijkstraEvent.popsOf st.log).head?

/-- What holds in addition when no `Look` issued by a visit offers less than the distance
of the visit: the candidates were popped in the order of their `dist`, and nothing queued
is below a popped candidate. -/
structure DijMono [LinearOrder Dist] (st : DiskstraState Node Dist) : Prop where
  pops_sorted : (DijkstraEvent.popsOf st.log).Pairwise (fun a b => b.dist ≤ a.dist)
  queue_ge : ∀ q ∈ st.queue_, ∀ p ∈ DijkstraEvent.popsOf st.log, p.dist ≤ q.dist

/-- The relation `PathW edges S n d`: the graph with weighted edge lists `edges` has a path of total
weight `d` from some node of `S` to `n`. -/
inductive PathW [Add Dist] [Zero Dist] (edges : Node → List (Node × Dist)) (S : List Node) :
    Node → Dist → Prop where
  | seed (s : Node) : s ∈ S → PathW edges S s 0
  | step (u v : Node) (d w : Dist) : PathW edges S u d → (v, w) ∈ edges u →
      PathW edges S v (d + w)

/-- The length of the queue plus the number of edges that leave nodes not finalized yet:
it bounds the iterations the loop still makes on a graph. -/
def DiskstraState.potential [Fintype Node] [DecidableEq Dist]
    (edges : Node → List (Node × Dist)) (st : DiskstraState Node Dist) : Nat :=
  st.queue_.length +
    ∑ n in Finset.univ.filter (fun n => st.distances_ n = none), (edges n).length

/-- What holds between two iterations of the loop when the callbacks follow a graph:
every candidate pushed stands for a path, every source was pushed with distance `0`, and
for every visit and every edge that leaves its node the candidate of that edge was
pushed. -/
structure DijGraph [Add Dist] [Zero Dist] (edges : Node → List (Node × Dist)) (S : List Node)
    (st : DiskstraState Node Dist) : Prop where
  sound : ∀ u ∈ DijkstraEvent.looksOf st.log, PathW edges S u.node u.dist
  seeds : ∀ n ∈ S, ∃ u ∈ DijkstraEvent.looksOf st.log, u.node = n ∧ u.dist = 0
  closed : ∀ u ∈ DijkstraEvent.visitsOf st.log, ∀ e ∈ edges u.node,
    ∃ c ∈ DijkstraEvent.looksOf st.log, c.node = e.1 ∧ c.dist = u.dist + e.2

/-- The body of a visit callback of `u` that looks at the given nodes in turn and appends
to the caller state, after each `Look(v)`, the edge `(u, v)` with the class the call
returned. -/
def BFSProg.lookRec (u : Node) :
    List Node → List (Node × Node × BFSEdge) → BFSProg Node (List (Node × Node × BFSEdge))
  | [], s => BFSProg.done s
  | v :: vs, s => BFSProg.look v (fun e => BFSProg.lookRec u vs (s ++ [(u, v, e)]))

/-- What holds of the state and the recorded edges while the callbacks of a run with
`lookRec` run: every record relates the class to the depths of its two nodes, the nodes
with a depth are the seeds and the targets of records, and a record has the class Tree
iff no seed and no earlier record names its target. -/
structure BFSRecInv [DecidableEq Node] (S : List Node) (st : BFSState Node)
    (s : List (Node × Node × BFSEdge)) : Prop where
  classes : ∀ r ∈ s, ∃ du dv, st.depths_ r.1 = some du ∧ st.depths_ r.2.1 = some dv ∧
    (r.2.2 = BFSEdge.kLoose ↔ dv ≤ du) ∧
    ((r.2.2 = BFSEdge.kTight ∨ r.2.2 = BFSEdge.kTree) ↔ dv = du + 1)
  discovered : ∀ n, (∃ d, st.depths_ n = some d) ↔ n ∈ S ∨ ∃ r ∈ s, r.2.1 = n
  tree_first : ∀ pre post r, s = pre ++ r :: post →
    (r.2.2 = BFSEdge.kTree ↔ r.2.1 ∉ S ∧ ∀ r' ∈ pre, r'.2.1 ≠ r.2.1)

/-- The nodes of a log read in the order of time, in the order of their first `Look`;
`seen` holds the nodes looked at before. -/
def BFSEvent.firstLooks [DecidableEq Node] : List (BFSEvent Node) → List Node → List Node
  | [], _ => []
  | BFSEvent.look n :: rest, seen =>
    if n ∈ seen then BFSEvent.firstLooks rest seen
    else n :: BFSEvent.firstLooks rest (n :: seen)
  | BFSEvent.visit _ _ :: rest, seen => BFSEvent.firstLooks rest seen

/-- The values of `Depth()` during the visits of a log, in the order of the log. -/
def BFSEvent.visitDepths (log : List (BFSEvent Node)) : List Int :=
  log.filterMap (fun ev => match ev with
    | BFSEvent.visit _ d => some d
    | BFSEvent.look _ => none)

/-- What holds of the order of discovery and of the visits: the nodes in the order of
their first `Look` are the visited nodes in the order of their visits, followed by the
queue; no visit had a depth above the current one; and the depths of the visits never
decreased. -/
structure BFSOrd [DecidableEq Node] (st : BFSState Node) : Prop where
  fifo : BFSEvent.firstLooks st.log.reverse [] = st.visited.reverse ++ st.queue_
  visit_le : ∀ n d, BFSEvent.visit n d ∈ st.log → d ≤ st.depth_
  visit_sorted : (BFSEvent.visitDepths st.log).Pairwise (fun a b => b ≤ a)

/-- The number of nodes without an enter time: it bounds the nesting of visit callbacks
still to come. -/
def DFSState.unentered [Fintype Node] (st : DFSState Node) : Nat :=
  (Finset.univ.filter (fun n => st.enter_times_ n = none)).card

/-- The graph of `TestDFS`, with the nodes `a, b, ..., h` numbered `0, 1, ..., 7`:
`a → b, c`, `b → c, d`, `c → d`, `d → a`, `e → a, f`, `f → g, h`. -/
def testDFSGraph : Fin 8 → List (Fin 8) :=
  fun u =>
    if u = 0 then [1, 2] else if u = 1 then [2, 3] else if u = 2 then [3]
    else if u = 3 then [0] else if u = 4 then [0, 5] else if u = 5 then [6, 7] else []

/-- What the callbacks of `TestDFS` note down: for every `Look` issued by a visit, in the
order of the calls, the edge and the class returned (none while the call runs); and for
every visit the node with the values of `Depth()` and `Parent()`. -/
structure TestDFSNotes where
  edges : List (Fin 8 × Fin 8 × Option DFSEdge)
  visits : List (Fin 8 × Int × Option (Fin 8))
  deriving DecidableEq, Repr

/-- The loop over the successors in the visit callback of `TestDFS`: it notes the edge,
calls `Look`, and fills in the class that was returned. -/
def testDFSLooks (u : Fin 8) : List (Fin 8) → TestDFSNotes → DFSProg (Fin 8) TestDFSNotes
  | [], s => DFSProg.done s
  | v :: vs, s =>
    DFSProg.look { s with edges := s.edges ++ [(u, v, none)] } v (fun e _ s' =>
      testDFSLooks u vs { s' with edges := s'.edges.set s.edges.length (u, v, some e) })

/-- The visit callback of `TestDFS`; `Depth()` and `Parent()` are read off a state with
the path the handle reports. -/
def testDFSVisit : List (Fin 8) → TestDFSNotes → Fin 8 → DFSProg (Fin 8) TestDFSNotes :=
  fun path s u =>
    let handle : DFSState (Fin 8) := { DFSState.init with path_ := path }
    testDFSLooks u (testDFSGraph u)
      { s with visits := s.visits ++ [(u, handle.Depth, handle.Parent)] }

/-- The seed callback of `TestDFS`: it looks at `a, b, ..., h` in turn. -/
def testDFSStart : List (Fin 8) → TestDFSNotes → DFSProg (Fin 8) TestDFSNotes :=
  fun _ s => DFSProg.lookAll [0, 1, 2, 3, 4, 5, 6, 7] s

/-- The notes `TestDFS` expects: the classes of the ten edges in the order of the calls,
and the depth and parent reported in each visit. -/
def testDFSExpected : TestDFSNotes :=
  { edges := [(0, 1, some DFSEdge.kTree), (1, 2, some DFSEdge.kTree),
      (2, 3, some DFSEdge.kTree), (3, 0, some DFSEdge.kBack),
      (1, 3, some DFSEdge.kForward), (0, 2, some DFSEdge.kForward),
      (4, 0, some DFSEdge.kCross), (4, 5, some DFSEdge.kTree),
      (5, 6, some DFSEdge.kTree), (5, 7, some DFSEdge.kTree)],
    visits := [(0, 0, none), (1, 1, some 0), (2, 2, some 1), (3, 3, some 2),
      (4, 0, none), (5, 1, some 4), (6, 2, some 5), (7, 2, some 5)] }

/-- The graph of `TestDijkstra`, with the nodes `s, x, u, y, v` numbered `0, 1, 2, 3, 4`:
`s → x : 5, u : 10`, `x → u : 3, y : 2, v : 9`, `u → x : 2, v : 1`, `y → s : 7, v : 6`,
`v → y : 4`. -/
def testDijkstraGraph : Fin 5 → List (Fin 5 × Int) :=
  fun u =>
    if u = 0 then [(1, 5), (2, 10)] else if u = 1 then [(2, 3), (3, 2), (4, 9)]
    else if u = 2 then [(1, 2), (4, 1)] else if u = 3 then [(0, 7), (4, 6)] else [(3, 4)]

/-- The visit callback of `TestDijkstra`: it notes the node, the distance passed, and
the values of `Depth()` and `Parent()`, and calls `Look(v, d + weight)` for the edges of
the node in their order. -/
def testDijkstraVisit : Int → Option (Fin 5) → List (Fin 5 × Int × Int × Option (Fin 5)) →
    Fin 5 → Int → List (Fin 5 × Int) × List (Fin 5 × Int × Int × Option (Fin 5)) :=
  fun depth parent s u d =>
    ((testDijkstraGraph u).map (fun e => (e.1, d + e.2)), s ++ [(u, d, depth, parent)])

/-- A Dijkstra state described by its parts: the finalized distances, the current
candidate, and the candidates in the queue in some order. -/
structure DijSim [LinearOrder Dist] (st : DiskstraState Node Dist) (D : Node → Option Dist)
    (cur : Option (DistUpdate Node Dist)) (Q : List (DistUpdate Node Dist)) : Prop where
  heap : IsHeap DistUpdate.lt st.queue_
  dist : st.distances_ = D
  current : st.current_ = cur
  queue : st.queue_.Perm Q

/-- The states in which callback code can be running in a BFS, whatever the callbacks
are: the fresh state (the seed starts), any state in which a `Look` issued from such a
state returns, and the state in which the loop starts the visit of the front node of
the queue. -/
inductive BFSReach [DecidableEq Node] : BFSState Node → Prop where
  | init : BFSReach BFSState.init
  | ret (st : BFSState Node) (n : Node) (e : BFSEdge) (st' : BFSState Node) :
      BFSReach st → st.Look n = some (e, st') → BFSReach st'
  | visit (st : BFSState Node) (node : Node) (rest : List Node) (d : Int) :
      BFSReach st → st.queue_ = node :: rest → st.depths_ node = some d →
      BFSReach (st.dequeue node rest d)

/-- How the time counter of a DFS state relates to the events so far: it has ticked
twice for every node left and once for every node on the path, and every value below it
is the enter time or the exit time of some node. -/
structure DFSTimes (st : DFSState Node) : Prop where
  count : st.time_ + st.path_.length = 2 * st.visited.length
  cover : ∀ t, 0 ≤ t → t < st.time_ →
    (∃ v, st.enter_times_ v = some t) ∨ (∃ v, st.exit_times_ v = some t)

/-- A counter on the side of the caller, as the visit callback of `TestDFS` keeps one:
`time` starts at `0`, and the callback stores `time++` under the node in `enter` when it
starts and in `leave` when it ends. -/
structure DFSClock (Node : Type) where
  time : Int
  enter : Node → Option Int
  leave : Node → Option Int

def DFSClock.init : DFSClock Node :=
  { time := 0, enter := fun _ => none, leave := fun _ => none }

/-- The statement `enter[u] = time++`. -/
def DFSClock.tickEnter [DecidableEq Node] (c : DFSClock Node) (u : Node) : DFSClock Node :=
  { c with enter := fun k => if k = u then some c.time else c.enter k, time := c.time + 1 }

/-- The statement `leave[u] = time++`. -/
def DFSClock.tickLeave [DecidableEq Node] (c : DFSClock Node) (u : Node) : DFSClock Node :=
  { c with leave := fun k => if k = u then some c.time else c.leave k, time := c.time + 1 }

/-- A callback body run with the counter in the caller state, next to the state `σ` of
the body itself; `finish` is what is done to the counter when the body ends. -/
def DFSProg.withClock : DFSProg Node σ → DFSClock Node → (DFSClock Node → DFSClock Node) →
    DFSProg Node (σ × DFSClock Node)
  | .done s, c, finish => .done (s, finish c)
  | .look s n k, c, finish =>
    .look (s, c) n (fun e path sc => DFSProg.withClock (k e path sc.1) sc.2 finish)

/-- A visit callback that ticks the counter at its beginning and at its end and does
what `visit` does in between. -/
def DFSProg.clockedVisit [DecidableEq Node] (visit : List Node → σ → Node → DFSProg Node σ) :
    List Node → σ × DFSClock Node → Node → DFSProg Node (σ × DFSClock Node) :=
  fun path sc u =>
    DFSProg.withClock (visit path sc.1 u) (sc.2.tickEnter u) (fun c => c.tickLeave u)

/-- A seed callback that carries the counter along and leaves it alone. -/
def DFSProg.clockedStart (start : List Node → σ → DFSProg Node σ) :
    List Node → σ × DFSClock Node → DFSProg Node (σ × DFSClock Node) :=
  fun path sc => DFSProg.withClock (start path sc.1) sc.2 id

/-- The counter and the two maps of the engine, as a caller-side counter. -/
def DFSState.clock (st : DFSState Node) : DFSClock Node :=
  { time := st.time_, enter := st.enter_times_, leave := st.exit_times_ }

/-- A graph with a negative weight, on three nodes: `0 → 1` of weight `1`, `0 → 2` of
weight `2` and `2 → 1` of weight `-5`. -/
def negativeEdges : Fin 3 → List (Fin 3 × Int) :=
  fun u => if u = 0 then [(1, 1), (2, 2)] else if u = 2 then [(1, -5)] else []

/-- Where the parent and the depth of the candidates come from: a candidate pushed by a
`Look`, and so a candidate the visit callback is invoked for, has no parent and depth
`0`, or its parent is the node of an earlier visit and its depth is one more than the
depth of that visit. -/
structure DijPar (st : DiskstraState Node Dist) : Prop where
  looks_ok : ∀ c ∈ DijkstraEvent.looksOf st.log, (c.parent = none ∧ c.depth = 0) ∨
    ∃ w ∈ DijkstraEvent.visitsOf st.log, c.parent = some w.node ∧ c.depth = w.depth + 1
  visits_ok : ∀ pre u post, DijkstraEvent.visitsOf st.log = pre ++ u :: post →
    (u.parent = none ∧ u.depth = 0) ∨
    ∃ w ∈ post, u.parent = some w.node ∧ u.depth = w.depth + 1

/-- The chain of parents of a visit: `DijChain vis u k` says that following the parents
from the visit `u` takes `k` steps to a visit without parent, each step going to a visit
that comes before in the list `vis` and has a depth one less. -/
inductive DijChain (vis : List (DistUpdate Node Dist)) : DistUpdate Node Dist → Nat → Prop where
  | root (u : DistUpdate Node Dist) : u ∈ vis → u.parent = none → DijChain vis u 0
  | step (u w : DistUpdate Node Dist) (k : Nat) : List.Sublist [w, u] vis →
      u.parent = some w.node → u.depth = w.depth + 1 → DijChain vis w k →
      DijChain vis u (k + 1)

/-- The cells of the rows `i, ..., i + r - 1` of a grid with `n` columns in row-major
order: rows ascending, and the columns `0, ..., n - 1` ascending within a row. -/
def rowMajorCells (i r n : Nat) : List Coord :=
  (List.range' i r).flatMap (fun (a : Nat) =>
    (List.range' 0 n).map (fun (b : Nat) => ({ i := (a : Int), j := (b : Int) } : Coord)))

/-- The place of a cell on its ring of the Manhattan spiral, for the offset `d` of the
cell from the start: the ring of radius `r` starts below the start, at `(r, 0)`, and runs
through the right, the upper and the left corner. -/
def ManhattanSpiral.offset (d : Coord) : Int :=
  if d.i > 0 ∧ d.j ≥ 0 then d.j
  else if d.i ≤ 0 ∧ d.j > 0 then d.Manhattan - d.i
  else if d.i < 0 ∧ d.j ≤ 0 then 2 * d.Manhattan - d.j
  else 3 * d.Manhattan + d.i

/-- The position in the Manhattan spiral of the cell with offset `d` from the start:
`2 r (r - 1) + 1` cells lie on the rings of a radius below `r`. -/
def ManhattanSpiral.index (d : Coord) : Int :=
  if d.Manhattan = 0 then 0
  else 2 * d.Manhattan * (d.Manhattan - 1) + 1 + ManhattanSpiral.offset d

/-- The place of a cell on its ring of the chessboard spiral, for the offset `d` of the
cell from the start: the ring of radius `r` starts at the corner `(r, r)` and runs up
the right side, along the top to the left, down the left side and along the bottom. -/
def ChessSpiral.offset (d : Coord) : Int :=
  if -d.j < d.i ∧ d.i ≤ d.j then d.Chess - d.i
  else if d.i < d.j ∧ d.j ≤ -d.i then 3 * d.Chess - d.j
  else if d.j ≤ d.i ∧ d.i < -d.j then 5 * d.Chess + d.i
  else 7 * d.Chess + d.j

/-- The position in the chessboard spiral of the cell with offset `d` from the start:
`(2 r - 1) ^ 2` cells lie on the rings of a radius below `r`. -/
def ChessSpiral.index (d : Coord) : Int :=
  if d.Chess = 0 then 0
  else (2 * d.Chess - 1) * (2 * d.Chess - 1) + ChessSpiral.offset d

/-- The states a Dijkstra run passes through, with a flag that says whether callback code
is running: the fresh state (the seed callback starts), the state after a `Look` of a
running callback, the state in which a callback has returned, and the states after an
iteration of the loop has taken a candidate of least `dist` out of the queue: for a node
not finalized before the visit callback starts, otherwise the loop goes on. -/
inductive DijReach [LinearOrder Dist] [DecidableEq Node]
    (H : StdHeap (DistUpdate Node Dist) DistUpdate.lt) :
    DiskstraState Node Dist → Bool → Prop where
  | init : DijReach H DiskstraState.init true
  | look (st : DiskstraState Node Dist) (n : Node) (d : Dist) :
      DijReach H st true → DijReach H (DiskstraState.Look H st n d) true
  | ret (st : DiskstraState Node Dist) : DijReach H st true → DijReach H st false
  | fresh (st : DiskstraState Node Dist) (u : DistUpdate Node Dist)
      (rest : List (DistUpdate Node Dist)) :
      DijReach H st false → (u :: rest).Perm st.queue_ → IsHeap DistUpdate.lt rest →
      (∀ q ∈ st.queue_, u.dist ≤ q.dist) → st.distances_ u.node = none →
      DijReach H (st.finalize u rest) true
  | stale (st : DiskstraState Node Dist) (u : DistUpdate Node Dist)
      (rest : List (DistUpdate Node Dist)) (d : Dist) :
      DijReach H st false → (u :: rest).Perm st.queue_ → IsHeap DistUpdate.lt rest →
      (∀ q ∈ st.queue_, u.dist ≤ q.dist) → st.distances_ u.node = some d →
      DijReach H (st.discard u rest) false

/-- A callback body run with a note `t` of the caller next to the state `σ` of the body
itself; the body does not touch the note. -/
def BFSProg.withNote {τ : Type} : BFSProg Node σ → τ → BFSProg Node (σ × τ)
  | .done s, t => .done (s, t)
  | .look n k, t => .look n (fun e => BFSProg.withNote (k e) t)

/-- A seed callback that carries a list of notes along and leaves it alone. -/
def BFSProg.notedStart (start : Int → σ → BFSProg Node σ) :
    Int → σ × List (Node × Int) → BFSProg Node (σ × List (Node × Int)) :=
  fun depth sc => BFSProg.withNote (start depth sc.1) sc.2

/-- A visit callback that first notes its node together with the value of `Depth()` it
is given, and then does what `visit` does. -/
def BFSProg.notedVisit (visit : Int → σ → Node → BFSProg Node σ) :
    Int → σ × List (Node × Int) → Node → BFSProg Node (σ × List (Node × Int)) :=
  fun depth sc u => BFSProg.withNote (visit depth sc.1 u) (sc.2 ++ [(u, depth)])

/-- The visits of the BFS log in the order of time, each with the depth logged. -/
def BFSEvent.visitNotes (log : List (BFSEvent Node)) : List (Node × Int) :=
  (log.filterMap (fun ev => match ev with
    | BFSEvent.visit n d => some (n, d)
    | BFSEvent.look _ => none)).reverse

/-- A callback body run with a list of the caller next to the state `σ` of the body
itself: before every call `Look(n)` the caller puts `n` at the end of the list. -/
def DFSProg.withLooks : DFSProg Node σ → List Node → DFSProg Node (σ × List Node)
  | .done s, t => .done (s, t)
  | .look s n k, t =>
    .look (s, t ++ [n]) n (fun e path sc => DFSProg.withLooks (k e path sc.1) sc.2)

/-- A seed callback that also lists the nodes it passes to `Look`. -/
def DFSProg.notedStart (start : List Node → σ → DFSProg Node σ) :
    List Node → σ × List Node → DFSProg Node (σ × List Node) :=
  fun path sc => DFSProg.withLooks (start path sc.1) sc.2

/-- A visit callback that also lists the nodes it passes to `Look`. -/
def DFSProg.notedVisit (visit : List Node → σ → Node → DFSProg Node σ) :
    List Node → σ × List Node → Node → DFSProg Node (σ × List Node) :=
  fun path sc u => DFSProg.withLooks (visit path sc.1 u) sc.2

/-- The nodes of the `Look` calls of the DFS log, in the order of time. -/
def DFSState.looked (st : DFSState Node) : List Node :=
  (st.log.filterMap (fun ev => match ev with
    | DFSEvent.look n => some n
    | DFSEvent.visit _ => none)).reverse

/-- Runs a callback body as `runProg` does, and adds to the list `tr`, in the order of
time, every state in which the body calls `Look` together with the node it passes. -/
def BFSState.runProgTrace [DecidableEq Node] :
    BFSState Node → BFSProg Node σ → List (BFSState Node × Node) →
      Option (BFSState Node × σ × List (BFSState Node × Node))
  | st, .done s, tr => some (st, s, tr)
  | st, .look n k, tr =>
    match st.Look n with
    | none => none
    | some (e, st') => BFSState.runProgTrace st' (k e) (tr ++ [(st, n)])

/-- The `while` loop of `BFS` cut off after `steps` iterations, with the list of the
states at the `Look` calls: the result is the state reached when the queue is empty or
`steps` iterations are done, whichever comes first. Here `none` stands only for a failed
`assert` in a `Look` or a failed lookup `at(node)`, not for a budget that is used up. -/
def BFSState.loopUpTo [DecidableEq Node] (visit : Int → σ → Node → BFSProg Node σ) :
    Nat → BFSState Node → σ → List (BFSState Node × Node) →
      Option (BFSState Node × σ × List (BFSState Node × Node))
  | 0, st, s, tr => some (st, s, tr)
  | steps + 1, st, s, tr =>
    match st.queue_ with
    | [] => some (st, s, tr)
    | node :: rest =>
      match st.depths_ node with
      | none => none
      | some d =>
        let st1 : BFSState Node :=
          { st with queue_ := rest, depth_ := d, log := BFSEvent.visit node d :: st.log }
        match st1.runProgTrace (visit st1.Depth s node) tr with
        | none => none
        | some (st2, s2, tr2) => BFSState.loopUpTo visit steps st2 s2 tr2

/-- The body of `BFS` with the loop cut off after `steps` iterations, with the list of
the states at the `Look` calls. -/
def BFSState.RunUpTo [DecidableEq Node] (start : Int → σ → BFSProg Node σ)
    (visit : Int → σ → Node → BFSProg Node σ) (steps : Nat) (s0 : σ) :
    Option (BFSState Node × σ × List (BFSState Node × Node)) :=
  let st0 : BFSState Node := BFSState.init
  match st0.runProgTrace (start st0.Depth s0) [] with
  | none => none
  | some (st, s, tr) => BFSState.loopUpTo visit steps st s tr

/-- A seed callback that carries a list of notes along and leaves it alone. -/
def DiskstraState.notedStart (start : σ → List (Node × Dist) × σ) :
    σ × List (Node × Int × Option Node) →
      List (Node × Dist) × (σ × List (Node × Int × Option Node)) :=
  fun sc => ((start sc.1).1, ((start sc.1).2, sc.2))

/-- A visit callback that notes its node together with the values of `Depth()` and
`Parent()` it is given, and does what `visit` does. -/
def DiskstraState.notedVisit
    (visit : Int → Option Node → σ → Node → Dist → List (Node × Dist) × σ) :
    Int → Option Node → σ × List (Node × Int × Option Node) → Node → Dist →
      List (Node × Dist) × (σ × List (Node × Int × Option Node)) :=
  fun depth parent sc u d =>
    ((visit depth parent sc.1 u d).1,
      ((visit depth parent sc.1 u d).2, sc.2 ++ [(u, depth, parent)]))

/-- The visits of the Dijkstra log in the order of time, each as the node with the depth
and the parent of the candidate visited. -/
def DijkstraEvent.visitNotes (log : List (DijkstraEvent Node Dist)) :
    List (Node × Int × Option Node) :=
  (DijkstraEvent.visitsOf log).reverse.map (fun u => (u.node, u.depth, u.parent))

/-- The chain of the parents reported to the visits: `DijNoteChain notes r k` says that
following the reported parents from the note `r` takes `k` steps to a note without
parent, each step going to a note of the parent node that comes before in the list
`notes` and reports a depth one less. -/
inductive DijNoteChain (notes : List (Node × Int × Option Node)) :
    Node × Int × Option Node → Nat → Prop where
  | root (r : Node × Int × Option Node) : r ∈ notes → r.2.2 = none → DijNoteChain notes r 0
  | step (r w : Node × Int × Option Node) (k : Nat) : List.Sublist [w, r] notes →
      r.2.2 = some w.1 → r.2.1 = w.2.1 + 1 → DijNoteChain notes w k →
      DijNoteChain notes r (k + 1)

/-! ## Lemmas and theorems -/

theorem DFSState.dfs_Look_new_zero [DecidableEq Node]
    (visit : List Node → σ → Node → DFSProg Node σ) (st : DFSState Node) (s : σ) (n : Node)
    (h : st.enter_times_ n = none) : DFSState.Look visit 0 st s n = none := by
  simp [DFSState.Look, mapInsert, h]

theorem DFSState.dfs_Look_new_succ [DecidableEq Node]
    (visit : List Node → σ → Node → DFSProg Node σ) (depth : Nat) (st : DFSState Node) (s : σ) (n : Node)
    (h : st.enter_times_ n = none) :
    DFSState.Look visit (depth + 1) st s n =
      match DFSState.runProg (DFSState.Look visit depth) (st.enterNode n)
          (visit (st.path_ ++ [n]) s n) with
      | none => none
      | some (st2, s2) => some (DFSEdge.kTree, st2.leaveNode n, s2) := by
  rw [DFSState.Look]
  simp [mapInsert, h, DFSState.enterNode, DFSState.leaveNode, DFSState.Path]

theorem DFSState.dfs_Look_old [DecidableEq Node]
    (visit : List Node → σ → Node → DFSProg Node σ) (depth : Nat) (st : DFSState Node) (s : σ) (n : Node) (t : Int)
    (h : st.enter_times_ n = some t) :
    DFSState.Look visit depth st s n =
      match st.classify n with
      | none => none
      | some e => some (e, st.noteLook n, s) := by
  rw [DFSState.Look]
  simp only [mapInsert, h, DFSState.classify, DFSState.noteLook]
  rcases h1 : st.exit_times_ n with _ | x
  · rfl
  rcases h2 : st.path_.getLast? with _ | top
  · rfl
  rcases h3 : st.enter_times_ top with _ | et
  · simp [h3]
  · by_cases hx : x < et <;> simp [h3, hx]

theorem DFSExt.dfs_refl (st : DFSState Node) : DFSExt st st :=
  ⟨rfl, le_refl _, fun _ _ h => h, fun _ _ h => h,
    fun _ _ h h' => (by rw [h'] at h; cases h), ⟨[], rfl⟩⟩

theorem DFSExt.dfs_trans {a b c : DFSState Node} (h1 : DFSExt a b) (h2 : DFSExt b c) :
    DFSExt a c := by
  refine ⟨h2.path_eq.trans h1.path_eq, le_trans h1.time_le h2.time_le,
    fun n e h => h2.enter_mono n e (h1.enter_mono n e h),
    fun n x h => h2.exit_mono n x (h1.exit_mono n x h), ?_, ?_⟩
  · intro n e hc ha
    rcases hb : b.enter_times_ n with _ | e'
    · exact le_trans h1.time_le (h2.enter_new n e hc hb)
    · have := h2.enter_mono n e' hb
      rw [hc] at this
      cases this
      exact h1.enter_new n e hb ha
  · obtain ⟨n1, hn1⟩ := h1.log_suffix
    obtain ⟨n2, hn2⟩ := h2.log_suffix
    exact ⟨n2 ++ n1, by rw [hn2, hn1, List.append_assoc]⟩

theorem DFSState.dfs_runProg_rule (P : DFSState Node → Prop)
    (E : DFSState Node → DFSState Node → Prop)
    (hrefl : ∀ st, E st st) (htrans : ∀ a b c, E a b → E b c → E a c)
    (look : DFSState Node → σ → Node → Option (DFSEdge × DFSState Node × σ))
    (hlook : ∀ st s n e st' s', P st → look st s n = some (e, st', s') → P st' ∧ E st st') :
    ∀ (prog : DFSProg Node σ) (st st' : DFSState Node) (s' : σ), P st →
      DFSState.runProg look st prog = some (st', s') → P st' ∧ E st st' := by
  intro prog
  induction prog with
  | done s =>
    intro st st' s' hP h
    simp only [DFSState.runProg, Option.some.injEq, Prod.mk.injEq] at h
    obtain ⟨rfl, -⟩ := h
    exact ⟨hP, hrefl _⟩
  | look s n k ih =>
    intro st st' s' hP h
    simp only [DFSState.runProg] at h
    rcases hl : look st s n with _ | ⟨e, st1, s1⟩
    · simp [hl] at h
    · simp only [hl] at h
      obtain ⟨hP1, hE1⟩ := hlook st s n e st1 s1 hP hl
      obtain ⟨hP2, hE2⟩ := ih e st1.Path s1 st1 st' s' hP1 h
      exact ⟨hP2, htrans _ _ _ hE1 hE2⟩

theorem DFSState.dfs_Look_rule [DecidableEq Node] (visit : List Node → σ → Node → DFSProg Node σ)
    (P : DFSState Node → Prop) (E : DFSState Node → DFSState Node → Prop)
    (hrefl : ∀ st, E st st) (htrans : ∀ a b c, E a b → E b c → E a c)
    (hnote : ∀ st n, P st → st.enter_times_ n ≠ none →
      P (st.noteLook n) ∧ E st (st.noteLook n))
    (henter : ∀ st n, P st → st.enter_times_ n = none → P (st.enterNode n))
    (hleave : ∀ st st2 n, P st → st.enter_times_ n = none → P st2 →
      E (st.enterNode n) st2 → P (st2.leaveNode n) ∧ E st (st2.leaveNode n)) :
    ∀ depth st s n e st' s', P st →
      DFSState.Look visit depth st s n = some (e, st', s') → P st' ∧ E st st' := by
  intro depth
  induction depth with
  | zero =>
    intro st s n e st' s' hP h
    rcases hn : st.enter_times_ n with _ | t
    · rw [DFSState.dfs_Look_new_zero visit st s n hn] at h
      cases h
    · rw [DFSState.dfs_Look_old visit 0 st s n t hn] at h
      rcases hc : st.classify n with _ | c
      · simp [hc] at h
      · simp only [hc, Option.some.injEq, Prod.mk.injEq] at h
        obtain ⟨-, rfl, -⟩ := h
        exact hnote st n hP (by simp [hn])
  | succ depth ih =>
    intro st s n e st' s' hP h
    rcases hn : st.enter_times_ n with _ | t
    · rw [DFSState.dfs_Look_new_succ visit depth st s n hn] at h
      rcases hr : DFSState.runProg (DFSState.Look visit depth) (st.enterNode n)
          (visit (st.path_ ++ [n]) s n) with _ | ⟨st2, s2⟩
      · simp [hr] at h
      · simp only [hr, Option.some.injEq, Prod.mk.injEq] at h
        obtain ⟨-, rfl, -⟩ := h
        obtain ⟨hP2, hE2⟩ := DFSState.dfs_runProg_rule P E hrefl htrans _ ih _ _ _ _
          (henter st n hP hn) hr
        exact hleave st st2 n hP hn hP2 hE2
    · rw [DFSState.dfs_Look_old visit (depth + 1) st s n t hn] at h
      rcases hc : st.classify n with _ | c
      · simp [hc] at h
      · simp only [hc, Option.some.injEq, Prod.mk.injEq] at h
        obtain ⟨-, rfl, -⟩ := h
        exact hnote st n hP (by simp [hn])

theorem DFSState.enterNode_enter [DecidableEq Node] (st : DFSState Node) (n k : Node) :
    (st.enterNode n).enter_times_ k = if k = n then some st.time_ else st.enter_times_ k := rfl

theorem DFSState.leaveNode_exit [DecidableEq Node] (st : DFSState Node) (n k : Node)
    (h : st.exit_times_ n = none) :
    (st.leaveNode n).exit_times_ k = if k = n then some st.time_ else st.exit_times_ k := by
  simp [DFSState.leaveNode, mapInsert, h]

theorem DFSState.enterNode_visited [DecidableEq Node] (st : DFSState Node) (n : Node) :
    (st.enterNode n).visited = n :: st.visited := by
  simp [DFSState.visited, DFSState.enterNode, List.filterMap_cons]

theorem DFSInv.dfs_init : DFSInv (DFSState.init : DFSState Node) := by
  refine ⟨le_refl _, ?_, ?_, ?_, ?_, ?_, ?_, ?_, ?_, ?_, ?_⟩ <;>
    simp [DFSState.init, DFSState.visited]

theorem DFSInv.exit_none_of_enter_none {st : DFSState Node} (h : DFSInv st) {n : Node}
    (hn : st.enter_times_ n = none) : st.exit_times_ n = none := by
  rcases hx : st.exit_times_ n with _ | x
  · rfl
  · obtain ⟨e, he, -⟩ := h.exit_lt n x hx
    rw [hn] at he
    cases he

theorem DFSInv.dfs_note {st : DFSState Node} (h : DFSInv st) (n : Node)
    (hn : st.enter_times_ n ≠ none) : DFSInv (st.noteLook n) ∧ DFSExt st (st.noteLook n) := by
  obtain ⟨t, ht⟩ := Option.ne_none_iff_exists'.mp hn
  refine ⟨⟨h.time_nonneg, h.enter_lt, h.exit_lt, h.path_open, h.path_sorted, h.nested,
    h.open_fin, ?_, ?_, ?_, ?_⟩, ⟨rfl, le_refl _, fun _ _ h => h, fun _ _ h => h, ?_, ?_⟩⟩
  · intro k
    show DFSEvent.look k ∈ DFSEvent.look n :: st.log ↔ _
    rw [List.mem_cons, h.look_iff k]
    constructor
    · rintro (hk | hk)
      · cases hk
        exact ⟨t, ht⟩
      · exact hk
    · intro hk
      exact Or.inr hk
  · intro k
    have : (st.noteLook n).visited = st.visited := by
      simp [DFSState.visited, DFSState.noteLook, List.filterMap_cons]
    rw [this]
    exact h.visited_iff k
  · have : (st.noteLook n).visited = st.visited := by
      simp [DFSState.visited, DFSState.noteLook, List.filterMap_cons]
    rw [this]
    exact h.visited_sorted
  · intro pre post m hm
    change DFSEvent.look n :: st.log = pre ++ DFSEvent.visit m :: post at hm
    rcases pre with _ | ⟨a, pre⟩
    · cases hm
    · simp only [List.cons_append, List.cons.injEq] at hm
      exact h.visit_after_look pre post m hm.2
  · intro k e hk hk'
    change st.enter_times_ k = some e at hk
    rw [hk'] at hk
    cases hk
  · exact ⟨[DFSEvent.look n], rfl⟩

theorem DFSInv.dfs_enter [DecidableEq Node] {st : DFSState Node} (h : DFSInv st) (n : Node)
    (hn : st.enter_times_ n = none) : DFSInv (st.enterNode n) := by
  have hxn : st.exit_times_ n = none := h.exit_none_of_enter_none hn
  have hnp : n ∉ st.path_ := by
    intro hmem
    obtain ⟨⟨e, he⟩, -⟩ := (h.path_open n).mp hmem
    rw [hn] at he
    cases he
  have hent : ∀ k e, (st.enterNode n).enter_times_ k = some e →
      (k = n ∧ e = st.time_) ∨ (k ≠ n ∧ st.enter_times_ k = some e) := by
    intro k e hk
    rw [DFSState.enterNode_enter] at hk
    by_cases hkn : k = n
    · rw [if_pos hkn] at hk
      cases hk
      exact Or.inl ⟨hkn, rfl⟩
    · rw [if_neg hkn] at hk
      exact Or.inr ⟨hkn, hk⟩
  have hexit : ∀ k x, (st.enterNode n).exit_times_ k = some x →
      k ≠ n ∧ st.exit_times_ k = some x := by
    intro k x hk
    change st.exit_times_ k = some x at hk
    refine ⟨?_, hk⟩
    rintro rfl
    rw [hxn] at hk
    cases hk
  have htime : (st.enterNode n).time_ = st.time_ + 1 := rfl
  refine ⟨?_, ?_, ?_, ?_, ?_, ?_, ?_, ?_, ?_, ?_, ?_⟩
  · rw [htime]
    have := h.time_nonneg
    omega
  · intro k e hk
    rw [htime]
    rcases hent k e hk with ⟨-, rfl⟩ | ⟨-, hk'⟩
    · have := h.time_nonneg
      omega
    · have := h.enter_lt k e hk'
      omega
  · intro k x hk
    obtain ⟨hkn, hk'⟩ := hexit k x hk
    obtain ⟨e, he, h1, h2⟩ := h.exit_lt k x hk'
    refine ⟨e, ?_, h1, ?_⟩
    · rw [DFSState.enterNode_enter, if_neg hkn]
      exact he
    · rw [htime]
      omega
  · intro k
    show k ∈ st.path_ ++ [n] ↔ (∃ e, (st.enterNode n).enter_times_ k = some e) ∧
      st.exit_times_ k = none
    rw [DFSState.enterNode_enter, List.mem_append, List.mem_singleton]
    by_cases hkn : k = n
    · subst hkn
      simp [hxn]
    · simp only [hkn, or_false, if_false]
      exact h.path_open k
  · show (st.path_ ++ [n]).Pairwise _
    rw [List.pairwise_append]
    refine ⟨?_, List.pairwise_singleton _ _, ?_⟩
    · refine h.path_sorted.imp_of_mem ?_
      intro a b ha hb hab ea eb hea heb
      have han : a ≠ n := fun hc => hnp (hc ▸ ha)
      have hbn : b ≠ n := fun hc => hnp (hc ▸ hb)
      rw [DFSState.enterNode_enter, if_neg han] at hea
      rw [DFSState.enterNode_enter, if_neg hbn] at heb
      exact hab ea eb hea heb
    · intro a ha b hb ea eb hea heb
      rw [List.mem_singleton] at hb
      subst hb
      have han : a ≠ b := fun hc => hnp (hc ▸ ha)
      rw [DFSState.enterNode_enter, if_neg han] at hea
      rw [DFSState.enterNode_enter, if_pos rfl] at heb
      cases heb
      exact (h.enter_lt a ea hea).2
  · intro a b ea xa eb xb hab hea hxa heb hxb
    obtain ⟨han, hxa'⟩ := hexit a xa hxa
    obtain ⟨hbn, hxb'⟩ := hexit b xb hxb
    rw [DFSState.enterNode_enter, if_neg han] at hea
    rw [DFSState.enterNode_enter, if_neg hbn] at heb
    exact h.nested a b ea xa eb xb hab hea hxa' heb hxb'
  · intro p a ep ea xa hep hxp hea hxa
    obtain ⟨han, hxa'⟩ := hexit a xa hxa
    rw [DFSState.enterNode_enter, if_neg han] at hea
    rcases hent p ep hep with ⟨-, rfl⟩ | ⟨-, hep'⟩
    · obtain ⟨e, -, -, h2⟩ := h.exit_lt a xa hxa'
      exact Or.inl h2
    · exact h.open_fin p a ep ea xa hep' hxp hea hxa'
  · intro k
    show DFSEvent.look k ∈ DFSEvent.visit n :: DFSEvent.look n :: st.log ↔ _
    rw [DFSState.enterNode_enter]
    simp only [List.mem_cons, DFSEvent.look.injEq, false_or, reduceCtorEq]
    rw [h.look_iff k]
    by_cases hkn : k = n
    · simp [hkn]
    · simp [hkn]
  · intro k
    rw [DFSState.enterNode_visited, DFSState.enterNode_enter, List.mem_cons, h.visited_iff k]
    by_cases hkn : k = n
    · simp [hkn]
    · simp [hkn]
  · rw [DFSState.enterNode_visited, List.pairwise_cons]
    refine ⟨?_, ?_⟩
    · intro b hb ea eb hea heb
      have hbn : b ≠ n := by
        rintro rfl
        obtain ⟨e, he⟩ := (h.visited_iff b).mp hb
        rw [hn] at he
        cases he
      rw [DFSState.enterNode_enter, if_pos rfl] at hea
      rw [DFSState.enterNode_enter, if_neg hbn] at heb
      cases hea
      exact (h.enter_lt b eb heb).2
    · refine h.visited_sorted.imp_of_mem ?_
      intro a b ha hb hab ea eb hea heb
      have han : a ≠ n := by
        rintro rfl
        obtain ⟨e, he⟩ := (h.visited_iff a).mp ha
        rw [hn] at he
        cases he
      have hbn : b ≠ n := by
        rintro rfl
        obtain ⟨e, he⟩ := (h.visited_iff b).mp hb
        rw [hn] at he
        cases he
      rw [DFSState.enterNode_enter, if_neg han] at hea
      rw [DFSState.enterNode_enter, if_neg hbn] at heb
      exact hab ea eb hea heb
  · intro pre post m hm
    change DFSEvent.visit n :: DFSEvent.look n :: st.log = pre ++ DFSEvent.visit m :: post at hm
    rcases pre with _ | ⟨a, pre⟩
    · simp only [List.nil_append, List.cons.injEq, DFSEvent.visit.injEq] at hm
      obtain ⟨rfl, rfl⟩ := hm
      refine ⟨st.log, rfl, ?_⟩
      intro hmem
      obtain ⟨e, he⟩ := (h.look_iff n).mp hmem
      rw [hn] at he
      cases he
    · rcases pre with _ | ⟨b, pre⟩
      · simp at hm
      · simp only [List.cons_append, List.cons.injEq] at hm
        exact h.visit_after_look pre post m hm.2.2

theorem DFSInv.dfs_leave [DecidableEq Node] {st st2 : DFSState Node} (h : DFSInv st) (n : Node)
    (hn : st.enter_times_ n = none) (h2 : DFSInv st2) (hE : DFSExt (st.enterNode n) st2) :
    DFSInv (st2.leaveNode n) ∧ DFSExt st (st2.leaveNode n) := by
  have hpath : st2.path_ = st.path_ ++ [n] := hE.path_eq
  have hen : st2.enter_times_ n = some st.time_ :=
    hE.enter_mono n st.time_ (by rw [DFSState.enterNode_enter, if_pos rfl])
  have hxn : st2.exit_times_ n = none :=
    ((h2.path_open n).mp (by rw [hpath]; simp)).2
  have htime : st.time_ + 1 ≤ st2.time_ := hE.time_le
  have hnp : n ∉ st.path_ := by
    intro hmem
    obtain ⟨⟨e, he⟩, -⟩ := (h.path_open n).mp hmem
    rw [hn] at he
    cases he
  have hexit : ∀ k x, (st2.leaveNode n).exit_times_ k = some x →
      (k = n ∧ x = st2.time_) ∨ (k ≠ n ∧ st2.exit_times_ k = some x) := by
    intro k x hk
    rw [DFSState.leaveNode_exit st2 n k hxn] at hk
    by_cases hkn : k = n
    · rw [if_pos hkn] at hk
      cases hk
      exact Or.inl ⟨hkn, rfl⟩
    · rw [if_neg hkn] at hk
      exact Or.inr ⟨hkn, hk⟩
  have hpath' : (st2.leaveNode n).path_ = st.path_ := by
    show st2.path_.dropLast = st.path_
    rw [hpath, List.dropLast_concat]
  have hsorted2 := h2.path_sorted
  rw [hpath, List.pairwise_append] at hsorted2
  refine ⟨⟨?_, ?_, ?_, ?_, ?_, ?_, ?_, h2.look_iff, h2.visited_iff, h2.visited_sorted,
    h2.visit_after_look⟩, ⟨hpath', ?_, ?_, ?_, ?_, ?_⟩⟩
  · show 0 ≤ st2.time_ + 1
    have := h2.time_nonneg
    omega
  · intro k e hk
    show 0 ≤ e ∧ e < st2.time_ + 1
    have := h2.enter_lt k e hk
    omega
  · intro k x hk
    show ∃ e, st2.enter_times_ k = some e ∧ e < x ∧ x < st2.time_ + 1
    rcases hexit k x hk with ⟨rfl, rfl⟩ | ⟨-, hk'⟩
    · exact ⟨st.time_, hen, by omega, by omega⟩
    · obtain ⟨e, he, h1, h3⟩ := h2.exit_lt k x hk'
      exact ⟨e, he, h1, by omega⟩
  · intro k
    rw [hpath', DFSState.leaveNode_exit st2 n k hxn]
    show k ∈ st.path_ ↔ (∃ e, st2.enter_times_ k = some e) ∧ _
    have hk2 := h2.path_open k
    rw [hpath, List.mem_append, List.mem_singleton] at hk2
    by_cases hkn : k = n
    · subst hkn
      simp [hnp]
    · simp only [hkn, or_false] at hk2
      simp only [hkn, if_false]
      exact hk2
  · rw [hpath']
    exact hsorted2.1
  · intro a b ea xa eb xb hab hea hxa heb hxb
    change st2.enter_times_ a = some ea at hea
    change st2.enter_times_ b = some eb at heb
    rcases hexit a xa hxa with ⟨rfl, rfl⟩ | ⟨han, hxa'⟩
    · rcases hexit b xb hxb with ⟨rfl, -⟩ | ⟨-, hxb'⟩
      · exact absurd rfl hab
      · obtain ⟨e, he, -, hlt⟩ := h2.exit_lt b xb hxb'
        rcases h2.open_fin a b ea eb xb hea hxn heb hxb' with hc | hc
        · exact Or.inr (Or.inl hc)
        · exact Or.inr (Or.inr (Or.inl ⟨hc, hlt⟩))
    · rcases hexit b xb hxb with ⟨rfl, rfl⟩ | ⟨-, hxb'⟩
      · obtain ⟨e, he, -, hlt⟩ := h2.exit_lt a xa hxa'
        rcases h2.open_fin b a eb ea xa heb hxn hea hxa' with hc | hc
        · exact Or.inl hc
        · exact Or.inr (Or.inr (Or.inr ⟨hc, hlt⟩))
      · exact h2.nested a b ea xa eb xb hab hea hxa' heb hxb'
  · intro p a ep ea xa hep hxp hea hxa
    change st2.enter_times_ p = some ep at hep
    change st2.enter_times_ a = some ea at hea
    rw [DFSState.leaveNode_exit st2 n p hxn] at hxp
    have hpn : p ≠ n := by
      rintro rfl
      simp at hxp
    rw [if_neg hpn] at hxp
    rcases hexit a xa hxa with ⟨rfl, rfl⟩ | ⟨-, hxa'⟩
    · have hp2 : p ∈ st.path_ := by
        have := (h2.path_open p).mpr ⟨⟨ep, hep⟩, hxp⟩
        rw [hpath, List.mem_append, List.mem_singleton] at this
        exact this.resolve_right hpn
      exact Or.inr (hsorted2.2.2 p hp2 a (List.mem_singleton.mpr rfl) ep ea hep hea)
    · exact h2.open_fin p a ep ea xa hep hxp hea hxa'
  · show st.time_ ≤ st2.time_ + 1
    omega
  · intro k e hk
    show st2.enter_times_ k = some e
    refine hE.enter_mono k e ?_
    have hkn : k ≠ n := by
      rintro rfl
      rw [hn] at hk
      cases hk
    rw [DFSState.enterNode_enter, if_neg hkn]
    exact hk
  · intro k x hk
    have hkn : k ≠ n := by
      rintro rfl
      rw [h.exit_none_of_enter_none hn] at hk
      cases hk
    rw [DFSState.leaveNode_exit st2 n k hxn, if_neg hkn]
    exact hE.exit_mono k x hk
  · intro k e hk hk'
    change st2.enter_times_ k = some e at hk
    by_cases hkn : k = n
    · subst hkn
      rw [hen] at hk
      cases hk
      exact le_refl _
    · have := hE.enter_new k e hk (by rw [DFSState.enterNode_enter, if_neg hkn]; exact hk')
      change st.time_ + 1 ≤ e at this
      omega
  · obtain ⟨new, hnew⟩ := hE.log_suffix
    exact ⟨new ++ [DFSEvent.visit n, DFSEvent.look n], by
      show st2.log = _
      rw [hnew]
      simp [DFSState.enterNode]⟩

/-- Every `Look` that returns keeps the invariant and extends the state. -/
theorem DFSState.dfs_Look_inv [DecidableEq Node] (visit : List Node → σ → Node → DFSProg Node σ)
    (depth : Nat) (st : DFSState Node) (s : σ) (n : Node) (e : DFSEdge)
    (st' : DFSState Node) (s' : σ) (h : DFSInv st)
    (hl : DFSState.Look visit depth st s n = some (e, st', s')) : DFSInv st' ∧ DFSExt st st' :=
  DFSState.dfs_Look_rule visit DFSInv DFSExt DFSExt.dfs_refl (fun _ _ _ => DFSExt.dfs_trans)
    (fun _ n h hn => h.dfs_note n hn) (fun _ n h hn => h.dfs_enter n hn)
    (fun _ _ n h hn h2 hE => h.dfs_leave n hn h2 hE) depth st s n e st' s' h hl

theorem DFSReach.dfs_inv [DecidableEq Node] {visit : List Node → σ → Node → DFSProg Node σ}
    {st : DFSState Node} (h : DFSReach visit st) : DFSInv st := by
  induction h with
  | init => exact DFSInv.dfs_init
  | enter st n _ hn ih => exact ih.dfs_enter n hn
  | ret st depth s n e st' s' _ hl ih =>
    exact (DFSState.dfs_Look_inv visit depth st s n e st' s' ih hl).1

/-- A completed run ends in a state that satisfies the invariant, with an empty path. -/
theorem DFSState.dfs_Run_inv [DecidableEq Node] (start : List Node → σ → DFSProg Node σ)
    (visit : List Node → σ → Node → DFSProg Node σ) (depth : Nat) (s0 : σ)
    (st : DFSState Node) (s : σ) (h : DFSState.Run start visit depth s0 = some (st, s)) :
    DFSInv st ∧ st.path_ = [] := by
  obtain ⟨hI, hE⟩ := DFSState.dfs_runProg_rule DFSInv DFSExt DFSExt.dfs_refl
    (fun _ _ _ => DFSExt.dfs_trans) _ (fun st s n e st' s' hP hl =>
      DFSState.dfs_Look_inv visit depth st s n e st' s' hP hl) _ _ _ _ DFSInv.dfs_init h
  exact ⟨hI, hE.path_eq⟩

/-- C3: in every state in which callback code of a DFS run can be running, a call `Look(n)`
that returns answers Tree iff `n` has no enter time, Back iff `n` has an enter time but no
exit time, Cross iff `n` has an exit time that is less than the enter time of the node on
top of the active path, and Forward iff `n` has an exit time and that comparison does not
hold (so also when the path is empty); and when `n` has an enter time the call does
return, whatever the remaining call depth, leaving the state as it was up to the log. -/
theorem DFSState.Look_classification [DecidableEq Node]
    (visit : List Node → σ → Node → DFSProg Node σ) (st : DFSState Node)
    (hst : DFSReach visit st) (depth : Nat) (s : σ) (n : Node) :
    (∀ e st' s', DFSState.Look visit depth st s n = some (e, st', s') →
      (e = DFSEdge.kTree ↔ st.enter_times_ n = none) ∧
      (e = DFSEdge.kBack ↔ (∃ t, st.enter_times_ n = some t) ∧ st.exit_times_ n = none) ∧
      (e = DFSEdge.kCross ↔ ∃ x top t, st.exit_times_ n = some x ∧
        st.path_.getLast? = some top ∧ st.enter_times_ top = some t ∧ x < t) ∧
      (e = DFSEdge.kForward ↔ ∃ x, st.exit_times_ n = some x ∧
        ¬ ∃ top t, st.path_.getLast? = some top ∧ st.enter_times_ top = some t ∧ x < t)) ∧
    ((∃ t, st.enter_times_ n = some t) →
      ∃ e, DFSState.Look visit depth st s n = some (e, st.noteLook n, s)) := by
  have hI := hst.dfs_inv
  have hold : ∀ t, st.enter_times_ n = some t → ∃ e, st.classify n = some e := by
    intro t ht
    unfold DFSState.classify
    rcases hx : st.exit_times_ n with _ | x
    · exact ⟨_, rfl⟩
    rcases hp : st.path_.getLast? with _ | top
    · exact ⟨_, rfl⟩
    have hmem : top ∈ st.path_ := List.mem_of_getLast?_eq_some hp
    obtain ⟨⟨et, het⟩, -⟩ := (hI.path_open top).mp hmem
    simp only [het]
    by_cases hlt : x < et
    · exact ⟨_, if_pos hlt⟩
    · exact ⟨_, if_neg hlt⟩
  refine ⟨?_, ?_⟩
  · intro e st' s' hl
    rcases hn : st.enter_times_ n with _ | t
    · have hxn := hI.exit_none_of_enter_none hn
      have he : e = DFSEdge.kTree := by
        cases depth with
        | zero =>
          rw [DFSState.dfs_Look_new_zero visit st s n hn] at hl
          cases hl
        | succ d =>
          rw [DFSState.dfs_Look_new_succ visit d st s n hn] at hl
          split at hl
          · cases hl
          · simp only [Option.some.injEq, Prod.mk.injEq] at hl
            exact hl.1.symm
      subst he
      simp [hxn]
    · rw [DFSState.dfs_Look_old visit depth st s n t hn] at hl
      rcases hc : st.classify n with _ | c
      · simp [hc] at hl
      simp only [hc, Option.some.injEq, Prod.mk.injEq] at hl
      obtain ⟨rfl, -, -⟩ := hl
      unfold DFSState.classify at hc
      rcases hx : st.exit_times_ n with _ | x
      · simp only [hx, Option.some.injEq] at hc
        subst hc
        simp
      simp only [hx] at hc
      rcases hp : st.path_.getLast? with _ | top
      · simp only [hp, Option.some.injEq] at hc
        subst hc
        simp
      simp only [hp] at hc
      rcases het : st.enter_times_ top with _ | et
      · simp [het] at hc
      simp only [het] at hc
      by_cases hlt : x < et
      · rw [if_pos hlt, Option.some.injEq] at hc
        subst hc
        simp [het, hlt]
      · rw [if_neg hlt, Option.some.injEq] at hc
        subst hc
        simp [het, not_lt.mp hlt]
  · rintro ⟨t, ht⟩
    obtain ⟨e, he⟩ := hold t ht
    refine ⟨e, ?_⟩
    rw [DFSState.dfs_Look_old visit depth st s n t ht, he]

/-- C4: in the result of a completed DFS run every node with an enter time has a larger
exit time, and the intervals from enter to exit of two nodes are disjoint or one contains
the other. -/
theorem DFS_intervals_nested [DecidableEq Node] (start : List Node → σ → DFSProg Node σ)
    (visit : List Node → σ → Node → DFSProg Node σ) (depth : Nat) (s0 : σ)
    (res : DFSResult Node) (s : σ) (h : DFS start visit depth s0 = some (res, s)) :
    (∀ n e, res.enter_times n = some e → ∃ x, res.exit_times n = some x ∧ e < x) ∧
    (∀ a b ea xa eb xb, res.enter_times a = some ea → res.exit_times a = some xa →
      res.enter_times b = some eb → res.exit_times b = some xb →
      (xa < eb ∨ xb < ea) ∨ (ea ≤ eb ∧ xb ≤ xa) ∨ (eb ≤ ea ∧ xa ≤ xb)) := by
  unfold DFS at h
  rcases hr : DFSState.Run start visit depth s0 with _ | ⟨st, s1⟩
  · simp [hr] at h
  simp only [hr, Option.some.injEq, Prod.mk.injEq] at h
  obtain ⟨rfl, -⟩ := h
  obtain ⟨hI, hp⟩ := DFSState.dfs_Run_inv start visit depth s0 st s1 hr
  refine ⟨?_, ?_⟩
  · intro n e hn
    change st.enter_times_ n = some e at hn
    show ∃ x, st.exit_times_ n = some x ∧ e < x
    rcases hx : st.exit_times_ n with _ | x
    · have := (hI.path_open n).mpr ⟨⟨e, hn⟩, hx⟩
      rw [hp] at this
      cases this
    · obtain ⟨e', he', hlt, -⟩ := hI.exit_lt n x hx
      rw [hn] at he'
      cases he'
      exact ⟨x, rfl, hlt⟩
  · intro a b ea xa eb xb hea hxa heb hxb
    change st.enter_times_ a = some ea at hea
    change st.exit_times_ a = some xa at hxa
    change st.enter_times_ b = some eb at heb
    change st.exit_times_ b = some xb at hxb
    by_cases hab : a = b
    · subst hab
      rw [hea] at heb
      rw [hxa] at hxb
      cases heb
      cases hxb
      exact Or.inr (Or.inl ⟨le_refl _, le_refl _⟩)
    · rcases hI.nested a b ea xa eb xb hab hea hxa heb hxb with h1 | h1 | h1 | h1
      · exact Or.inl (Or.inl h1)
      · exact Or.inl (Or.inr h1)
      · exact Or.inr (Or.inl ⟨le_of_lt h1.1, le_of_lt h1.2⟩)
      · exact Or.inr (Or.inr ⟨le_of_lt h1.1, le_of_lt h1.2⟩)

/-- C5: in a completed DFS run, with the log read in the order of time, every node named
by a `Look` was visited exactly once; every invocation of the visit callback comes right
after a `Look` of the same node, and that `Look` is the first one of the node; and the
visits happen in the order of increasing enter time. -/
theorem DFS_visit_once_preorder [DecidableEq Node] (start : List Node → σ → DFSProg Node σ)
    (visit : List Node → σ → Node → DFSProg Node σ) (depth : Nat) (s0 : σ)
    (st : DFSState Node) (s : σ) (h : DFSState.Run start visit depth s0 = some (st, s)) :
    (∀ n, DFSEvent.look n ∈ st.log.reverse → st.visited.reverse.count n = 1) ∧
    (∀ n pre post, st.log.reverse = pre ++ DFSEvent.visit n :: post →
      ∃ pre', pre = pre' ++ [DFSEvent.look n] ∧ DFSEvent.look n ∉ pre') ∧
    st.visited.reverse.Pairwise (fun a b =>
      ∃ ea eb, st.enter_times_ a = some ea ∧ st.enter_times_ b = some eb ∧ ea < eb) := by
  obtain ⟨hI, -⟩ := DFSState.dfs_Run_inv start visit depth s0 st s h
  have hnodup : st.visited.Nodup := by
    refine hI.visited_sorted.imp_of_mem ?_
    intro a b ha hb hab heq
    subst heq
    obtain ⟨e, he⟩ := (hI.visited_iff a).mp ha
    exact lt_irrefl _ (hab e e he he)
  refine ⟨?_, ?_, ?_⟩
  · intro n hn
    rw [List.mem_reverse] at hn
    have hmem : n ∈ st.visited := (hI.visited_iff n).mpr ((hI.look_iff n).mp hn)
    rw [List.count_reverse]
    exact List.count_eq_one_of_mem hnodup hmem
  · intro n pre post hlog
    have hlog' : st.log = post.reverse ++ DFSEvent.visit n :: pre.reverse := by
      have := congrArg List.reverse hlog
      simpa using this
    obtain ⟨post', hp1, hp2⟩ := hI.visit_after_look _ _ n hlog'
    refine ⟨post'.reverse, ?_, ?_⟩
    · have := congrArg List.reverse hp1
      simpa using this
    · simpa using hp2
  · rw [List.pairwise_reverse]
    refine hI.visited_sorted.imp_of_mem ?_
    intro a b ha hb hab
    obtain ⟨ea, hea⟩ := (hI.visited_iff a).mp ha
    obtain ⟨eb, heb⟩ := (hI.visited_iff b).mp hb
    exact ⟨eb, ea, heb, hea, hab ea eb hea heb⟩

/-- Witness for C3: inside the visit of node `0`, a second `Look(0)` returns at call depth `0`. -/
theorem DFSState.Look_classification_witness :
    DFSReach exampleDFSVisit ((DFSState.init : DFSState Nat).enterNode 0) ∧
    ∃ e, DFSState.Look exampleDFSVisit 0 ((DFSState.init : DFSState Nat).enterNode 0) () 0 =
      some (e, ((DFSState.init : DFSState Nat).enterNode 0).noteLook 0, ()) :=
  ⟨DFSReach.enter _ 0 DFSReach.init rfl,
    (DFSState.Look_classification exampleDFSVisit _
      (DFSReach.enter _ 0 DFSReach.init rfl) 0 () 0).2 ⟨0, rfl⟩⟩

/-- Witness for C4: the run on `exampleSucc` seeded with `0` and `1` completes with call depth `2`. -/
theorem DFS_intervals_nested_witness :
    ∃ res, DFS exampleDFSStart exampleDFSVisit 2 () = some (res, ()) ∧
      (∀ n e, res.enter_times n = some e → ∃ x, res.exit_times n = some x ∧ e < x) ∧
      (∀ a b ea xa eb xb, res.enter_times a = some ea → res.exit_times a = some xa →
        res.enter_times b = some eb → res.exit_times b = some xb →
        (xa < eb ∨ xb < ea) ∨ (ea ≤ eb ∧ xb ≤ xa) ∨ (eb ≤ ea ∧ xa ≤ xb)) :=
  ⟨_, rfl, DFS_intervals_nested exampleDFSStart exampleDFSVisit 2 () _ () rfl⟩

/-- Witness for C5: the log of the same run, in the order of time. -/
theorem DFS_visit_once_preorder_witness :
    ∃ st, DFSState.Run exampleDFSStart exampleDFSVisit 2 () = some (st, ()) ∧
      st.log.reverse = [DFSEvent.look 0, DFSEvent.visit 0, DFSEvent.look 1, DFSEvent.visit 1,
        DFSEvent.look 0, DFSEvent.look 0, DFSEvent.look 1] ∧
      (∀ n, DFSEvent.look n ∈ st.log.reverse → st.visited.reverse.count n = 1) ∧
      (∀ n pre post, st.log.reverse = pre ++ DFSEvent.visit n :: post →
        ∃ pre', pre = pre' ++ [DFSEvent.look n] ∧ DFSEvent.look n ∉ pre') ∧
      st.visited.reverse.Pairwise (fun a b =>
        ∃ ea eb, st.enter_times_ a = some ea ∧ st.enter_times_ b = some eb ∧ ea < eb) :=
  ⟨_, rfl, rfl, DFS_visit_once_preorder exampleDFSStart exampleDFSVisit 2 () _ () rfl⟩

theorem BFSState.bfs_Look_new [DecidableEq Node] (st : BFSState Node) (n : Node)
    (h : st.depths_ n = none) : st.Look n = some (BFSEdge.kTree, st.discover n) := by
  simp [BFSState.Look, mapInsert, h, BFSState.discover]

theorem BFSState.bfs_Look_old [DecidableEq Node] (st : BFSState Node) (n : Node) (d : Int)
    (h : st.depths_ n = some d) :
    st.Look n = if d = st.depth_ + 1 then some (BFSEdge.kTight, st.noteLook n)
      else if d ≤ st.depth_ then some (BFSEdge.kLoose, st.noteLook n) else none := by
  simp [BFSState.Look, mapInsert, h, BFSState.noteLook]

/-- C10: for every BFS state and node `n`, a call `Look(n)` that returns answers Tree iff
`n` has no depth yet, and then `n` gets the depth `depth_ + 1` and goes to the back of the
queue while no other depth changes; it answers Tight iff `n` has the depth `depth_ + 1`
and Loose iff `n` has a depth `≤ depth_`, and then the depths and the queue stay as they
are. The call returns whenever `n` has no depth or a depth `≤ depth_ + 1`; the current
depth never changes. -/
theorem BFSState.Look_spec [DecidableEq Node] (st : BFSState Node) (n : Node) :
    (∀ e st', st.Look n = some (e, st') →
      (e = BFSEdge.kTree ↔ st.depths_ n = none) ∧
      (e = BFSEdge.kTight ↔ st.depths_ n = some (st.depth_ + 1)) ∧
      (e = BFSEdge.kLoose ↔ ∃ d, st.depths_ n = some d ∧ d ≤ st.depth_) ∧
      (e = BFSEdge.kTree → st'.depths_ n = some (st.depth_ + 1) ∧
        (∀ k, k ≠ n → st'.depths_ k = st.depths_ k) ∧ st'.queue_ = st.queue_ ++ [n]) ∧
      (e ≠ BFSEdge.kTree → st'.depths_ = st.depths_ ∧ st'.queue_ = st.queue_) ∧
      st'.depth_ = st.depth_) ∧
    ((st.depths_ n = none ∨ ∃ d, st.depths_ n = some d ∧ d ≤ st.depth_ + 1) →
      ∃ e st', st.Look n = some (e, st')) := by
  refine ⟨?_, ?_⟩
  · intro e st' hl
    rcases hn : st.depths_ n with _ | d
    · rw [BFSState.bfs_Look_new st n hn] at hl
      simp only [Option.some.injEq, Prod.mk.injEq] at hl
      obtain ⟨rfl, rfl⟩ := hl
      refine ⟨by simp, by simp, by simp, ?_, by simp, rfl⟩
      intro _
      refine ⟨by simp [BFSState.discover], ?_, rfl⟩
      intro k hk
      simp [BFSState.discover, hk]
    · rw [BFSState.bfs_Look_old st n d hn] at hl
      by_cases h1 : d = st.depth_ + 1
      · rw [if_pos h1] at hl
        simp only [Option.some.injEq, Prod.mk.injEq] at hl
        obtain ⟨rfl, rfl⟩ := hl
        refine ⟨by simp, by simp [h1], ?_, by simp, ?_, rfl⟩
        · simp only [reduceCtorEq, Option.some.injEq, exists_eq_left', false_iff, not_le]
          omega
        · intro _
          exact ⟨rfl, rfl⟩
      · rw [if_neg h1] at hl
        by_cases h2 : d ≤ st.depth_
        · rw [if_pos h2] at hl
          simp only [Option.some.injEq, Prod.mk.injEq] at hl
          obtain ⟨rfl, rfl⟩ := hl
          refine ⟨by simp, by simp [h1], by simp [h2], by simp, ?_, rfl⟩
          intro _
          exact ⟨rfl, rfl⟩
        · rw [if_neg h2] at hl
          cases hl
  · rintro (hn | ⟨d, hn, hd⟩)
    · exact ⟨_, _, BFSState.bfs_Look_new st n hn⟩
    · rw [BFSState.bfs_Look_old st n d hn]
      by_cases h1 : d = st.depth_ + 1
      · exact ⟨_, _, if_pos h1⟩
      · rw [if_neg h1, if_pos (by omega)]
        exact ⟨_, _, rfl⟩

theorem BFSExt.bfs_refl (st : BFSState Node) : BFSExt st st :=
  ⟨rfl, fun _ _ h => h, fun _ _ h h' => (by rw [h'] at h; cases h), rfl, ⟨[], rfl⟩⟩

theorem BFSExt.bfs_trans {a b c : BFSState Node} (h1 : BFSExt a b) (h2 : BFSExt b c) :
    BFSExt a c := by
  refine ⟨h2.depth_eq.trans h1.depth_eq, fun n d h => h2.depths_mono n d (h1.depths_mono n d h),
    ?_, h2.visited_eq.trans h1.visited_eq, ?_⟩
  · intro n d hc ha
    rcases hb : b.depths_ n with _ | d'
    · rw [h2.depths_new n d hc hb, h1.depth_eq]
    · have := h2.depths_mono n d' hb
      rw [hc] at this
      cases this
      exact h1.depths_new n d hb ha
  · obtain ⟨n1, hn1⟩ := h1.log_suffix
    obtain ⟨n2, hn2⟩ := h2.log_suffix
    exact ⟨n2 ++ n1, by rw [hn2, hn1, List.append_assoc]⟩

theorem BFSState.bfs_mem_visited (st : BFSState Node) (n : Node) :
    n ∈ st.visited ↔ ∃ d, BFSEvent.visit n d ∈ st.log := by
  unfold BFSState.visited
  rw [List.mem_filterMap]
  constructor
  · rintro ⟨ev, hev, h⟩
    cases ev with
    | look m => cases h
    | visit m d =>
      simp only [Option.some.injEq] at h
      subst h
      exact ⟨d, hev⟩
  · rintro ⟨d, hd⟩
    exact ⟨_, hd, rfl⟩

theorem BFSInv.bfs_init : BFSInv (BFSState.init : BFSState Node) := by
  refine ⟨le_refl _, ?_, ?_, ?_, ?_, ?_, ?_, ?_, ?_, ?_⟩ <;>
    simp [BFSState.init, BFSState.visited]

theorem BFSInv.bfs_noteLook {st : BFSState Node} (h : BFSInv st) (n : Node) (d : Int)
    (hn : st.depths_ n = some d) : BFSInv (st.noteLook n) ∧ BFSExt st (st.noteLook n) := by
  have hv : (st.noteLook n).visited = st.visited := by
    simp [BFSState.visited, BFSState.noteLook, List.filterMap_cons]
  refine ⟨⟨h.depth_ge, h.depth_bound, h.queue_sorted, h.queue_ge, ?_, ?_, h.queue_nodup,
    ?_, ?_, ?_⟩, ⟨rfl, fun _ _ h => h, ?_, hv, ⟨[BFSEvent.look n], rfl⟩⟩⟩
  · intro k
    show BFSEvent.look k ∈ BFSEvent.look n :: st.log ↔ _
    rw [List.mem_cons, h.look_iff k]
    constructor
    · rintro (hk | hk)
      · cases hk
        exact ⟨d, hn⟩
      · exact hk
    · exact Or.inr
  · intro k dk hk
    change BFSEvent.visit k dk ∈ BFSEvent.look n :: st.log at hk
    rw [List.mem_cons] at hk
    rcases hk with hk | hk
    · cases hk
    · exact h.visit_depth k dk hk
  · rw [hv]
    exact h.queue_mem
  · rw [hv]
    exact h.disc
  · rw [hv]
    exact h.visited_nodup
  · intro k dk hk hk'
    change st.depths_ k = some dk at hk
    rw [hk'] at hk
    cases hk

theorem BFSInv.bfs_discover [DecidableEq Node] {st : BFSState Node} (h : BFSInv st) (n : Node)
    (hn : st.depths_ n = none) : BFSInv (st.discover n) ∧ BFSExt st (st.discover n) := by
  have hv : (st.discover n).visited = st.visited := by
    simp [BFSState.visited, BFSState.discover, List.filterMap_cons]
  have hnq : n ∉ st.queue_ := by
    intro hmem
    obtain ⟨⟨d, hd⟩, -⟩ := h.queue_mem n hmem
    rw [hn] at hd
    cases hd
  have hdep : ∀ k d, (st.discover n).depths_ k = some d →
      (k = n ∧ d = st.depth_ + 1) ∨ (k ≠ n ∧ st.depths_ k = some d) := by
    intro k d hk
    change (if k = n then some (st.depth_ + 1) else st.depths_ k) = some d at hk
    by_cases hkn : k = n
    · rw [if_pos hkn] at hk
      cases hk
      exact Or.inl ⟨hkn, rfl⟩
    · rw [if_neg hkn] at hk
      exact Or.inr ⟨hkn, hk⟩
  have hge := h.depth_ge
  refine ⟨⟨h.depth_ge, ?_, ?_, ?_, ?_, ?_, ?_, ?_, ?_, ?_⟩, ⟨rfl, ?_, ?_, hv, ⟨[BFSEvent.look n], rfl⟩⟩⟩
  · intro k d hk
    show 0 ≤ d ∧ d ≤ st.depth_ + 1
    rcases hdep k d hk with ⟨-, rfl⟩ | ⟨-, hk'⟩
    · omega
    · exact h.depth_bound k d hk'
  · show (st.queue_ ++ [n]).Pairwise _
    rw [List.pairwise_append]
    refine ⟨?_, List.pairwise_singleton _ _, ?_⟩
    · refine h.queue_sorted.imp_of_mem ?_
      intro a b ha hb hab da db hda hdb
      rcases hdep a da hda with ⟨rfl, -⟩ | ⟨-, hda'⟩
      · exact absurd ha hnq
      rcases hdep b db hdb with ⟨rfl, -⟩ | ⟨-, hdb'⟩
      · exact absurd hb hnq
      exact hab da db hda' hdb'
    · intro a ha b hb da db hda hdb
      rw [List.mem_singleton] at hb
      subst hb
      rcases hdep a da hda with ⟨rfl, -⟩ | ⟨-, hda'⟩
      · exact absurd ha hnq
      rcases hdep b db hdb with ⟨-, rfl⟩ | ⟨hbb, -⟩
      · exact (h.depth_bound a da hda').2
      · exact absurd rfl hbb
  · intro k hk d hd
    show st.depth_ ≤ d
    rcases hdep k d hd with ⟨-, rfl⟩ | ⟨hkn, hd'⟩
    · omega
    · have hk' : k ∈ st.queue_ ++ [n] := hk
      rw [List.mem_append, List.mem_singleton] at hk'
      exact h.queue_ge k (hk'.resolve_right hkn) d hd'
  · intro k
    show BFSEvent.look k ∈ BFSEvent.look n :: st.log ↔
      ∃ d, (if k = n then some (st.depth_ + 1) else st.depths_ k) = some d
    rw [List.mem_cons, h.look_iff k]
    by_cases hkn : k = n
    · simp [hkn]
    · simp [hkn]
  · intro k dk hk
    change BFSEvent.visit k dk ∈ BFSEvent.look n :: st.log at hk
    rw [List.mem_cons] at hk
    rcases hk with hk | hk
    · cases hk
    · have := h.visit_depth k dk hk
      have hkn : k ≠ n := by
        rintro rfl
        rw [hn] at this
        cases this
      show (if k = n then some (st.depth_ + 1) else st.depths_ k) = some dk
      rw [if_neg hkn]
      exact this
  · show (st.queue_ ++ [n]).Nodup
    rw [List.nodup_append]
    refine ⟨h.queue_nodup, List.nodup_singleton n, ?_⟩
    intro a ha hb
    rw [List.mem_singleton] at hb
    subst hb
    exact hnq ha
  · intro k hk
    have hk' : k ∈ st.queue_ ++ [n] := hk
    rw [List.mem_append, List.mem_singleton] at hk'
    rw [hv]
    show (∃ d, (if k = n then some (st.depth_ + 1) else st.depths_ k) = some d) ∧ _
    by_cases hkn : k = n
    · subst hkn
      refine ⟨by simp, ?_⟩
      intro hvis
      obtain ⟨d, hd⟩ := (st.bfs_mem_visited k).mp hvis
      have := h.visit_depth k d hd
      rw [hn] at this
      cases this
    · rw [if_neg hkn]
      exact h.queue_mem k (hk'.resolve_right hkn)
  · intro k d hk
    rw [hv]
    show k ∈ st.queue_ ++ [n] ∨ _
    rw [List.mem_append, List.mem_singleton]
    rcases hdep k d hk with ⟨rfl, -⟩ | ⟨-, hk'⟩
    · exact Or.inl (Or.inr rfl)
    · rcases h.disc k d hk' with h1 | h1
      · exact Or.inl (Or.inl h1)
      · exact Or.inr h1
  · rw [hv]
    exact h.visited_nodup
  · intro k d hk
    have hkn : k ≠ n := by
      rintro rfl
      rw [hn] at hk
      cases hk
    show (if k = n then some (st.depth_ + 1) else st.depths_ k) = some d
    rw [if_neg hkn]
    exact hk
  · intro k d hk hk'
    rcases hdep k d hk with ⟨-, rfl⟩ | ⟨-, hk2⟩
    · rfl
    · rw [hk'] at hk2
      cases hk2

theorem BFSInv.bfs_dequeue {st : BFSState Node} (h : BFSInv st) (node : Node)
    (rest : List Node) (d : Int) (hq : st.queue_ = node :: rest)
    (hd : st.depths_ node = some d) : BFSInv (st.dequeue node rest d) := by
  have hv : (st.dequeue node rest d).visited = node :: st.visited := by
    simp [BFSState.visited, BFSState.dequeue, List.filterMap_cons]
  have hsorted := h.queue_sorted
  have hnodup := h.queue_nodup
  rw [hq] at hsorted hnodup
  rw [List.pairwise_cons] at hsorted
  rw [List.nodup_cons] at hnodup
  have hmem : node ∈ st.queue_ := by rw [hq]; exact List.mem_cons_self _ _
  have hd1 := h.depth_bound node d hd
  have hd2 := h.queue_ge node hmem d hd
  refine ⟨?_, ?_, hsorted.2, ?_, ?_, ?_, hnodup.2, ?_, ?_, ?_⟩
  · show -1 ≤ d
    omega
  · intro k dk hk
    show 0 ≤ dk ∧ dk ≤ d + 1
    have := h.depth_bound k dk hk
    omega
  · intro k hk dk hdk
    exact hsorted.1 k hk d dk hd hdk
  · intro k
    show BFSEvent.look k ∈ BFSEvent.visit node d :: st.log ↔ _
    rw [List.mem_cons]
    simp only [reduceCtorEq, false_or]
    exact h.look_iff k
  · intro k dk hk
    change BFSEvent.visit k dk ∈ BFSEvent.visit node d :: st.log at hk
    rw [List.mem_cons] at hk
    rcases hk with hk | hk
    · cases hk
      exact hd
    · exact h.visit_depth k dk hk
  · intro k hk
    have hk' : k ∈ st.queue_ := by rw [hq]; exact List.mem_cons_of_mem _ hk
    obtain ⟨h1, h2⟩ := h.queue_mem k hk'
    refine ⟨h1, ?_⟩
    rw [hv, List.mem_cons]
    rintro (rfl | h3)
    · exact hnodup.1 hk
    · exact h2 h3
  · intro k dk hk
    rw [hv]
    show k ∈ rest ∨ k ∈ node :: st.visited
    rcases h.disc k dk hk with h1 | h1
    · rw [hq, List.mem_cons] at h1
      rcases h1 with rfl | h1
      · exact Or.inr (List.mem_cons_self _ _)
      · exact Or.inl h1
    · exact Or.inr (List.mem_cons_of_mem _ h1)
  · rw [hv, List.nodup_cons]
    exact ⟨(h.queue_mem node hmem).2, h.visited_nodup⟩

/-- Under the invariant `Look` returns; it keeps the invariant, leaves `n` with a depth
and gives no other node a depth. -/
theorem BFSState.bfs_Look_inv [DecidableEq Node] (st : BFSState Node) (n : Node) (h : BFSInv st) :
    ∃ e st', st.Look n = some (e, st') ∧ BFSInv st' ∧ BFSExt st st' ∧
      (∃ d, st'.depths_ n = some d) ∧
      (∀ k d, st'.depths_ k = some d → st.depths_ k = none → k = n) := by
  rcases hn : st.depths_ n with _ | d
  · refine ⟨_, _, BFSState.bfs_Look_new st n hn, (h.bfs_discover n hn).1, (h.bfs_discover n hn).2, ?_, ?_⟩
    · exact ⟨st.depth_ + 1, by simp [BFSState.discover]⟩
    · intro k d hk hk'
      by_contra hkn
      simp only [BFSState.discover, if_neg hkn] at hk
      rw [hk'] at hk
      cases hk
  · have hold : ∀ k d, (st.noteLook n).depths_ k = some d → st.depths_ k = none → k = n := by
      intro k d hk hk'
      change st.depths_ k = some d at hk
      rw [hk'] at hk
      cases hk
    rw [BFSState.bfs_Look_old st n d hn]
    by_cases h1 : d = st.depth_ + 1
    · rw [if_pos h1]
      exact ⟨_, _, rfl, (h.bfs_noteLook n d hn).1, (h.bfs_noteLook n d hn).2, ⟨d, hn⟩, hold⟩
    · have := (h.depth_bound n d hn).2
      rw [if_neg h1, if_pos (by omega)]
      exact ⟨_, _, rfl, (h.bfs_noteLook n d hn).1, (h.bfs_noteLook n d hn).2, ⟨d, hn⟩, hold⟩

theorem BFSState.bfs_runProg_inv [DecidableEq Node] (prog : BFSProg Node σ) :
    ∀ st : BFSState Node, BFSInv st →
      ∃ st' s', st.runProg prog = some (st', s') ∧ BFSInv st' ∧ BFSExt st st' := by
  induction prog with
  | done s =>
    intro st h
    exact ⟨st, s, rfl, h, BFSExt.bfs_refl st⟩
  | look n k ih =>
    intro st h
    obtain ⟨e, st1, hl, hI1, hE1, -, -⟩ := BFSState.bfs_Look_inv st n h
    obtain ⟨st2, s2, hr, hI2, hE2⟩ := ih e st1 hI1
    refine ⟨st2, s2, ?_, hI2, hE1.bfs_trans hE2⟩
    simp only [BFSState.runProg, hl]
    exact hr

theorem BFSState.bfs_loop_nil [DecidableEq Node] (visit : Int → σ → Node → BFSProg Node σ)
    (steps : Nat) (st : BFSState Node) (s : σ) (hq : st.queue_ = []) :
    BFSState.loop visit steps st s = some (st, s) := by
  cases steps <;> simp [BFSState.loop, hq]

theorem BFSState.bfs_loop_cons_zero [DecidableEq Node] (visit : Int → σ → Node → BFSProg Node σ)
    (st : BFSState Node) (s : σ) (node : Node) (rest : List Node)
    (hq : st.queue_ = node :: rest) : BFSState.loop visit 0 st s = none := by
  simp [BFSState.loop, hq]

theorem BFSState.bfs_loop_cons_succ [DecidableEq Node] (visit : Int → σ → Node → BFSProg Node σ)
    (steps : Nat) (st : BFSState Node) (s : σ) (node : Node) (rest : List Node) (d : Int)
    (hq : st.queue_ = node :: rest) (hd : st.depths_ node = some d) :
    BFSState.loop visit (steps + 1) st s =
      match (st.dequeue node rest d).runProg (visit d s node) with
      | none => none
      | some (st2, s2) => BFSState.loop visit steps st2 s2 := by
  rw [BFSState.loop]
  simp only [hq, hd]
  rfl

/-- A completed loop keeps the invariant, empties the queue and keeps every depth. -/
theorem BFSState.bfs_loop_inv [DecidableEq Node] (visit : Int → σ → Node → BFSProg Node σ) :
    ∀ (steps : Nat) (st : BFSState Node) (s : σ) (st' : BFSState Node) (s' : σ),
      BFSInv st → BFSState.loop visit steps st s = some (st', s') →
      BFSInv st' ∧ st'.queue_ = [] ∧ ∀ n d, st.depths_ n = some d → st'.depths_ n = some d := by
  intro steps
  induction steps with
  | zero =>
    intro st s st' s' h hl
    rcases hq : st.queue_ with _ | ⟨node, rest⟩
    · rw [BFSState.bfs_loop_nil visit 0 st s hq] at hl
      simp only [Option.some.injEq, Prod.mk.injEq] at hl
      obtain ⟨rfl, -⟩ := hl
      exact ⟨h, hq, fun _ _ h => h⟩
    · rw [BFSState.bfs_loop_cons_zero visit st s node rest hq] at hl
      cases hl
  | succ steps ih =>
    intro st s st' s' h hl
    rcases hq : st.queue_ with _ | ⟨node, rest⟩
    · rw [BFSState.bfs_loop_nil visit _ st s hq] at hl
      simp only [Option.some.injEq, Prod.mk.injEq] at hl
      obtain ⟨rfl, -⟩ := hl
      exact ⟨h, hq, fun _ _ h => h⟩
    · obtain ⟨⟨d, hd⟩, -⟩ := h.queue_mem node (by rw [hq]; exact List.mem_cons_self _ _)
      rw [BFSState.bfs_loop_cons_succ visit steps st s node rest d hq hd] at hl
      obtain ⟨st2, s2, hr, hI2, hE2⟩ := BFSState.bfs_runProg_inv (visit d s node) _
        (h.bfs_dequeue node rest d hq hd)
      simp only [hr] at hl
      obtain ⟨hI', hq', hm⟩ := ih st2 s2 st' s' hI2 hl
      exact ⟨hI', hq', fun n dn hn => hm n dn (hE2.depths_mono n dn hn)⟩

/-- A completed run ends in a state that satisfies the invariant, with an empty queue. -/
theorem BFSState.bfs_Run_inv [DecidableEq Node] (start : Int → σ → BFSProg Node σ)
    (visit : Int → σ → Node → BFSProg Node σ) (steps : Nat) (s0 : σ)
    (st : BFSState Node) (s : σ) (h : BFSState.Run start visit steps s0 = some (st, s)) :
    BFSInv st ∧ st.queue_ = [] := by
  unfold BFSState.Run at h
  obtain ⟨st1, s1, hr, hI1, -⟩ := BFSState.bfs_runProg_inv
    (start (BFSState.init : BFSState Node).Depth s0) BFSState.init BFSInv.bfs_init
  simp only [hr] at h
  obtain ⟨hI, hq, -⟩ := BFSState.bfs_loop_inv visit steps st1 s1 st s hI1 h
  exact ⟨hI, hq⟩

theorem BFSState.bfs_potential_Look [Fintype Node] [DecidableEq Node] (st : BFSState Node)
    (n : Node) (e : BFSEdge) (st' : BFSState Node) (h : st.Look n = some (e, st')) :
    st'.potential ≤ st.potential := by
  rcases hn : st.depths_ n with _ | d
  · rw [BFSState.bfs_Look_new st n hn] at h
    simp only [Option.some.injEq, Prod.mk.injEq] at h
    obtain ⟨-, rfl⟩ := h
    unfold BFSState.potential
    have hlt : (Finset.univ.filter (fun k => (st.discover n).depths_ k = none)).card <
        (Finset.univ.filter (fun k => st.depths_ k = none)).card := by
      apply Finset.card_lt_card
      rw [Finset.ssubset_iff_of_subset]
      · refine ⟨n, by simp [hn], by simp [BFSState.discover]⟩
      · intro k
        simp only [Finset.mem_filter, Finset.mem_univ, true_and, BFSState.discover]
        intro hk
        by_cases hkn : k = n
        · subst hkn
          exact hn
        · rw [if_neg hkn] at hk
          exact hk
    have hlen : (st.discover n).queue_.length = st.queue_.length + 1 := by
      simp [BFSState.discover]
    omega
  · rw [BFSState.bfs_Look_old st n d hn] at h
    have : st' = st.noteLook n := by
      split at h
      · simp only [Option.some.injEq, Prod.mk.injEq] at h
        exact h.2.symm
      · split at h
        · simp only [Option.some.injEq, Prod.mk.injEq] at h
          exact h.2.symm
        · cases h
    subst this
    exact le_refl _

theorem BFSState.bfs_potential_runProg [Fintype Node] [DecidableEq Node] (prog : BFSProg Node σ) :
    ∀ (st st' : BFSState Node) (s' : σ), st.runProg prog = some (st', s') →
      st'.potential ≤ st.potential := by
  induction prog with
  | done s =>
    intro st st' s' h
    simp only [BFSState.runProg, Option.some.injEq, Prod.mk.injEq] at h
    rw [h.1]
  | look n k ih =>
    intro st st' s' h
    simp only [BFSState.runProg] at h
    rcases hl : st.Look n with _ | ⟨e, st1⟩
    · simp [hl] at h
    · simp only [hl] at h
      exact le_trans (ih e st1 st' s' h) (BFSState.bfs_potential_Look st n e st1 hl)

/-- With as many steps as the potential, the loop runs to its end. -/
theorem BFSState.bfs_loop_total [Fintype Node] [DecidableEq Node]
    (visit : Int → σ → Node → BFSProg Node σ) :
    ∀ (steps : Nat) (st : BFSState Node) (s : σ), BFSInv st → st.potential ≤ steps →
      ∃ st' s', BFSState.loop visit steps st s = some (st', s') := by
  intro steps
  induction steps with
  | zero =>
    intro st s h hp
    rcases hq : st.queue_ with _ | ⟨node, rest⟩
    · exact ⟨_, _, BFSState.bfs_loop_nil visit 0 st s hq⟩
    · simp [BFSState.potential, hq] at hp
  | succ steps ih =>
    intro st s h hp
    rcases hq : st.queue_ with _ | ⟨node, rest⟩
    · exact ⟨_, _, BFSState.bfs_loop_nil visit _ st s hq⟩
    · obtain ⟨⟨d, hd⟩, -⟩ := h.queue_mem node (by rw [hq]; exact List.mem_cons_self _ _)
      rw [BFSState.bfs_loop_cons_succ visit steps st s node rest d hq hd]
      obtain ⟨st2, s2, hr, hI2, -⟩ := BFSState.bfs_runProg_inv (visit d s node) _
        (h.bfs_dequeue node rest d hq hd)
      simp only [hr]
      apply ih st2 s2 hI2
      have h1 := BFSState.bfs_potential_runProg (visit d s node) _ st2 s2 hr
      have h2 : (st.dequeue node rest d).potential + 1 = st.potential := by
        simp [BFSState.potential, BFSState.dequeue, hq]
        omega
      omega

/-- On a finite node type a run with at least as many steps as there are nodes
completes, whatever the callbacks do. -/
theorem BFSState.bfs_Run_total [Fintype Node] [DecidableEq Node] (start : Int → σ → BFSProg Node σ)
    (visit : Int → σ → Node → BFSProg Node σ) (steps : Nat) (s0 : σ)
    (hsteps : Fintype.card Node ≤ steps) :
    ∃ st s, BFSState.Run start visit steps s0 = some (st, s) := by
  unfold BFSState.Run
  obtain ⟨st1, s1, hr, hI1, -⟩ := BFSState.bfs_runProg_inv
    (start (BFSState.init : BFSState Node).Depth s0) BFSState.init BFSInv.bfs_init
  simp only [hr]
  apply BFSState.bfs_loop_total visit steps st1 s1 hI1
  have h1 := BFSState.bfs_potential_runProg _ _ st1 s1 hr
  have h2 : (BFSState.init : BFSState Node).potential = Fintype.card Node := by
    simp [BFSState.potential, BFSState.init, Finset.card_univ]
  omega

/-- What a callback body `lookAll s vs` does to a state that satisfies the invariant. -/
theorem BFSState.bfs_lookAll_spec [DecidableEq Node] (s : σ) :
    ∀ (vs : List Node) (st : BFSState Node), BFSInv st →
      ∃ st', st.runProg (BFSProg.lookAll s vs) = some (st', s) ∧ BFSInv st' ∧ BFSExt st st' ∧
        (∀ v ∈ vs, ∃ d, st'.depths_ v = some d) ∧
        (∀ k d, st'.depths_ k = some d → st.depths_ k = none → k ∈ vs) := by
  intro vs
  induction vs with
  | nil =>
    intro st h
    refine ⟨st, rfl, h, BFSExt.bfs_refl st, by simp, ?_⟩
    intro k d hk hk'
    rw [hk'] at hk
    cases hk
  | cons v vs ih =>
    intro st h
    obtain ⟨e, st1, hl, hI1, hE1, ⟨dv, hdv⟩, hnew1⟩ := BFSState.bfs_Look_inv st v h
    obtain ⟨st2, hr, hI2, hE2, hall, hnew2⟩ := ih st1 hI1
    refine ⟨st2, ?_, hI2, hE1.bfs_trans hE2, ?_, ?_⟩
    · simp only [BFSProg.lookAll, BFSState.runProg, hl]
      exact hr
    · intro w hw
      rw [List.mem_cons] at hw
      rcases hw with rfl | hw
      · exact ⟨dv, hE2.depths_mono _ dv hdv⟩
      · exact hall w hw
    · intro k d hk hk'
      rcases hk1 : st1.depths_ k with _ | d1
      · exact List.mem_cons_of_mem _ (hnew2 k d hk hk1)
      · rw [hnew1 k d1 hk1 hk']
        exact List.mem_cons_self _ _

theorem BFSState.bfs_loop_graph [DecidableEq Node] (succ : Node → List Node) (S : List Node) :
    ∀ (steps : Nat) (st : BFSState Node) (s : σ) (st' : BFSState Node) (s' : σ),
      BFSInv st → BFSGraphInv succ S st →
      BFSState.loop (fun _ s u => BFSProg.lookAll s (succ u)) steps st s = some (st', s') →
      BFSGraphInv succ S st' ∧ s' = s := by
  intro steps
  induction steps with
  | zero =>
    intro st s st' s' h hG hl
    rcases hq : st.queue_ with _ | ⟨node, rest⟩
    · rw [BFSState.bfs_loop_nil _ 0 st s hq] at hl
      simp only [Option.some.injEq, Prod.mk.injEq] at hl
      obtain ⟨rfl, rfl⟩ := hl
      exact ⟨hG, rfl⟩
    · rw [BFSState.bfs_loop_cons_zero _ st s node rest hq] at hl
      cases hl
  | succ steps ih =>
    intro st s st' s' h hG hl
    rcases hq : st.queue_ with _ | ⟨node, rest⟩
    · rw [BFSState.bfs_loop_nil _ _ st s hq] at hl
      simp only [Option.some.injEq, Prod.mk.injEq] at hl
      obtain ⟨rfl, rfl⟩ := hl
      exact ⟨hG, rfl⟩
    · obtain ⟨⟨d, hd⟩, -⟩ := h.queue_mem node (by rw [hq]; exact List.mem_cons_self _ _)
      rw [BFSState.bfs_loop_cons_succ _ steps st s node rest d hq hd] at hl
      have hI1 := h.bfs_dequeue node rest d hq hd
      obtain ⟨st2, hr, hI2, hE2, hall, hnew⟩ := BFSState.bfs_lookAll_spec s (succ node) _ hI1
      simp only [hr] at hl
      refine ih st2 s st' s' hI2 ⟨?_, ?_, ?_⟩ hl
      · intro n dn hn
        rcases hn1 : st.depths_ n with _ | d1
        · have hmem := hnew n dn hn hn1
          have hdn : dn = d + 1 := hE2.depths_new n dn hn hn1
          obtain ⟨k, hk, hpath⟩ := hG.sound node d hd
          exact ⟨k + 1, by rw [hdn, ← hk]; rfl, PathLen.step node n k hpath hmem⟩
        · have := hE2.depths_mono n d1 hn1
          rw [hn] at this
          cases this
          exact hG.sound n dn hn1
      · intro n hn
        exact hE2.depths_mono n 0 (hG.seeds n hn)
      · intro u hu v hv du hdu
        rw [hE2.visited_eq] at hu
        have hv1 : (st.dequeue node rest d).visited = node :: st.visited := by
          simp [BFSState.visited, BFSState.dequeue, List.filterMap_cons]
        rw [hv1, List.mem_cons] at hu
        rcases hu with rfl | hu
        · obtain ⟨dv, hdv⟩ := hall v hv
          have hb := (hI2.depth_bound v dv hdv).2
          rw [hE2.depth_eq] at hb
          have : du = d := by
            have := hE2.depths_mono u d hd
            rw [hdu] at this
            cases this
            rfl
          subst this
          exact ⟨dv, hdv, hb⟩
        · obtain ⟨⟨d1, hd1⟩, -⟩ : (∃ d1, st.depths_ u = some d1) ∧ True := by
            obtain ⟨dd, hdd⟩ := (st.bfs_mem_visited u).mp hu
            exact ⟨⟨dd, h.visit_depth u dd hdd⟩, trivial⟩
          have : du = d1 := by
            have := hE2.depths_mono u d1 hd1
            rw [hdu] at this
            cases this
            rfl
          subst this
          obtain ⟨dv, hdv, hle⟩ := hG.closed u hu v hv du hd1
          exact ⟨dv, hE2.depths_mono v dv hdv, hle⟩

/-- C2: on a finite graph given by successor lists, with the seed callback looking at
every node of `S` and the visit callback looking at every successor of its node, `BFS`
returns (with at least as many steps as there are nodes) a map whose keys are exactly
the nodes some path from `S` reaches, and the value of a key is the least number of
edges of such a path; so it is `0` on the nodes of `S` and positive on the others. -/
theorem BFS_shortest_paths [Fintype Node] [DecidableEq Node] (succ : Node → List Node)
    (S : List Node) (steps : Nat) (s0 : σ) (hsteps : Fintype.card Node ≤ steps) :
    ∃ res, BFS (fun _ s => BFSProg.lookAll s S) (fun _ s u => BFSProg.lookAll s (succ u))
        steps s0 = some (res, s0) ∧
      (∀ n, (∃ d, res n = some d) ↔ ∃ k, PathLen succ S n k) ∧
      (∀ n d, res n = some d →
        ∃ k : Nat, d = (k : Int) ∧ PathLen succ S n k ∧ ∀ k', PathLen succ S n k' → k ≤ k') ∧
      (∀ n d, res n = some d → (n ∈ S → d = 0) ∧ (n ∉ S → 0 < d)) := by
  obtain ⟨st, s, hrun⟩ := BFSState.bfs_Run_total (fun _ s => BFSProg.lookAll s S)
    (fun _ s u => BFSProg.lookAll s (succ u)) steps s0 hsteps
  obtain ⟨hI, hq⟩ := BFSState.bfs_Run_inv _ _ steps s0 st s hrun
  have hrun' := hrun
  unfold BFSState.Run at hrun'
  obtain ⟨st1, hr, hI1, hE1, hall, hnew⟩ := BFSState.bfs_lookAll_spec s0 S
    (BFSState.init : BFSState Node) BFSInv.bfs_init
  simp only [BFSState.Depth, hr] at hrun'
  have hG1 : BFSGraphInv succ S st1 := by
    have hzero : ∀ n d, st1.depths_ n = some d → d = 0 := by
      intro n d hn
      have := hI1.depth_bound n d hn
      rw [hE1.depth_eq] at this
      change 0 ≤ d ∧ d ≤ -1 + 1 at this
      omega
    refine ⟨?_, ?_, ?_⟩
    · intro n d hn
      refine ⟨0, (hzero n d hn).symm, PathLen.seed n (hnew n d hn rfl)⟩
    · intro n hn
      obtain ⟨d, hd⟩ := hall n hn
      rw [hd, hzero n d hd]
    · intro u hu
      rw [hE1.visited_eq] at hu
      simp [BFSState.visited, BFSState.init] at hu
  obtain ⟨hG, hs⟩ := BFSState.bfs_loop_graph succ S steps st1 s0 st s hI1 hG1 hrun'
  have hmin : ∀ n k, PathLen succ S n k → ∃ d, st.depths_ n = some d ∧ d ≤ (k : Int) := by
    intro n k hp
    induction hp with
    | seed s hs => exact ⟨0, hG.seeds s hs, le_refl _⟩
    | step u v k _ hv ih =>
      obtain ⟨du, hdu, hle⟩ := ih
      have hu : u ∈ st.visited := by
        rcases hI.disc u du hdu with h1 | h1
        · rw [hq] at h1
          cases h1
        · exact h1
      obtain ⟨dv, hdv, hle'⟩ := hG.closed u hu v hv du hdu
      refine ⟨dv, hdv, ?_⟩
      push_cast
      omega
  subst hs
  refine ⟨st.depths_, by simp [BFS, hrun], ?_, ?_, ?_⟩
  · intro n
    constructor
    · rintro ⟨d, hd⟩
      obtain ⟨k, -, hp⟩ := hG.sound n d hd
      exact ⟨k, hp⟩
    · rintro ⟨k, hp⟩
      obtain ⟨d, hd, -⟩ := hmin n k hp
      exact ⟨d, hd⟩
  · intro n d hd
    obtain ⟨k, hk, hp⟩ := hG.sound n d hd
    refine ⟨k, hk.symm, hp, ?_⟩
    intro k' hp'
    obtain ⟨d', hd', hle⟩ := hmin n k' hp'
    rw [hd] at hd'
    cases hd'
    omega
  · intro n d hd
    refine ⟨?_, ?_⟩
    · intro hn
      have := hG.seeds n hn
      rw [hd] at this
      cases this
      rfl
    · intro hn
      obtain ⟨k, hk, hp⟩ := hG.sound n d hd
      cases hp with
      | seed _ h => exact absurd h hn
      | step u _ k _ _ => omega

/-- Witness for C2: the run on `exampleFinSucc` seeded with `0`, with three steps for three nodes. -/
theorem BFS_shortest_paths_witness :
    Fintype.card (Fin 3) ≤ 3 ∧
    ∃ res, BFS (fun _ s => BFSProg.lookAll s [0]) (fun _ s u =>
        BFSProg.lookAll s (exampleFinSucc u)) 3 () = some (res, ()) ∧
      (∀ n, (∃ d, res n = some d) ↔ ∃ k, PathLen exampleFinSucc [0] n k) ∧
      (∀ n d, res n = some d →
        ∃ k : Nat, d = (k : Int) ∧ PathLen exampleFinSucc [0] n k ∧
          ∀ k', PathLen exampleFinSucc [0] n k' → k ≤ k') ∧
      (∀ n d, res n = some d → (n ∈ [0] → d = 0) ∧ (n ∉ [0] → 0 < d)) :=
  ⟨by simp, BFS_shortest_paths exampleFinSucc [0] 3 () (by simp)⟩

theorem DijkstraEvent.mem_looksOf (log : List (DijkstraEvent Node Dist))
    (u : DistUpdate Node Dist) :
    u ∈ DijkstraEvent.looksOf log ↔ DijkstraEvent.look u ∈ log := by
  unfold DijkstraEvent.looksOf
  rw [List.mem_filterMap]
  constructor
  · rintro ⟨ev, hev, h⟩
    cases ev with
    | look w =>
      simp only [Option.some.injEq] at h
      subst h
      exact hev
    | pop w => cases h
    | visit w => cases h
  · intro h
    exact ⟨_, h, rfl⟩

theorem DijkstraEvent.mem_popsOf (log : List (DijkstraEvent Node Dist))
    (u : DistUpdate Node Dist) :
    u ∈ DijkstraEvent.popsOf log ↔ DijkstraEvent.pop u ∈ log := by
  unfold DijkstraEvent.popsOf
  rw [List.mem_filterMap]
  constructor
  · rintro ⟨ev, hev, h⟩
    cases ev with
    | look w => cases h
    | pop w =>
      simp only [Option.some.injEq] at h
      subst h
      exact hev
    | visit w => cases h
  · intro h
    exact ⟨_, h, rfl⟩

theorem DijkstraEvent.mem_visitsOf (log : List (DijkstraEvent Node Dist))
    (u : DistUpdate Node Dist) :
    u ∈ DijkstraEvent.visitsOf log ↔ DijkstraEvent.visit u ∈ log := by
  unfold DijkstraEvent.visitsOf
  rw [List.mem_filterMap]
  constructor
  · rintro ⟨ev, hev, h⟩
    cases ev with
    | look w => cases h
    | pop w => cases h
    | visit w =>
      simp only [Option.some.injEq] at h
      subst h
      exact hev
  · intro h
    exact ⟨_, h, rfl⟩

theorem isHeap_nil {α : Type} (lt : α → α → Prop) : IsHeap lt ([] : List α) := by
  intro i a b _ h
  simp at h

/-- The first element of a heap of candidates has the least `dist`. -/
theorem isHeap_head_min [LinearOrder Dist] (v : List (DistUpdate Node Dist))
    (h : IsHeap DistUpdate.lt v) (r : DistUpdate Node Dist) (hr : v.head? = some r) :
    ∀ x ∈ v, r.dist ≤ x.dist := by
  have key : ∀ (i : Nat) (x : DistUpdate Node Dist), v[i]? = some x → r.dist ≤ x.dist := by
    intro i
    induction i using Nat.strong_induction_on with
    | _ i ih =>
      intro x hx
      rcases Nat.eq_zero_or_pos i with rfl | hpos
      · rw [List.head?_eq_getElem?] at hr
        rw [hr] at hx
        cases hx
        exact le_refl _
      · have hlt : (i - 1) / 2 < i := by omega
        have hlen : i < v.length := (List.getElem?_eq_some.mp hx).1
        have hp : v[(i - 1) / 2]? = some (v[(i - 1) / 2]) :=
          List.getElem?_eq_getElem (by omega)
        have h1 := ih _ hlt _ hp
        have h2 := h i _ x hpos hp hx
        exact le_trans h1 (not_lt.mp h2)
  intro x hx
  obtain ⟨i, hi, rfl⟩ := List.getElem_of_mem hx
  exact key i _ (List.getElem?_eq_getElem hi)

theorem DiskstraState.Push_spec [LinearOrder Dist]
    (H : StdHeap (DistUpdate Node Dist) DistUpdate.lt) (st : DiskstraState Node Dist)
    (u : DistUpdate Node Dist) (h : IsHeap DistUpdate.lt st.queue_) :
    (DiskstraState.Push H st u).queue_.Perm (u :: st.queue_) ∧
      IsHeap DistUpdate.lt (DiskstraState.Push H st u).queue_ := by
  have hd : IsHeap DistUpdate.lt (st.queue_ ++ [u]).dropLast := by
    rw [List.dropLast_concat]
    exact h
  exact ⟨(H.push_heap_perm _ hd).trans (List.perm_append_singleton u st.queue_),
    H.push_heap_heap _ hd⟩

/-- On a non-empty heap `Pop` takes a candidate of least `dist` out of the queue and
leaves a heap. -/
theorem DiskstraState.Pop_spec [LinearOrder Dist]
    (H : StdHeap (DistUpdate Node Dist) DistUpdate.lt) (st : DiskstraState Node Dist)
    (h : IsHeap DistUpdate.lt st.queue_) (hne : st.queue_ ≠ []) :
    ∃ u rest, DiskstraState.Pop H st = some (u, { st with queue_ := rest }) ∧
      (u :: rest).Perm st.queue_ ∧ IsHeap DistUpdate.lt rest ∧
      ∀ q ∈ st.queue_, u.dist ≤ q.dist := by
  obtain ⟨a, r, hq⟩ := List.exists_cons_of_ne_nil hne
  have hlast : (H.pop_heap st.queue_).getLast? = some a := by
    rw [H.pop_heap_last _ h, hq]
    rfl
  have hsplit : (H.pop_heap st.queue_).dropLast ++ [a] = H.pop_heap st.queue_ :=
    List.dropLast_append_getLast? a hlast
  refine ⟨a, (H.pop_heap st.queue_).dropLast, ?_, ?_, H.pop_heap_heap _ h, ?_⟩
  · simp only [DiskstraState.Pop, hlast]
  · have h1 : (a :: (H.pop_heap st.queue_).dropLast).Perm (H.pop_heap st.queue_) := by
      have := (List.perm_append_singleton a (H.pop_heap st.queue_).dropLast).symm
      rw [hsplit] at this
      exact this
    exact h1.trans (H.pop_heap_perm _ h)
  · exact isHeap_head_min st.queue_ h a (by rw [hq]; rfl)

theorem DijInv.dij_init [LinearOrder Dist] :
    DijInv (DiskstraState.init : DiskstraState Node Dist) := by
  refine ⟨isHeap_nil _, ?_, ?_, ?_, ?_, ?_, ?_, ?_⟩ <;>
    simp [DiskstraState.init, DijkstraEvent.looksOf, DijkstraEvent.popsOf,
      DijkstraEvent.visitsOf]

theorem DiskstraState.Look_eq [LinearOrder Dist]
    (H : StdHeap (DistUpdate Node Dist) DistUpdate.lt) (st : DiskstraState Node Dist)
    (n : Node) (d : Dist) :
    DiskstraState.Look H st n d =
      { st with queue_ := H.push_heap (st.queue_ ++ [st.candidate n d]),
                log := DijkstraEvent.look (st.candidate n d) :: st.log } := rfl

theorem DijInv.dij_look [LinearOrder Dist] (H : StdHeap (DistUpdate Node Dist) DistUpdate.lt)
    {st : DiskstraState Node Dist} (h : DijInv st) (n : Node) (d : Dist) :
    DijInv (DiskstraState.Look H st n d) := by
  obtain ⟨hperm, hheap⟩ := DiskstraState.Push_spec H st (st.candidate n d) h.heap
  have hl : DijkstraEvent.looksOf (DiskstraState.Look H st n d).log =
      st.candidate n d :: DijkstraEvent.looksOf st.log := by
    simp [DiskstraState.Look_eq, DijkstraEvent.looksOf, List.filterMap_cons]
  have hp : DijkstraEvent.popsOf (DiskstraState.Look H st n d).log =
      DijkstraEvent.popsOf st.log := by
    simp [DiskstraState.Look_eq, DijkstraEvent.popsOf, List.filterMap_cons]
  have hv : DijkstraEvent.visitsOf (DiskstraState.Look H st n d).log =
      DijkstraEvent.visitsOf st.log := by
    simp [DiskstraState.Look_eq, DijkstraEvent.visitsOf, List.filterMap_cons]
  refine ⟨hheap, ?_, ?_, ?_, ?_, ?_, ?_, ?_⟩
  · rw [hl, hp]
    have h1 : (DijkstraEvent.popsOf st.log ++ (DiskstraState.Look H st n d).queue_).Perm
        (DijkstraEvent.popsOf st.log ++ (st.candidate n d :: st.queue_)) :=
      List.Perm.append_left _ hperm
    refine List.Perm.trans ?_ h1.symm
    exact (List.Perm.cons _ h.conserve).trans List.perm_middle.symm
  · rw [hv, hp]
    exact h.visits_sub
  · rw [hp]
    exact h.dist_pop
  · rw [hv]
    exact h.dist_visit
  · rw [hv]
    exact h.visit_nodup
  · intro pre post u hlog
    rw [DiskstraState.Look_eq] at hlog
    change DijkstraEvent.look _ :: st.log = pre ++ DijkstraEvent.visit u :: post at hlog
    rcases pre with _ | ⟨a, pre⟩
    · cases hlog
    · simp only [List.cons_append, List.cons.injEq] at hlog
      exact h.visit_first pre post u hlog.2
  · rw [hp]
    exact h.current_eq

theorem DijInv.dij_discard [LinearOrder Dist] {st : DiskstraState Node Dist} (h : DijInv st)
    (u : DistUpdate Node Dist) (rest : List (DistUpdate Node Dist)) (d : Dist)
    (hperm : (u :: rest).Perm st.queue_) (hheap : IsHeap DistUpdate.lt rest)
    (hd : st.distances_ u.node = some d) : DijInv (st.discard u rest) := by
  have hl : DijkstraEvent.looksOf (st.discard u rest).log = DijkstraEvent.looksOf st.log := by
    simp [DiskstraState.discard, DijkstraEvent.looksOf, List.filterMap_cons]
  have hp : DijkstraEvent.popsOf (st.discard u rest).log = u :: DijkstraEvent.popsOf st.log := by
    simp [DiskstraState.discard, DijkstraEvent.popsOf, List.filterMap_cons]
  have hv : DijkstraEvent.visitsOf (st.discard u rest).log =
      DijkstraEvent.visitsOf st.log := by
    simp [DiskstraState.discard, DijkstraEvent.visitsOf, List.filterMap_cons]
  refine ⟨hheap, ?_, ?_, ?_, ?_, ?_, ?_, ?_⟩
  · rw [hl, hp]
    refine h.conserve.trans ?_
    refine (List.Perm.append_left _ hperm.symm).trans ?_
    exact List.perm_middle
  · rw [hv, hp]
    exact List.Sublist.cons _ h.visits_sub
  · intro n
    rw [hp]
    show (∃ d, st.distances_ n = some d) ↔ _
    rw [h.dist_pop n]
    constructor
    · rintro ⟨w, hw, hn⟩
      exact ⟨w, List.mem_cons_of_mem _ hw, hn⟩
    · rintro ⟨w, hw, hn⟩
      rw [List.mem_cons] at hw
      rcases hw with rfl | hw
      · rw [← h.dist_pop n, ← hn]
        exact ⟨d, hd⟩
      · exact ⟨w, hw, hn⟩
  · rw [hv]
    exact h.dist_visit
  · rw [hv]
    exact h.visit_nodup
  · intro pre post w hlog
    change DijkstraEvent.pop u :: st.log = pre ++ DijkstraEvent.visit w :: post at hlog
    rcases pre with _ | ⟨a, pre⟩
    · cases hlog
    · simp only [List.cons_append, List.cons.injEq] at hlog
      exact h.visit_first pre post w hlog.2
  · rw [hp]
    rfl

theorem DijInv.dij_finalize [LinearOrder Dist] [DecidableEq Node]
    {st : DiskstraState Node Dist} (h : DijInv st)
    (u : DistUpdate Node Dist) (rest : List (DistUpdate Node Dist))
    (hperm : (u :: rest).Perm st.queue_) (hheap : IsHeap DistUpdate.lt rest)
    (hd : st.distances_ u.node = none) : DijInv (st.finalize u rest) := by
  have hl : DijkstraEvent.looksOf (st.finalize u rest).log = DijkstraEvent.looksOf st.log := by
    simp [DiskstraState.finalize, DijkstraEvent.looksOf, List.filterMap_cons]
  have hp : DijkstraEvent.popsOf (st.finalize u rest).log =
      u :: DijkstraEvent.popsOf st.log := by
    simp [DiskstraState.finalize, DijkstraEvent.popsOf, List.filterMap_cons]
  have hv : DijkstraEvent.visitsOf (st.finalize u rest).log =
      u :: DijkstraEvent.visitsOf st.log := by
    simp [DiskstraState.finalize, DijkstraEvent.visitsOf, List.filterMap_cons]
  have hnopop : ∀ w ∈ DijkstraEvent.popsOf st.log, w.node ≠ u.node := by
    intro w hw hn
    obtain ⟨d, hd'⟩ := (h.dist_pop u.node).mpr ⟨w, hw, hn⟩
    rw [hd] at hd'
    cases hd'
  have hnovisit : ∀ w ∈ DijkstraEvent.visitsOf st.log, w.node ≠ u.node :=
    fun w hw => hnopop w (h.visits_sub.subset hw)
  have hdist : ∀ k, (st.finalize u rest).distances_ k =
      if k = u.node then some u.dist else st.distances_ k := fun _ => rfl
  refine ⟨hheap, ?_, ?_, ?_, ?_, ?_, ?_, ?_⟩
  · rw [hl, hp]
    refine h.conserve.trans ?_
    refine (List.Perm.append_left _ hperm.symm).trans ?_
    exact List.perm_middle
  · rw [hv, hp]
    exact List.Sublist.cons₂ _ h.visits_sub
  · intro n
    rw [hp, hdist]
    by_cases hn : n = u.node
    · subst hn
      simp
    · rw [if_neg hn, h.dist_pop n]
      constructor
      · rintro ⟨w, hw, hwn⟩
        exact ⟨w, List.mem_cons_of_mem _ hw, hwn⟩
      · rintro ⟨w, hw, hwn⟩
        rw [List.mem_cons] at hw
        rcases hw with rfl | hw
        · exact absurd hwn.symm hn
        · exact ⟨w, hw, hwn⟩
  · intro n d
    rw [hv, hdist]
    by_cases hn : n = u.node
    · subst hn
      rw [if_pos rfl]
      constructor
      · intro hd'
        simp only [Option.some.injEq] at hd'
        exact ⟨u, List.mem_cons_self _ _, rfl, hd'⟩
      · rintro ⟨w, hw, hwn, hwd⟩
        rw [List.mem_cons] at hw
        rcases hw with rfl | hw
        · rw [hwd]
        · exact absurd hwn (hnovisit w hw)
    · rw [if_neg hn, h.dist_visit n d]
      constructor
      · rintro ⟨w, hw, hwn⟩
        exact ⟨w, List.mem_cons_of_mem _ hw, hwn⟩
      · rintro ⟨w, hw, hwn, hwd⟩
        rw [List.mem_cons] at hw
        rcases hw with rfl | hw
        · exact absurd hwn.symm hn
        · exact ⟨w, hw, hwn, hwd⟩
  · rw [hv, List.map_cons, List.nodup_cons]
    refine ⟨?_, h.visit_nodup⟩
    intro hmem
    obtain ⟨w, hw, hwn⟩ := List.mem_map.mp hmem
    exact hnovisit w hw hwn
  · intro pre post w hlog
    change DijkstraEvent.visit u :: DijkstraEvent.pop u :: st.log =
      pre ++ DijkstraEvent.visit w :: post at hlog
    rcases pre with _ | ⟨a, pre⟩
    · simp only [List.nil_append, List.cons.injEq, DijkstraEvent.visit.injEq] at hlog
      obtain ⟨rfl, rfl⟩ := hlog
      exact ⟨st.log, rfl, hnopop⟩
    · rcases pre with _ | ⟨b, pre⟩
      · simp at hlog
      · simp only [List.cons_append, List.cons.injEq] at hlog
        exact h.visit_first pre post w hlog.2.2
  · rw [hp]
    rfl

theorem DiskstraState.LookAll_cons [LinearOrder Dist]
    (H : StdHeap (DistUpdate Node Dist) DistUpdate.lt) (st : DiskstraState Node Dist)
    (l : Node × Dist) (ls : List (Node × Dist)) :
    DiskstraState.LookAll H st (l :: ls) =
      DiskstraState.LookAll H (DiskstraState.Look H st l.1 l.2) ls := rfl

theorem DijInv.dij_lookAll [LinearOrder Dist] (H : StdHeap (DistUpdate Node Dist) DistUpdate.lt)
    (looks : List (Node × Dist)) :
    ∀ st : DiskstraState Node Dist, DijInv st → DijInv (DiskstraState.LookAll H st looks) := by
  induction looks with
  | nil => exact fun st h => h
  | cons l ls ih =>
    intro st h
    rw [DiskstraState.LookAll_cons]
    exact ih _ (h.dij_look H l.1 l.2)

theorem DiskstraState.dij_loop_nil [LinearOrder Dist] [DecidableEq Node]
    (H : StdHeap (DistUpdate Node Dist) DistUpdate.lt)
    (visit : Int → Option Node → σ → Node → Dist → List (Node × Dist) × σ)
    (steps : Nat) (st : DiskstraState Node Dist) (s : σ) (hq : st.queue_ = []) :
    DiskstraState.loop H visit steps st s = some (st, s) := by
  cases steps <;> simp [DiskstraState.loop, hq]

theorem DiskstraState.dij_loop_zero [LinearOrder Dist] [DecidableEq Node]
    (H : StdHeap (DistUpdate Node Dist) DistUpdate.lt)
    (visit : Int → Option Node → σ → Node → Dist → List (Node × Dist) × σ)
    (st : DiskstraState Node Dist) (s : σ) (hq : st.queue_ ≠ []) :
    DiskstraState.loop H visit 0 st s = none := by
  obtain ⟨a, r, hq'⟩ := List.exists_cons_of_ne_nil hq
  simp [DiskstraState.loop, hq']

theorem DiskstraState.dij_loop_succ_new [LinearOrder Dist] [DecidableEq Node]
    (H : StdHeap (DistUpdate Node Dist) DistUpdate.lt)
    (visit : Int → Option Node → σ → Node → Dist → List (Node × Dist) × σ)
    (steps : Nat) (st : DiskstraState Node Dist) (s : σ) (hq : st.queue_ ≠ [])
    (u : DistUpdate Node Dist) (rest : List (DistUpdate Node Dist))
    (hpop : DiskstraState.Pop H st = some (u, { st with queue_ := rest }))
    (hd : st.distances_ u.node = none) :
    DiskstraState.loop H visit (steps + 1) st s =
      DiskstraState.loop H visit steps
        (DiskstraState.LookAll H (st.finalize u rest) (visit u.depth u.parent s u.node u.dist).1)
        (visit u.depth u.parent s u.node u.dist).2 := by
  obtain ⟨a, r, hq'⟩ := List.exists_cons_of_ne_nil hq
  rw [DiskstraState.loop]
  simp only [hq', hpop, mapInsert, hd]
  rfl

theorem DiskstraState.dij_loop_succ_old [LinearOrder Dist] [DecidableEq Node]
    (H : StdHeap (DistUpdate Node Dist) DistUpdate.lt)
    (visit : Int → Option Node → σ → Node → Dist → List (Node × Dist) × σ)
    (steps : Nat) (st : DiskstraState Node Dist) (s : σ) (hq : st.queue_ ≠ [])
    (u : DistUpdate Node Dist) (rest : List (DistUpdate Node Dist)) (d : Dist)
    (hpop : DiskstraState.Pop H st = some (u, { st with queue_ := rest }))
    (hd : st.distances_ u.node = some d) :
    DiskstraState.loop H visit (steps + 1) st s =
      DiskstraState.loop H visit steps (st.discard u rest) s := by
  obtain ⟨a, r, hq'⟩ := List.exists_cons_of_ne_nil hq
  rw [DiskstraState.loop]
  simp only [hq', hpop, mapInsert, hd]
  rfl

/-- Induction over the iterations of the loop: a property that implies the heap shape of
the queue and survives both kinds of iteration holds when the loop ends, and then the
queue is empty. -/
theorem DiskstraState.dij_loop_rule [LinearOrder Dist] [DecidableEq Node]
    (H : StdHeap (DistUpdate Node Dist) DistUpdate.lt)
    (visit : Int → Option Node → σ → Node → Dist → List (Node × Dist) × σ)
    (P : DiskstraState Node Dist → Prop)
    (hheap : ∀ st, P st → IsHeap DistUpdate.lt st.queue_)
    (hnew : ∀ st s u rest, P st → (u :: rest).Perm st.queue_ → IsHeap DistUpdate.lt rest →
      (∀ q ∈ st.queue_, u.dist ≤ q.dist) → st.distances_ u.node = none →
      P (DiskstraState.LookAll H (st.finalize u rest)
        (visit u.depth u.parent s u.node u.dist).1))
    (hold : ∀ st u rest d, P st → (u :: rest).Perm st.queue_ → IsHeap DistUpdate.lt rest →
      (∀ q ∈ st.queue_, u.dist ≤ q.dist) → st.distances_ u.node = some d →
      P (st.discard u rest)) :
    ∀ (steps : Nat) (st : DiskstraState Node Dist) (s : σ) (st' : DiskstraState Node Dist)
      (s' : σ), P st → DiskstraState.loop H visit steps st s = some (st', s') →
      P st' ∧ st'.queue_ = [] := by
  intro steps
  induction steps with
  | zero =>
    intro st s st' s' hP hl
    by_cases hq : st.queue_ = []
    · rw [DiskstraState.dij_loop_nil H visit 0 st s hq] at hl
      simp only [Option.some.injEq, Prod.mk.injEq] at hl
      obtain ⟨rfl, -⟩ := hl
      exact ⟨hP, hq⟩
    · rw [DiskstraState.dij_loop_zero H visit st s hq] at hl
      cases hl
  | succ steps ih =>
    intro st s st' s' hP hl
    by_cases hq : st.queue_ = []
    · rw [DiskstraState.dij_loop_nil H visit _ st s hq] at hl
      simp only [Option.some.injEq, Prod.mk.injEq] at hl
      obtain ⟨rfl, -⟩ := hl
      exact ⟨hP, hq⟩
    · obtain ⟨u, rest, hpop, hperm, hrest, hmin⟩ :=
        DiskstraState.Pop_spec H st (hheap st hP) hq
      rcases hd : st.distances_ u.node with _ | d
      · rw [DiskstraState.dij_loop_succ_new H visit steps st s hq u rest hpop hd] at hl
        exact ih _ _ st' s' (hnew st s u rest hP hperm hrest hmin hd) hl
      · rw [DiskstraState.dij_loop_succ_old H visit steps st s hq u rest d hpop hd] at hl
        exact ih _ _ st' s' (hold st u rest d hP hperm hrest hmin hd) hl

/-- A completed run ends in a state that satisfies the invariant, with an empty queue. -/
theorem DiskstraState.dij_Run_inv [LinearOrder Dist] [DecidableEq Node]
    (H : StdHeap (DistUpdate Node Dist) DistUpdate.lt)
    (start : σ → List (Node × Dist) × σ)
    (visit : Int → Option Node → σ → Node → Dist → List (Node × Dist) × σ)
    (steps : Nat) (s0 : σ) (st : DiskstraState Node Dist) (s : σ)
    (h : DiskstraState.Run H start visit steps s0 = some (st, s)) :
    DijInv st ∧ st.queue_ = [] := by
  refine DiskstraState.dij_loop_rule H visit DijInv (fun _ h => h.heap) ?_ ?_ steps _ _ st s
    (DijInv.dij_lookAll H (start s0).1 _ DijInv.dij_init) h
  · intro st s u rest hP hperm hrest _ hd
    exact DijInv.dij_lookAll H _ _ (hP.dij_finalize u rest hperm hrest hd)
  · intro st u rest d hP hperm hrest _ hd
    exact hP.dij_discard u rest d hperm hrest hd

/-- C7: in a completed Dijkstra run, with the log read in the order of time, every node
passed to `Look` was visited exactly once; every invocation of the visit callback comes
right after the `Pop` of the candidate it is invoked for, and no earlier `Pop` took a
candidate of the same node; a `Pop` of a candidate whose node an earlier `Pop` took is
not followed by a visit; and the returned map holds exactly the pairs of node and
distance the visit callback was invoked with. -/
theorem Dijkstra_visit_once [LinearOrder Dist] [DecidableEq Node]
    (H : StdHeap (DistUpdate Node Dist) DistUpdate.lt)
    (start : σ → List (Node × Dist) × σ)
    (visit : Int → Option Node → σ → Node → Dist → List (Node × Dist) × σ)
    (steps : Nat) (s0 : σ) (st : DiskstraState Node Dist) (s : σ)
    (h : DiskstraState.Run H start visit steps s0 = some (st, s)) :
    Dijkstra H start visit steps s0 = some (st.distances_, s) ∧
    (∀ u, DijkstraEvent.look u ∈ st.log.reverse →
      ((DijkstraEvent.visitsOf st.log.reverse).map (fun w => w.node)).count u.node = 1) ∧
    (∀ pre post u, st.log.reverse = pre ++ DijkstraEvent.visit u :: post →
      ∃ pre', pre = pre' ++ [DijkstraEvent.pop u] ∧
        ∀ u', DijkstraEvent.pop u' ∈ pre' → u'.node ≠ u.node) ∧
    (∀ pre post u u0, st.log.reverse = pre ++ DijkstraEvent.pop u :: post →
      DijkstraEvent.pop u0 ∈ pre → u0.node = u.node → ∀ w, post.head? ≠ some (DijkstraEvent.visit w)) ∧
    (∀ n d, st.distances_ n = some d ↔
      ∃ u, DijkstraEvent.visit u ∈ st.log.reverse ∧ u.node = n ∧ u.dist = d) := by
  obtain ⟨hI, hq⟩ := DiskstraState.dij_Run_inv H start visit steps s0 st s h
  have hfirst : ∀ pre post u, st.log.reverse = pre ++ DijkstraEvent.visit u :: post →
      ∃ pre', pre = pre' ++ [DijkstraEvent.pop u] ∧
        ∀ u', DijkstraEvent.pop u' ∈ pre' → u'.node ≠ u.node := by
    intro pre post u hlog
    have hlog' : st.log = post.reverse ++ DijkstraEvent.visit u :: pre.reverse := by
      have := congrArg List.reverse hlog
      simpa using this
    obtain ⟨post', hp1, hp2⟩ := hI.visit_first _ _ u hlog'
    refine ⟨post'.reverse, ?_, ?_⟩
    · have := congrArg List.reverse hp1
      simpa using this
    · intro u' hu'
      rw [List.mem_reverse] at hu'
      exact hp2 u' ((DijkstraEvent.mem_popsOf _ _).mpr hu')
  refine ⟨by simp [Dijkstra, h], ?_, hfirst, ?_, ?_⟩
  · intro u hu
    rw [List.mem_reverse] at hu
    have h1 : u ∈ DijkstraEvent.popsOf st.log := by
      have := hI.conserve.subset ((DijkstraEvent.mem_looksOf _ _).mpr hu)
      rw [hq, List.append_nil] at this
      exact this
    obtain ⟨d, hd⟩ := (hI.dist_pop u.node).mpr ⟨u, h1, rfl⟩
    obtain ⟨w, hw, hwn, -⟩ := (hI.dist_visit u.node d).mp hd
    have hrev : DijkstraEvent.visitsOf st.log.reverse =
        (DijkstraEvent.visitsOf st.log).reverse := by
      simp [DijkstraEvent.visitsOf, List.filterMap_reverse]
    rw [hrev, List.map_reverse, List.count_reverse]
    exact List.count_eq_one_of_mem hI.visit_nodup (List.mem_map.mpr ⟨w, hw, hwn⟩)
  · intro pre post u u0 hlog hu0 hn w hw
    rcases post with _ | ⟨ev, post⟩
    · cases hw
    · simp only [List.head?_cons, Option.some.injEq] at hw
      subst hw
      have hlog' : st.log.reverse =
          (pre ++ [DijkstraEvent.pop u]) ++ DijkstraEvent.visit w :: post := by
        rw [hlog]
        simp
      obtain ⟨pre', hp1, hp2⟩ := hfirst _ _ w hlog'
      have := List.append_inj' hp1 rfl
      obtain ⟨rfl, hsingle⟩ := this
      simp only [List.cons.injEq, DijkstraEvent.pop.injEq, and_true] at hsingle
      subst hsingle
      exact hp2 u0 hu0 hn
  · intro n d
    rw [hI.dist_visit n d]
    constructor
    · rintro ⟨u, hu, hn⟩
      exact ⟨u, List.mem_reverse.mpr ((DijkstraEvent.mem_visitsOf _ _).mp hu), hn⟩
    · rintro ⟨u, hu, hn⟩
      exact ⟨u, (DijkstraEvent.mem_visitsOf _ _).mpr (List.mem_reverse.mp hu), hn⟩

theorem DiskstraState.dij_Look_pops [LinearOrder Dist]
    (H : StdHeap (DistUpdate Node Dist) DistUpdate.lt) (st : DiskstraState Node Dist)
    (n : Node) (d : Dist) :
    DijkstraEvent.popsOf (DiskstraState.Look H st n d).log = DijkstraEvent.popsOf st.log := by
  simp [DiskstraState.Look_eq, DijkstraEvent.popsOf, List.filterMap_cons]

theorem DijMono.dij_mono_look [LinearOrder Dist]
    (H : StdHeap (DistUpdate Node Dist) DistUpdate.lt)
    {st : DiskstraState Node Dist} (h : DijMono st) (hheap : IsHeap DistUpdate.lt st.queue_)
    (n : Node) (d : Dist) (hd : ∀ p ∈ DijkstraEvent.popsOf st.log, p.dist ≤ d) :
    DijMono (DiskstraState.Look H st n d) := by
  obtain ⟨hperm, -⟩ := DiskstraState.Push_spec H st (st.candidate n d) hheap
  refine ⟨?_, ?_⟩
  · rw [DiskstraState.dij_Look_pops]
    exact h.pops_sorted
  · intro q hq p hp
    rw [DiskstraState.dij_Look_pops] at hp
    have hq' : q ∈ st.candidate n d :: st.queue_ := hperm.subset hq
    rw [List.mem_cons] at hq'
    rcases hq' with rfl | hq'
    · exact hd p hp
    · exact h.queue_ge q hq' p hp

theorem DijMono.dij_mono_lookAll [LinearOrder Dist]
    (H : StdHeap (DistUpdate Node Dist) DistUpdate.lt) (looks : List (Node × Dist)) :
    ∀ st : DiskstraState Node Dist, DijInv st → DijMono st →
      (∀ l ∈ looks, ∀ p ∈ DijkstraEvent.popsOf st.log, p.dist ≤ l.2) →
      DijMono (DiskstraState.LookAll H st looks) := by
  induction looks with
  | nil => exact fun st _ h _ => h
  | cons l ls ih =>
    intro st hI h hd
    rw [DiskstraState.LookAll_cons]
    refine ih _ (hI.dij_look H l.1 l.2)
      (h.dij_mono_look H hI.heap l.1 l.2 (hd l (List.mem_cons_self _ _))) ?_
    intro l' hl' p hp
    rw [DiskstraState.dij_Look_pops] at hp
    exact hd l' (List.mem_cons_of_mem _ hl') p hp

theorem DijMono.dij_mono_pop [LinearOrder Dist] {st : DiskstraState Node Dist}
    (h : DijMono st) (u : DistUpdate Node Dist) (rest : List (DistUpdate Node Dist))
    (st' : DiskstraState Node Dist) (hq : st'.queue_ = rest)
    (hp : DijkstraEvent.popsOf st'.log = u :: DijkstraEvent.popsOf st.log)
    (hperm : (u :: rest).Perm st.queue_) (hmin : ∀ q ∈ st.queue_, u.dist ≤ q.dist) :
    DijMono st' := by
  have hu : u ∈ st.queue_ := hperm.subset (List.mem_cons_self _ _)
  refine ⟨?_, ?_⟩
  · rw [hp, List.pairwise_cons]
    exact ⟨fun p hp' => h.queue_ge u hu p hp', h.pops_sorted⟩
  · intro q hq' p hp'
    rw [hq] at hq'
    have hqq : q ∈ st.queue_ := hperm.subset (List.mem_cons_of_mem _ hq')
    rw [hp, List.mem_cons] at hp'
    rcases hp' with rfl | hp'
    · exact hmin q hqq
    · exact h.queue_ge q hqq p hp'

/-- A completed run whose visit callback never offers less than the distance it was given
ends in a state with both invariants and an empty queue. -/
theorem DiskstraState.dij_Run_mono [LinearOrder Dist] [DecidableEq Node]
    (H : StdHeap (DistUpdate Node Dist) DistUpdate.lt)
    (start : σ → List (Node × Dist) × σ)
    (visit : Int → Option Node → σ → Node → Dist → List (Node × Dist) × σ)
    (hmono : ∀ depth parent s u d, ∀ l ∈ (visit depth parent s u d).1, d ≤ l.2)
    (steps : Nat) (s0 : σ) (st : DiskstraState Node Dist) (s : σ)
    (h : DiskstraState.Run H start visit steps s0 = some (st, s)) :
    (DijInv st ∧ DijMono st) ∧ st.queue_ = [] := by
  have hinit : DijMono (DiskstraState.init : DiskstraState Node Dist) := by
    refine ⟨?_, ?_⟩ <;> simp [DiskstraState.init, DijkstraEvent.popsOf]
  refine DiskstraState.dij_loop_rule H visit (fun st => DijInv st ∧ DijMono st)
    (fun _ h => h.1.heap) ?_ ?_ steps _ _ st s
    ⟨DijInv.dij_lookAll H (start s0).1 _ DijInv.dij_init,
      DijMono.dij_mono_lookAll H (start s0).1 _ DijInv.dij_init hinit ?_⟩ h
  · intro st s u rest hP hperm hrest hmin hd
    have hI3 := hP.1.dij_finalize u rest hperm hrest hd
    have hp3 : DijkstraEvent.popsOf (st.finalize u rest).log =
        u :: DijkstraEvent.popsOf st.log := by
      simp [DiskstraState.finalize, DijkstraEvent.popsOf, List.filterMap_cons]
    have hM3 : DijMono (st.finalize u rest) :=
      hP.2.dij_mono_pop u rest _ rfl hp3 hperm hmin
    refine ⟨DijInv.dij_lookAll H _ _ hI3, DijMono.dij_mono_lookAll H _ _ hI3 hM3 ?_⟩
    intro l hl p hp
    have hle := hmono u.depth u.parent s u.node u.dist l hl
    rw [hp3, List.mem_cons] at hp
    rcases hp with rfl | hp
    · exact hle
    · exact le_trans (hP.2.queue_ge u (hperm.subset (List.mem_cons_self _ _)) p hp) hle
  · intro st u rest d hP hperm hrest hmin hd
    have hp2 : DijkstraEvent.popsOf (st.discard u rest).log =
        u :: DijkstraEvent.popsOf st.log := by
      simp [DiskstraState.discard, DijkstraEvent.popsOf, List.filterMap_cons]
    exact ⟨hP.1.dij_discard u rest d hperm hrest hd,
      hP.2.dij_mono_pop u rest _ rfl hp2 hperm hmin⟩
  · intro l _ p hp
    simp [DiskstraState.init, DijkstraEvent.popsOf] at hp

/-- In a state with both invariants and an empty queue, the distance of a finalized node
was offered by a `Look` of that node and is the least one offered, and every node that
was looked at is finalized. -/
theorem DijInv.dij_min_core [LinearOrder Dist] {st : DiskstraState Node Dist}
    (hI : DijInv st) (hM : DijMono st) (hq : st.queue_ = []) :
    (∀ n d, st.distances_ n = some d →
      (∃ u ∈ DijkstraEvent.looksOf st.log, u.node = n ∧ u.dist = d) ∧
      (∀ u ∈ DijkstraEvent.looksOf st.log, u.node = n → d ≤ u.dist)) ∧
    (∀ u ∈ DijkstraEvent.looksOf st.log, ∃ d, st.distances_ u.node = some d) := by
  have hlp : ∀ u, u ∈ DijkstraEvent.looksOf st.log ↔ u ∈ DijkstraEvent.popsOf st.log := by
    intro u
    have := hI.conserve
    rw [hq, List.append_nil] at this
    exact this.mem_iff
  refine ⟨?_, ?_⟩
  · intro n d hd
    obtain ⟨w, hw, hwn, hwd⟩ := (hI.dist_visit n d).mp hd
    obtain ⟨pre, post, hlog⟩ := List.append_of_mem ((DijkstraEvent.mem_visitsOf _ _).mp hw)
    obtain ⟨post', hpost, hnone⟩ := hI.visit_first pre post w hlog
    have hpops : DijkstraEvent.popsOf st.log =
        DijkstraEvent.popsOf pre ++ w :: DijkstraEvent.popsOf post' := by
      rw [hlog, hpost]
      simp [DijkstraEvent.popsOf, List.filterMap_append, List.filterMap_cons]
    refine ⟨⟨w, (hlp w).mpr ?_, hwn, hwd⟩, ?_⟩
    · rw [hpops]
      simp
    · intro u hu hun
      have hup := (hlp u).mp hu
      have hsorted := hM.pops_sorted
      rw [hpops] at hup hsorted
      rw [List.pairwise_append] at hsorted
      rw [List.mem_append, List.mem_cons] at hup
      rcases hup with hup | rfl | hup
      · rw [← hwd]
        exact hsorted.2.2 u hup w (List.mem_cons_self _ _)
      · rw [hwd]
      · exact absurd (hun.trans hwn.symm) (hnone u hup)
  · intro u hu
    exact (hI.dist_pop u.node).mpr ⟨u, (hlp u).mp hu, rfl⟩

/-- C9: in a completed Dijkstra run whose visit callback never offers less than the
distance it was given, the distances of successive visits never decrease; and in any
state whose queue is a non-empty heap, `Pop` returns a queued candidate of least `dist`
(the order of `DistUpdate` is reversed, so the top of the max-heap is such a one). -/
theorem Dijkstra_visits_nondecreasing [LinearOrder Dist] [DecidableEq Node]
    (H : StdHeap (DistUpdate Node Dist) DistUpdate.lt)
    (start : σ → List (Node × Dist) × σ)
    (visit : Int → Option Node → σ → Node → Dist → List (Node × Dist) × σ)
    (hmono : ∀ depth parent s u d, ∀ l ∈ (visit depth parent s u d).1, d ≤ l.2)
    (steps : Nat) (s0 : σ) (st : DiskstraState Node Dist) (s : σ)
    (h : DiskstraState.Run H start visit steps s0 = some (st, s)) :
    (DijkstraEvent.visitsOf st.log.reverse).Pairwise (fun a b => a.dist ≤ b.dist) ∧
    (∀ st0 : DiskstraState Node Dist, IsHeap DistUpdate.lt st0.queue_ → st0.queue_ ≠ [] →
      ∃ u st1, DiskstraState.Pop H st0 = some (u, st1) ∧ u ∈ st0.queue_ ∧
        ∀ q ∈ st0.queue_, u.dist ≤ q.dist) := by
  obtain ⟨⟨hI, hM⟩, -⟩ := DiskstraState.dij_Run_mono H start visit hmono steps s0 st s h
  refine ⟨?_, ?_⟩
  · have hrev : DijkstraEvent.visitsOf st.log.reverse =
        (DijkstraEvent.visitsOf st.log).reverse := by
      simp [DijkstraEvent.visitsOf, List.filterMap_reverse]
    rw [hrev, List.pairwise_reverse]
    exact hM.pops_sorted.sublist hI.visits_sub
  · intro st0 hheap hne
    obtain ⟨u, rest, hpop, hperm, -, hmin⟩ := DiskstraState.Pop_spec H st0 hheap hne
    exact ⟨u, _, hpop, hperm.subset (List.mem_cons_self _ _), hmin⟩

/-- C8: in a completed Dijkstra run whose visit callback never offers less than the
distance it was given, the distance the returned map holds for a node was offered by some
`Look` of that node and is no more than the distance of any `Look` of that node in the
whole run. -/
theorem Dijkstra_min_of_looks [LinearOrder Dist] [DecidableEq Node]
    (H : StdHeap (DistUpdate Node Dist) DistUpdate.lt)
    (start : σ → List (Node × Dist) × σ)
    (visit : Int → Option Node → σ → Node → Dist → List (Node × Dist) × σ)
    (hmono : ∀ depth parent s u d, ∀ l ∈ (visit depth parent s u d).1, d ≤ l.2)
    (steps : Nat) (s0 : σ) (st : DiskstraState Node Dist) (s : σ)
    (h : DiskstraState.Run H start visit steps s0 = some (st, s)) :
    Dijkstra H start visit steps s0 = some (st.distances_, s) ∧
    ∀ n d, st.distances_ n = some d →
      (∃ u, DijkstraEvent.look u ∈ st.log ∧ u.node = n ∧ u.dist = d) ∧
      (∀ u, DijkstraEvent.look u ∈ st.log → u.node = n → d ≤ u.dist) := by
  obtain ⟨⟨hI, hM⟩, hq⟩ := DiskstraState.dij_Run_mono H start visit hmono steps s0 st s h
  refine ⟨by simp [Dijkstra, h], ?_⟩
  intro n d hd
  obtain ⟨⟨u, hu, hun⟩, hmin⟩ := (hI.dij_min_core hM hq).1 n d hd
  refine ⟨⟨u, (DijkstraEvent.mem_looksOf _ _).mp hu, hun⟩, ?_⟩
  intro w hw hwn
  exact hmin w ((DijkstraEvent.mem_looksOf _ _).mpr hw) hwn

/-- What a sequence of `Look` calls does to the state besides keeping the invariant. -/
theorem DiskstraState.dij_lookAll_ext [LinearOrder Dist]
    (H : StdHeap (DistUpdate Node Dist) DistUpdate.lt) (looks : List (Node × Dist)) :
    ∀ st : DiskstraState Node Dist, DijInv st →
      (DiskstraState.LookAll H st looks).distances_ = st.distances_ ∧
      (DiskstraState.LookAll H st looks).queue_.length = st.queue_.length + looks.length ∧
      DijkstraEvent.visitsOf (DiskstraState.LookAll H st looks).log =
        DijkstraEvent.visitsOf st.log ∧
      (∀ c ∈ DijkstraEvent.looksOf (DiskstraState.LookAll H st looks).log,
        c ∈ DijkstraEvent.looksOf st.log ∨ ∃ l ∈ looks, c.node = l.1 ∧ c.dist = l.2) ∧
      (∀ c ∈ DijkstraEvent.looksOf st.log,
        c ∈ DijkstraEvent.looksOf (DiskstraState.LookAll H st looks).log) ∧
      (∀ l ∈ looks, ∃ c ∈ DijkstraEvent.looksOf (DiskstraState.LookAll H st looks).log,
        c.node = l.1 ∧ c.dist = l.2) := by
  induction looks with
  | nil =>
    intro st _
    refine ⟨rfl, rfl, rfl, fun c hc => Or.inl hc, fun c hc => hc, ?_⟩
    intro l hl
    cases hl
  | cons l ls ih =>
    intro st hI
    rw [DiskstraState.LookAll_cons]
    obtain ⟨h1, h2, h3, h4, h5, h6⟩ := ih _ (hI.dij_look H l.1 l.2)
    obtain ⟨hperm, -⟩ := DiskstraState.Push_spec H st (st.candidate l.1 l.2) hI.heap
    have hl1 : DijkstraEvent.looksOf (DiskstraState.Look H st l.1 l.2).log =
        st.candidate l.1 l.2 :: DijkstraEvent.looksOf st.log := by
      simp [DiskstraState.Look_eq, DijkstraEvent.looksOf, List.filterMap_cons]
    have hv1 : DijkstraEvent.visitsOf (DiskstraState.Look H st l.1 l.2).log =
        DijkstraEvent.visitsOf st.log := by
      simp [DiskstraState.Look_eq, DijkstraEvent.visitsOf, List.filterMap_cons]
    have hlen : (DiskstraState.Look H st l.1 l.2).queue_.length = st.queue_.length + 1 := by
      have := hperm.length_eq
      simpa [DiskstraState.Look_eq, DiskstraState.Push] using this
    refine ⟨h1, ?_, h3.trans hv1, ?_, ?_, ?_⟩
    · rw [h2, hlen, List.length_cons]
      omega
    · intro c hc
      rcases h4 c hc with h | ⟨l', hl', hn⟩
      · rw [hl1, List.mem_cons] at h
        rcases h with rfl | h
        · exact Or.inr ⟨l, List.mem_cons_self _ _, rfl, rfl⟩
        · exact Or.inl h
      · exact Or.inr ⟨l', List.mem_cons_of_mem _ hl', hn⟩
    · intro c hc
      exact h5 c (by rw [hl1]; exact List.mem_cons_of_mem _ hc)
    · intro l' hl'
      rw [List.mem_cons] at hl'
      rcases hl' with rfl | hl'
      · exact ⟨st.candidate l'.1 l'.2, h5 _ (by rw [hl1]; exact List.mem_cons_self _ _),
          rfl, rfl⟩
      · exact h6 l' hl'

theorem DiskstraState.dij_potential_pop [Fintype Node] [LinearOrder Dist] [DecidableEq Node]
    (H : StdHeap (DistUpdate Node Dist) DistUpdate.lt) (edges : Node → List (Node × Dist))
    (st : DiskstraState Node Dist) (hI : DijInv st) (u : DistUpdate Node Dist)
    (rest : List (DistUpdate Node Dist)) (hperm : (u :: rest).Perm st.queue_)
    (hrest : IsHeap DistUpdate.lt rest) :
    (∀ d, st.distances_ u.node = some d →
      (st.discard u rest).potential edges + 1 = st.potential edges) ∧
    (st.distances_ u.node = none → ∀ looks : List (Node × Dist),
      looks.length = (edges u.node).length →
      (DiskstraState.LookAll H (st.finalize u rest) looks).potential edges + 1 =
        st.potential edges) := by
  have hlen : st.queue_.length = rest.length + 1 := by
    rw [← hperm.length_eq, List.length_cons]
  refine ⟨?_, ?_⟩
  · intro d _
    simp only [DiskstraState.potential, DiskstraState.discard]
    omega
  · intro hd looks hlooks
    obtain ⟨h1, h2, -⟩ := DiskstraState.dij_lookAll_ext H looks _
      (hI.dij_finalize u rest hperm hrest hd)
    have hfilter : Finset.univ.filter (fun n => (st.finalize u rest).distances_ n = none) =
        (Finset.univ.filter (fun n => st.distances_ n = none)).erase u.node := by
      ext k
      simp only [Finset.mem_filter, Finset.mem_univ, true_and, Finset.mem_erase,
        DiskstraState.finalize]
      by_cases hk : k = u.node
      · simp [hk]
      · simp [hk]
    have hmem : u.node ∈ Finset.univ.filter (fun n => st.distances_ n = none) := by
      simp [hd]
    have hsum : (edges u.node).length +
        ∑ x in (Finset.univ.filter (fun n => st.distances_ n = none)).erase u.node,
          (edges x).length =
        ∑ x in Finset.univ.filter (fun n => st.distances_ n = none), (edges x).length :=
      Finset.add_sum_erase _ (fun n => (edges n).length) hmem
    have hq3 : (st.finalize u rest).queue_.length = rest.length := rfl
    unfold DiskstraState.potential
    rw [h1, h2, hfilter, hq3]
    omega

/-- With as many steps as the potential, the loop of a run on a graph runs to its end,
and the caller state stays as it is. -/
theorem DiskstraState.dij_loop_total [Fintype Node] [LinearOrder Dist] [Add Dist]
    [DecidableEq Node] (H : StdHeap (DistUpdate Node Dist) DistUpdate.lt)
    (edges : Node → List (Node × Dist)) :
    ∀ (steps : Nat) (st : DiskstraState Node Dist) (s : σ), DijInv st →
      st.potential edges ≤ steps →
      ∃ st', DiskstraState.loop H (graphVisit edges) steps st s = some (st', s) := by
  intro steps
  induction steps with
  | zero =>
    intro st s hI hp
    have hq : st.queue_ = [] := by
      simp only [DiskstraState.potential] at hp
      exact List.length_eq_zero.mp (by omega)
    exact ⟨st, DiskstraState.dij_loop_nil H _ 0 st s hq⟩
  | succ steps ih =>
    intro st s hI hp
    by_cases hq : st.queue_ = []
    · exact ⟨st, DiskstraState.dij_loop_nil H _ _ st s hq⟩
    · obtain ⟨u, rest, hpop, hperm, hrest, -⟩ := DiskstraState.Pop_spec H st hI.heap hq
      obtain ⟨hold, hnew⟩ := DiskstraState.dij_potential_pop H edges st hI u rest hperm hrest
      rcases hd : st.distances_ u.node with _ | d
      · rw [DiskstraState.dij_loop_succ_new H _ steps st s hq u rest hpop hd]
        have hpot := hnew hd (graphVisit edges u.depth u.parent s u.node u.dist).1
          (by simp [graphVisit])
        exact ih _ s (DijInv.dij_lookAll H _ _ (hI.dij_finalize u rest hperm hrest hd))
          (by omega)
      · rw [DiskstraState.dij_loop_succ_old H _ steps st s hq u rest d hpop hd]
        have hpot := hold d hd
        exact ih _ s (hI.dij_discard u rest d hperm hrest hd) (by omega)

/-- A completed run on a graph ends in a state in which the pushed candidates stand for
paths, cover the sources, and cover every edge that leaves a visited node. -/
theorem DiskstraState.dij_Run_graph [LinearOrder Dist] [Add Dist] [Zero Dist]
    [DecidableEq Node] (H : StdHeap (DistUpdate Node Dist) DistUpdate.lt)
    (edges : Node → List (Node × Dist)) (S : List Node)
    (steps : Nat) (s0 : σ) (st : DiskstraState Node Dist) (s : σ)
    (h : DiskstraState.Run H (graphSeed S) (graphVisit edges) steps s0 = some (st, s)) :
    DijGraph edges S st := by
  have hinit : DijInv (DiskstraState.LookAll H (DiskstraState.init : DiskstraState Node Dist)
      (graphSeed S s0 : List (Node × Dist) × σ).1) ∧
      DijGraph edges S (DiskstraState.LookAll H (DiskstraState.init : DiskstraState Node Dist)
        (graphSeed S s0 : List (Node × Dist) × σ).1) := by
    obtain ⟨-, -, h3, h4, -, h6⟩ := DiskstraState.dij_lookAll_ext H
      (graphSeed S s0 : List (Node × Dist) × σ).1 (DiskstraState.init : DiskstraState Node Dist)
      DijInv.dij_init
    refine ⟨DijInv.dij_lookAll H _ _ DijInv.dij_init, ?_, ?_, ?_⟩
    · intro c hc
      rcases h4 c hc with h | ⟨l, hl, hn, hd⟩
      · simp [DiskstraState.init, DijkstraEvent.looksOf] at h
      · simp only [graphSeed, List.mem_map] at hl
        obtain ⟨n, hn', rfl⟩ := hl
        rw [hn, hd]
        exact PathW.seed n hn'
    · intro n hn
      exact h6 (n, 0) (by simp only [graphSeed, List.mem_map]; exact ⟨n, hn, rfl⟩)
    · intro u hu
      rw [h3] at hu
      simp [DiskstraState.init, DijkstraEvent.visitsOf] at hu
  refine (DiskstraState.dij_loop_rule H (graphVisit edges)
    (fun st => DijInv st ∧ DijGraph edges S st) (fun _ h => h.1.heap) ?_ ?_ steps _ _ st s
    hinit h).1.2
  · intro st s u rest hP hperm hrest _ hd
    have hI3 := hP.1.dij_finalize u rest hperm hrest hd
    obtain ⟨-, -, h3, h4, h5, h6⟩ := DiskstraState.dij_lookAll_ext H
      (graphVisit edges u.depth u.parent s u.node u.dist).1 _ hI3
    have hl3 : DijkstraEvent.looksOf (st.finalize u rest).log =
        DijkstraEvent.looksOf st.log := by
      simp [DiskstraState.finalize, DijkstraEvent.looksOf, List.filterMap_cons]
    have hv3 : DijkstraEvent.visitsOf (st.finalize u rest).log =
        u :: DijkstraEvent.visitsOf st.log := by
      simp [DiskstraState.finalize, DijkstraEvent.visitsOf, List.filterMap_cons]
    have hu : u ∈ DijkstraEvent.looksOf st.log :=
      hP.1.conserve.symm.subset (List.mem_append_right _
        (hperm.subset (List.mem_cons_self _ _)))
    refine ⟨DijInv.dij_lookAll H _ _ hI3, ?_, ?_, ?_⟩
    · intro c hc
      rcases h4 c hc with h | ⟨l, hl, hn, hdl⟩
      · rw [hl3] at h
        exact hP.2.sound c h
      · simp only [graphVisit, List.mem_map] at hl
        obtain ⟨e, he, rfl⟩ := hl
        rw [hn, hdl]
        exact PathW.step u.node e.1 u.dist e.2 (hP.2.sound u hu) he
    · intro n hn
      obtain ⟨c, hc, hcn⟩ := hP.2.seeds n hn
      exact ⟨c, h5 c (by rw [hl3]; exact hc), hcn⟩
    · intro w hw e he
      rw [h3, hv3, List.mem_cons] at hw
      rcases hw with rfl | hw
      · exact h6 (e.1, w.dist + e.2)
          (by simp only [graphVisit, List.mem_map]; exact ⟨e, he, rfl⟩)
      · obtain ⟨c, hc, hcn⟩ := hP.2.closed w hw e he
        exact ⟨c, h5 c (by rw [hl3]; exact hc), hcn⟩
  · intro st u rest d hP hperm hrest _ hd
    refine ⟨hP.1.dij_discard u rest d hperm hrest hd, ?_, ?_, ?_⟩
    · exact hP.2.sound
    · exact hP.2.seeds
    · exact hP.2.closed

/-- C1: on a finite graph with weighted edge lists and no negative weight, with the seed
callback issuing `Look(s, 0)` for every source and the visit callback issuing
`Look(v, d + w)` for every edge that leaves its node, `Dijkstra` returns (with at least
as many steps as there are sources and edges) a map whose keys are exactly the nodes a
path from a source reaches, and the value of a key is the least total weight of such a
path. -/
theorem Dijkstra_shortest_paths [Fintype Node] [DecidableEq Node]
    [LinearOrderedAddCommMonoid Dist] (H : StdHeap (DistUpdate Node Dist) DistUpdate.lt)
    (edges : Node → List (Node × Dist)) (S : List Node)
    (hw : ∀ u, ∀ e ∈ edges u, (0 : Dist) ≤ e.2) (steps : Nat) (s0 : σ)
    (hsteps : S.length + ∑ u : Node, (edges u).length ≤ steps) :
    ∃ res, Dijkstra H (graphSeed S) (graphVisit edges) steps s0 = some (res, s0) ∧
      (∀ n, (∃ d, res n = some d) ↔ ∃ d, PathW edges S n d) ∧
      (∀ n d, res n = some d →
        PathW edges S n d ∧ ∀ d', PathW edges S n d' → d ≤ d') := by
  have hmono : ∀ (depth : Int) (parent : Option Node) (s : σ) (u : Node) (d : Dist),
      ∀ l ∈ (graphVisit edges depth parent s u d).1, d ≤ l.2 := by
    intro depth parent s u d l hl
    simp only [graphVisit, List.mem_map] at hl
    obtain ⟨e, he, rfl⟩ := hl
    exact le_add_of_nonneg_right (hw u e he)
  have hI0 := DijInv.dij_lookAll H (graphSeed S s0 : List (Node × Dist) × σ).1
    (DiskstraState.init : DiskstraState Node Dist) DijInv.dij_init
  obtain ⟨h1, h2, -⟩ := DiskstraState.dij_lookAll_ext H (graphSeed S s0 : List (Node × Dist) × σ).1
    (DiskstraState.init : DiskstraState Node Dist) DijInv.dij_init
  have hpot : (DiskstraState.LookAll H (DiskstraState.init : DiskstraState Node Dist)
      (graphSeed S s0 : List (Node × Dist) × σ).1).potential edges ≤ steps := by
    unfold DiskstraState.potential
    rw [h1, h2]
    simpa [DiskstraState.init, graphSeed] using hsteps
  obtain ⟨st, hloop⟩ := DiskstraState.dij_loop_total H edges steps _ s0 hI0 hpot
  have hrun : DiskstraState.Run H (graphSeed S) (graphVisit edges) steps s0 = some (st, s0) :=
    hloop
  obtain ⟨⟨hI, hM⟩, hq⟩ := DiskstraState.dij_Run_mono H (graphSeed S) (graphVisit edges)
    hmono steps s0 st s0 hrun
  have hG := DiskstraState.dij_Run_graph H edges S steps s0 st s0 hrun
  obtain ⟨hmin, hall⟩ := hI.dij_min_core hM hq
  have hfin : ∀ n d', PathW edges S n d' → ∃ d, st.distances_ n = some d ∧ d ≤ d' := by
    intro n d' hp
    induction hp with
    | seed s hs =>
      obtain ⟨c, hc, hcn, hcd⟩ := hG.seeds s hs
      obtain ⟨d, hd⟩ := hall c hc
      rw [hcn] at hd
      refine ⟨d, hd, ?_⟩
      rw [← hcd]
      exact (hmin s d hd).2 c hc hcn
    | step u v d' w _ he ih =>
      obtain ⟨du, hdu, hle⟩ := ih
      obtain ⟨x, hx, hxn, hxd⟩ := (hI.dist_visit u du).mp hdu
      obtain ⟨c, hc, hcn, hcd⟩ := hG.closed x hx (v, w) (by rw [hxn]; exact he)
      obtain ⟨dv, hdv⟩ := hall c hc
      change c.node = v at hcn
      change c.dist = x.dist + w at hcd
      rw [hcn] at hdv
      refine ⟨dv, hdv, ?_⟩
      have := (hmin v dv hdv).2 c hc hcn
      rw [hcd, hxd] at this
      exact le_trans this (add_le_add_right hle w)
  refine ⟨st.distances_, by simp [Dijkstra, hrun], ?_, ?_⟩
  · intro n
    constructor
    · rintro ⟨d, hd⟩
      obtain ⟨⟨c, hc, hcn, hcd⟩, -⟩ := hmin n d hd
      refine ⟨d, ?_⟩
      rw [← hcn, ← hcd]
      exact hG.sound c hc
    · rintro ⟨d', hp⟩
      obtain ⟨d, hd, -⟩ := hfin n d' hp
      exact ⟨d, hd⟩
  · intro n d hd
    obtain ⟨⟨c, hc, hcn, hcd⟩, -⟩ := hmin n d hd
    refine ⟨?_, ?_⟩
    · rw [← hcn, ← hcd]
      exact hG.sound c hc
    · intro d' hp
      obtain ⟨d2, hd2, hle⟩ := hfin n d' hp
      rw [hd] at hd2
      cases hd2
      exact hle

/-- No weight of `exampleEdges` is negative. -/
theorem exampleEdges_nonneg : ∀ u, ∀ e ∈ exampleEdges u, (0 : Int) ≤ e.2 := by
  decide

/-- The visit callback on `exampleEdges` never offers less than the distance it was given. -/
theorem exampleEdges_mono : ∀ (depth : Int) (parent : Option (Fin 3)) (s : Unit) (u : Fin 3)
    (d : Int), ∀ l ∈ (graphVisit exampleEdges depth parent s u d).1, d ≤ l.2 := by
  intro depth parent s u d l hl
  simp only [graphVisit, List.mem_map] at hl
  obtain ⟨e, he, rfl⟩ := hl
  have := exampleEdges_nonneg u e he
  show d ≤ d + e.2
  omega

/-- Witness for C1: the run on `exampleEdges` from source `0`, with four steps for one source and three edges. -/
theorem Dijkstra_shortest_paths_witness :
    (∀ u, ∀ e ∈ exampleEdges u, (0 : Int) ≤ e.2) ∧
    ([(0 : Fin 3)].length + ∑ u : Fin 3, (exampleEdges u).length ≤ 4) ∧
    ∃ res, Dijkstra (sortHeap (Fin 3) Int) (graphSeed [0]) (graphVisit exampleEdges) 4 () =
        some (res, ()) ∧
      (∀ n, (∃ d, res n = some d) ↔ ∃ d, PathW exampleEdges [0] n d) ∧
      (∀ n d, res n = some d →
        PathW exampleEdges [0] n d ∧ ∀ d', PathW exampleEdges [0] n d' → d ≤ d') :=
  ⟨exampleEdges_nonneg, by decide,
    Dijkstra_shortest_paths (sortHeap (Fin 3) Int) exampleEdges [0] exampleEdges_nonneg 4 ()
      (by decide)⟩

/-- Witness for C7: the run on `exampleEdges` from source `0` completes and finalizes `0`, `2`, `1` at distances `0`, `1`, `2`. -/
theorem Dijkstra_visit_once_witness :
    ∃ st, DiskstraState.Run (sortHeap (Fin 3) Int) (graphSeed [0]) (graphVisit exampleEdges)
        4 () = some (st, ()) ∧
      (st.distances_ 0, st.distances_ 1, st.distances_ 2) = (some 0, some 2, some 1) ∧
      Dijkstra (sortHeap (Fin 3) Int) (graphSeed [0]) (graphVisit exampleEdges) 4 () =
        some (st.distances_, ()) ∧
      (∀ u, DijkstraEvent.look u ∈ st.log.reverse →
        ((DijkstraEvent.visitsOf st.log.reverse).map (fun w => w.node)).count u.node = 1) ∧
      (∀ pre post u, st.log.reverse = pre ++ DijkstraEvent.visit u :: post →
        ∃ pre', pre = pre' ++ [DijkstraEvent.pop u] ∧
          ∀ u', DijkstraEvent.pop u' ∈ pre' → u'.node ≠ u.node) ∧
      (∀ pre post u u0, st.log.reverse = pre ++ DijkstraEvent.pop u :: post →
        DijkstraEvent.pop u0 ∈ pre → u0.node = u.node →
        ∀ w, post.head? ≠ some (DijkstraEvent.visit w)) ∧
      (∀ n d, st.distances_ n = some d ↔
        ∃ u, DijkstraEvent.visit u ∈ st.log.reverse ∧ u.node = n ∧ u.dist = d) :=
  ⟨_, rfl, rfl, Dijkstra_visit_once (sortHeap (Fin 3) Int) (graphSeed [0])
    (graphVisit exampleEdges) 4 () _ () rfl⟩

/-- Witness for C8: the same run, whose visit callback adds weights that are not negative. -/
theorem Dijkstra_min_of_looks_witness :
    ∃ st, DiskstraState.Run (sortHeap (Fin 3) Int) (graphSeed [0]) (graphVisit exampleEdges)
        4 () = some (st, ()) ∧
      Dijkstra (sortHeap (Fin 3) Int) (graphSeed [0]) (graphVisit exampleEdges) 4 () =
        some (st.distances_, ()) ∧
      ∀ n d, st.distances_ n = some d →
        (∃ u, DijkstraEvent.look u ∈ st.log ∧ u.node = n ∧ u.dist = d) ∧
        (∀ u, DijkstraEvent.look u ∈ st.log → u.node = n → d ≤ u.dist) :=
  ⟨_, rfl, Dijkstra_min_of_looks (sortHeap (Fin 3) Int) (graphSeed [0])
    (graphVisit exampleEdges) exampleEdges_mono 4 () _ () rfl⟩

/-- Witness for C9: the same run visits `0`, `2`, `1` at the distances `0`, `1`, `2`. -/
theorem Dijkstra_visits_nondecreasing_witness :
    ∃ st, DiskstraState.Run (sortHeap (Fin 3) Int) (graphSeed [0]) (graphVisit exampleEdges)
        4 () = some (st, ()) ∧
      (DijkstraEvent.visitsOf st.log.reverse).map (fun u => (u.node, u.dist)) =
        [(0, 0), (2, 1), (1, 2)] ∧
      (DijkstraEvent.visitsOf st.log.reverse).Pairwise (fun a b => a.dist ≤ b.dist) ∧
      (∀ st0 : DiskstraState (Fin 3) Int, IsHeap DistUpdate.lt st0.queue_ →
        st0.queue_ ≠ [] →
        ∃ u st1, DiskstraState.Pop (sortHeap (Fin 3) Int) st0 = some (u, st1) ∧
          u ∈ st0.queue_ ∧ ∀ q ∈ st0.queue_, u.dist ≤ q.dist) :=
  ⟨_, rfl, rfl, Dijkstra_visits_nondecreasing (sortHeap (Fin 3) Int) (graphSeed [0])
    (graphVisit exampleEdges) exampleEdges_mono 4 () _ () rfl⟩

/-- One increment keeps the start cell and does not bring the iterator closer to it. -/
theorem ManhattanSpiral.Iterator.next_step (it : ManhattanSpiral.Iterator) :
    it.next.start_ = it.start_ ∧
    (it.cur_.sub it.start_).Manhattan ≤ (it.next.cur_.sub it.start_).Manhattan := by
  refine ⟨rfl, ?_⟩
  obtain ⟨⟨si, sj⟩, ⟨ci, cj⟩⟩ := it
  simp only [ManhattanSpiral.Iterator.next, Coord.add, Coord.sub, Coord.Manhattan]
  split_ifs <;> (try dsimp only at *) <;> simp only [abs_eq_max_neg, max_def] <;>
    split_ifs <;> omega

theorem ManhattanSpiral.iterate_start (s : Coord) (k : Nat) :
    (ManhattanSpiral.Iterator.next^[k] (ManhattanSpiral.begin s)).start_ = s := by
  induction k with
  | zero => rfl
  | succ k ih =>
    rw [Function.iterate_succ_apply']
    exact (ManhattanSpiral.Iterator.next_step _).1.trans ih

/-- C20: for every start cell `s` the sequence of `ManhattanSpiral(s)` begins with `s`,
and the Manhattan distance from `s` of each element is at most that of the next. -/
theorem ManhattanSpiral_nondecreasing (s : Coord) :
    ManhattanSpiral.nth s 0 = s ∧
    ∀ k, ((ManhattanSpiral.nth s k).sub s).Manhattan ≤
      ((ManhattanSpiral.nth s (k + 1)).sub s).Manhattan := by
  refine ⟨rfl, ?_⟩
  intro k
  unfold ManhattanSpiral.nth ManhattanSpiral.Iterator.deref
  rw [Function.iterate_succ_apply']
  have h := (ManhattanSpiral.Iterator.next_step
    (ManhattanSpiral.Iterator.next^[k] (ManhattanSpiral.begin s))).2
  rw [ManhattanSpiral.iterate_start s k] at h
  exact h

theorem DiskstraState.dij_lookAll_current [LinearOrder Dist]
    (H : StdHeap (DistUpdate Node Dist) DistUpdate.lt) (looks : List (Node × Dist)) :
    ∀ st : DiskstraState Node Dist,
      (DiskstraState.LookAll H st looks).current_ = st.current_ := by
  induction looks with
  | nil => exact fun _ => rfl
  | cons l ls ih =>
    intro st
    rw [DiskstraState.LookAll_cons, ih]
    rfl

/-- C13: in a state whose queue is a heap, `Look(n, d)` leaves a queue that holds the
old candidates and exactly one more, `c`, and changes neither the finalized distances
nor the current candidate; `c` has node `n` and dist `d`, and its parent and depth are
the node of the current candidate and one more than its depth, or none and `0` when
there is no current candidate. There is none all through the seed callback, and all
through the visit callback of a popped candidate `u` the current candidate is `u`. -/
theorem DiskstraState.Look_pushes_candidate [LinearOrder Dist] [DecidableEq Node]
    (H : StdHeap (DistUpdate Node Dist) DistUpdate.lt) (st : DiskstraState Node Dist)
    (n : Node) (d : Dist) (hheap : IsHeap DistUpdate.lt st.queue_) :
    (∃ c : DistUpdate Node Dist,
      (DiskstraState.Look H st n d).queue_.Perm (c :: st.queue_) ∧
      (DiskstraState.Look H st n d).distances_ = st.distances_ ∧
      (DiskstraState.Look H st n d).current_ = st.current_ ∧
      c.node = n ∧ c.dist = d ∧
      (∀ cur, st.current_ = some cur → c.parent = some cur.node ∧ c.depth = cur.depth + 1) ∧
      (st.current_ = none → c.parent = none ∧ c.depth = 0)) ∧
    (∀ looks : List (Node × Dist),
      (DiskstraState.LookAll H (DiskstraState.init : DiskstraState Node Dist) looks).current_ =
        none) ∧
    (∀ (st0 : DiskstraState Node Dist) (u : DistUpdate Node Dist)
      (rest : List (DistUpdate Node Dist)) (looks : List (Node × Dist)),
      (DiskstraState.LookAll H (st0.finalize u rest) looks).current_ = some u) := by
  refine ⟨⟨st.candidate n d, (DiskstraState.Push_spec H st _ hheap).1, rfl, rfl, rfl, rfl,
    ?_, ?_⟩, ?_, ?_⟩
  · intro cur hcur
    simp [DiskstraState.candidate, DiskstraState.Depth, hcur]
  · intro hcur
    simp [DiskstraState.candidate, DiskstraState.Depth, hcur]
  · intro looks
    rw [DiskstraState.dij_lookAll_current]
    rfl
  · intro st0 u rest looks
    rw [DiskstraState.dij_lookAll_current]
    rfl

/-- Witness for C13: the first `Look` of a seed callback, on the empty queue. -/
theorem DiskstraState.Look_pushes_candidate_witness :
    IsHeap DistUpdate.lt (DiskstraState.init : DiskstraState (Fin 3) Int).queue_ ∧
    ∃ c : DistUpdate (Fin 3) Int,
      (DiskstraState.Look (sortHeap (Fin 3) Int) DiskstraState.init 0 0).queue_.Perm
        (c :: (DiskstraState.init : DiskstraState (Fin 3) Int).queue_) ∧
      c.node = 0 ∧ c.dist = 0 ∧ c.parent = none ∧ c.depth = 0 :=
  ⟨isHeap_nil _, by
    obtain ⟨⟨c, h1, -, -, h2, h3, -, h4⟩, -⟩ := DiskstraState.Look_pushes_candidate
      (sortHeap (Fin 3) Int) (DiskstraState.init : DiskstraState (Fin 3) Int) 0 0
      (isHeap_nil _)
    exact ⟨c, h1, h2, h3, h4 rfl⟩⟩

/-- Counterexample to C17 as stated: `DijkstraFrom(0, 5, visit)` finalizes the start node
at distance `5`, while the run seeded with `Look(0, 0)` finalizes it at `0`. -/
theorem DijkstraFrom_zero_counterexample :
    ∃ res res', DijkstraFrom (sortHeap (Fin 3) Int) 0 5 (graphVisit exampleEdges) 4 () =
        some (res, ()) ∧
      Dijkstra (sortHeap (Fin 3) Int) (fun s => ([((0 : Fin 3), (0 : Int))], s))
        (graphVisit exampleEdges) 4 () = some (res', ()) ∧
      res 0 = some 5 ∧ res' 0 = some 0 :=
  ⟨_, _, rfl, rfl, rfl, rfl⟩

/-- C17, amended: `DijkstraFrom(start, dist, visit)` is `Dijkstra` with the seed callback
that issues the one call `Look(start, dist)`; when the run completes, the start node is
finalized with distance `dist` and the first invocation of the visit callback is for
`(start, dist)`. -/
theorem DijkstraFrom_spec [LinearOrder Dist] [DecidableEq Node]
    (H : StdHeap (DistUpdate Node Dist) DistUpdate.lt) (start : Node) (dist : Dist)
    (visit : Int → Option Node → σ → Node → Dist → List (Node × Dist) × σ)
    (steps : Nat) (s0 : σ) (st : DiskstraState Node Dist) (s : σ)
    (h : DiskstraState.Run H (fun s => ([(start, dist)], s)) visit steps s0 = some (st, s)) :
    DijkstraFrom H start dist visit steps s0 =
      Dijkstra H (fun s => ([(start, dist)], s)) visit steps s0 ∧
    Dijkstra H (fun s => ([(start, dist)], s)) visit steps s0 = some (st.distances_, s) ∧
    st.distances_ start = some dist ∧
    ∃ c, (DijkstraEvent.visitsOf st.log.reverse).head? = some c ∧
      c.node = start ∧ c.dist = dist := by
  let c0 : DistUpdate Node Dist := (DiskstraState.init : DiskstraState Node Dist).candidate
    start dist
  have hc0n : c0.node = start := rfl
  have hc0d : c0.dist = dist := rfl
  let P : DiskstraState Node Dist → Prop := fun st =>
    DijInv st ∧ ((st.queue_.Perm [c0] ∧ (∀ n, st.distances_ n = none) ∧
      DijkstraEvent.visitsOf st.log = []) ∨
      (DijkstraEvent.visitsOf st.log).getLast? = some c0)
  have hI1 : DijInv (DiskstraState.LookAll H (DiskstraState.init : DiskstraState Node Dist)
      [(start, dist)]) := DijInv.dij_lookAll H _ _ DijInv.dij_init
  have hinit : P (DiskstraState.LookAll H (DiskstraState.init : DiskstraState Node Dist)
      [(start, dist)]) := by
    refine ⟨hI1, Or.inl ⟨?_, fun _ => rfl, rfl⟩⟩
    exact (DiskstraState.Push_spec H _ c0 (isHeap_nil _)).1
  have hfinal : P st ∧ st.queue_ = [] := by
    refine DiskstraState.dij_loop_rule H visit P (fun _ h => h.1.heap) ?_ ?_ steps _ _ st s
      hinit h
    · intro st s u rest hP hperm hrest _ hd
      have hI3 := hP.1.dij_finalize u rest hperm hrest hd
      obtain ⟨-, -, h3, -⟩ := DiskstraState.dij_lookAll_ext H
        (visit u.depth u.parent s u.node u.dist).1 _ hI3
      have hv3 : DijkstraEvent.visitsOf (st.finalize u rest).log =
          u :: DijkstraEvent.visitsOf st.log := by
        simp [DiskstraState.finalize, DijkstraEvent.visitsOf, List.filterMap_cons]
      refine ⟨DijInv.dij_lookAll H _ _ hI3, Or.inr ?_⟩
      rw [h3, hv3]
      rcases hP.2 with ⟨hq, -, hv⟩ | hlast
      · have := List.perm_singleton.mp (hperm.trans hq)
        simp only [List.cons.injEq] at this
        rw [hv, this.1]
        rfl
      · rcases hl : DijkstraEvent.visitsOf st.log with _ | ⟨a, l⟩
        · rw [hl] at hlast
          cases hlast
        · rw [hl] at hlast
          rw [List.getLast?_cons_cons]
          exact hlast
    · intro st u rest d hP hperm hrest _ hd
      refine ⟨hP.1.dij_discard u rest d hperm hrest hd, Or.inr ?_⟩
      have hv2 : DijkstraEvent.visitsOf (st.discard u rest).log =
          DijkstraEvent.visitsOf st.log := by
        simp [DiskstraState.discard, DijkstraEvent.visitsOf, List.filterMap_cons]
      rw [hv2]
      rcases hP.2 with ⟨-, hnone, -⟩ | hlast
      · rw [hnone] at hd
        cases hd
      · exact hlast
  obtain ⟨⟨hI, hQ⟩, hq⟩ := hfinal
  have hlast : (DijkstraEvent.visitsOf st.log).getLast? = some c0 := by
    rcases hQ with ⟨hperm, -, -⟩ | hlast
    · rw [hq] at hperm
      exact absurd hperm.length_eq (by simp)
    · exact hlast
  refine ⟨rfl, by simp [Dijkstra, h], ?_, c0, ?_, hc0n, hc0d⟩
  · exact (hI.dist_visit start dist).mpr ⟨c0, List.mem_of_getLast?_eq_some hlast, hc0n, hc0d⟩
  · have hrev : DijkstraEvent.visitsOf st.log.reverse =
        (DijkstraEvent.visitsOf st.log).reverse := by
      simp [DijkstraEvent.visitsOf, List.filterMap_reverse]
    rw [hrev, List.head?_reverse]
    exact hlast

/-- Witness for C17: the run on `exampleEdges` from node `0` offered at distance `5`. -/
theorem DijkstraFrom_spec_witness :
    ∃ st, DiskstraState.Run (sortHeap (Fin 3) Int) (fun s => ([((0 : Fin 3), (5 : Int))], s))
        (graphVisit exampleEdges) 4 () = some (st, ()) ∧
      DijkstraFrom (sortHeap (Fin 3) Int) 0 5 (graphVisit exampleEdges) 4 () =
        Dijkstra (sortHeap (Fin 3) Int) (fun s => ([((0 : Fin 3), (5 : Int))], s))
          (graphVisit exampleEdges) 4 () ∧
      Dijkstra (sortHeap (Fin 3) Int) (fun s => ([((0 : Fin 3), (5 : Int))], s))
        (graphVisit exampleEdges) 4 () = some (st.distances_, ()) ∧
      st.distances_ 0 = some 5 ∧
      ∃ c, (DijkstraEvent.visitsOf st.log.reverse).head? = some c ∧ c.node = 0 ∧ c.dist = 5 :=
  ⟨_, rfl, DijkstraFrom_spec (sortHeap (Fin 3) Int) 0 5 (graphVisit exampleEdges) 4 () _ ()
    rfl⟩

theorem DFSState.enterNode_Parent [DecidableEq Node] (st : DFSState Node) (n : Node) :
    (st.enterNode n).Parent = st.Path.getLast? := by
  unfold DFSState.Parent DFSState.Path
  show (if (st.path_ ++ [n]).length < 2 then none
    else (st.path_ ++ [n]).get? ((st.path_ ++ [n]).length - 2)) = st.path_.getLast?
  rcases List.eq_nil_or_concat st.path_ with h | ⟨l, a, h⟩
  · rw [h]
    rfl
  · rw [h, List.concat_eq_append]
    have hlen : ¬ (l ++ [a] ++ [n]).length < 2 := by simp
    rw [if_neg hlen, List.getLast?_concat]
    have hidx : (l ++ [a] ++ [n]).length - 2 = l.length := by simp
    rw [hidx, List.get?_eq_getElem?, List.append_assoc, List.getElem?_append_right (le_refl _)]
    simp

/-- C14: the seed callback starts with an empty path. In every state in which callback
code of a DFS run can be running, `Depth()` is the length of `Path()` minus one, and on
an empty path it is `-1` and `Parent()` is none. The visit callback of a new node `n`
is invoked by `Look(n)` with the path of the caller extended by `n`, so with a depth one
more than the caller's and with the last node of the caller's path as parent (none when
the caller's path is empty, as in the seed callback). A `Look` that returns leaves
`Path()`, `Depth()` and `Parent()` as they were. -/
theorem DFS_handle_path [DecidableEq Node] (visit : List Node → σ → Node → DFSProg Node σ)
    (st : DFSState Node) (hst : DFSReach visit st) :
    (DFSState.init : DFSState Node).Path = [] ∧
    st.Depth = (st.Path.length : Int) - 1 ∧
    (st.Path = [] → st.Depth = -1 ∧ st.Parent = none) ∧
    (∀ depth s n, st.enter_times_ n = none →
      DFSState.Look visit (depth + 1) st s n =
        (match DFSState.runProg (DFSState.Look visit depth) (st.enterNode n)
            (visit (st.enterNode n).Path s n) with
          | none => none
          | some (st2, s2) => some (DFSEdge.kTree, st2.leaveNode n, s2)) ∧
      (st.enterNode n).Path = st.Path ++ [n] ∧
      (st.enterNode n).Depth = st.Depth + 1 ∧
      (st.enterNode n).Parent = st.Path.getLast?) ∧
    (∀ depth s n e st' s', DFSState.Look visit depth st s n = some (e, st', s') →
      st'.Path = st.Path ∧ st'.Depth = st.Depth ∧ st'.Parent = st.Parent) := by
  refine ⟨rfl, rfl, ?_, ?_, ?_⟩
  · intro hp
    change st.path_ = [] at hp
    simp [DFSState.Depth, DFSState.Parent, hp]
  · intro depth s n hn
    refine ⟨DFSState.dfs_Look_new_succ visit depth st s n hn, rfl, ?_,
      DFSState.enterNode_Parent st n⟩
    simp only [DFSState.Depth, DFSState.enterNode, List.length_append, List.length_singleton]
    push_cast
    ring
  · intro depth s n e st' s' hl
    obtain ⟨-, hE⟩ := DFSState.dfs_Look_inv visit depth st s n e st' s' hst.dfs_inv hl
    have hp : st'.path_ = st.path_ := hE.path_eq
    simp [DFSState.Path, DFSState.Depth, DFSState.Parent, hp]

/-- Witness for C14: the state in which the visit of node `0`, looked at by the seed
callback, starts. -/
theorem DFS_handle_path_witness :
    DFSReach exampleDFSVisit ((DFSState.init : DFSState Nat).enterNode 0) ∧
    ((DFSState.init : DFSState Nat).enterNode 0).Path = [0] ∧
    ((DFSState.init : DFSState Nat).enterNode 0).Depth = 0 ∧
    ((DFSState.init : DFSState Nat).enterNode 0).Parent = none ∧
    (((DFSState.init : DFSState Nat).enterNode 0).enterNode 1).Path = [0, 1] ∧
    (((DFSState.init : DFSState Nat).enterNode 0).enterNode 1).Depth = 1 ∧
    (((DFSState.init : DFSState Nat).enterNode 0).enterNode 1).Parent = some 0 :=
  ⟨DFSReach.enter _ 0 DFSReach.init rfl, rfl, rfl, rfl,
    ((DFS_handle_path exampleDFSVisit _ (DFSReach.enter _ 0 DFSReach.init rfl)).2.2.2.1
      0 () 1 rfl).2.1,
    rfl,
    ((DFS_handle_path exampleDFSVisit _ (DFSReach.enter _ 0 DFSReach.init rfl)).2.2.2.1
      0 () 1 rfl).2.2.2⟩

/-- Counterexample to C11 as stated: on the graph `0 → 1, 0 → 2, 1 → 2` seeded with `0`,
the `Look(1)` issued by the visit of `0` returns Tree, not Tight, although the returned
depth of `1` is exactly one more than that of `0`. -/
theorem BFS_tight_iff_counterexample :
    ∃ res rec, BFS (fun _ s => BFSProg.lookAll s [(0 : Fin 3)])
        (fun _ s u => BFSProg.lookRec u (exampleFinSucc u) s) 3 [] = some (res, rec) ∧
      rec = [(0, 1, BFSEdge.kTree), (0, 2, BFSEdge.kTree), (1, 2, BFSEdge.kLoose)] ∧
      res 0 = some 0 ∧ res 1 = some 1 :=
  ⟨_, _, rfl, rfl, rfl, rfl⟩

/-- One recorded `Look(v)` from the visit of `u` keeps the invariant of the records. -/
theorem BFSRecInv.bfs_rec_look [DecidableEq Node] {S : List Node} {st : BFSState Node}
    {s : List (Node × Node × BFSEdge)} (h : BFSRecInv S st s) (hI : BFSInv st)
    (u v : Node) (hu : st.depths_ u = some st.depth_) :
    ∃ e st', st.Look v = some (e, st') ∧ BFSInv st' ∧ BFSExt st st' ∧
      BFSRecInv S st' (s ++ [(u, v, e)]) := by
  have hsplit : ∀ (x : Node × Node × BFSEdge) (pre post : List (Node × Node × BFSEdge))
      (r : Node × Node × BFSEdge), s ++ [x] = pre ++ r :: post →
      (post = [] ∧ pre = s ∧ r = x) ∨ ∃ post', post = post' ++ [x] ∧ s = pre ++ r :: post' := by
    intro x pre post r heq
    rcases List.eq_nil_or_concat post with hp | ⟨post', y, hp⟩
    · subst hp
      have := List.append_inj' heq rfl
      simp only [List.cons.injEq, and_true] at this
      exact Or.inl ⟨rfl, this.1.symm, this.2.symm⟩
    · rw [List.concat_eq_append] at hp
      subst hp
      have heq' : s ++ [x] = (pre ++ r :: post') ++ [y] := by
        rw [heq]
        simp
      have := List.append_inj' heq' rfl
      simp only [List.cons.injEq, and_true] at this
      exact Or.inr ⟨post', by rw [this.2], this.1⟩
  rcases hv : st.depths_ v with _ | d
  · have huv : u ≠ v := by
      rintro rfl
      rw [hv] at hu
      cases hu
    obtain ⟨hI', hE'⟩ := hI.bfs_discover v hv
    have hdv : (st.discover v).depths_ v = some (st.depth_ + 1) := by
      simp [BFSState.discover]
    refine ⟨_, _, BFSState.bfs_Look_new st v hv, hI', hE', ?_, ?_, ?_⟩
    · intro r hr
      rw [List.mem_append, List.mem_singleton] at hr
      rcases hr with hr | rfl
      · obtain ⟨du, dv, h1, h2, h3⟩ := h.classes r hr
        exact ⟨du, dv, hE'.depths_mono _ _ h1, hE'.depths_mono _ _ h2, h3⟩
      · refine ⟨st.depth_, st.depth_ + 1, hE'.depths_mono _ _ hu, hdv, ?_, ?_⟩
        · simp
        · simp
    · intro n
      by_cases hnv : n = v
      · subst hnv
        constructor
        · intro _
          exact Or.inr ⟨(u, n, BFSEdge.kTree), by simp, rfl⟩
        · intro _
          exact ⟨_, hdv⟩
      · have hdn : (st.discover v).depths_ n = st.depths_ n := by
          simp [BFSState.discover, hnv]
        rw [hdn, h.discovered n]
        constructor
        · rintro (h1 | ⟨r, hr, hrn⟩)
          · exact Or.inl h1
          · exact Or.inr ⟨r, List.mem_append_left _ hr, hrn⟩
        · rintro (h1 | ⟨r, hr, hrn⟩)
          · exact Or.inl h1
          · rw [List.mem_append, List.mem_singleton] at hr
            rcases hr with hr | rfl
            · exact Or.inr ⟨r, hr, hrn⟩
            · exact absurd hrn.symm hnv
    · intro pre post r heq
      rcases hsplit _ pre post r heq with ⟨-, rfl, rfl⟩ | ⟨post', -, hs⟩
      · have hnone : ¬ (v ∈ S ∨ ∃ r ∈ pre, r.2.1 = v) := by
          rw [← h.discovered v, hv]
          simp
        simp only [true_iff]
        refine ⟨fun hS => hnone (Or.inl hS), fun r' hr' hn => hnone (Or.inr ⟨r', hr', hn⟩)⟩
      · exact h.tree_first pre post' r hs
  · have hold : ∀ e, e ≠ BFSEdge.kTree → (e = BFSEdge.kLoose ↔ d ≤ st.depth_) →
        ((e = BFSEdge.kTight ∨ e = BFSEdge.kTree) ↔ d = st.depth_ + 1) →
        BFSRecInv S (st.noteLook v) (s ++ [(u, v, e)]) := by
      intro e hne h1 h2
      refine ⟨?_, ?_, ?_⟩
      · intro r hr
        rw [List.mem_append, List.mem_singleton] at hr
        rcases hr with hr | rfl
        · exact h.classes r hr
        · exact ⟨st.depth_, d, hu, hv, h1, h2⟩
      · intro n
        show (∃ d, st.depths_ n = some d) ↔ _
        rw [h.discovered n]
        constructor
        · rintro (h1 | ⟨r, hr, hrn⟩)
          · exact Or.inl h1
          · exact Or.inr ⟨r, List.mem_append_left _ hr, hrn⟩
        · rintro (h1 | ⟨r, hr, hrn⟩)
          · exact Or.inl h1
          · rw [List.mem_append, List.mem_singleton] at hr
            rcases hr with hr | rfl
            · exact Or.inr ⟨r, hr, hrn⟩
            · exact (h.discovered n).mp ⟨d, by rw [← hrn]; exact hv⟩
      · intro pre post r heq
        rcases hsplit _ pre post r heq with ⟨-, rfl, rfl⟩ | ⟨post', -, hs⟩
        · have hsome : v ∈ S ∨ ∃ r ∈ pre, r.2.1 = v := (h.discovered v).mp ⟨d, hv⟩
          constructor
          · intro he
            exact absurd he hne
          · rintro ⟨h1, h2⟩
            rcases hsome with h3 | ⟨r', hr', hn⟩
            · exact absurd h3 h1
            · exact absurd hn (h2 r' hr')
        · exact h.tree_first pre post' r hs
    obtain ⟨hI', hE'⟩ := hI.bfs_noteLook v d hv
    rw [BFSState.bfs_Look_old st v d hv]
    by_cases h1 : d = st.depth_ + 1
    · rw [if_pos h1]
      refine ⟨_, _, rfl, hI', hE', hold _ (by simp) ?_ ?_⟩
      · simp only [reduceCtorEq, false_iff, not_le]
        omega
      · simp [h1]
    · have := (hI.depth_bound v d hv).2
      rw [if_neg h1, if_pos (by omega)]
      refine ⟨_, _, rfl, hI', hE', hold _ (by simp) ?_ ?_⟩
      · simp only [true_iff]
        omega
      · simp [h1]

/-- What the recording body `lookRec u vs s` does in a state of the visit of `u`. -/
theorem BFSState.bfs_lookRec_spec [DecidableEq Node] (S : List Node) (u : Node) :
    ∀ (vs : List Node) (st : BFSState Node) (s : List (Node × Node × BFSEdge)),
      BFSInv st → st.depths_ u = some st.depth_ → BFSRecInv S st s →
      ∃ st' s', st.runProg (BFSProg.lookRec u vs s) = some (st', s') ∧ BFSInv st' ∧
        BFSExt st st' ∧ BFSRecInv S st' s' ∧
        ∀ a b, (∃ e, (a, b, e) ∈ s') ↔ (∃ e, (a, b, e) ∈ s) ∨ (a = u ∧ b ∈ vs) := by
  intro vs
  induction vs with
  | nil =>
    intro st s hI _ hR
    exact ⟨st, s, rfl, hI, BFSExt.bfs_refl st, hR, by simp⟩
  | cons v vs ih =>
    intro st s hI hu hR
    obtain ⟨e, st1, hl, hI1, hE1, hR1⟩ := hR.bfs_rec_look hI u v hu
    have hu1 : st1.depths_ u = some st1.depth_ := by
      rw [hE1.depth_eq]
      exact hE1.depths_mono u _ hu
    obtain ⟨st2, s2, hr, hI2, hE2, hR2, hrec⟩ := ih st1 _ hI1 hu1 hR1
    refine ⟨st2, s2, ?_, hI2, hE1.bfs_trans hE2, hR2, ?_⟩
    · simp only [BFSProg.lookRec, BFSState.runProg, hl]
      exact hr
    · intro a b
      rw [hrec a b]
      constructor
      · rintro (⟨e', he'⟩ | ⟨ha, hb⟩)
        · rw [List.mem_append, List.mem_singleton] at he'
          rcases he' with he' | he'
          · exact Or.inl ⟨e', he'⟩
          · simp only [Prod.mk.injEq] at he'
            exact Or.inr ⟨he'.1, by rw [he'.2.1]; exact List.mem_cons_self _ _⟩
        · exact Or.inr ⟨ha, List.mem_cons_of_mem _ hb⟩
      · rintro (⟨e', he'⟩ | ⟨ha, hb⟩)
        · exact Or.inl ⟨e', List.mem_append_left _ he'⟩
        · rw [List.mem_cons] at hb
          rcases hb with rfl | hb
          · exact Or.inl ⟨e, by rw [ha]; simp⟩
          · exact Or.inr ⟨ha, hb⟩

/-- The loop of a recording run keeps the invariant of the records, and when it ends the
records are the edges that leave visited nodes. -/
theorem BFSState.bfs_loop_rec [DecidableEq Node] (succ : Node → List Node) (S : List Node) :
    ∀ (steps : Nat) (st : BFSState Node) (s : List (Node × Node × BFSEdge))
      (st' : BFSState Node) (s' : List (Node × Node × BFSEdge)),
      BFSInv st → BFSRecInv S st s →
      (∀ a b, (∃ e, (a, b, e) ∈ s) ↔ a ∈ st.visited ∧ b ∈ succ a) →
      BFSState.loop (fun _ s u => BFSProg.lookRec u (succ u) s) steps st s = some (st', s') →
      BFSInv st' ∧ st'.queue_ = [] ∧ BFSRecInv S st' s' ∧
        ∀ a b, (∃ e, (a, b, e) ∈ s') ↔ a ∈ st'.visited ∧ b ∈ succ a := by
  intro steps
  induction steps with
  | zero =>
    intro st s st' s' hI hR h4 hl
    rcases hq : st.queue_ with _ | ⟨node, rest⟩
    · rw [BFSState.bfs_loop_nil _ 0 st s hq] at hl
      simp only [Option.some.injEq, Prod.mk.injEq] at hl
      obtain ⟨rfl, rfl⟩ := hl
      exact ⟨hI, hq, hR, h4⟩
    · rw [BFSState.bfs_loop_cons_zero _ st s node rest hq] at hl
      cases hl
  | succ steps ih =>
    intro st s st' s' hI hR h4 hl
    rcases hq : st.queue_ with _ | ⟨node, rest⟩
    · rw [BFSState.bfs_loop_nil _ _ st s hq] at hl
      simp only [Option.some.injEq, Prod.mk.injEq] at hl
      obtain ⟨rfl, rfl⟩ := hl
      exact ⟨hI, hq, hR, h4⟩
    · obtain ⟨⟨d, hd⟩, -⟩ := hI.queue_mem node (by rw [hq]; exact List.mem_cons_self _ _)
      rw [BFSState.bfs_loop_cons_succ _ steps st s node rest d hq hd] at hl
      have hI1 := hI.bfs_dequeue node rest d hq hd
      have hR1 : BFSRecInv S (st.dequeue node rest d) s :=
        ⟨hR.classes, hR.discovered, hR.tree_first⟩
      obtain ⟨st2, s2, hr, hI2, hE2, hR2, hrec⟩ :=
        BFSState.bfs_lookRec_spec S node (succ node) _ s hI1 hd hR1
      simp only [hr] at hl
      refine ih st2 s2 st' s' hI2 hR2 ?_ hl
      intro a b
      have hv1 : (st.dequeue node rest d).visited = node :: st.visited := by
        simp [BFSState.visited, BFSState.dequeue, List.filterMap_cons]
      rw [hrec a b, h4 a b, hE2.visited_eq, hv1, List.mem_cons]
      constructor
      · rintro (⟨ha, hb⟩ | ⟨ha, hb⟩)
        · exact ⟨Or.inr ha, hb⟩
        · exact ⟨Or.inl ha, by rw [ha]; exact hb⟩
      · rintro ⟨ha | ha, hb⟩
        · exact Or.inr ⟨ha, by rw [← ha]; exact hb⟩
        · exact Or.inl ⟨ha, hb⟩

/-- C11, amended: in a completed BFS run over a graph in which the visit of `u` looks at
every successor of `u` and records the class of each `Look`, the records are the edges
that leave the nodes of the returned map; the class of an edge is Loose iff the returned
depth of its target is at most that of its source, and Tight or Tree iff it is exactly one
more; it is Tree iff no seed and no earlier record names the target. -/
theorem BFS_edge_classes [DecidableEq Node] (succ : Node → List Node) (S : List Node)
    (steps : Nat) (res : Node → Option Int) (rec : List (Node × Node × BFSEdge))
    (h : BFS (fun _ s => BFSProg.lookAll s S) (fun _ s u => BFSProg.lookRec u (succ u) s)
      steps [] = some (res, rec)) :
    (∀ u v, (∃ e, (u, v, e) ∈ rec) ↔ (∃ d, res u = some d) ∧ v ∈ succ u) ∧
    (∀ u v e, (u, v, e) ∈ rec → ∃ du dv, res u = some du ∧ res v = some dv ∧
      (e = BFSEdge.kLoose ↔ dv ≤ du) ∧
      ((e = BFSEdge.kTight ∨ e = BFSEdge.kTree) ↔ dv = du + 1)) ∧
    (∀ pre post u v e, rec = pre ++ (u, v, e) :: post →
      (e = BFSEdge.kTree ↔ v ∉ S ∧ ∀ r ∈ pre, r.2.1 ≠ v)) := by
  unfold BFS at h
  rcases hrun : BFSState.Run (fun _ s => BFSProg.lookAll s S)
      (fun _ s u => BFSProg.lookRec u (succ u) s) steps [] with _ | ⟨st, s⟩
  · simp [hrun] at h
  simp only [hrun, Option.some.injEq, Prod.mk.injEq] at h
  obtain ⟨rfl, rfl⟩ := h
  unfold BFSState.Run at hrun
  obtain ⟨st1, hr, hI1, hE1, hall, hnew⟩ := BFSState.bfs_lookAll_spec
    ([] : List (Node × Node × BFSEdge)) S (BFSState.init : BFSState Node) BFSInv.bfs_init
  simp only [BFSState.Depth, hr] at hrun
  have hR1 : BFSRecInv S st1 [] := by
    refine ⟨by simp, ?_, ?_⟩
    · intro n
      simp only [List.not_mem_nil, false_and, exists_false, or_false]
      constructor
      · rintro ⟨d, hd⟩
        exact hnew n d hd rfl
      · exact hall n
    · intro pre post r heq
      simp at heq
  have h41 : ∀ a b, (∃ e, (a, b, e) ∈ ([] : List (Node × Node × BFSEdge))) ↔
      a ∈ st1.visited ∧ b ∈ succ a := by
    intro a b
    rw [hE1.visited_eq]
    simp [BFSState.visited, BFSState.init]
  obtain ⟨hI, hq, hR, h4⟩ := BFSState.bfs_loop_rec succ S steps st1 [] st s hI1 hR1 h41 hrun
  refine ⟨?_, ?_, ?_⟩
  · intro u v
    rw [h4 u v]
    have : u ∈ st.visited ↔ ∃ d, st.depths_ u = some d := by
      constructor
      · intro hu
        obtain ⟨d, hd⟩ := (st.bfs_mem_visited u).mp hu
        exact ⟨d, hI.visit_depth u d hd⟩
      · rintro ⟨d, hd⟩
        rcases hI.disc u d hd with h1 | h1
        · rw [hq] at h1
          cases h1
        · exact h1
    rw [this]
  · intro u v e he
    exact hR.classes (u, v, e) he
  · intro pre post u v e heq
    exact hR.tree_first pre post (u, v, e) heq

/-- Witness for C11: the recording run on `exampleFinSucc` seeded with `0`. -/
theorem BFS_edge_classes_witness :
    ∃ res rec, BFS (fun _ s => BFSProg.lookAll s [(0 : Fin 3)])
        (fun _ s u => BFSProg.lookRec u (exampleFinSucc u) s) 3 [] = some (res, rec) ∧
      (∀ u v, (∃ e, (u, v, e) ∈ rec) ↔ (∃ d, res u = some d) ∧ v ∈ exampleFinSucc u) ∧
      (∀ u v e, (u, v, e) ∈ rec → ∃ du dv, res u = some du ∧ res v = some dv ∧
        (e = BFSEdge.kLoose ↔ dv ≤ du) ∧
        ((e = BFSEdge.kTight ∨ e = BFSEdge.kTree) ↔ dv = du + 1)) ∧
      (∀ pre post u v e, rec = pre ++ (u, v, e) :: post →
        (e = BFSEdge.kTree ↔ v ∉ [(0 : Fin 3)] ∧ ∀ r ∈ pre, r.2.1 ≠ v)) :=
  ⟨_, _, rfl, BFS_edge_classes exampleFinSucc [0] 3 _ _ rfl⟩

theorem BFSEvent.firstLooks_snoc_look [DecidableEq Node] (n : Node) :
    ∀ (l : List (BFSEvent Node)) (seen : List Node),
      BFSEvent.firstLooks (l ++ [BFSEvent.look n]) seen =
        BFSEvent.firstLooks l seen ++
          (if n ∈ seen ∨ BFSEvent.look n ∈ l then [] else [n]) := by
  intro l
  induction l with
  | nil =>
    intro seen
    by_cases h : n ∈ seen <;> simp [BFSEvent.firstLooks, h]
  | cons ev l ih =>
    intro seen
    cases ev with
    | look m =>
      by_cases hm : m ∈ seen
      · have e1 : BFSEvent.firstLooks (BFSEvent.look m :: (l ++ [BFSEvent.look n])) seen =
            BFSEvent.firstLooks (l ++ [BFSEvent.look n]) seen := by
          simp [BFSEvent.firstLooks, hm]
        have e2 : BFSEvent.firstLooks (BFSEvent.look m :: l) seen =
            BFSEvent.firstLooks l seen := by
          simp [BFSEvent.firstLooks, hm]
        have hc : (n ∈ seen ∨ BFSEvent.look n ∈ BFSEvent.look m :: l) ↔
            (n ∈ seen ∨ BFSEvent.look n ∈ l) := by
          simp only [List.mem_cons, BFSEvent.look.injEq]
          constructor
          · rintro (h | rfl | h)
            · exact Or.inl h
            · exact Or.inl hm
            · exact Or.inr h
          · rintro (h | h)
            · exact Or.inl h
            · exact Or.inr (Or.inr h)
        rw [List.cons_append, e1, e2, ih seen, if_congr hc rfl rfl]
      · have e1 : BFSEvent.firstLooks (BFSEvent.look m :: (l ++ [BFSEvent.look n])) seen =
            m :: BFSEvent.firstLooks (l ++ [BFSEvent.look n]) (m :: seen) := by
          simp [BFSEvent.firstLooks, hm]
        have e2 : BFSEvent.firstLooks (BFSEvent.look m :: l) seen =
            m :: BFSEvent.firstLooks l (m :: seen) := by
          simp [BFSEvent.firstLooks, hm]
        have hc : (n ∈ seen ∨ BFSEvent.look n ∈ BFSEvent.look m :: l) ↔
            (n ∈ m :: seen ∨ BFSEvent.look n ∈ l) := by
          simp only [List.mem_cons, BFSEvent.look.injEq]
          constructor
          · rintro (h | h | h)
            · exact Or.inl (Or.inr h)
            · exact Or.inl (Or.inl h)
            · exact Or.inr h
          · rintro ((h | h) | h)
            · exact Or.inr (Or.inl h)
            · exact Or.inl h
            · exact Or.inr (Or.inr h)
        rw [List.cons_append, e1, e2, ih (m :: seen), if_congr hc rfl rfl, List.cons_append]
    | visit m d =>
      have hc : (n ∈ seen ∨ BFSEvent.look n ∈ BFSEvent.visit m d :: l) ↔
          (n ∈ seen ∨ BFSEvent.look n ∈ l) := by
        simp
      rw [List.cons_append, if_congr hc rfl rfl]
      exact ih seen

theorem BFSEvent.firstLooks_snoc_visit [DecidableEq Node] (n : Node) (d : Int) :
    ∀ (l : List (BFSEvent Node)) (seen : List Node),
      BFSEvent.firstLooks (l ++ [BFSEvent.visit n d]) seen = BFSEvent.firstLooks l seen := by
  intro l
  induction l with
  | nil => intro seen; rfl
  | cons ev l ih =>
    intro seen
    rw [List.cons_append]
    cases ev with
    | look m =>
      by_cases hm : m ∈ seen
      · simp only [BFSEvent.firstLooks, if_pos hm]
        exact ih seen
      · simp only [BFSEvent.firstLooks, if_neg hm]
        rw [ih (m :: seen)]
    | visit m d' =>
      simp only [BFSEvent.firstLooks]
      exact ih seen

/-- A `Look` that returns leaves one of the two states `discover` and `noteLook`. -/
theorem BFSState.bfs_Look_cases [DecidableEq Node] (st : BFSState Node) (n : Node)
    (e : BFSEdge) (st' : BFSState Node) (h : st.Look n = some (e, st')) :
    (st.depths_ n = none ∧ st' = st.discover n) ∨
    (∃ d, st.depths_ n = some d ∧ st' = st.noteLook n) := by
  rcases hn : st.depths_ n with _ | d
  · rw [BFSState.bfs_Look_new st n hn] at h
    simp only [Option.some.injEq, Prod.mk.injEq] at h
    exact Or.inl ⟨rfl, h.2.symm⟩
  · rw [BFSState.bfs_Look_old st n d hn] at h
    refine Or.inr ⟨d, rfl, ?_⟩
    split at h
    · simp only [Option.some.injEq, Prod.mk.injEq] at h
      exact h.2.symm
    · split at h
      · simp only [Option.some.injEq, Prod.mk.injEq] at h
        exact h.2.symm
      · cases h

/-- Induction over a callback body: what both outcomes of `Look` keep, the body keeps. -/
theorem BFSState.bfs_runProg_rule [DecidableEq Node] (P : BFSState Node → Prop)
    (hdisc : ∀ st n, P st → st.depths_ n = none → P (st.discover n))
    (hnote : ∀ st n d, P st → st.depths_ n = some d → P (st.noteLook n))
    (prog : BFSProg Node σ) :
    ∀ (st st' : BFSState Node) (s' : σ), P st → st.runProg prog = some (st', s') → P st' := by
  induction prog with
  | done s =>
    intro st st' s' hP h
    simp only [BFSState.runProg, Option.some.injEq, Prod.mk.injEq] at h
    rw [← h.1]
    exact hP
  | look n k ih =>
    intro st st' s' hP h
    simp only [BFSState.runProg] at h
    rcases hl : st.Look n with _ | ⟨e, st1⟩
    · simp [hl] at h
    · simp only [hl] at h
      refine ih e st1 st' s' ?_ h
      rcases BFSState.bfs_Look_cases st n e st1 hl with ⟨hn, rfl⟩ | ⟨d, hn, rfl⟩
      · exact hdisc st n hP hn
      · exact hnote st n d hP hn

/-- Induction over a run: what the fresh state has and the three kinds of step keep, the
final state of a completed run has. -/
theorem BFSState.bfs_Run_rule [DecidableEq Node] (start : Int → σ → BFSProg Node σ)
    (visit : Int → σ → Node → BFSProg Node σ) (P : BFSState Node → Prop)
    (hinit : P BFSState.init)
    (hdisc : ∀ st n, P st → st.depths_ n = none → P (st.discover n))
    (hnote : ∀ st n d, P st → st.depths_ n = some d → P (st.noteLook n))
    (hdeq : ∀ st node rest d, P st → st.queue_ = node :: rest → st.depths_ node = some d →
      P (st.dequeue node rest d))
    (steps : Nat) (s0 : σ) (st : BFSState Node) (s : σ)
    (h : BFSState.Run start visit steps s0 = some (st, s)) : P st := by
  have hloop : ∀ (steps : Nat) (st : BFSState Node) (s : σ) (st' : BFSState Node) (s' : σ),
      P st → BFSState.loop visit steps st s = some (st', s') → P st' := by
    intro steps
    induction steps with
    | zero =>
      intro st s st' s' hP hl
      rcases hq : st.queue_ with _ | ⟨node, rest⟩
      · rw [BFSState.bfs_loop_nil visit 0 st s hq] at hl
        simp only [Option.some.injEq, Prod.mk.injEq] at hl
        rw [← hl.1]
        exact hP
      · rw [BFSState.bfs_loop_cons_zero visit st s node rest hq] at hl
        cases hl
    | succ steps ih =>
      intro st s st' s' hP hl
      rcases hq : st.queue_ with _ | ⟨node, rest⟩
      · rw [BFSState.bfs_loop_nil visit _ st s hq] at hl
        simp only [Option.some.injEq, Prod.mk.injEq] at hl
        rw [← hl.1]
        exact hP
      · rcases hd : st.depths_ node with _ | d
        · rw [BFSState.loop] at hl
          simp [hq, hd] at hl
        · rw [BFSState.bfs_loop_cons_succ visit steps st s node rest d hq hd] at hl
          rcases hr : (st.dequeue node rest d).runProg (visit d s node) with _ | ⟨st2, s2⟩
          · simp [hr] at hl
          · simp only [hr] at hl
            exact ih st2 s2 st' s' (BFSState.bfs_runProg_rule P hdisc hnote _ _ st2 s2
              (hdeq st node rest d hP hq hd) hr) hl
  unfold BFSState.Run at h
  rcases hr : (BFSState.init : BFSState Node).runProg
      (start (BFSState.init : BFSState Node).Depth s0) with _ | ⟨st1, s1⟩
  · simp [hr] at h
  · simp only [hr] at h
    exact hloop steps st1 s1 st s
      (BFSState.bfs_runProg_rule P hdisc hnote _ _ st1 s1 hinit hr) h

theorem BFSEvent.mem_visitDepths (log : List (BFSEvent Node)) (d : Int) :
    d ∈ BFSEvent.visitDepths log ↔ ∃ n, BFSEvent.visit n d ∈ log := by
  unfold BFSEvent.visitDepths
  rw [List.mem_filterMap]
  constructor
  · rintro ⟨ev, hev, h⟩
    cases ev with
    | look m => cases h
    | visit m d' =>
      simp only [Option.some.injEq] at h
      subst h
      exact ⟨m, hev⟩
  · rintro ⟨n, hn⟩
    exact ⟨_, hn, rfl⟩

theorem BFSOrd.bfs_ord_init [DecidableEq Node] : BFSOrd (BFSState.init : BFSState Node) := by
  refine ⟨rfl, ?_, ?_⟩ <;> simp [BFSState.init, BFSEvent.visitDepths]

theorem BFSOrd.bfs_ord_discover [DecidableEq Node] {st : BFSState Node} (h : BFSOrd st)
    (hI : BFSInv st) (n : Node) (hn : st.depths_ n = none) : BFSOrd (st.discover n) := by
  have hv : (st.discover n).visited = st.visited := by
    simp [BFSState.visited, BFSState.discover, List.filterMap_cons]
  have hnl : ¬ (n ∈ ([] : List Node) ∨ BFSEvent.look n ∈ st.log.reverse) := by
    rw [List.mem_reverse, hI.look_iff n, hn]
    simp
  refine ⟨?_, ?_, ?_⟩
  · rw [hv]
    show BFSEvent.firstLooks (BFSEvent.look n :: st.log).reverse [] =
      st.visited.reverse ++ (st.queue_ ++ [n])
    rw [List.reverse_cons, BFSEvent.firstLooks_snoc_look, if_neg hnl, h.fifo,
      List.append_assoc]
  · intro k dk hk
    change BFSEvent.visit k dk ∈ BFSEvent.look n :: st.log at hk
    rw [List.mem_cons] at hk
    rcases hk with hk | hk
    · cases hk
    · exact h.visit_le k dk hk
  · have : BFSEvent.visitDepths (st.discover n).log = BFSEvent.visitDepths st.log := by
      simp [BFSEvent.visitDepths, BFSState.discover, List.filterMap_cons]
    rw [this]
    exact h.visit_sorted

theorem BFSOrd.bfs_ord_noteLook [DecidableEq Node] {st : BFSState Node} (h : BFSOrd st)
    (hI : BFSInv st) (n : Node) (d : Int) (hn : st.depths_ n = some d) :
    BFSOrd (st.noteLook n) := by
  have hv : (st.noteLook n).visited = st.visited := by
    simp [BFSState.visited, BFSState.noteLook, List.filterMap_cons]
  have hnl : n ∈ ([] : List Node) ∨ BFSEvent.look n ∈ st.log.reverse := by
    rw [List.mem_reverse, hI.look_iff n]
    exact Or.inr ⟨d, hn⟩
  refine ⟨?_, ?_, ?_⟩
  · rw [hv]
    show BFSEvent.firstLooks (BFSEvent.look n :: st.log).reverse [] =
      st.visited.reverse ++ st.queue_
    rw [List.reverse_cons, BFSEvent.firstLooks_snoc_look, if_pos hnl, h.fifo,
      List.append_nil]
  · intro k dk hk
    change BFSEvent.visit k dk ∈ BFSEvent.look n :: st.log at hk
    rw [List.mem_cons] at hk
    rcases hk with hk | hk
    · cases hk
    · exact h.visit_le k dk hk
  · have : BFSEvent.visitDepths (st.noteLook n).log = BFSEvent.visitDepths st.log := by
      simp [BFSEvent.visitDepths, BFSState.noteLook, List.filterMap_cons]
    rw [this]
    exact h.visit_sorted

theorem BFSOrd.bfs_ord_dequeue [DecidableEq Node] {st : BFSState Node} (h : BFSOrd st)
    (hI : BFSInv st) (node : Node) (rest : List Node) (d : Int)
    (hq : st.queue_ = node :: rest) (hd : st.depths_ node = some d) :
    BFSOrd (st.dequeue node rest d) := by
  have hv : (st.dequeue node rest d).visited = node :: st.visited := by
    simp [BFSState.visited, BFSState.dequeue, List.filterMap_cons]
  have hge : st.depth_ ≤ d :=
    hI.queue_ge node (by rw [hq]; exact List.mem_cons_self _ _) d hd
  refine ⟨?_, ?_, ?_⟩
  · rw [hv]
    show BFSEvent.firstLooks (BFSEvent.visit node d :: st.log).reverse [] =
      (node :: st.visited).reverse ++ rest
    rw [List.reverse_cons, BFSEvent.firstLooks_snoc_visit, h.fifo, hq, List.reverse_cons,
      List.append_assoc]
    rfl
  · intro k dk hk
    show dk ≤ d
    change BFSEvent.visit k dk ∈ BFSEvent.visit node d :: st.log at hk
    rw [List.mem_cons] at hk
    rcases hk with hk | hk
    · cases hk
      exact le_refl _
    · exact le_trans (h.visit_le k dk hk) hge
  · have : BFSEvent.visitDepths (st.dequeue node rest d).log =
        d :: BFSEvent.visitDepths st.log := by
      simp [BFSEvent.visitDepths, BFSState.dequeue, List.filterMap_cons]
    rw [this, List.pairwise_cons]
    refine ⟨?_, h.visit_sorted⟩
    intro b hb
    obtain ⟨k, hk⟩ := (BFSEvent.mem_visitDepths _ _).mp hb
    exact le_trans (h.visit_le k b hk) hge

/-- C12: in a completed BFS run the nodes were visited in the order in which a `Look`
first named them, and the depths of successive visits never decrease. -/
theorem BFS_fifo_order [DecidableEq Node] (start : Int → σ → BFSProg Node σ)
    (visit : Int → σ → Node → BFSProg Node σ) (steps : Nat) (s0 : σ)
    (st : BFSState Node) (s : σ) (h : BFSState.Run start visit steps s0 = some (st, s)) :
    st.visited.reverse = BFSEvent.firstLooks st.log.reverse [] ∧
    (BFSEvent.visitDepths st.log.reverse).Pairwise (fun a b => a ≤ b) := by
  have hP : BFSInv st ∧ BFSOrd st := by
    refine BFSState.bfs_Run_rule start visit (fun st => BFSInv st ∧ BFSOrd st)
      ⟨BFSInv.bfs_init, BFSOrd.bfs_ord_init⟩ ?_ ?_ ?_ steps s0 st s h
    · intro st n hP hn
      exact ⟨(hP.1.bfs_discover n hn).1, hP.2.bfs_ord_discover hP.1 n hn⟩
    · intro st n d hP hn
      exact ⟨(hP.1.bfs_noteLook n d hn).1, hP.2.bfs_ord_noteLook hP.1 n d hn⟩
    · intro st node rest d hP hq hd
      exact ⟨hP.1.bfs_dequeue node rest d hq hd, hP.2.bfs_ord_dequeue hP.1 node rest d hq hd⟩
  obtain ⟨-, hq⟩ := BFSState.bfs_Run_inv start visit steps s0 st s h
  refine ⟨?_, ?_⟩
  · rw [hP.2.fifo, hq, List.append_nil]
  · have hrev : BFSEvent.visitDepths st.log.reverse =
        (BFSEvent.visitDepths st.log).reverse := by
      simp [BFSEvent.visitDepths, List.filterMap_reverse]
    rw [hrev, List.pairwise_reverse]
    exact hP.2.visit_sorted

/-- Witness for C12: the run on `exampleSucc` seeded with `0`. -/
theorem BFS_fifo_order_witness :
    ∃ st, BFSState.Run (fun _ s => BFSProg.lookAll s [0]) (fun _ s u =>
        BFSProg.lookAll s (exampleSucc u)) 2 () = some (st, ()) ∧
      st.visited.reverse = [0, 1] ∧
      st.visited.reverse = BFSEvent.firstLooks st.log.reverse [] ∧
      (BFSEvent.visitDepths st.log.reverse).Pairwise (fun a b => a ≤ b) :=
  ⟨_, rfl, rfl, BFS_fifo_order (fun _ s => BFSProg.lookAll s [0]) (fun _ s u =>
    BFSProg.lookAll s (exampleSucc u)) 2 () _ () rfl⟩

theorem DFSInv.dfs_classify_some {st : DFSState Node} (hI : DFSInv st) (n : Node) :
    ∃ e, st.classify n = some e := by
  unfold DFSState.classify
  rcases hx : st.exit_times_ n with _ | x
  · exact ⟨_, rfl⟩
  rcases hp : st.path_.getLast? with _ | top
  · exact ⟨_, rfl⟩
  have hmem : top ∈ st.path_ := List.mem_of_getLast?_eq_some hp
  obtain ⟨⟨et, het⟩, -⟩ := (hI.path_open top).mp hmem
  simp only [het]
  by_cases hlt : x < et
  · exact ⟨_, if_pos hlt⟩
  · exact ⟨_, if_neg hlt⟩

theorem DFSExt.dfs_unentered_le [Fintype Node] {st st' : DFSState Node} (h : DFSExt st st') :
    st'.unentered ≤ st.unentered := by
  apply Finset.card_le_card
  intro k
  simp only [Finset.mem_filter, Finset.mem_univ, true_and]
  intro hk
  rcases hk0 : st.enter_times_ k with _ | e
  · rfl
  · rw [h.enter_mono k e hk0] at hk
    cases hk

theorem DFSState.dfs_unentered_enter [Fintype Node] [DecidableEq Node] (st : DFSState Node)
    (n : Node) (hn : st.enter_times_ n = none) :
    (st.enterNode n).unentered + 1 ≤ st.unentered := by
  apply Finset.card_lt_card
  rw [Finset.ssubset_iff_of_subset]
  · refine ⟨n, by simp [hn], by simp [DFSState.enterNode]⟩
  · intro k
    simp only [Finset.mem_filter, Finset.mem_univ, true_and, DFSState.enterNode_enter]
    intro hk
    by_cases hkn : k = n
    · subst hkn
      exact hn
    · rw [if_neg hkn] at hk
      exact hk

/-- A callback body runs to its end when every `Look` it can issue does. -/
theorem DFSState.dfs_runProg_total [Fintype Node] [DecidableEq Node]
    (visit : List Node → σ → Node → DFSProg Node σ) (depth bound : Nat)
    (hlook : ∀ (st : DFSState Node) (s : σ) (n : Node), DFSInv st → st.unentered ≤ bound →
      ∃ e st' s', DFSState.Look visit depth st s n = some (e, st', s'))
    (prog : DFSProg Node σ) :
    ∀ st : DFSState Node, DFSInv st → st.unentered ≤ bound →
      ∃ st' s', DFSState.runProg (DFSState.Look visit depth) st prog = some (st', s') := by
  induction prog with
  | done s =>
    intro st _ _
    exact ⟨st, s, rfl⟩
  | look s n k ih =>
    intro st hI hb
    obtain ⟨e, st1, s1, hl⟩ := hlook st s n hI hb
    obtain ⟨hI1, hE1⟩ := DFSState.dfs_Look_inv visit depth st s n e st1 s1 hI hl
    obtain ⟨st2, s2, hr⟩ := ih e st1.Path s1 st1 hI1 (le_trans hE1.dfs_unentered_le hb)
    refine ⟨st2, s2, ?_⟩
    simp only [DFSState.runProg, hl]
    exact hr

/-- On a finite node type `Look` returns when the allowed nesting is at least the number
of nodes without an enter time, whatever the callbacks do. -/
theorem DFSState.dfs_Look_total [Fintype Node] [DecidableEq Node]
    (visit : List Node → σ → Node → DFSProg Node σ) :
    ∀ (depth : Nat) (st : DFSState Node) (s : σ) (n : Node), DFSInv st →
      st.unentered ≤ depth → ∃ e st' s', DFSState.Look visit depth st s n = some (e, st', s') := by
  intro depth
  induction depth with
  | zero =>
    intro st s n hI hb
    rcases hn : st.enter_times_ n with _ | t
    · have : 0 < st.unentered := by
        apply Finset.card_pos.mpr
        exact ⟨n, by simp [hn]⟩
      omega
    · obtain ⟨e, he⟩ := hI.dfs_classify_some n
      exact ⟨e, _, _, by rw [DFSState.dfs_Look_old visit 0 st s n t hn, he]⟩
  | succ depth ih =>
    intro st s n hI hb
    rcases hn : st.enter_times_ n with _ | t
    · rw [DFSState.dfs_Look_new_succ visit depth st s n hn]
      have hle := DFSState.dfs_unentered_enter st n hn
      obtain ⟨st2, s2, hr⟩ := DFSState.dfs_runProg_total visit depth depth
        (fun st s n hI hb => ih st s n hI hb) (visit (st.path_ ++ [n]) s n) _
        (hI.dfs_enter n hn) (by omega)
      exact ⟨DFSEdge.kTree, st2.leaveNode n, s2, by simp only [hr]⟩
    · obtain ⟨e, he⟩ := hI.dfs_classify_some n
      exact ⟨e, _, _, by rw [DFSState.dfs_Look_old visit _ st s n t hn, he]⟩

/-- On a finite node type a DFS run with an allowed nesting of at least the number of
nodes completes, whatever the callbacks do. -/
theorem DFSState.dfs_Run_total [Fintype Node] [DecidableEq Node]
    (start : List Node → σ → DFSProg Node σ)
    (visit : List Node → σ → Node → DFSProg Node σ) (depth : Nat) (s0 : σ)
    (hdepth : Fintype.card Node ≤ depth) :
    ∃ st s, DFSState.Run start visit depth s0 = some (st, s) := by
  have h0 : (DFSState.init : DFSState Node).unentered = Fintype.card Node := by
    simp [DFSState.unentered, DFSState.init, Finset.card_univ]
  exact DFSState.dfs_runProg_total visit depth depth
    (fun st s n hI hb => DFSState.dfs_Look_total visit depth st s n hI hb) _ _
    DFSInv.dfs_init (by omega)

theorem DiskstraState.dij_lookAll_looks_length [LinearOrder Dist]
    (H : StdHeap (DistUpdate Node Dist) DistUpdate.lt) (looks : List (Node × Dist)) :
    ∀ st : DiskstraState Node Dist,
      (DijkstraEvent.looksOf (DiskstraState.LookAll H st looks).log).length =
        (DijkstraEvent.looksOf st.log).length + looks.length := by
  induction looks with
  | nil => exact fun _ => rfl
  | cons l ls ih =>
    intro st
    rw [DiskstraState.LookAll_cons, ih]
    simp [DiskstraState.Look_eq, DijkstraEvent.looksOf, List.filterMap_cons]
    omega

/-- A completed run on a graph made as many `Look` calls as there are sources plus the
edges that leave the visited nodes. -/
theorem DiskstraState.dij_Run_count [LinearOrder Dist] [Add Dist] [Zero Dist]
    [DecidableEq Node] (H : StdHeap (DistUpdate Node Dist) DistUpdate.lt)
    (edges : Node → List (Node × Dist)) (S : List Node)
    (steps : Nat) (s0 : σ) (st : DiskstraState Node Dist) (s : σ)
    (h : DiskstraState.Run H (graphSeed S) (graphVisit edges) steps s0 = some (st, s)) :
    (DijkstraEvent.looksOf st.log).length =
      S.length + ((DijkstraEvent.visitsOf st.log).map (fun u => (edges u.node).length)).sum := by
  let P : DiskstraState Node Dist → Prop := fun st => DijInv st ∧
    (DijkstraEvent.looksOf st.log).length =
      S.length + ((DijkstraEvent.visitsOf st.log).map (fun u => (edges u.node).length)).sum
  have hinit : P (DiskstraState.LookAll H (DiskstraState.init : DiskstraState Node Dist)
      (graphSeed S s0 : List (Node × Dist) × σ).1) := by
    obtain ⟨-, -, h3, -⟩ := DiskstraState.dij_lookAll_ext H
      (graphSeed S s0 : List (Node × Dist) × σ).1
      (DiskstraState.init : DiskstraState Node Dist) DijInv.dij_init
    refine ⟨DijInv.dij_lookAll H _ _ DijInv.dij_init, ?_⟩
    rw [DiskstraState.dij_lookAll_looks_length, h3]
    simp [DiskstraState.init, DijkstraEvent.looksOf, DijkstraEvent.visitsOf, graphSeed]
  refine (DiskstraState.dij_loop_rule H (graphVisit edges) P (fun _ h => h.1.heap) ?_ ?_
    steps _ _ st s hinit h).1.2
  · intro st s u rest hP hperm hrest _ hd
    have hI3 := hP.1.dij_finalize u rest hperm hrest hd
    obtain ⟨-, -, h3, -⟩ := DiskstraState.dij_lookAll_ext H
      (graphVisit edges u.depth u.parent s u.node u.dist).1 _ hI3
    refine ⟨DijInv.dij_lookAll H _ _ hI3, ?_⟩
    rw [DiskstraState.dij_lookAll_looks_length, h3]
    have hl3 : DijkstraEvent.looksOf (st.finalize u rest).log =
        DijkstraEvent.looksOf st.log := by
      simp [DiskstraState.finalize, DijkstraEvent.looksOf, List.filterMap_cons]
    have hv3 : DijkstraEvent.visitsOf (st.finalize u rest).log =
        u :: DijkstraEvent.visitsOf st.log := by
      simp [DiskstraState.finalize, DijkstraEvent.visitsOf, List.filterMap_cons]
    rw [hl3, hv3, hP.2]
    simp [graphVisit]
    omega
  · intro st u rest d hP hperm hrest _ hd
    refine ⟨hP.1.dij_discard u rest d hperm hrest hd, ?_⟩
    have hl2 : DijkstraEvent.looksOf (st.discard u rest).log =
        DijkstraEvent.looksOf st.log := by
      simp [DiskstraState.discard, DijkstraEvent.looksOf, List.filterMap_cons]
    have hv2 : DijkstraEvent.visitsOf (st.discard u rest).log =
        DijkstraEvent.visitsOf st.log := by
      simp [DiskstraState.discard, DijkstraEvent.visitsOf, List.filterMap_cons]
    rw [hl2, hv2]
    exact hP.2

/-- C19: on a finite graph the graph-driven runs of the three engines complete. DFS does
with an allowed nesting of the number of nodes, BFS with as many steps as there are
nodes, and no node is visited twice; Dijkstra with as many steps as there are sources
and edges, and then every candidate pushed by a `Look` was popped once, and the number
of `Look` calls is the number of sources plus the edges that leave finalized nodes. -/
theorem graph_runs_terminate [Fintype Node] [DecidableEq Node] [LinearOrder Dist] [Add Dist]
    [Zero Dist] (H : StdHeap (DistUpdate Node Dist) DistUpdate.lt)
    (succ : Node → List Node) (edges : Node → List (Node × Dist)) (S : List Node) (s0 : σ)
    (depth bsteps dsteps : Nat) (hdepth : Fintype.card Node ≤ depth)
    (hbsteps : Fintype.card Node ≤ bsteps)
    (hdsteps : S.length + ∑ u : Node, (edges u).length ≤ dsteps) :
    (∃ res s, DFS (fun _ s => DFSProg.lookAll S s) (fun _ s u => DFSProg.lookAll (succ u) s)
      depth s0 = some (res, s)) ∧
    (∃ st s, BFSState.Run (fun _ s => BFSProg.lookAll s S)
      (fun _ s u => BFSProg.lookAll s (succ u)) bsteps s0 = some (st, s) ∧
      st.visited.Nodup) ∧
    (∃ st, DiskstraState.Run H (graphSeed S) (graphVisit edges) dsteps s0 = some (st, s0) ∧
      (DijkstraEvent.popsOf st.log).length = (DijkstraEvent.looksOf st.log).length ∧
      (DijkstraEvent.looksOf st.log).length =
        S.length + ∑ n in Finset.univ.filter (fun n => st.distances_ n ≠ none),
          (edges n).length) := by
  refine ⟨?_, ?_, ?_⟩
  · obtain ⟨st, s, hrun⟩ := DFSState.dfs_Run_total (fun _ s => DFSProg.lookAll S s)
      (fun _ s u => DFSProg.lookAll (succ u) s) depth s0 hdepth
    exact ⟨{ enter_times := st.enter_times_, exit_times := st.exit_times_ }, s,
      by simp only [DFS, hrun]⟩
  · obtain ⟨st, s, hrun⟩ := BFSState.bfs_Run_total (fun _ s => BFSProg.lookAll s S)
      (fun _ s u => BFSProg.lookAll s (succ u)) bsteps s0 hbsteps
    exact ⟨st, s, hrun, (BFSState.bfs_Run_inv _ _ bsteps s0 st s hrun).1.visited_nodup⟩
  · have hI0 := DijInv.dij_lookAll H (graphSeed S s0 : List (Node × Dist) × σ).1
      (DiskstraState.init : DiskstraState Node Dist) DijInv.dij_init
    obtain ⟨h1, h2, -⟩ := DiskstraState.dij_lookAll_ext H
      (graphSeed S s0 : List (Node × Dist) × σ).1
      (DiskstraState.init : DiskstraState Node Dist) DijInv.dij_init
    have hpot : (DiskstraState.LookAll H (DiskstraState.init : DiskstraState Node Dist)
        (graphSeed S s0 : List (Node × Dist) × σ).1).potential edges ≤ dsteps := by
      unfold DiskstraState.potential
      rw [h1, h2]
      simpa [DiskstraState.init, graphSeed] using hdsteps
    obtain ⟨st, hloop⟩ := DiskstraState.dij_loop_total H edges dsteps _ s0 hI0 hpot
    have hrun : DiskstraState.Run H (graphSeed S) (graphVisit edges) dsteps s0 =
        some (st, s0) := hloop
    obtain ⟨hI, hq⟩ := DiskstraState.dij_Run_inv H _ _ dsteps s0 st s0 hrun
    refine ⟨st, hrun, ?_, ?_⟩
    · have := hI.conserve.length_eq
      rw [hq, List.append_nil] at this
      exact this.symm
    · rw [DiskstraState.dij_Run_count H edges S dsteps s0 st s0 hrun]
      congr 1
      have hfin : Finset.univ.filter (fun n => st.distances_ n ≠ none) =
          ((DijkstraEvent.visitsOf st.log).map (fun u => u.node)).toFinset := by
        ext n
        simp only [Finset.mem_filter, Finset.mem_univ, true_and, List.mem_toFinset,
          List.mem_map]
        constructor
        · intro hn
          obtain ⟨d, hd⟩ := Option.ne_none_iff_exists'.mp hn
          obtain ⟨u, hu, hun, -⟩ := (hI.dist_visit n d).mp hd
          exact ⟨u, hu, hun⟩
        · rintro ⟨u, hu, hun⟩
          have := (hI.dist_visit n u.dist).mpr ⟨u, hu, hun, rfl⟩
          rw [this]
          simp
      rw [hfin, List.sum_toFinset _ hI.visit_nodup, List.map_map]
      rfl

/-- Witness for C19: the three-node example graphs, searched from node `0`. -/
theorem graph_runs_terminate_witness :
    Fintype.card (Fin 3) ≤ 3 ∧
    [(0 : Fin 3)].length + ∑ u : Fin 3, (exampleEdges u).length ≤ 4 ∧
    (∃ res s, DFS (fun _ s => DFSProg.lookAll [(0 : Fin 3)] s)
      (fun _ s u => DFSProg.lookAll (exampleFinSucc u) s) 3 () = some (res, s)) ∧
    (∃ st s, BFSState.Run (fun _ s => BFSProg.lookAll s [(0 : Fin 3)])
      (fun _ s u => BFSProg.lookAll s (exampleFinSucc u)) 3 () = some (st, s) ∧
      st.visited.Nodup) ∧
    (∃ st, DiskstraState.Run (sortHeap (Fin 3) Int) (graphSeed [0]) (graphVisit exampleEdges)
        4 () = some (st, ()) ∧
      (DijkstraEvent.popsOf st.log).length = (DijkstraEvent.looksOf st.log).length ∧
      (DijkstraEvent.looksOf st.log).length =
        [(0 : Fin 3)].length + ∑ n in Finset.univ.filter (fun n => st.distances_ n ≠ none),
          (exampleEdges n).length) :=
  ⟨by decide, by decide,
    graph_runs_terminate (sortHeap (Fin 3) Int) exampleFinSucc exampleEdges [0] () 3 3 4
      (by decide) (by decide) (by decide)⟩

/-- The run of `TestDFS`, evaluated. -/
theorem testDFS_eval :
    (DFS testDFSStart testDFSVisit 8 { edges := [], visits := [] }).map
        (fun r => (r.2, (List.finRange 8).map r.1.enter_times,
          (List.finRange 8).map r.1.exit_times)) =
      some (testDFSExpected,
        [some 0, some 1, some 2, some 3, some 8, some 9, some 10, some 12],
        [some 7, some 6, some 5, some 4, some 15, some 14, some 11, some 13]) := by
  decide!

/-- C15: the run of `TestDFS` (nodes `a, ..., h` numbered `0, ..., 7`) classifies the
edges, in the order of the calls, as `(a,b)`, `(b,c)`, `(c,d)` Tree, `(d,a)` Back, `(b,d)`,
`(a,c)` Forward, `(e,a)` Cross, `(e,f)`, `(f,g)`, `(f,h)` Tree; the visits report the depths
`0, 1, 2, 3, 0, 1, 2, 2` and the parents none, `a`, `b`, `c`, none, `e`, `f`, `f`; and the
result has the enter times `0, 1, 2, 3, 8, 9, 10, 12` and the exit times
`7, 6, 5, 4, 15, 14, 11, 13` for `a, ..., h`. -/
theorem TestDFS_run :
    ∃ res, DFS testDFSStart testDFSVisit 8 { edges := [], visits := [] } =
        some (res, testDFSExpected) ∧
      (List.finRange 8).map res.enter_times =
        [some 0, some 1, some 2, some 3, some 8, some 9, some 10, some 12] ∧
      (List.finRange 8).map res.exit_times =
        [some 7, some 6, some 5, some 4, some 15, some 14, some 11, some 13] := by
  have h := testDFS_eval
  cases hr : DFS testDFSStart testDFSVisit 8 { edges := [], visits := [] } with
  | none => rw [hr] at h; exact absurd h (by simp)
  | some r =>
    rw [hr] at h
    simp only [Option.map_some', Option.some.injEq, Prod.mk.injEq] at h
    obtain ⟨h1, h2, h3⟩ := h
    exact ⟨r.1, by rw [← h1], h2, h3⟩

theorem DiskstraState.dij_lookAll_queue [LinearOrder Dist]
    (H : StdHeap (DistUpdate Node Dist) DistUpdate.lt) (looks : List (Node × Dist)) :
    ∀ st : DiskstraState Node Dist, IsHeap DistUpdate.lt st.queue_ →
      IsHeap DistUpdate.lt (DiskstraState.LookAll H st looks).queue_ ∧
      (DiskstraState.LookAll H st looks).queue_.Perm
        (looks.map (fun l => st.candidate l.1 l.2) ++ st.queue_) ∧
      (DiskstraState.LookAll H st looks).distances_ = st.distances_ := by
  induction looks with
  | nil => exact fun st h => ⟨h, List.Perm.refl _, rfl⟩
  | cons l ls ih =>
    intro st h
    rw [DiskstraState.LookAll_cons]
    obtain ⟨hperm, hheap⟩ := DiskstraState.Push_spec H
      { st with log := DijkstraEvent.look (st.candidate l.1 l.2) :: st.log }
      (st.candidate l.1 l.2) h
    have hq : (DiskstraState.Look H st l.1 l.2).queue_.Perm (st.candidate l.1 l.2 :: st.queue_) :=
      hperm
    obtain ⟨h1, h2, h3⟩ := ih (DiskstraState.Look H st l.1 l.2) hheap
    refine ⟨h1, ?_, h3⟩
    have hc : (fun l' : Node × Dist => (DiskstraState.Look H st l.1 l.2).candidate l'.1 l'.2) =
        fun l' => st.candidate l'.1 l'.2 := rfl
    rw [hc] at h2
    refine h2.trans ?_
    rw [List.map_cons, List.cons_append]
    exact (List.Perm.append_left _ hq).trans List.perm_middle

/-- An iteration of the loop when one candidate in the queue has a smaller `dist` than
all others and its node is not finalized: that candidate is popped, its node finalized,
and the `Look` calls of the visit add their candidates to the queue. -/
theorem DiskstraState.dij_sim_step [LinearOrder Dist] [DecidableEq Node]
    (H : StdHeap (DistUpdate Node Dist) DistUpdate.lt)
    (visit : Int → Option Node → σ → Node → Dist → List (Node × Dist) × σ)
    (steps : Nat) (st : DiskstraState Node Dist) (s : σ) (D : Node → Option Dist)
    (cur : Option (DistUpdate Node Dist)) (Q : List (DistUpdate Node Dist))
    (h : DijSim st D cur Q) (c : DistUpdate Node Dist) (L : List (DistUpdate Node Dist))
    (hperm : Q.Perm (c :: L)) (hmin : ∀ q ∈ L, c.dist < q.dist) (hnew : D c.node = none)
    (looks : List (Node × Dist)) (s' : σ)
    (hv : visit c.depth c.parent s c.node c.dist = (looks, s'))
    (D' : Node → Option Dist) (hD' : D' = fun k => if k = c.node then some c.dist else D k)
    (Q' : List (DistUpdate Node Dist))
    (hQ' : Q' = looks.map (fun l =>
      { node := l.1, dist := l.2, parent := some c.node, depth := c.depth + 1 }) ++ L) :
    ∃ st', DiskstraState.loop H visit (steps + 1) st s = DiskstraState.loop H visit steps st' s' ∧
      DijSim st' D' (some c) Q' := by
  have hqc : st.queue_.Perm (c :: L) := h.queue.trans hperm
  have hne : st.queue_ ≠ [] := by
    intro h0
    rw [h0] at hqc
    exact List.cons_ne_nil _ _ (List.Perm.nil_eq hqc).symm
  obtain ⟨u, rest, hpop, hp, hheap, hle⟩ := DiskstraState.Pop_spec H st h.heap hne
  have hu : u = c := by
    have hmem : u ∈ c :: L := hqc.subset (hp.subset (List.mem_cons_self _ _))
    rcases List.mem_cons.mp hmem with h1 | h1
    · exact h1
    · have h2 := hmin u h1
      have h3 := hle c (hqc.symm.subset (List.mem_cons_self _ _))
      exact absurd h2 (not_lt.mpr h3)
  subst hu
  have hrest : rest.Perm L := (List.perm_cons u).mp (hp.trans hqc)
  have hd : st.distances_ u.node = none := by rw [h.dist]; exact hnew
  have hstep := DiskstraState.dij_loop_succ_new H visit steps st s hne u rest hpop hd
  rw [hv] at hstep
  obtain ⟨h1, h2, h3⟩ := DiskstraState.dij_lookAll_queue H looks (st.finalize u rest) hheap
  refine ⟨_, hstep, h1, ?_, ?_, ?_⟩
  · rw [h3, hD', ← h.dist]
    rfl
  · rw [DiskstraState.dij_lookAll_current]
    rfl
  · rw [hQ']
    exact h2.trans (List.Perm.append_left _ hrest)

/-- When every candidate left in the queue is for a finalized node, the loop pops them
all and ends, with the finalized distances and the caller state as they were. -/
theorem DiskstraState.dij_sim_stale [LinearOrder Dist] [DecidableEq Node]
    (H : StdHeap (DistUpdate Node Dist) DistUpdate.lt)
    (visit : Int → Option Node → σ → Node → Dist → List (Node × Dist) × σ)
    (D : Node → Option Dist) (s : σ) :
    ∀ (steps : Nat) (st : DiskstraState Node Dist) (cur : Option (DistUpdate Node Dist))
      (Q : List (DistUpdate Node Dist)), DijSim st D cur Q →
      (∀ q ∈ Q, D q.node ≠ none) → Q.length ≤ steps →
      ∃ st', DiskstraState.loop H visit steps st s = some (st', s) ∧ st'.distances_ = D := by
  intro steps
  induction steps with
  | zero =>
    intro st cur Q h _ hlen
    have hQ : Q = [] := List.length_eq_zero.mp (Nat.le_zero.mp hlen)
    have hq : st.queue_ = [] := by
      have := h.queue
      rw [hQ] at this
      exact List.Perm.eq_nil this
    exact ⟨st, DiskstraState.dij_loop_nil H visit 0 st s hq, h.dist⟩
  | succ steps ih =>
    intro st cur Q h hstale hlen
    by_cases hq : st.queue_ = []
    · exact ⟨st, DiskstraState.dij_loop_nil H visit _ st s hq, h.dist⟩
    · obtain ⟨u, rest, hpop, hp, hheap, -⟩ := DiskstraState.Pop_spec H st h.heap hq
      have hu : u ∈ Q := h.queue.subset (hp.subset (List.mem_cons_self _ _))
      obtain ⟨d, hd⟩ := Option.ne_none_iff_exists'.mp (hstale u hu)
      rw [← h.dist] at hd
      rw [DiskstraState.dij_loop_succ_old H visit steps st s hq u rest d hpop hd]
      have hsim : DijSim (st.discard u rest) D (some u) rest :=
        ⟨hheap, h.dist, rfl, List.Perm.refl _⟩
      have hsub : ∀ q ∈ rest, q ∈ Q := fun q hq' =>
        h.queue.subset (hp.subset (List.mem_cons_of_mem _ hq'))
      have hl : rest.length + 1 = Q.length := by
        rw [← (hp.trans h.queue).length_eq]
        rfl
      exact ih (st.discard u rest) (some u) rest hsim (fun q hq' => hstale q (hsub q hq'))
        (by omega)

/-- C16: the run of `TestDijkstra` (nodes `s, x, u, y, v` numbered `0, 1, 2, 3, 4`), for
any implementation of the heap functions and with enough steps: the visits are, in
order, `s` with distance `0`, depth `0` and no parent, `x` with `5`, depth `1` and parent
`s`, `y` with `7`, depth `2` and parent `x`, `u` with `8`, depth `2` and parent `x`, and
`v` with `9`, depth `3` and parent `u`; the result maps `s, x, u, y, v` to
`0, 5, 8, 7, 9`. -/
theorem TestDijkstra_run (H : StdHeap (DistUpdate (Fin 5) Int) DistUpdate.lt) (steps : Nat)
    (hsteps : 11 ≤ steps) :
    ∃ res, DijkstraFrom H (0 : Fin 5) (0 : Int) testDijkstraVisit steps [] =
        some (res, [(0, 0, 0, none), (1, 5, 1, some 0), (3, 7, 2, some 1),
          (2, 8, 2, some 1), (4, 9, 3, some 2)]) ∧
      (List.finRange 5).map res = [some 0, some 5, some 8, some 7, some 9] := by
  obtain ⟨k, rfl⟩ := Nat.exists_eq_add_of_le' hsteps
  obtain ⟨hh0, hq0, hd0⟩ := DiskstraState.dij_lookAll_queue H [((0 : Fin 5), (0 : Int))]
    (DiskstraState.init : DiskstraState (Fin 5) Int) (isHeap_nil _)
  have sim0 : DijSim (DiskstraState.LookAll H (DiskstraState.init : DiskstraState (Fin 5) Int)
      [((0 : Fin 5), (0 : Int))]) (fun _ => none) none
      [{ node := 0, dist := 0, parent := none, depth := 0 }] :=
    ⟨hh0, hd0, DiskstraState.dij_lookAll_current H _ _, hq0⟩
  obtain ⟨st1, e1, sim1⟩ := DiskstraState.dij_sim_step H testDijkstraVisit (k + 10) _ [] _ _ _
    sim0 { node := 0, dist := 0, parent := none, depth := 0 } [] (List.Perm.refl _)
    (by decide) rfl [(1, 5), (2, 10)] [(0, 0, 0, none)] rfl
    (fun n => if n = 0 then some 0 else none) rfl
    [{ node := 1, dist := 5, parent := some 0, depth := 1 },
     { node := 2, dist := 10, parent := some 0, depth := 1 }] rfl
  obtain ⟨st2, e2, sim2⟩ := DiskstraState.dij_sim_step H testDijkstraVisit (k + 9) _
    [(0, 0, 0, none)] _ _ _
    sim1 { node := 1, dist := 5, parent := some 0, depth := 1 }
    [{ node := 2, dist := 10, parent := some 0, depth := 1 }] (List.Perm.refl _)
    (by decide) rfl [(2, 8), (3, 7), (4, 14)] [(0, 0, 0, none), (1, 5, 1, some 0)] rfl
    (fun n => if n = 1 then some 5 else if n = 0 then some 0 else none) rfl
    [{ node := 2, dist := 8, parent := some 1, depth := 2 },
     { node := 3, dist := 7, parent := some 1, depth := 2 },
     { node := 4, dist := 14, parent := some 1, depth := 2 },
     { node := 2, dist := 10, parent := some 0, depth := 1 }] rfl
  obtain ⟨st3, e3, sim3⟩ := DiskstraState.dij_sim_step H testDijkstraVisit (k + 8) _
    [(0, 0, 0, none), (1, 5, 1, some 0)] _ _ _
    sim2 { node := 3, dist := 7, parent := some 1, depth := 2 }
    [{ node := 2, dist := 8, parent := some 1, depth := 2 },
     { node := 4, dist := 14, parent := some 1, depth := 2 },
     { node := 2, dist := 10, parent := some 0, depth := 1 }] (by decide)
    (by decide) rfl [(0, 14), (4, 13)]
    [(0, 0, 0, none), (1, 5, 1, some 0), (3, 7, 2, some 1)] rfl
    (fun n => if n = 3 then some 7 else if n = 1 then some 5 else if n = 0 then some 0
      else none) rfl
    [{ node := 0, dist := 14, parent := some 3, depth := 3 },
     { node := 4, dist := 13, parent := some 3, depth := 3 },
     { node := 2, dist := 8, parent := some 1, depth := 2 },
     { node := 4, dist := 14, parent := some 1, depth := 2 },
     { node := 2, dist := 10, parent := some 0, depth := 1 }] rfl
  obtain ⟨st4, e4, sim4⟩ := DiskstraState.dij_sim_step H testDijkstraVisit (k + 7) _
    [(0, 0, 0, none), (1, 5, 1, some 0), (3, 7, 2, some 1)] _ _ _
    sim3 { node := 2, dist := 8, parent := some 1, depth := 2 }
    [{ node := 0, dist := 14, parent := some 3, depth := 3 },
     { node := 4, dist := 13, parent := some 3, depth := 3 },
     { node := 4, dist := 14, parent := some 1, depth := 2 },
     { node := 2, dist := 10, parent := some 0, depth := 1 }] (by decide)
    (by decide) rfl [(1, 10), (4, 9)]
    [(0, 0, 0, none), (1, 5, 1, some 0), (3, 7, 2, some 1), (2, 8, 2, some 1)] rfl
    (fun n => if n = 2 then some 8 else if n = 3 then some 7 else if n = 1 then some 5
      else if n = 0 then some 0 else none) rfl
    [{ node := 1, dist := 10, parent := some 2, depth := 3 },
     { node := 4, dist := 9, parent := some 2, depth := 3 },
     { node := 0, dist := 14, parent := some 3, depth := 3 },
     { node := 4, dist := 13, parent := some 3, depth := 3 },
     { node := 4, dist := 14, parent := some 1, depth := 2 },
     { node := 2, dist := 10, parent := some 0, depth := 1 }] rfl
  obtain ⟨st5, e5, sim5⟩ := DiskstraState.dij_sim_step H testDijkstraVisit (k + 6) _
    [(0, 0, 0, none), (1, 5, 1, some 0), (3, 7, 2, some 1), (2, 8, 2, some 1)] _ _ _
    sim4 { node := 4, dist := 9, parent := some 2, depth := 3 }
    [{ node := 1, dist := 10, parent := some 2, depth := 3 },
     { node := 0, dist := 14, parent := some 3, depth := 3 },
     { node := 4, dist := 13, parent := some 3, depth := 3 },
     { node := 4, dist := 14, parent := some 1, depth := 2 },
     { node := 2, dist := 10, parent := some 0, depth := 1 }] (by decide)
    (by decide) rfl [(3, 13)]
    [(0, 0, 0, none), (1, 5, 1, some 0), (3, 7, 2, some 1), (2, 8, 2, some 1),
      (4, 9, 3, some 2)] rfl
    (fun n => if n = 4 then some 9 else if n = 2 then some 8 else if n = 3 then some 7
      else if n = 1 then some 5 else if n = 0 then some 0 else none) rfl
    [{ node := 3, dist := 13, parent := some 4, depth := 4 },
     { node := 1, dist := 10, parent := some 2, depth := 3 },
     { node := 0, dist := 14, parent := some 3, depth := 3 },
     { node := 4, dist := 13, parent := some 3, depth := 3 },
     { node := 4, dist := 14, parent := some 1, depth := 2 },
     { node := 2, dist := 10, parent := some 0, depth := 1 }] rfl
  obtain ⟨st6, e6, hd6⟩ := DiskstraState.dij_sim_stale H testDijkstraVisit _
    [(0, 0, 0, none), (1, 5, 1, some 0), (3, 7, 2, some 1), (2, 8, 2, some 1),
      (4, 9, 3, some 2)] (k + 6) st5 _ _ sim5 (by decide) (by simp)
  have hrun : DiskstraState.Run H (fun s => ([((0 : Fin 5), (0 : Int))], s)) testDijkstraVisit
      (k + 11) [] = some (st6, [(0, 0, 0, none), (1, 5, 1, some 0), (3, 7, 2, some 1),
        (2, 8, 2, some 1), (4, 9, 3, some 2)]) :=
    e1.trans (e2.trans (e3.trans (e4.trans (e5.trans e6))))
  refine ⟨st6.distances_, ?_, ?_⟩
  · simp only [DijkstraFrom, Dijkstra, hrun]
  · rw [hd6]
    rfl

/-- Witness for C16: the run with the heap functions `sortHeap` and eleven steps. -/
theorem TestDijkstra_run_witness :
    11 ≤ 11 ∧
    ∃ res, DijkstraFrom (sortHeap (Fin 5) Int) (0 : Fin 5) (0 : Int) testDijkstraVisit 11 [] =
        some (res, [(0, 0, 0, none), (1, 5, 1, some 0), (3, 7, 2, some 1),
          (2, 8, 2, some 1), (4, 9, 3, some 2)]) ∧
      (List.finRange 5).map res = [some 0, some 5, some 8, some 7, some 9] :=
  ⟨le_refl 11, TestDijkstra_run (sortHeap (Fin 5) Int) 11 (le_refl 11)⟩

theorem BFSReach.bfs_reach_inv [DecidableEq Node] {st : BFSState Node} (h : BFSReach st) :
    BFSInv st := by
  induction h with
  | init => exact BFSInv.bfs_init
  | ret st n e st' _ hl ih =>
    obtain ⟨e1, st1, hl1, hI1, -⟩ := BFSState.bfs_Look_inv st n ih
    rw [hl1] at hl
    simp only [Option.some.injEq, Prod.mk.injEq] at hl
    obtain ⟨-, rfl⟩ := hl
    exact hI1
  | visit st node rest d _ hq hd ih => exact ih.bfs_dequeue node rest d hq hd

theorem sublist_pair_of_mem {α : Type} (a b : α) (hab : a ≠ b) :
    ∀ l : List α, a ∈ l → b ∈ l → List.Sublist [a, b] l ∨ List.Sublist [b, a] l := by
  intro l
  induction l with
  | nil => intro ha; cases ha
  | cons x l ih =>
    intro ha hb
    rcases List.mem_cons.mp ha with rfl | ha'
    · rcases List.mem_cons.mp hb with h | hb'
      · exact absurd h.symm hab
      · exact Or.inl (List.Sublist.cons₂ _ (List.singleton_sublist.mpr hb'))
    · rcases List.mem_cons.mp hb with rfl | hb'
      · exact Or.inr (List.Sublist.cons₂ _ (List.singleton_sublist.mpr ha'))
      · rcases ih ha' hb' with h | h
        · exact Or.inl (List.Sublist.cons _ h)
        · exact Or.inr (List.Sublist.cons _ h)

/-- C25: in every state in which the visit of a node `u` is running (`u` is the last node
of the active path), `Look(v)` for a node `v` that has an exit time returns, and it
answers Forward or Cross: Forward iff `u` was entered before `v`, which is the case iff
the visit of `v` started after the visit of `u` did, that is during it; and Cross iff `v`
was left before `u` was entered. One of the two is the case. -/
theorem DFS_forward_cross [DecidableEq Node] (visit : List Node → σ → Node → DFSProg Node σ)
    (st : DFSState Node) (hst : DFSReach visit st) (u v : Node) (xv : Int)
    (hu : st.path_.getLast? = some u) (hv : st.exit_times_ v = some xv) :
    ∃ eu ev, st.enter_times_ u = some eu ∧ st.enter_times_ v = some ev ∧
      (eu < ev ∨ xv < eu) ∧ ¬ (eu < ev ∧ xv < eu) ∧
      (eu < ev ↔ List.Sublist [v, u] st.visited) ∧
      ∀ depth s, ∃ e, DFSState.Look visit depth st s v = some (e, st.noteLook v, s) ∧
        (e = DFSEdge.kForward ∨ e = DFSEdge.kCross) ∧
        (e = DFSEdge.kForward ↔ eu < ev) ∧ (e = DFSEdge.kCross ↔ xv < eu) := by
  have hI := hst.dfs_inv
  have humem : u ∈ st.path_ := List.mem_of_getLast?_eq_some hu
  obtain ⟨⟨eu, heu⟩, hxu⟩ := (hI.path_open u).mp humem
  obtain ⟨ev, hev, hlt, -⟩ := hI.exit_lt v xv hv
  have hne : v ≠ u := by
    rintro rfl
    rw [hxu] at hv
    cases hv
  have hor : xv < eu ∨ eu < ev := hI.open_fin u v eu ev xv heu hxu hev hv
  have hnot : ¬ (eu < ev ∧ xv < eu) := fun h => by omega
  refine ⟨eu, ev, heu, hev, hor.symm, hnot, ?_, ?_⟩
  · constructor
    · intro h
      have hvm : v ∈ st.visited := (hI.visited_iff v).mpr ⟨ev, hev⟩
      have hum : u ∈ st.visited := (hI.visited_iff u).mpr ⟨eu, heu⟩
      rcases sublist_pair_of_mem v u hne st.visited hvm hum with h1 | h1
      · exact h1
      · have hp := hI.visited_sorted.sublist h1
        rw [List.pairwise_cons] at hp
        have := hp.1 v (List.mem_singleton.mpr rfl) eu ev heu hev
        omega
    · intro h
      have hp := hI.visited_sorted.sublist h
      rw [List.pairwise_cons] at hp
      exact hp.1 u (List.mem_singleton.mpr rfl) ev eu hev heu
  · intro depth s
    rw [DFSState.dfs_Look_old visit depth st s v ev hev]
    simp only [DFSState.classify, hv, hu, heu]
    by_cases hc : xv < eu
    · refine ⟨DFSEdge.kCross, by simp only [if_pos hc], Or.inr rfl, ?_, ?_⟩
      · exact ⟨fun h => absurd h (by decide), fun h => absurd ⟨h, hc⟩ hnot⟩
      · exact ⟨fun _ => hc, fun _ => rfl⟩
    · have hf : eu < ev := hor.resolve_left hc
      refine ⟨DFSEdge.kForward, by simp only [if_neg hc], Or.inl rfl, ?_, ?_⟩
      · exact ⟨fun _ => hf, fun _ => rfl⟩
      · exact ⟨fun h => absurd h (by decide), fun h => absurd h hc⟩

/-- Witness for C25: on `exampleSucc`, after the visit of `1` has returned into the visit
of `0`, a `Look(1)` answers Forward. -/
theorem DFS_forward_cross_witness :
    ∃ st : DFSState Nat,
      DFSState.Look exampleDFSVisit 1 ((DFSState.init : DFSState Nat).enterNode 0) () 1 =
        some (DFSEdge.kTree, st, ()) ∧
      st.path_.getLast? = some 0 ∧ st.exit_times_ 1 = some 2 ∧
      DFSState.Look exampleDFSVisit 0 st () 1 = some (DFSEdge.kForward, st.noteLook 1, ()) :=
  ⟨_, rfl, rfl, rfl, by
    obtain ⟨eu, ev, heu, hev, -, -, -, h⟩ := DFS_forward_cross exampleDFSVisit _
      (DFSReach.ret _ 1 () 1 DFSEdge.kTree _ ()
        (DFSReach.enter _ 0 DFSReach.init rfl) rfl) 0 1 2 rfl rfl
    obtain ⟨e, hl, -, hf, -⟩ := h 0 ()
    have h0 : eu = 0 := by
      have : (some eu : Option Int) = some 0 := heu.symm.trans rfl
      exact Option.some.inj this
    have h1 : ev = 1 := by
      have : (some ev : Option Int) = some 1 := hev.symm.trans rfl
      exact Option.some.inj this
    have he : e = DFSEdge.kForward := hf.mpr (by rw [h0, h1]; decide)
    rw [he] at hl
    exact hl⟩

theorem DFSTimes.dfs_times_init : DFSTimes (DFSState.init : DFSState Node) := by
  refine ⟨by simp [DFSState.init, DFSState.visited], ?_⟩
  intro t h0 h1
  simp only [DFSState.init] at h1
  omega

theorem DFSTimes.dfs_times_note {st : DFSState Node} (h : DFSTimes st) (n : Node) :
    DFSTimes (st.noteLook n) := by
  have hv : (st.noteLook n).visited = st.visited := by
    simp [DFSState.visited, DFSState.noteLook, List.filterMap_cons]
  exact ⟨by rw [hv]; exact h.count, h.cover⟩

theorem DFSTimes.dfs_times_enter [DecidableEq Node] {st : DFSState Node} (h : DFSTimes st)
    (n : Node) (hn : st.enter_times_ n = none) : DFSTimes (st.enterNode n) := by
  refine ⟨?_, ?_⟩
  · rw [DFSState.enterNode_visited]
    have := h.count
    simp only [DFSState.enterNode, List.length_append, List.length_cons, List.length_nil]
    push_cast
    omega
  · intro t h0 h1
    have h1' : t < st.time_ + 1 := h1
    by_cases ht : t = st.time_
    · exact Or.inl ⟨n, by rw [DFSState.enterNode_enter, if_pos rfl, ht]⟩
    · rcases h.cover t h0 (by omega) with ⟨v, hv⟩ | ⟨v, hv⟩
      · refine Or.inl ⟨v, ?_⟩
        rw [DFSState.enterNode_enter]
        by_cases hvn : v = n
        · rw [hvn, hn] at hv
          cases hv
        · rw [if_neg hvn]
          exact hv
      · exact Or.inr ⟨v, hv⟩

theorem DFSTimes.dfs_times_leave [DecidableEq Node] {st st2 : DFSState Node} (n : Node)
    (h2 : DFSTimes st2) (hI2 : DFSInv st2) (hE : DFSExt (st.enterNode n) st2) :
    DFSTimes (st2.leaveNode n) := by
  have hpath : st2.path_ = st.path_ ++ [n] := hE.path_eq
  have hxn : st2.exit_times_ n = none :=
    ((hI2.path_open n).mp (by rw [hpath]; simp)).2
  have hv : (st2.leaveNode n).visited = st2.visited := rfl
  refine ⟨?_, ?_⟩
  · rw [hv]
    have := h2.count
    rw [hpath] at this
    simp only [DFSState.leaveNode, hpath, List.dropLast_concat]
    simp only [List.length_append, List.length_cons, List.length_nil] at this
    push_cast at this
    omega
  · intro t h0 h1
    have h1' : t < st2.time_ + 1 := h1
    by_cases ht : t = st2.time_
    · exact Or.inr ⟨n, by rw [DFSState.leaveNode_exit st2 n n hxn, if_pos rfl, ht]⟩
    · rcases h2.cover t h0 (by omega) with ⟨v, hv⟩ | ⟨v, hv⟩
      · exact Or.inl ⟨v, hv⟩
      · refine Or.inr ⟨v, ?_⟩
        rw [DFSState.leaveNode_exit st2 n v hxn]
        by_cases hvn : v = n
        · rw [hvn, hxn] at hv
          cases hv
        · rw [if_neg hvn]
          exact hv

/-- Every returning `Look` keeps `DFSInv` and `DFSTimes`. -/
theorem DFSState.dfs_Look_times [DecidableEq Node]
    (visit : List Node → σ → Node → DFSProg Node σ)
    (depth : Nat) (st : DFSState Node) (s : σ) (n : Node) (e : DFSEdge)
    (st' : DFSState Node) (s' : σ) (h : DFSInv st ∧ DFSTimes st)
    (hl : DFSState.Look visit depth st s n = some (e, st', s')) :
    (DFSInv st' ∧ DFSTimes st') ∧ DFSExt st st' :=
  DFSState.dfs_Look_rule visit (fun st => DFSInv st ∧ DFSTimes st) DFSExt DFSExt.dfs_refl
    (fun _ _ _ => DFSExt.dfs_trans)
    (fun _ n h hn => ⟨⟨(h.1.dfs_note n hn).1, h.2.dfs_times_note n⟩, (h.1.dfs_note n hn).2⟩)
    (fun _ n h hn => ⟨h.1.dfs_enter n hn, h.2.dfs_times_enter n hn⟩)
    (fun _ _ n h hn h2 hE => ⟨⟨(h.1.dfs_leave n hn h2.1 hE).1,
      DFSTimes.dfs_times_leave n h2.2 h2.1 hE⟩, (h.1.dfs_leave n hn h2.1 hE).2⟩)
    depth st s n e st' s' h hl

/-- A completed run ends with an empty path and a time counter that is twice the number
of visits. -/
theorem DFSState.dfs_Run_times [DecidableEq Node] (start : List Node → σ → DFSProg Node σ)
    (visit : List Node → σ → Node → DFSProg Node σ) (depth : Nat) (s0 : σ)
    (st : DFSState Node) (s : σ) (h : DFSState.Run start visit depth s0 = some (st, s)) :
    DFSInv st ∧ DFSTimes st ∧ st.path_ = [] := by
  obtain ⟨hI, hE⟩ := DFSState.dfs_runProg_rule (fun st => DFSInv st ∧ DFSTimes st) DFSExt
    DFSExt.dfs_refl (fun _ _ _ => DFSExt.dfs_trans) _ (fun st s n e st' s' hP hl =>
      DFSState.dfs_Look_times visit depth st s n e st' s' hP hl) _ _ _ _
      ⟨DFSInv.dfs_init, DFSTimes.dfs_times_init⟩ h
  exact ⟨hI.1, hI.2, hE.path_eq⟩

theorem DFSInv.dfs_enter_inj {st : DFSState Node} (h : DFSInv st) (a b : Node) (t : Int)
    (ha : st.enter_times_ a = some t) (hb : st.enter_times_ b = some t) : a = b := by
  by_contra hab
  have ham : a ∈ st.visited := (h.visited_iff a).mpr ⟨t, ha⟩
  have hbm : b ∈ st.visited := (h.visited_iff b).mpr ⟨t, hb⟩
  rcases sublist_pair_of_mem a b hab st.visited ham hbm with h1 | h1
  · have hp := h.visited_sorted.sublist h1
    rw [List.pairwise_cons] at hp
    exact lt_irrefl _ (hp.1 b (List.mem_singleton.mpr rfl) t t ha hb)
  · have hp := h.visited_sorted.sublist h1
    rw [List.pairwise_cons] at hp
    exact lt_irrefl _ (hp.1 a (List.mem_singleton.mpr rfl) t t hb ha)

theorem DFSInv.dfs_exit_inj {st : DFSState Node} (h : DFSInv st) (a b : Node) (t : Int)
    (ha : st.exit_times_ a = some t) (hb : st.exit_times_ b = some t) : a = b := by
  by_contra hab
  obtain ⟨ea, hea, h1, -⟩ := h.exit_lt a t ha
  obtain ⟨eb, heb, h2, -⟩ := h.exit_lt b t hb
  have := h.nested a b ea t eb t hab hea ha heb hb
  omega

theorem DFSInv.dfs_enter_ne_exit {st : DFSState Node} (h : DFSInv st) (a b : Node) (t : Int)
    (ha : st.enter_times_ a = some t) (hb : st.exit_times_ b = some t) : False := by
  obtain ⟨eb, heb, h2, -⟩ := h.exit_lt b t hb
  by_cases hab : a = b
  · rw [hab, heb] at ha
    cases ha
    exact lt_irrefl _ h2
  · rcases hxa : st.exit_times_ a with _ | xa
    · have := h.open_fin a b t eb t ha hxa heb hb
      omega
    · obtain ⟨ea, hea, h1, -⟩ := h.exit_lt a xa hxa
      rw [ha] at hea
      cases hea
      have := h.nested a b t xa eb t hab ha hxa heb hb
      omega

theorem DFSState.dfs_runProg_clock
    (look : DFSState Node → σ → Node → Option (DFSEdge × DFSState Node × σ))
    (look' : DFSState Node → σ × DFSClock Node → Node →
      Option (DFSEdge × DFSState Node × σ × DFSClock Node))
    (P : DFSState Node → Prop)
    (hP : ∀ st s n e st' s', P st → look st s n = some (e, st', s') → P st')
    (hlook : ∀ st s n, P st → look' st (s, st.clock) n =
      (look st s n).map (fun r => (r.1, r.2.1, r.2.2, r.2.1.clock)))
    (finish : DFSClock Node → DFSClock Node) :
    ∀ (prog : DFSProg Node σ) (st : DFSState Node), P st →
      DFSState.runProg look' st (DFSProg.withClock prog st.clock finish) =
        (DFSState.runProg look st prog).map (fun r => (r.1, r.2, finish r.1.clock)) := by
  intro prog
  induction prog with
  | done s =>
    intro st _
    rfl
  | look s n k ih =>
    intro st hst
    simp only [DFSProg.withClock, DFSState.runProg]
    rw [hlook st s n hst]
    rcases hl : look st s n with _ | ⟨e, st1, s1⟩
    · rfl
    · simp only [Option.map_some']
      exact ih e st1.Path s1 st1 (hP st s n e st1 s1 hst hl)

theorem DFSState.dfs_leave_clock [DecidableEq Node] (st2 : DFSState Node) (n : Node)
    (hxn : st2.exit_times_ n = none) : st2.clock.tickLeave n = (st2.leaveNode n).clock := by
  have : (st2.leaveNode n).exit_times_ =
      fun k => if k = n then some st2.time_ else st2.exit_times_ k :=
    funext (fun k => DFSState.leaveNode_exit st2 n k hxn)
  simp only [DFSState.clock, DFSClock.tickLeave, this]
  rfl

/-- With the counter of the caller equal to the one of the engine before a `Look`, the
call does with the ticking visit callback what it does with the plain one, and the two
counters are equal after it. -/
theorem DFSState.dfs_Look_clock [DecidableEq Node]
    (visit : List Node → σ → Node → DFSProg Node σ) :
    ∀ (depth : Nat) (st : DFSState Node) (s : σ) (n : Node), DFSInv st →
      DFSState.Look (DFSProg.clockedVisit visit) depth st (s, st.clock) n =
        (DFSState.Look visit depth st s n).map (fun r => (r.1, r.2.1, r.2.2, r.2.1.clock)) := by
  intro depth
  induction depth with
  | zero =>
    intro st s n _
    rcases hn : st.enter_times_ n with _ | t
    · rw [DFSState.dfs_Look_new_zero _ st _ n hn, DFSState.dfs_Look_new_zero _ st _ n hn]
      rfl
    · rw [DFSState.dfs_Look_old _ 0 st _ n t hn, DFSState.dfs_Look_old _ 0 st _ n t hn]
      rcases st.classify n with _ | c <;> rfl
  | succ depth ih =>
    intro st s n hI
    rcases hn : st.enter_times_ n with _ | t
    · rw [DFSState.dfs_Look_new_succ _ depth st _ n hn,
        DFSState.dfs_Look_new_succ _ depth st _ n hn]
      have hrun := DFSState.dfs_runProg_clock (DFSState.Look visit depth)
        (DFSState.Look (DFSProg.clockedVisit visit) depth) DFSInv
        (fun st s n e st' s' hP hl => (DFSState.dfs_Look_inv visit depth st s n e st' s' hP hl).1)
        (fun st s n hP => ih st s n hP) (fun c => c.tickLeave n)
        (visit (st.path_ ++ [n]) s n) (st.enterNode n) (hI.dfs_enter n hn)
      have hc : DFSProg.clockedVisit visit (st.path_ ++ [n]) (s, st.clock) n =
          DFSProg.withClock (visit (st.path_ ++ [n]) s n) (st.enterNode n).clock
            (fun c => c.tickLeave n) := rfl
      rw [hc, hrun]
      rcases hr : DFSState.runProg (DFSState.Look visit depth) (st.enterNode n)
          (visit (st.path_ ++ [n]) s n) with _ | ⟨st2, s2⟩
      · rfl
      · obtain ⟨hI2, hE2⟩ := DFSState.dfs_runProg_rule DFSInv DFSExt DFSExt.dfs_refl
          (fun _ _ _ => DFSExt.dfs_trans) _ (fun st s n e st' s' hP hl =>
            DFSState.dfs_Look_inv visit depth st s n e st' s' hP hl) _ _ _ _
          (hI.dfs_enter n hn) hr
        have hpath : st2.path_ = st.path_ ++ [n] := hE2.path_eq
        have hxn : st2.exit_times_ n = none :=
          ((hI2.path_open n).mp (by rw [hpath]; simp)).2
        simp only [Option.map_some']
        rw [DFSState.dfs_leave_clock st2 n hxn]
    · rw [DFSState.dfs_Look_old _ (depth + 1) st _ n t hn,
        DFSState.dfs_Look_old _ (depth + 1) st _ n t hn]
      rcases st.classify n with _ | c <;> rfl

/-- C27: in a completed DFS run with `n` visits, no node is visited twice, the time
counter ends at `2 n`, every enter time and every exit time lies in `0, ..., 2 n - 1`,
every value in that range is the enter time or the exit time of a node, and no value is
used twice; and the same run with a visit callback that also ticks a counter of its own
at its beginning and at its end returns the same maps, which are the readings of that
counter. -/
theorem DFS_time_counter [DecidableEq Node] (start : List Node → σ → DFSProg Node σ)
    (visit : List Node → σ → Node → DFSProg Node σ) (depth : Nat) (s0 : σ)
    (st : DFSState Node) (s : σ) (h : DFSState.Run start visit depth s0 = some (st, s)) :
    st.visited.Nodup ∧
    (∀ v, v ∈ st.visited ↔ ∃ e, st.enter_times_ v = some e) ∧
    st.time_ = 2 * st.visited.length ∧
    (∀ v e, st.enter_times_ v = some e → 0 ≤ e ∧ e < 2 * st.visited.length) ∧
    (∀ v x, st.exit_times_ v = some x → 0 ≤ x ∧ x < 2 * st.visited.length) ∧
    (∀ t : Int, 0 ≤ t → t < 2 * st.visited.length →
      (∃ v, st.enter_times_ v = some t) ∨ (∃ v, st.exit_times_ v = some t)) ∧
    (∀ a b t, st.enter_times_ a = some t → st.enter_times_ b = some t → a = b) ∧
    (∀ a b t, st.exit_times_ a = some t → st.exit_times_ b = some t → a = b) ∧
    (∀ a b t, st.enter_times_ a = some t → st.exit_times_ b = some t → False) ∧
    DFS (DFSProg.clockedStart start) (DFSProg.clockedVisit visit) depth (s0, DFSClock.init) =
      some ({ enter_times := st.enter_times_, exit_times := st.exit_times_ }, s,
        { time := 2 * st.visited.length, enter := st.enter_times_,
          leave := st.exit_times_ }) := by
  obtain ⟨hI, hT, hpath⟩ := DFSState.dfs_Run_times start visit depth s0 st s h
  have htime : st.time_ = 2 * st.visited.length := by
    have := hT.count
    rw [hpath] at this
    simpa using this
  have hnodup : st.visited.Nodup := by
    have hpw : st.visited.Pairwise (fun a b => a ≠ b) := by
      refine List.Pairwise.imp_of_mem ?_ hI.visited_sorted
      rintro a b ha _ hab rfl
      obtain ⟨e, he⟩ := (hI.visited_iff a).mp ha
      exact lt_irrefl _ (hab e e he he)
    exact hpw
  refine ⟨hnodup, hI.visited_iff, htime, ?_, ?_, ?_, hI.dfs_enter_inj, hI.dfs_exit_inj,
    hI.dfs_enter_ne_exit, ?_⟩
  · intro v e he
    rw [← htime]
    exact hI.enter_lt v e he
  · intro v x hx
    obtain ⟨e, he, h1, h2⟩ := hI.exit_lt v x hx
    have := (hI.enter_lt v e he).1
    rw [← htime]
    exact ⟨by omega, h2⟩
  · intro t h0 h1
    rw [← htime] at h1
    exact hT.cover t h0 h1
  · have hrun := DFSState.dfs_runProg_clock (DFSState.Look visit depth)
      (DFSState.Look (DFSProg.clockedVisit visit) depth) DFSInv
      (fun st s n e st' s' hP hl => (DFSState.dfs_Look_inv visit depth st s n e st' s' hP hl).1)
      (fun st s n hP => DFSState.dfs_Look_clock visit depth st s n hP) id
      (start (DFSState.init : DFSState Node).Path s0) DFSState.init DFSInv.dfs_init
    have h' : DFSState.runProg (DFSState.Look visit depth) DFSState.init
        (start (DFSState.init : DFSState Node).Path s0) = some (st, s) := h
    rw [h'] at hrun
    have hrun' : DFSState.Run (DFSProg.clockedStart start) (DFSProg.clockedVisit visit) depth
        (s0, DFSClock.init) = some (st, s, st.clock) := hrun
    simp only [DFS, hrun', DFSState.clock, htime]

/-- Witness for C27: the run on `exampleSucc` seeded with `0` and `1`, which visits two
nodes and ends with the time counter at `4`. -/
theorem DFS_time_counter_witness :
    ∃ st, DFSState.Run exampleDFSStart exampleDFSVisit 2 () = some (st, ()) ∧
      st.time_ = 4 ∧ st.visited = [1, 0] ∧
      DFS (DFSProg.clockedStart exampleDFSStart) (DFSProg.clockedVisit exampleDFSVisit) 2
          ((), DFSClock.init) =
        some ({ enter_times := st.enter_times_, exit_times := st.exit_times_ }, (),
          { time := 2 * st.visited.length, enter := st.enter_times_,
            leave := st.exit_times_ }) := by
  have key := fun st h =>
    (DFS_time_counter exampleDFSStart exampleDFSVisit 2 () st () h).2.2.2.2.2.2.2.2.2
  exact ⟨_, rfl, rfl, rfl, key _ rfl⟩

/-- The total weights of the paths of `negativeEdges` from node `0`. -/
theorem negativeEdges_paths (n : Fin 3) (w : Int) (h : PathW negativeEdges [0] n w) :
    (n = 0 ∧ w = 0) ∨ (n = 2 ∧ w = 2) ∨ (n = 1 ∧ (w = 1 ∨ w = -3)) := by
  induction h with
  | seed s hs =>
    simp only [List.mem_singleton] at hs
    exact Or.inl ⟨hs, rfl⟩
  | step u v d w _ he ih =>
    rcases ih with ⟨rfl, rfl⟩ | ⟨rfl, rfl⟩ | ⟨rfl, _⟩
    · simp only [negativeEdges, if_true, List.mem_cons, Prod.mk.injEq, List.mem_singleton,
        List.not_mem_nil, or_false] at he
      rcases he with ⟨rfl, rfl⟩ | ⟨rfl, rfl⟩
      · exact Or.inr (Or.inr ⟨rfl, Or.inl rfl⟩)
      · exact Or.inr (Or.inl ⟨rfl, rfl⟩)
    · have he' : (v, w) ∈ [((1 : Fin 3), (-5 : Int))] := he
      simp only [List.mem_singleton, Prod.mk.injEq] at he'
      obtain ⟨rfl, rfl⟩ := he'
      exact Or.inr (Or.inr ⟨rfl, Or.inr rfl⟩)
    · have he' : (v, w) ∈ ([] : List (Fin 3 × Int)) := he
      cases he'

/-- C29: on the graph `negativeEdges`, which has an edge of weight `-5`, the run from
node `0` at distance `0` completes, for any implementation of the heap functions and
with four steps or more, and returns the distance `1` for node `1`, although the least
total weight of a path from `0` to `1` is `-3`. -/
theorem Dijkstra_negative_weight (H : StdHeap (DistUpdate (Fin 3) Int) DistUpdate.lt)
    (steps : Nat) (hsteps : 4 ≤ steps) :
    ((1 : Fin 3), (-5 : Int)) ∈ negativeEdges 2 ∧
    ∃ res, Dijkstra H (graphSeed [0]) (graphVisit negativeEdges) steps () = some (res, ()) ∧
      res 1 = some 1 ∧
      PathW negativeEdges [0] 1 (-3) ∧ (∀ w, PathW negativeEdges [0] 1 w → -3 ≤ w) ∧
      (-3 : Int) < 1 := by
  refine ⟨by decide, ?_⟩
  obtain ⟨k, rfl⟩ := Nat.exists_eq_add_of_le' hsteps
  obtain ⟨hh0, hq0, hd0⟩ := DiskstraState.dij_lookAll_queue H [((0 : Fin 3), (0 : Int))]
    (DiskstraState.init : DiskstraState (Fin 3) Int) (isHeap_nil _)
  have sim0 : DijSim (DiskstraState.LookAll H (DiskstraState.init : DiskstraState (Fin 3) Int)
      [((0 : Fin 3), (0 : Int))]) (fun _ => none) none
      [{ node := 0, dist := 0, parent := none, depth := 0 }] :=
    ⟨hh0, hd0, DiskstraState.dij_lookAll_current H _ _, hq0⟩
  obtain ⟨st1, e1, sim1⟩ := DiskstraState.dij_sim_step H (graphVisit negativeEdges) (k + 3) _
    () _ _ _ sim0 { node := 0, dist := 0, parent := none, depth := 0 } [] (List.Perm.refl _)
    (by decide) rfl [(1, 1), (2, 2)] () rfl
    (fun n => if n = 0 then some 0 else none) rfl
    [{ node := 1, dist := 1, parent := some 0, depth := 1 },
     { node := 2, dist := 2, parent := some 0, depth := 1 }] rfl
  obtain ⟨st2, e2, sim2⟩ := DiskstraState.dij_sim_step H (graphVisit negativeEdges) (k + 2) _
    () _ _ _ sim1 { node := 1, dist := 1, parent := some 0, depth := 1 }
    [{ node := 2, dist := 2, parent := some 0, depth := 1 }] (List.Perm.refl _)
    (by decide) rfl [] () rfl
    (fun n => if n = 1 then some 1 else if n = 0 then some 0 else none) rfl
    [{ node := 2, dist := 2, parent := some 0, depth := 1 }] rfl
  obtain ⟨st3, e3, sim3⟩ := DiskstraState.dij_sim_step H (graphVisit negativeEdges) (k + 1) _
    () _ _ _ sim2 { node := 2, dist := 2, parent := some 0, depth := 1 } []
    (List.Perm.refl _) (by decide) rfl [(1, -3)] () (by decide)
    (fun n => if n = 2 then some 2 else if n = 1 then some 1 else if n = 0 then some 0
      else none) rfl
    [{ node := 1, dist := -3, parent := some 2, depth := 2 }] rfl
  obtain ⟨st4, e4, hd4⟩ := DiskstraState.dij_sim_stale H (graphVisit negativeEdges) _ ()
    (k + 1) st3 _ _ sim3 (by decide) (by simp)
  have hrun : DiskstraState.Run H (graphSeed [0]) (graphVisit negativeEdges) (k + 4) () =
      some (st4, ()) := e1.trans (e2.trans (e3.trans e4))
  refine ⟨st4.distances_, by simp only [Dijkstra, hrun], by rw [hd4]; rfl, ?_, ?_, by decide⟩
  · have h1 : PathW negativeEdges [0] 2 (0 + 2) :=
      PathW.step 0 2 0 2 (PathW.seed 0 (List.mem_singleton.mpr rfl)) (by decide)
    exact PathW.step 2 1 (0 + 2) (-5) h1 (by decide)
  · intro w hw
    rcases negativeEdges_paths 1 w hw with ⟨h, -⟩ | ⟨h, -⟩ | ⟨-, h | h⟩
    · exact absurd h (by decide)
    · exact absurd h (by decide)
    · omega
    · omega

/-- Witness for C29: the run with the heap functions `sortHeap` and four steps. -/
theorem Dijkstra_negative_weight_witness :
    4 ≤ 4 ∧ ((1 : Fin 3), (-5 : Int)) ∈ negativeEdges 2 ∧
    ∃ res, Dijkstra (sortHeap (Fin 3) Int) (graphSeed [0]) (graphVisit negativeEdges) 4 () =
        some (res, ()) ∧
      res 1 = some 1 ∧
      PathW negativeEdges [0] 1 (-3) ∧ (∀ w, PathW negativeEdges [0] 1 w → -3 ≤ w) ∧
      (-3 : Int) < 1 :=
  ⟨le_refl 4, Dijkstra_negative_weight (sortHeap (Fin 3) Int) 4 (le_refl 4)⟩

theorem DijPar.dij_par_init : DijPar (DiskstraState.init : DiskstraState Node Dist) := by
  refine ⟨?_, ?_⟩
  · intro c hc
    simp [DiskstraState.init, DijkstraEvent.looksOf] at hc
  · intro pre u post h
    simp [DiskstraState.init, DijkstraEvent.visitsOf] at h

theorem DijPar.dij_par_look [LinearOrder Dist]
    (H : StdHeap (DistUpdate Node Dist) DistUpdate.lt) {st : DiskstraState Node Dist}
    (h : DijPar st) (n : Node) (d : Dist)
    (hcur : st.current_ = none ∨ ∃ u ∈ DijkstraEvent.visitsOf st.log, st.current_ = some u) :
    DijPar (DiskstraState.Look H st n d) := by
  have hl : DijkstraEvent.looksOf (DiskstraState.Look H st n d).log =
      st.candidate n d :: DijkstraEvent.looksOf st.log := by
    rw [DiskstraState.Look_eq]
    simp [DijkstraEvent.looksOf, List.filterMap_cons]
  have hv : DijkstraEvent.visitsOf (DiskstraState.Look H st n d).log =
      DijkstraEvent.visitsOf st.log := by
    rw [DiskstraState.Look_eq]
    simp [DijkstraEvent.visitsOf, List.filterMap_cons]
  refine ⟨?_, ?_⟩
  · intro c hc
    rw [hl] at hc
    rw [hv]
    rcases List.mem_cons.mp hc with rfl | hc'
    · rcases hcur with h0 | ⟨u, hu, h1⟩
      · left
        simp [DiskstraState.candidate, DiskstraState.Depth, h0]
      · right
        exact ⟨u, hu, by simp [DiskstraState.candidate, DiskstraState.Depth, h1]⟩
    · exact h.looks_ok c hc'
  · rw [hv]
    exact h.visits_ok

theorem DijPar.dij_par_lookAll [LinearOrder Dist]
    (H : StdHeap (DistUpdate Node Dist) DistUpdate.lt) (looks : List (Node × Dist)) :
    ∀ st : DiskstraState Node Dist, DijPar st →
      (st.current_ = none ∨ ∃ u ∈ DijkstraEvent.visitsOf st.log, st.current_ = some u) →
      DijPar (DiskstraState.LookAll H st looks) := by
  induction looks with
  | nil => exact fun st h _ => h
  | cons l ls ih =>
    intro st h hcur
    rw [DiskstraState.LookAll_cons]
    refine ih _ (h.dij_par_look H l.1 l.2 hcur) ?_
    have hv : DijkstraEvent.visitsOf (DiskstraState.Look H st l.1 l.2).log =
        DijkstraEvent.visitsOf st.log := by
      rw [DiskstraState.Look_eq]
      simp [DijkstraEvent.visitsOf, List.filterMap_cons]
    rw [hv]
    exact hcur

theorem DijPar.dij_par_finalize [LinearOrder Dist] [DecidableEq Node]
    {st : DiskstraState Node Dist} (h : DijPar st) (hI : DijInv st)
    (u : DistUpdate Node Dist) (rest : List (DistUpdate Node Dist))
    (hperm : (u :: rest).Perm st.queue_) : DijPar (st.finalize u rest) := by
  have hl : DijkstraEvent.looksOf (st.finalize u rest).log = DijkstraEvent.looksOf st.log := by
    simp [DiskstraState.finalize, DijkstraEvent.looksOf, List.filterMap_cons]
  have hv : DijkstraEvent.visitsOf (st.finalize u rest).log =
      u :: DijkstraEvent.visitsOf st.log := by
    simp [DiskstraState.finalize, DijkstraEvent.visitsOf, List.filterMap_cons]
  have hu : u ∈ DijkstraEvent.looksOf st.log :=
    hI.conserve.symm.subset (List.mem_append_right _ (hperm.subset (List.mem_cons_self _ _)))
  refine ⟨?_, ?_⟩
  · intro c hc
    rw [hl] at hc
    rw [hv]
    rcases h.looks_ok c hc with h0 | ⟨w, hw, h1⟩
    · exact Or.inl h0
    · exact Or.inr ⟨w, List.mem_cons_of_mem _ hw, h1⟩
  · intro pre x post hx
    rw [hv] at hx
    rcases pre with _ | ⟨p, pre'⟩
    · simp only [List.nil_append, List.cons.injEq] at hx
      obtain ⟨rfl, rfl⟩ := hx
      exact h.looks_ok u hu
    · simp only [List.cons_append, List.cons.injEq] at hx
      exact h.visits_ok pre' x post hx.2

theorem DijPar.dij_par_discard {st : DiskstraState Node Dist} (h : DijPar st)
    (u : DistUpdate Node Dist) (rest : List (DistUpdate Node Dist)) :
    DijPar (st.discard u rest) := by
  have hl : DijkstraEvent.looksOf (st.discard u rest).log = DijkstraEvent.looksOf st.log := by
    simp [DiskstraState.discard, DijkstraEvent.looksOf, List.filterMap_cons]
  have hv : DijkstraEvent.visitsOf (st.discard u rest).log = DijkstraEvent.visitsOf st.log := by
    simp [DiskstraState.discard, DijkstraEvent.visitsOf, List.filterMap_cons]
  exact ⟨by rw [hl, hv]; exact h.looks_ok, by rw [hv]; exact h.visits_ok⟩

theorem DiskstraState.dij_Run_par [LinearOrder Dist] [DecidableEq Node]
    (H : StdHeap (DistUpdate Node Dist) DistUpdate.lt)
    (start : σ → List (Node × Dist) × σ)
    (visit : Int → Option Node → σ → Node → Dist → List (Node × Dist) × σ)
    (steps : Nat) (s0 : σ) (st : DiskstraState Node Dist) (s : σ)
    (h : DiskstraState.Run H start visit steps s0 = some (st, s)) :
    DijInv st ∧ DijPar st := by
  refine (DiskstraState.dij_loop_rule H visit (fun st => DijInv st ∧ DijPar st)
    (fun _ h => h.1.heap) ?_ ?_ steps _ _ st s
    ⟨DijInv.dij_lookAll H (start s0).1 _ DijInv.dij_init,
      DijPar.dij_par_lookAll H (start s0).1 _ DijPar.dij_par_init (Or.inl rfl)⟩ h).1
  · intro st s u rest hP hperm hrest _ hd
    refine ⟨DijInv.dij_lookAll H _ _ (hP.1.dij_finalize u rest hperm hrest hd),
      DijPar.dij_par_lookAll H _ _ (hP.2.dij_par_finalize hP.1 u rest hperm) (Or.inr ⟨u, ?_, rfl⟩)⟩
    simp [DiskstraState.finalize, DijkstraEvent.visitsOf, List.filterMap_cons]
  · intro st u rest d hP hperm hrest _ hd
    exact ⟨hP.1.dij_discard u rest d hperm hrest hd, hP.2.dij_par_discard u rest⟩

theorem DijPar.dij_chain {st : DiskstraState Node Dist} (h : DijPar st) :
    ∀ (m : Nat) (pre : List (DistUpdate Node Dist)) (u : DistUpdate Node Dist)
      (post : List (DistUpdate Node Dist)),
      DijkstraEvent.visitsOf st.log = pre ++ u :: post → post.length = m →
      ∃ k : Nat, u.depth = k ∧ DijChain (DijkstraEvent.visitsOf st.log).reverse u k := by
  intro m
  induction m using Nat.strong_induction_on with
  | _ m ih =>
    intro pre u post hl hm
    have humem : u ∈ (DijkstraEvent.visitsOf st.log).reverse := by
      rw [List.mem_reverse, hl]
      simp
    rcases h.visits_ok pre u post hl with ⟨hp, hd⟩ | ⟨w, hw, hp, hd⟩
    · exact ⟨0, by rw [hd]; rfl, DijChain.root u humem hp⟩
    · obtain ⟨p1, p2, rfl⟩ := List.append_of_mem hw
      have hl' : DijkstraEvent.visitsOf st.log = (pre ++ u :: p1) ++ w :: p2 := by
        rw [hl]
        simp
      obtain ⟨k, hk, hc⟩ := ih p2.length (by rw [← hm]; simp; omega) _ w p2 hl' rfl
      refine ⟨k + 1, by rw [hd, hk]; push_cast; rfl, DijChain.step u w k ?_ hp hd hc⟩
      have hsub : List.Sublist [u, w] (DijkstraEvent.visitsOf st.log) := by
        rw [hl]
        refine List.sublist_append_of_sublist_right ?_
        exact List.Sublist.cons₂ _ (List.singleton_sublist.mpr (by simp))
      have := List.reverse_sublist.mpr hsub
      simpa using this

/-- One increment keeps the start cell and does not bring the iterator closer to it. -/
theorem ChessSpiral.Iterator.next_step_chess (it : ChessSpiral.Iterator) :
    it.next.start_ = it.start_ ∧
    (it.cur_.sub it.start_).Chess ≤ (it.next.cur_.sub it.start_).Chess := by
  refine ⟨rfl, ?_⟩
  obtain ⟨⟨si, sj⟩, ⟨ci, cj⟩⟩ := it
  simp only [ChessSpiral.Iterator.next, ChessSpiral.Iterator.InRange, Coord.add, Coord.sub,
    Coord.Chess, decide_eq_true_eq]
  split_ifs <;> (try dsimp only at *) <;> simp only [abs_eq_max_neg] <;> omega

theorem ChessSpiral.iterate_start_chess (s : Coord) (k : Nat) :
    (ChessSpiral.Iterator.next^[k] (ChessSpiral.begin s)).start_ = s := by
  induction k with
  | zero => rfl
  | succ k ih =>
    rw [Function.iterate_succ_apply']
    exact (ChessSpiral.Iterator.next_step_chess _).1.trans ih

/-- C22: for every start cell `s` the sequence of `ChessSpiral(s)` begins with `s`, and
the chessboard distance from `s` of each element is at most that of the next. -/
theorem ChessSpiral_nondecreasing (s : Coord) :
    ChessSpiral.nth s 0 = s ∧
    ∀ k, ((ChessSpiral.nth s k).sub s).Chess ≤ ((ChessSpiral.nth s (k + 1)).sub s).Chess := by
  refine ⟨rfl, ?_⟩
  intro k
  unfold ChessSpiral.nth ChessSpiral.Iterator.deref
  rw [Function.iterate_succ_apply']
  have h := (ChessSpiral.Iterator.next_step_chess
    (ChessSpiral.Iterator.next^[k] (ChessSpiral.begin s))).2
  rw [ChessSpiral.iterate_start_chess s k] at h
  exact h

theorem Bounds.Iterator.next_in_row (n : Nat) (i j : Nat) (hj : j + 1 < n) :
    Bounds.Iterator.next { cur_ := { i := i, j := j }, size_j_ := n } =
      { cur_ := { i := i, j := (j + 1 : Nat) }, size_j_ := n } := by
  have hn : (0 : Int) < n := by omega
  have hlt : ¬ ((0 : Int) < n ∧ (n : Int) ≤ (j : Int) + 1) := by omega
  simp only [Bounds.Iterator.next, gt_iff_lt, hn, if_true]
  rw [Bounds.Iterator.wrap]
  simp only [hlt, if_false]
  push_cast
  rfl

theorem Bounds.Iterator.next_row_end (n : Nat) (i j : Nat) (hj : j + 1 = n) :
    Bounds.Iterator.next { cur_ := { i := i, j := j }, size_j_ := n } =
      { cur_ := { i := (i + 1 : Nat), j := (0 : Nat) }, size_j_ := n } := by
  have hn : (0 : Int) < n := by omega
  have h1 : (0 : Int) < n ∧ (n : Int) ≤ (j : Int) + 1 := by omega
  have h2 : ¬ ((0 : Int) < n ∧ (n : Int) ≤ (j : Int) + 1 - n) := by omega
  simp only [Bounds.Iterator.next, gt_iff_lt, hn, if_true]
  rw [Bounds.Iterator.wrap]
  simp only [h1, and_self, if_true]
  rw [Bounds.Iterator.wrap]
  simp only [h2, if_false]
  have : (j : Int) + 1 - n = 0 := by omega
  rw [this]
  push_cast
  rfl

theorem Bounds.Iterator.eq_of_row_lt (m n : Nat) (hn : 0 < n) (i j : Nat) (hi : i < m) :
    Bounds.Iterator.eq { cur_ := { i := i, j := j }, size_j_ := n }
      { cur_ := { i := m, j := (0 : Nat) }, size_j_ := n } = false := by
  have hn' : ¬ ((n : Int) ≤ 0) := by omega
  have hne : ¬ (({ i := i, j := j } : Coord) = { i := m, j := (0 : Nat) }) := by
    intro h
    have := congrArg Coord.i h
    simp only [Nat.cast_inj] at this
    omega
  simp only [Bounds.Iterator.eq, ne_eq, not_true_eq_false, if_false, hn', hne, decide_False]

/-- The rest of a row: from column `j` of row `i` the loop sees the `k + 1` cells that
are left in the row and then goes on at the start of the next row. -/
theorem Bounds.Iterator.collect_row (m n : Nat) (i : Nat) (hi : i < m) :
    ∀ (k j fuel : Nat), j + (k + 1) = n →
      Bounds.Iterator.collect (fuel + (k + 1))
          { cur_ := { i := i, j := j }, size_j_ := n }
          { cur_ := { i := m, j := (0 : Nat) }, size_j_ := n } =
        (Bounds.Iterator.collect fuel
          { cur_ := { i := (i + 1 : Nat), j := (0 : Nat) }, size_j_ := n }
          { cur_ := { i := m, j := (0 : Nat) }, size_j_ := n }).map
          (fun l => (List.range' j (k + 1)).map
            (fun (b : Nat) => ({ i := (i : Int), j := (b : Int) } : Coord)) ++ l) := by
  intro k
  induction k with
  | zero =>
    intro j fuel hj
    have hn : 0 < n := by omega
    show Bounds.Iterator.collect (fuel + 1) _ _ = _
    rw [Bounds.Iterator.collect, Bounds.Iterator.eq_of_row_lt m n hn i j hi]
    simp only [Bool.false_eq_true, if_false]
    rw [Bounds.Iterator.next_row_end n i j hj]
    rfl
  | succ k ih =>
    intro j fuel hj
    have hn : 0 < n := by omega
    show Bounds.Iterator.collect ((fuel + (k + 1)) + 1) _ _ = _
    rw [Bounds.Iterator.collect, Bounds.Iterator.eq_of_row_lt m n hn i j hi]
    simp only [Bool.false_eq_true, if_false]
    rw [Bounds.Iterator.next_in_row n i j (by omega), ih (j + 1) fuel (by omega),
      Option.map_map]
    congr 1

/-- From the start of row `i` the loop sees the rows `i, ..., m - 1` one after the other
and ends. -/
theorem Bounds.Iterator.collect_rows (m n : Nat) (hn : 0 < n) :
    ∀ (r i fuel : Nat), i + r = m → r * n ≤ fuel →
      Bounds.Iterator.collect fuel
          { cur_ := { i := i, j := (0 : Nat) }, size_j_ := n }
          { cur_ := { i := m, j := (0 : Nat) }, size_j_ := n } =
        some (rowMajorCells i r n) := by
  intro r
  induction r with
  | zero =>
    intro i fuel hi _
    have him : i = m := by omega
    subst him
    have hn' : ¬ ((n : Int) ≤ 0) := by omega
    cases fuel <;> simp [Bounds.Iterator.collect, Bounds.Iterator.eq, hn', rowMajorCells]
  | succ r ih =>
    intro i fuel hi hfuel
    obtain ⟨k, hk⟩ : ∃ k, n = k + 1 := ⟨n - 1, by omega⟩
    have hmul : (r + 1) * n = r * n + n := by ring
    obtain ⟨fuel', hf⟩ : ∃ fuel', fuel = fuel' + (k + 1) := ⟨fuel - n, by omega⟩
    have hf' : r * n ≤ fuel' := by omega
    rw [hf, Bounds.Iterator.collect_row m n i (by omega) k 0 fuel' (by omega),
      ih (i + 1) fuel' (by omega) hf']
    simp only [Option.map_some', rowMajorCells, List.range'_succ i r, List.flatMap_cons,
      ← hk]

theorem rowMajorCells_length (n : Nat) : ∀ (r i : Nat), (rowMajorCells i r n).length = r * n := by
  intro r
  induction r with
  | zero => intro i; simp [rowMajorCells]
  | succ r ih =>
    intro i
    have h := ih (i + 1)
    simp only [rowMajorCells] at h ⊢
    simp only [List.range'_succ i r, List.flatMap_cons, List.length_append, List.length_map,
      List.length_range', h]
    ring

theorem mem_rowMajorCells (i r n : Nat) (c : Coord) :
    c ∈ rowMajorCells i r n ↔
      ∃ a b : Nat, i ≤ a ∧ a < i + r ∧ b < n ∧ c = { i := (a : Int), j := (b : Int) } := by
  simp only [rowMajorCells, List.mem_flatMap, List.mem_map, List.mem_range'_1]
  constructor
  · rintro ⟨a, ⟨h1, h2⟩, b, ⟨-, h3⟩, rfl⟩
    exact ⟨a, b, h1, h2, by omega, rfl⟩
  · rintro ⟨a, b, h1, h2, h3, rfl⟩
    exact ⟨a, ⟨h1, h2⟩, b, ⟨Nat.zero_le _, by omega⟩, rfl⟩

theorem rowMajorCells_sorted (i r n : Nat) :
    (rowMajorCells i r n).Pairwise (fun a b => a.i < b.i ∨ (a.i = b.i ∧ a.j < b.j)) := by
  unfold rowMajorCells
  rw [List.pairwise_flatMap]
  refine ⟨?_, ?_⟩
  · intro a _
    rw [List.pairwise_map]
    refine List.Pairwise.imp ?_ (List.pairwise_lt_range' 0 n)
    intro x y hxy
    exact Or.inr ⟨rfl, by show (x : Int) < (y : Int); exact_mod_cast hxy⟩
  · refine List.Pairwise.imp ?_ (List.pairwise_lt_range' i r)
    intro a b hab x hx y hy
    simp only [List.mem_map] at hx hy
    obtain ⟨_, -, rfl⟩ := hx
    obtain ⟨_, -, rfl⟩ := hy
    exact Or.inl (by show (a : Int) < (b : Int); exact_mod_cast hab)

/-- C24: for sizes that are not negative and with at least `size_i * size_j` iterations
allowed, the loop over `Bounds(size_i, size_j)` from `begin()` to `end()` ends and sees
the list of cells `rowMajorCells`: it has `size_i * size_j` elements, its elements are
the cells for which `InBounds` holds, and it is strictly increasing in the order by row
and then by column, so that no cell is in it twice; it is empty when a size is `0`. -/
theorem Bounds_row_major (size_i size_j : Int) (hi : 0 ≤ size_i) (hj : 0 ≤ size_j)
    (fuel : Nat) (hfuel : (size_i * size_j).toNat ≤ fuel) :
    Bounds.toList size_i size_j fuel =
      some (rowMajorCells 0 size_i.toNat size_j.toNat) ∧
    ((rowMajorCells 0 size_i.toNat size_j.toNat).length : Int) = size_i * size_j ∧
    (∀ c, c ∈ rowMajorCells 0 size_i.toNat size_j.toNat ↔ InBounds c size_i size_j = true) ∧
    (rowMajorCells 0 size_i.toNat size_j.toNat).Pairwise
      (fun a b => a.i < b.i ∨ (a.i = b.i ∧ a.j < b.j)) ∧
    (rowMajorCells 0 size_i.toNat size_j.toNat).Nodup ∧
    (size_i = 0 ∨ size_j = 0 → rowMajorCells 0 size_i.toNat size_j.toNat = []) := by
  obtain ⟨m, rfl⟩ := Int.eq_ofNat_of_zero_le hi
  obtain ⟨n, rfl⟩ := Int.eq_ofNat_of_zero_le hj
  simp only [Int.toNat_ofNat]
  have hlen := rowMajorCells_length n m 0
  have hsorted := rowMajorCells_sorted 0 m n
  refine ⟨?_, ?_, ?_, hsorted, ?_, ?_⟩
  · have hnew : Bounds.new (m : Int) (n : Int) = some { size_i_ := m, size_j_ := n } := by
      simp [Bounds.new]
    simp only [Bounds.toList, hnew, Bounds.begin, Bounds.end_]
    rcases Nat.eq_zero_or_pos n with rfl | hn
    · have : rowMajorCells 0 m 0 = [] := List.length_eq_zero.mp (by rw [hlen]; rfl)
      rw [this]
      cases fuel <;> simp [Bounds.Iterator.collect, Bounds.Iterator.eq]
    · have hf : m * n ≤ fuel := by
        have : ((m : Int) * (n : Int)).toNat = m * n := by
          rw [← Nat.cast_mul, Int.toNat_ofNat]
        omega
      exact Bounds.Iterator.collect_rows m n hn m 0 fuel (by omega) hf
  · rw [hlen]
    push_cast
    rfl
  · intro c
    rw [mem_rowMajorCells]
    simp only [InBounds, decide_eq_true_eq]
    constructor
    · rintro ⟨a, b, -, h2, h3, rfl⟩
      simp only
      omega
    · rintro ⟨h1, h2, h3, h4⟩
      refine ⟨c.i.toNat, c.j.toNat, Nat.zero_le _, by omega, by omega, ?_⟩
      obtain ⟨ci, cj⟩ := c
      simp only at h1 h2 h3 h4 ⊢
      rw [Int.toNat_of_nonneg h1, Int.toNat_of_nonneg h3]
  · refine List.Pairwise.imp ?_ hsorted
    rintro a b h rfl
    omega
  · intro h0
    apply List.length_eq_zero.mp
    rw [hlen]
    rcases h0 with h0 | h0
    · have : m = 0 := by exact_mod_cast h0
      rw [this, Nat.zero_mul]
    · have : n = 0 := by exact_mod_cast h0
      rw [this, Nat.mul_zero]

/-- Witness for C24: `Bounds(2, 3)` with six iterations allowed. -/
theorem Bounds_row_major_witness :
    (0 : Int) ≤ 2 ∧ (0 : Int) ≤ 3 ∧ ((2 : Int) * 3).toNat ≤ 6 ∧
    Bounds.toList 2 3 6 = some [{ i := 0, j := 0 }, { i := 0, j := 1 }, { i := 0, j := 2 },
      { i := 1, j := 0 }, { i := 1, j := 1 }, { i := 1, j := 2 }] :=
  ⟨by decide, by decide, by decide,
    (Bounds_row_major 2 3 (by decide) (by decide) 6 (by decide)).1⟩

theorem ManhattanSpiral.offset_bounds (d : Coord) (h : d.Manhattan ≠ 0) :
    0 ≤ ManhattanSpiral.offset d ∧ ManhattanSpiral.offset d < 4 * d.Manhattan := by
  obtain ⟨di, dj⟩ := d
  simp only [ManhattanSpiral.offset, Coord.Manhattan, abs_eq_max_neg] at h ⊢
  split_ifs <;> omega

theorem ManhattanSpiral.manhattan_nonneg (d : Coord) : 0 ≤ d.Manhattan := by
  obtain ⟨di, dj⟩ := d
  simp only [Coord.Manhattan, abs_eq_max_neg]
  omega

/-- The increment in terms of the offset from the start, by the side of the ring the
iterator is on. -/
theorem ManhattanSpiral.Iterator.next_delta (it : ManhattanSpiral.Iterator) (di dj : Int)
    (hd : it.cur_.sub it.start_ = { i := di, j := dj }) :
    (di = 0 ∧ dj = 0 → it.next.cur_.sub it.start_ = { i := 1, j := 0 }) ∧
    (di > 0 ∧ dj ≥ 0 → it.next.cur_.sub it.start_ = { i := di - 1, j := dj + 1 }) ∧
    (di ≤ 0 ∧ dj > 0 → it.next.cur_.sub it.start_ = { i := di - 1, j := dj - 1 }) ∧
    (di < 0 ∧ dj ≤ 0 → it.next.cur_.sub it.start_ = { i := di + 1, j := dj - 1 }) ∧
    (di ≥ 0 ∧ dj < -1 → it.next.cur_.sub it.start_ = { i := di + 1, j := dj + 1 }) ∧
    (di ≥ 0 ∧ dj = -1 → it.next.cur_.sub it.start_ = { i := di + 2, j := 0 }) := by
  obtain ⟨⟨si, sj⟩, ⟨ci, cj⟩⟩ := it
  simp only [Coord.sub, Coord.mk.injEq] at hd
  obtain ⟨h1, h2⟩ := hd
  simp only [ManhattanSpiral.Iterator.next, Coord.add, Coord.sub, Coord.mk.injEq]
  refine ⟨?_, ?_, ?_, ?_, ?_, ?_⟩ <;> intro h <;> split_ifs <;> (try dsimp only at *) <;> omega

theorem ManhattanSpiral.index_zero : ManhattanSpiral.index { i := 0, j := 0 } = 0 := by
  simp [ManhattanSpiral.index, Coord.Manhattan]

theorem ManhattanSpiral.index_lower (a b : Int) (ha : a > 0) (hb : b ≥ 0) :
    ManhattanSpiral.index { i := a, j := b } = 2 * (a + b) * (a + b - 1) + 1 + b := by
  have hM : |a| + |b| = a + b := by rw [abs_of_pos ha, abs_of_nonneg hb]
  have h0 : ¬ (a + b = 0) := by omega
  simp only [ManhattanSpiral.index, ManhattanSpiral.offset, Coord.Manhattan, hM, h0, if_false]
  rw [if_pos ⟨ha, hb⟩]

theorem ManhattanSpiral.index_right (a b : Int) (ha : a ≤ 0) (hb : b > 0) :
    ManhattanSpiral.index { i := a, j := b } =
      2 * (b - a) * (b - a - 1) + 1 + ((b - a) - a) := by
  have hM : |a| + |b| = b - a := by rw [abs_of_nonpos ha, abs_of_pos hb]; ring
  have h0 : ¬ (b - a = 0) := by omega
  simp only [ManhattanSpiral.index, ManhattanSpiral.offset, Coord.Manhattan, hM, h0, if_false]
  rw [if_neg (by omega), if_pos ⟨ha, hb⟩]

theorem ManhattanSpiral.index_upper (a b : Int) (ha : a < 0) (hb : b ≤ 0) :
    ManhattanSpiral.index { i := a, j := b } =
      2 * (-a - b) * (-a - b - 1) + 1 + (2 * (-a - b) - b) := by
  have hM : |a| + |b| = -a - b := by rw [abs_of_neg ha, abs_of_nonpos hb]; ring
  have h0 : ¬ (-a - b = 0) := by omega
  simp only [ManhattanSpiral.index, ManhattanSpiral.offset, Coord.Manhattan, hM, h0, if_false]
  rw [if_neg (by omega), if_neg (by omega), if_pos ⟨ha, hb⟩]

theorem ManhattanSpiral.index_left (a b : Int) (ha : a ≥ 0) (hb : b < 0) :
    ManhattanSpiral.index { i := a, j := b } =
      2 * (a - b) * (a - b - 1) + 1 + (3 * (a - b) + a) := by
  have hM : |a| + |b| = a - b := by rw [abs_of_nonneg ha, abs_of_neg hb]; ring
  have h0 : ¬ (a - b = 0) := by omega
  simp only [ManhattanSpiral.index, ManhattanSpiral.offset, Coord.Manhattan, hM, h0, if_false]
  rw [if_neg (by omega), if_neg (by omega), if_neg (by omega)]

/-- One increment moves the iterator to the next position of the spiral. -/
theorem ManhattanSpiral.Iterator.index_next (it : ManhattanSpiral.Iterator) :
    ManhattanSpiral.index (it.next.cur_.sub it.start_) =
      ManhattanSpiral.index (it.cur_.sub it.start_) + 1 := by
  obtain ⟨h0, hA, hB, hC, hD, hE⟩ := ManhattanSpiral.Iterator.next_delta it
    (it.cur_.sub it.start_).i (it.cur_.sub it.start_).j rfl
  generalize it.next.cur_.sub it.start_ = d' at *
  generalize it.cur_.sub it.start_ = d at *
  obtain ⟨a, b⟩ := d
  simp only at h0 hA hB hC hD hE
  rcases (by omega : (a = 0 ∧ b = 0) ∨ (a > 1 ∧ b ≥ 0) ∨ (a = 1 ∧ b ≥ 0) ∨
      (a ≤ 0 ∧ b > 1) ∨ (a ≤ 0 ∧ b = 1) ∨ (a < -1 ∧ b ≤ 0) ∨ (a = -1 ∧ b ≤ 0) ∨
      (a ≥ 0 ∧ b < -1) ∨ (a ≥ 0 ∧ b = -1)) with
    h | h | h | h | h | h | h | h | h
  · rw [h0 h, h.1, h.2, ManhattanSpiral.index_zero,
      ManhattanSpiral.index_lower 1 0 (by omega) (by omega)]
    ring
  · rw [hA ⟨by omega, h.2⟩, ManhattanSpiral.index_lower a b (by omega) h.2,
      ManhattanSpiral.index_lower (a - 1) (b + 1) (by omega) (by omega)]
    ring
  · rw [hA ⟨by omega, h.2⟩, ManhattanSpiral.index_lower a b (by omega) h.2,
      ManhattanSpiral.index_right (a - 1) (b + 1) (by omega) (by omega), h.1]
    ring
  · rw [hB ⟨h.1, by omega⟩, ManhattanSpiral.index_right a b h.1 (by omega),
      ManhattanSpiral.index_right (a - 1) (b - 1) (by omega) (by omega)]
    ring
  · rw [hB ⟨h.1, by omega⟩, ManhattanSpiral.index_right a b h.1 (by omega),
      ManhattanSpiral.index_upper (a - 1) (b - 1) (by omega) (by omega), h.2]
    ring
  · rw [hC ⟨by omega, h.2⟩, ManhattanSpiral.index_upper a b (by omega) h.2,
      ManhattanSpiral.index_upper (a + 1) (b - 1) (by omega) (by omega)]
    ring
  · rw [hC ⟨by omega, h.2⟩, ManhattanSpiral.index_upper a b (by omega) h.2,
      ManhattanSpiral.index_left (a + 1) (b - 1) (by omega) (by omega), h.1]
    ring
  · rw [hD h, ManhattanSpiral.index_left a b h.1 (by omega),
      ManhattanSpiral.index_left (a + 1) (b + 1) (by omega) (by omega)]
    ring
  · rw [hE h, ManhattanSpiral.index_left a b h.1 (by omega),
      ManhattanSpiral.index_lower (a + 2) 0 (by omega) (by omega), h.2]
    ring

theorem ManhattanSpiral.index_range (d : Coord) (h : d.Manhattan ≠ 0) :
    2 * d.Manhattan * (d.Manhattan - 1) + 1 ≤ ManhattanSpiral.index d ∧
    ManhattanSpiral.index d ≤ 2 * d.Manhattan * (d.Manhattan + 1) := by
  obtain ⟨h1, h2⟩ := ManhattanSpiral.offset_bounds d h
  have e : 2 * d.Manhattan * (d.Manhattan + 1) =
      2 * d.Manhattan * (d.Manhattan - 1) + 4 * d.Manhattan := by ring
  simp only [ManhattanSpiral.index, h, if_false]
  rw [e]
  constructor <;> linarith

theorem ManhattanSpiral.ring_gap (r r' : Int) (h0 : 0 ≤ r) (h : r + 1 ≤ r') :
    2 * r * (r + 1) < 2 * r' * (r' - 1) + 1 := by
  nlinarith [mul_nonneg (sub_nonneg.mpr h) (add_nonneg (le_trans h0 (by linarith : r ≤ r')) h0)]

theorem ManhattanSpiral.eq_of_offset (d d' : Coord) (hM : d.Manhattan = d'.Manhattan)
    (ho : ManhattanSpiral.offset d = ManhattanSpiral.offset d') : d = d' := by
  obtain ⟨a, b⟩ := d
  obtain ⟨a', b'⟩ := d'
  simp only [ManhattanSpiral.offset, Coord.Manhattan, abs_eq_max_neg] at hM ho
  simp only [Coord.mk.injEq]
  split_ifs at ho <;> omega

theorem ManhattanSpiral.index_injective (d d' : Coord)
    (h : ManhattanSpiral.index d = ManhattanSpiral.index d') : d = d' := by
  have hn := ManhattanSpiral.manhattan_nonneg d
  have hn' := ManhattanSpiral.manhattan_nonneg d'
  have hzero : ∀ c : Coord, c.Manhattan = 0 → c = { i := 0, j := 0 } := by
    intro c hc
    obtain ⟨a, b⟩ := c
    simp only [Coord.Manhattan, abs_eq_max_neg] at hc
    simp only [Coord.mk.injEq]
    omega
  have hpos : ∀ c : Coord, c.Manhattan ≠ 0 → 1 ≤ ManhattanSpiral.index c := by
    intro c hc
    have h1 := (ManhattanSpiral.index_range c hc).1
    have h2 := ManhattanSpiral.manhattan_nonneg c
    have h3 : 0 ≤ c.Manhattan * (c.Manhattan - 1) :=
      mul_nonneg h2 (by omega)
    nlinarith
  by_cases h0 : d.Manhattan = 0
  · by_cases h0' : d'.Manhattan = 0
    · rw [hzero d h0, hzero d' h0']
    · have := hpos d' h0'
      have hd : ManhattanSpiral.index d = 0 := by simp only [ManhattanSpiral.index, h0, if_true]
      omega
  · by_cases h0' : d'.Manhattan = 0
    · have := hpos d h0
      have hd : ManhattanSpiral.index d' = 0 := by
        simp only [ManhattanSpiral.index, h0', if_true]
      omega
    · obtain ⟨l1, u1⟩ := ManhattanSpiral.index_range d h0
      obtain ⟨l2, u2⟩ := ManhattanSpiral.index_range d' h0'
      have hM : d.Manhattan = d'.Manhattan := by
        rcases lt_trichotomy d.Manhattan d'.Manhattan with hlt | heq | hgt
        · have := ManhattanSpiral.ring_gap d.Manhattan d'.Manhattan hn (by omega)
          omega
        · exact heq
        · have := ManhattanSpiral.ring_gap d'.Manhattan d.Manhattan hn' (by omega)
          omega
      apply ManhattanSpiral.eq_of_offset d d' hM
      simp only [ManhattanSpiral.index, h0, h0', if_false, hM] at h
      omega

theorem ManhattanSpiral.index_nth (s : Coord) (k : Nat) :
    ManhattanSpiral.index ((ManhattanSpiral.nth s k).sub s) = k := by
  induction k with
  | zero =>
    have : (ManhattanSpiral.nth s 0).sub s = { i := 0, j := 0 } := by
      simp [ManhattanSpiral.nth, ManhattanSpiral.begin, ManhattanSpiral.Iterator.deref,
        Coord.sub]
    rw [this, ManhattanSpiral.index_zero]
    rfl
  | succ k ih =>
    have h := ManhattanSpiral.Iterator.index_next
      (ManhattanSpiral.Iterator.next^[k] (ManhattanSpiral.begin s))
    rw [ManhattanSpiral.iterate_start s k] at h
    unfold ManhattanSpiral.nth ManhattanSpiral.Iterator.deref at ih ⊢
    rw [Function.iterate_succ_apply', h, ih]
    push_cast
    rfl

theorem Coord.sub_cancel (a b s : Coord) (h : a.sub s = b.sub s) : a = b := by
  obtain ⟨ai, aj⟩ := a
  obtain ⟨bi, bj⟩ := b
  simp only [Coord.sub, Coord.mk.injEq] at h ⊢
  omega

/-- The matrix `TestManhattanSpiral` fills, evaluated. -/
theorem TestManhattanSpiral_eval :
    TestManhattanSpiral 113 = some [
      [39, 30, 19,  9, 18, 29, 38],
      [31, 20, 10,  3,  8, 17, 28],
      [21, 11,  4,  0,  2,  7, 16],
      [32, 22, 12,  1,  6, 15, 27],
      [40, 33, 23,  5, 14, 26, 37],
      [45, 41, 34, 13, 25, 36, 44],
      [48, 46, 42, 24, 35, 43, 47]] := by
  decide!

/-- C21: for every start cell `s` the sequence of `ManhattanSpiral(s)` has every cell of
the grid exactly once; for every `r > 0` its element number `2 r (r - 1) + 1` is
`s + (r, 0)`, and the elements at Manhattan distance `r` from `s` are the `4 r` elements
with the numbers `2 r (r - 1) + 1, ..., 2 r (r + 1)`, which come right after the
`2 r (r - 1) + 1` elements at a smaller distance; and the loop of `TestManhattanSpiral`,
which numbers the cells of the 7 by 7 box from the start `(2, 3)`, ends with the matrix
the test expects. -/
theorem ManhattanSpiral_enumerates (s : Coord) :
    Function.Bijective (ManhattanSpiral.nth s) ∧
    (∀ r : Nat, 0 < r →
      ManhattanSpiral.nth s (2 * r * (r - 1) + 1) = s.add { i := r, j := 0 }) ∧
    (∀ r k : Nat, 0 < r →
      (((ManhattanSpiral.nth s k).sub s).Manhattan = r ↔
        2 * r * (r - 1) + 1 ≤ k ∧ k ≤ 2 * r * (r + 1))) ∧
    TestManhattanSpiral 113 = some [
      [39, 30, 19,  9, 18, 29, 38],
      [31, 20, 10,  3,  8, 17, 28],
      [21, 11,  4,  0,  2,  7, 16],
      [32, 22, 12,  1,  6, 15, 27],
      [40, 33, 23,  5, 14, 26, 37],
      [45, 41, 34, 13, 25, 36, 44],
      [48, 46, 42, 24, 35, 43, 47]] := by
  have hidx := ManhattanSpiral.index_nth s
  have hinj : Function.Injective (ManhattanSpiral.nth s) := by
    intro k k' h
    have h1 := hidx k
    rw [h, hidx k'] at h1
    exact_mod_cast h1.symm
  have hfind : ∀ c : Coord, ∀ k : Nat, ManhattanSpiral.index (c.sub s) = k →
      ManhattanSpiral.nth s k = c := by
    intro c k hk
    apply Coord.sub_cancel _ _ s
    apply ManhattanSpiral.index_injective
    rw [hidx k, hk]
  have hnonneg : ∀ d : Coord, 0 ≤ ManhattanSpiral.index d := by
    intro d
    by_cases h0 : d.Manhattan = 0
    · simp only [ManhattanSpiral.index, h0, if_true, le_refl]
    · have h1 := (ManhattanSpiral.index_range d h0).1
      have h2 := ManhattanSpiral.manhattan_nonneg d
      have h3 : 0 ≤ d.Manhattan * (d.Manhattan - 1) := mul_nonneg h2 (by omega)
      nlinarith
  refine ⟨⟨hinj, ?_⟩, ?_, ?_, TestManhattanSpiral_eval⟩
  · intro c
    exact ⟨(ManhattanSpiral.index (c.sub s)).toNat,
      hfind c _ (Int.toNat_of_nonneg (hnonneg _)).symm⟩
  · intro r hr
    apply hfind
    have hsub : (s.add { i := (r : Int), j := 0 }).sub s = { i := (r : Int), j := 0 } := by
      simp [Coord.add, Coord.sub]
    rw [hsub, ManhattanSpiral.index_lower r 0 (by omega) (le_refl 0)]
    obtain ⟨q, rfl⟩ : ∃ q, r = q + 1 := ⟨r - 1, by omega⟩
    simp only [Nat.add_sub_cancel]
    push_cast
    ring
  · intro r k hr
    have hk := hidx k
    obtain ⟨q, rfl⟩ : ∃ q, r = q + 1 := ⟨r - 1, by omega⟩
    simp only [Nat.add_sub_cancel]
    constructor
    · intro hM
      have h0 : ((ManhattanSpiral.nth s k).sub s).Manhattan ≠ 0 := by rw [hM]; push_cast; omega
      obtain ⟨h1, h2⟩ := ManhattanSpiral.index_range _ h0
      rw [hk, hM] at h1 h2
      push_cast at h1 h2
      constructor
      · have : ((2 * (q + 1) * q + 1 : Nat) : Int) ≤ k := by
          push_cast
          linarith
        exact_mod_cast this
      · have : (k : Int) ≤ ((2 * (q + 1) * (q + 1 + 1) : Nat) : Int) := by
          push_cast
          linarith
        exact_mod_cast this
    · rintro ⟨h1, h2⟩
      have h1' : (2 * ((q : Int) + 1) * q + 1 : Int) ≤ k := by exact_mod_cast h1
      have h2' : (k : Int) ≤ 2 * ((q : Int) + 1) * (q + 1 + 1) := by exact_mod_cast h2
      have hn := ManhattanSpiral.manhattan_nonneg ((ManhattanSpiral.nth s k).sub s)
      have h0 : ((ManhattanSpiral.nth s k).sub s).Manhattan ≠ 0 := by
        intro h0
        have : ManhattanSpiral.index ((ManhattanSpiral.nth s k).sub s) = 0 := by
          simp only [ManhattanSpiral.index, h0, if_true]
        rw [hk] at this
        have hq : (0 : Int) ≤ 2 * ((q : Int) + 1) * q := by positivity
        omega
      obtain ⟨l, u⟩ := ManhattanSpiral.index_range _ h0
      rw [hk] at l u
      generalize ((ManhattanSpiral.nth s k).sub s).Manhattan = M at *
      push_cast
      rcases lt_trichotomy M ((q : Int) + 1) with hlt | heq | hgt
      · have := ManhattanSpiral.ring_gap M ((q : Int) + 1) hn (by omega)
        have e : 2 * ((q : Int) + 1) * ((q : Int) + 1 - 1) = 2 * ((q : Int) + 1) * q := by ring
        rw [e] at this
        omega
      · exact heq
      · have := ManhattanSpiral.ring_gap ((q : Int) + 1) M (by omega) (by omega)
        omega

theorem ChessSpiral.chess_nonneg (d : Coord) : 0 ≤ d.Chess := by
  obtain ⟨di, dj⟩ := d
  simp only [Coord.Chess, abs_eq_max_neg]
  omega

theorem ChessSpiral.offset_bounds_chess (d : Coord) (h : d.Chess ≠ 0) :
    0 ≤ ChessSpiral.offset d ∧ ChessSpiral.offset d < 8 * d.Chess := by
  obtain ⟨di, dj⟩ := d
  simp only [ChessSpiral.offset, Coord.Chess, abs_eq_max_neg] at h ⊢
  split_ifs <;> omega

/-- The increment in terms of the offset from the start, by the side of the ring the
iterator is on. -/
theorem ChessSpiral.Iterator.next_delta_chess (it : ChessSpiral.Iterator) (di dj : Int)
    (hd : it.cur_.sub it.start_ = { i := di, j := dj }) :
    (di = 0 ∧ dj = 0 → it.next.cur_.sub it.start_ = { i := 1, j := 1 }) ∧
    (-dj < di ∧ di ≤ dj → it.next.cur_.sub it.start_ = { i := di - 1, j := dj }) ∧
    (di < dj ∧ dj ≤ -di → it.next.cur_.sub it.start_ = { i := di, j := dj - 1 }) ∧
    (dj ≤ di ∧ di < -dj → it.next.cur_.sub it.start_ = { i := di + 1, j := dj }) ∧
    (-di ≤ dj ∧ dj < di - 1 → it.next.cur_.sub it.start_ = { i := di, j := dj + 1 }) ∧
    (-di ≤ dj ∧ dj = di - 1 → it.next.cur_.sub it.start_ = { i := di + 1, j := di + 1 }) := by
  obtain ⟨⟨si, sj⟩, ⟨ci, cj⟩⟩ := it
  simp only [Coord.sub, Coord.mk.injEq] at hd
  obtain ⟨h1, h2⟩ := hd
  simp only [ChessSpiral.Iterator.next, ChessSpiral.Iterator.InRange, Coord.add, Coord.sub,
    Coord.mk.injEq, decide_eq_true_eq]
  refine ⟨?_, ?_, ?_, ?_, ?_, ?_⟩ <;> intro h <;> split_ifs <;> (try dsimp only at *) <;> omega

theorem ChessSpiral.index_zero_chess : ChessSpiral.index { i := 0, j := 0 } = 0 := by
  simp [ChessSpiral.index, Coord.Chess]

theorem ChessSpiral.index_right_chess (a b : Int) (h1 : -b < a) (h2 : a ≤ b) :
    ChessSpiral.index { i := a, j := b } = (2 * b - 1) * (2 * b - 1) + (b - a) := by
  have hM : max |a| |b| = b := by simp only [abs_eq_max_neg]; omega
  have h0 : ¬ (b = 0) := by omega
  simp only [ChessSpiral.index, ChessSpiral.offset, Coord.Chess, hM, h0, if_false]
  rw [if_pos ⟨h1, h2⟩]

theorem ChessSpiral.index_top (a b : Int) (h1 : a < b) (h2 : b ≤ -a) :
    ChessSpiral.index { i := a, j := b } =
      (2 * (-a) - 1) * (2 * (-a) - 1) + (3 * (-a) - b) := by
  have hM : max |a| |b| = -a := by simp only [abs_eq_max_neg]; omega
  have h0 : ¬ (-a = 0) := by omega
  simp only [ChessSpiral.index, ChessSpiral.offset, Coord.Chess, hM, h0, if_false]
  rw [if_neg (by omega), if_pos ⟨h1, h2⟩]

theorem ChessSpiral.index_left_chess (a b : Int) (h1 : b ≤ a) (h2 : a < -b) :
    ChessSpiral.index { i := a, j := b } =
      (2 * (-b) - 1) * (2 * (-b) - 1) + (5 * (-b) + a) := by
  have hM : max |a| |b| = -b := by simp only [abs_eq_max_neg]; omega
  have h0 : ¬ (-b = 0) := by omega
  simp only [ChessSpiral.index, ChessSpiral.offset, Coord.Chess, hM, h0, if_false]
  rw [if_neg (by omega), if_neg (by omega), if_pos ⟨h1, h2⟩]

theorem ChessSpiral.index_bottom (a b : Int) (h1 : -a ≤ b) (h2 : b < a) :
    ChessSpiral.index { i := a, j := b } = (2 * a - 1) * (2 * a - 1) + (7 * a + b) := by
  have hM : max |a| |b| = a := by simp only [abs_eq_max_neg]; omega
  have h0 : ¬ (a = 0) := by omega
  simp only [ChessSpiral.index, ChessSpiral.offset, Coord.Chess, hM, h0, if_false]
  rw [if_neg (by omega), if_neg (by omega), if_neg (by omega)]

/-- One increment moves the iterator to the next position of the spiral. -/
theorem ChessSpiral.Iterator.index_next_chess (it : ChessSpiral.Iterator) :
    ChessSpiral.index (it.next.cur_.sub it.start_) =
      ChessSpiral.index (it.cur_.sub it.start_) + 1 := by
  obtain ⟨h0, hR, hT, hL, hB, hC⟩ := ChessSpiral.Iterator.next_delta_chess it
    (it.cur_.sub it.start_).i (it.cur_.sub it.start_).j rfl
  generalize it.next.cur_.sub it.start_ = d' at *
  generalize it.cur_.sub it.start_ = d at *
  obtain ⟨a, b⟩ := d
  simp only at h0 hR hT hL hB hC
  rcases (by omega : (a = 0 ∧ b = 0) ∨ (-b < a - 1 ∧ a ≤ b) ∨ (-b = a - 1 ∧ a ≤ b) ∨
      (a < b - 1 ∧ b ≤ -a) ∨ (a = b - 1 ∧ b ≤ -a) ∨ (b ≤ a ∧ a + 1 < -b) ∨
      (b ≤ a ∧ a + 1 = -b) ∨ (-a ≤ b ∧ b < a - 1) ∨ (-a ≤ b ∧ b = a - 1)) with
    h | h | h | h | h | h | h | h | h
  · rw [h0 h, h.1, h.2, ChessSpiral.index_zero_chess,
      ChessSpiral.index_right_chess 1 1 (by omega) (by omega)]
    ring
  · rw [hR ⟨by omega, h.2⟩, ChessSpiral.index_right_chess a b (by omega) h.2,
      ChessSpiral.index_right_chess (a - 1) b (by omega) (by omega)]
    ring
  · have ha : a = 1 - b := by omega
    rw [hR ⟨by omega, h.2⟩, ChessSpiral.index_right_chess a b (by omega) h.2,
      ChessSpiral.index_top (a - 1) b (by omega) (by omega), ha]
    ring
  · rw [hT ⟨by omega, h.2⟩, ChessSpiral.index_top a b (by omega) h.2,
      ChessSpiral.index_top a (b - 1) (by omega) (by omega)]
    ring
  · have hb : b = a + 1 := by omega
    rw [hT ⟨by omega, h.2⟩, ChessSpiral.index_top a b (by omega) h.2,
      ChessSpiral.index_left_chess a (b - 1) (by omega) (by omega), hb]
    ring
  · rw [hL ⟨h.1, by omega⟩, ChessSpiral.index_left_chess a b h.1 (by omega),
      ChessSpiral.index_left_chess (a + 1) b (by omega) (by omega)]
    ring
  · have ha : a = -b - 1 := by omega
    rw [hL ⟨h.1, by omega⟩, ChessSpiral.index_left_chess a b h.1 (by omega),
      ChessSpiral.index_bottom (a + 1) b (by omega) (by omega), ha]
    ring
  · rw [hB h, ChessSpiral.index_bottom a b h.1 (by omega),
      ChessSpiral.index_bottom a (b + 1) (by omega) (by omega)]
    ring
  · rw [hC h, ChessSpiral.index_bottom a b h.1 (by omega),
      ChessSpiral.index_right_chess (a + 1) (a + 1) (by omega) (by omega), h.2]
    ring

theorem ChessSpiral.index_range_chess (d : Coord) (h : d.Chess ≠ 0) :
    (2 * d.Chess - 1) * (2 * d.Chess - 1) ≤ ChessSpiral.index d ∧
    ChessSpiral.index d < (2 * d.Chess + 1) * (2 * d.Chess + 1) := by
  obtain ⟨h1, h2⟩ := ChessSpiral.offset_bounds_chess d h
  have e : (2 * d.Chess + 1) * (2 * d.Chess + 1) =
      (2 * d.Chess - 1) * (2 * d.Chess - 1) + 8 * d.Chess := by ring
  simp only [ChessSpiral.index, h, if_false]
  rw [e]
  constructor <;> linarith

theorem ChessSpiral.ring_gap_chess (r r' : Int) (h0 : 0 ≤ r) (h : r + 1 ≤ r') :
    (2 * r + 1) * (2 * r + 1) ≤ (2 * r' - 1) * (2 * r' - 1) := by
  nlinarith [mul_nonneg (sub_nonneg.mpr h) (add_nonneg (le_trans h0 (by linarith : r ≤ r')) h0)]

theorem ChessSpiral.offset_spec (d : Coord) (h : d.Chess ≠ 0) :
    (ChessSpiral.offset d < 2 * d.Chess ∧ d.i = d.Chess - ChessSpiral.offset d ∧
      d.j = d.Chess) ∨
    (2 * d.Chess ≤ ChessSpiral.offset d ∧ ChessSpiral.offset d < 4 * d.Chess ∧
      d.i = -d.Chess ∧ d.j = 3 * d.Chess - ChessSpiral.offset d) ∨
    (4 * d.Chess ≤ ChessSpiral.offset d ∧ ChessSpiral.offset d < 6 * d.Chess ∧
      d.i = ChessSpiral.offset d - 5 * d.Chess ∧ d.j = -d.Chess) ∨
    (6 * d.Chess ≤ ChessSpiral.offset d ∧
      d.i = d.Chess ∧ d.j = ChessSpiral.offset d - 7 * d.Chess) := by
  obtain ⟨a, b⟩ := d
  simp only [ChessSpiral.offset, Coord.Chess, abs_eq_max_neg] at h ⊢
  split_ifs <;> omega

theorem ChessSpiral.eq_of_offset_chess (d d' : Coord) (h0 : d.Chess ≠ 0)
    (hM : d.Chess = d'.Chess)
    (ho : ChessSpiral.offset d = ChessSpiral.offset d') : d = d' := by
  have h1 := ChessSpiral.offset_spec d h0
  have h2 := ChessSpiral.offset_spec d' (by rw [← hM]; exact h0)
  have hn := ChessSpiral.chess_nonneg d
  obtain ⟨a, b⟩ := d
  obtain ⟨a', b'⟩ := d'
  simp only [Coord.mk.injEq]
  simp only at h1 h2
  generalize ChessSpiral.offset { i := a, j := b } = o at *
  generalize Coord.Chess { i := a, j := b } = M at *
  generalize ChessSpiral.offset { i := a', j := b' } = o' at *
  generalize Coord.Chess { i := a', j := b' } = M' at *
  omega

theorem ChessSpiral.index_pos (c : Coord) (hc : c.Chess ≠ 0) : 1 ≤ ChessSpiral.index c := by
  have h1 := (ChessSpiral.index_range_chess c hc).1
  have h2 := ChessSpiral.chess_nonneg c
  have h3 : 0 ≤ (c.Chess - 1) * c.Chess := mul_nonneg (by omega) h2
  nlinarith

theorem ChessSpiral.index_injective_chess (d d' : Coord)
    (h : ChessSpiral.index d = ChessSpiral.index d') : d = d' := by
  have hn := ChessSpiral.chess_nonneg d
  have hn' := ChessSpiral.chess_nonneg d'
  have hzero : ∀ c : Coord, c.Chess = 0 → c = { i := 0, j := 0 } := by
    intro c hc
    obtain ⟨a, b⟩ := c
    simp only [Coord.Chess, abs_eq_max_neg] at hc
    simp only [Coord.mk.injEq]
    omega
  by_cases h0 : d.Chess = 0
  · by_cases h0' : d'.Chess = 0
    · rw [hzero d h0, hzero d' h0']
    · have := ChessSpiral.index_pos d' h0'
      have hd : ChessSpiral.index d = 0 := by simp only [ChessSpiral.index, h0, if_true]
      omega
  · by_cases h0' : d'.Chess = 0
    · have := ChessSpiral.index_pos d h0
      have hd : ChessSpiral.index d' = 0 := by simp only [ChessSpiral.index, h0', if_true]
      omega
    · obtain ⟨l1, u1⟩ := ChessSpiral.index_range_chess d h0
      obtain ⟨l2, u2⟩ := ChessSpiral.index_range_chess d' h0'
      have hM : d.Chess = d'.Chess := by
        rcases lt_trichotomy d.Chess d'.Chess with hlt | heq | hgt
        · have := ChessSpiral.ring_gap_chess d.Chess d'.Chess hn (by omega)
          omega
        · exact heq
        · have := ChessSpiral.ring_gap_chess d'.Chess d.Chess hn' (by omega)
          omega
      apply ChessSpiral.eq_of_offset_chess d d' h0 hM
      simp only [ChessSpiral.index, h0, h0', if_false, hM] at h
      omega

theorem ChessSpiral.index_nth_chess (s : Coord) (k : Nat) :
    ChessSpiral.index ((ChessSpiral.nth s k).sub s) = k := by
  induction k with
  | zero =>
    have : (ChessSpiral.nth s 0).sub s = { i := 0, j := 0 } := by
      simp [ChessSpiral.nth, ChessSpiral.begin, ChessSpiral.Iterator.deref, Coord.sub]
    rw [this, ChessSpiral.index_zero_chess]
    rfl
  | succ k ih =>
    have h := ChessSpiral.Iterator.index_next_chess
      (ChessSpiral.Iterator.next^[k] (ChessSpiral.begin s))
    rw [ChessSpiral.iterate_start_chess s k] at h
    unfold ChessSpiral.nth ChessSpiral.Iterator.deref at ih ⊢
    rw [Function.iterate_succ_apply', h, ih]
    push_cast
    rfl

/-- The matrix `TestChessSpiral` fills, evaluated. -/
theorem TestChessSpiral_eval :
    TestChessSpiral 81 = some [
      [31, 17, 16, 15, 14, 13, 30],
      [32, 18,  5,  4,  3, 12, 29],
      [33, 19,  6,  0,  2, 11, 28],
      [34, 20,  7,  8,  1, 10, 27],
      [35, 21, 22, 23, 24,  9, 26],
      [36, 37, 38, 39, 40, 41, 25],
      [42, 43, 44, 45, 46, 47, 48]] := by
  decide!

/-- C23: for every start cell `s` the sequence of `ChessSpiral(s)` has every cell of the
grid exactly once; for every `r > 0` its element number `(2 r - 1) ^ 2` is `s + (r, r)`,
and the elements at chessboard distance `r` from `s` are the `8 r` elements with the
numbers `(2 r - 1) ^ 2, ..., (2 r + 1) ^ 2 - 1`, which come right after the
`(2 r - 1) ^ 2` elements at a smaller distance; and the loop of `TestChessSpiral`, which
numbers the cells of the 7 by 7 box from the start `(2, 3)`, ends with the matrix the
test expects. -/
theorem ChessSpiral_enumerates (s : Coord) :
    Function.Bijective (ChessSpiral.nth s) ∧
    (∀ r : Nat, 0 < r →
      ChessSpiral.nth s ((2 * r - 1) * (2 * r - 1)) = s.add { i := r, j := r }) ∧
    (∀ r k : Nat, 0 < r →
      (((ChessSpiral.nth s k).sub s).Chess = r ↔
        (2 * r - 1) * (2 * r - 1) ≤ k ∧ k < (2 * r + 1) * (2 * r + 1))) ∧
    TestChessSpiral 81 = some [
      [31, 17, 16, 15, 14, 13, 30],
      [32, 18,  5,  4,  3, 12, 29],
      [33, 19,  6,  0,  2, 11, 28],
      [34, 20,  7,  8,  1, 10, 27],
      [35, 21, 22, 23, 24,  9, 26],
      [36, 37, 38, 39, 40, 41, 25],
      [42, 43, 44, 45, 46, 47, 48]] := by
  have hidx := ChessSpiral.index_nth_chess s
  have hinj : Function.Injective (ChessSpiral.nth s) := by
    intro k k' h
    have h1 := hidx k
    rw [h, hidx k'] at h1
    exact_mod_cast h1.symm
  have hfind : ∀ c : Coord, ∀ k : Nat, ChessSpiral.index (c.sub s) = k →
      ChessSpiral.nth s k = c := by
    intro c k hk
    apply Coord.sub_cancel _ _ s
    apply ChessSpiral.index_injective_chess
    rw [hidx k, hk]
  have hnonneg : ∀ d : Coord, 0 ≤ ChessSpiral.index d := by
    intro d
    by_cases h0 : d.Chess = 0
    · simp only [ChessSpiral.index, h0, if_true, le_refl]
    · have := ChessSpiral.index_pos d h0
      omega
  refine ⟨⟨hinj, ?_⟩, ?_, ?_, TestChessSpiral_eval⟩
  · intro c
    exact ⟨(ChessSpiral.index (c.sub s)).toNat,
      hfind c _ (Int.toNat_of_nonneg (hnonneg _)).symm⟩
  · intro r hr
    apply hfind
    have hsub : (s.add { i := (r : Int), j := (r : Int) }).sub s =
        { i := (r : Int), j := (r : Int) } := by
      simp [Coord.add, Coord.sub]
    rw [hsub, ChessSpiral.index_right_chess r r (by omega) (le_refl _)]
    obtain ⟨q, rfl⟩ : ∃ q, r = q + 1 := ⟨r - 1, by omega⟩
    have e : 2 * (q + 1) - 1 = 2 * q + 1 := by omega
    rw [e]
    push_cast
    ring
  · intro r k hr
    have hk := hidx k
    obtain ⟨q, rfl⟩ : ∃ q, r = q + 1 := ⟨r - 1, by omega⟩
    have e : 2 * (q + 1) - 1 = 2 * q + 1 := by omega
    rw [e]
    have c1 : (((2 * q + 1) * (2 * q + 1) : Nat) : Int) =
        (2 * ((q : Int) + 1) - 1) * (2 * ((q : Int) + 1) - 1) := by push_cast; ring
    have c2 : (((2 * (q + 1) + 1) * (2 * (q + 1) + 1) : Nat) : Int) =
        (2 * ((q : Int) + 1) + 1) * (2 * ((q : Int) + 1) + 1) := by push_cast; ring
    constructor
    · intro hM
      have h0 : ((ChessSpiral.nth s k).sub s).Chess ≠ 0 := by rw [hM]; push_cast; omega
      obtain ⟨h1, h2⟩ := ChessSpiral.index_range_chess _ h0
      rw [hk, hM] at h1 h2
      push_cast at h1 h2
      constructor
      · have : (((2 * q + 1) * (2 * q + 1) : Nat) : Int) ≤ k := by rw [c1]; exact h1
        exact_mod_cast this
      · have : (k : Int) < (((2 * (q + 1) + 1) * (2 * (q + 1) + 1) : Nat) : Int) := by
          rw [c2]; exact h2
        exact_mod_cast this
    · rintro ⟨h1, h2⟩
      have h1' : (2 * ((q : Int) + 1) - 1) * (2 * ((q : Int) + 1) - 1) ≤ k := by
        rw [← c1]; exact_mod_cast h1
      have h2' : (k : Int) < (2 * ((q : Int) + 1) + 1) * (2 * ((q : Int) + 1) + 1) := by
        rw [← c2]; exact_mod_cast h2
      have hn := ChessSpiral.chess_nonneg ((ChessSpiral.nth s k).sub s)
      have h0 : ((ChessSpiral.nth s k).sub s).Chess ≠ 0 := by
        intro h0
        have : ChessSpiral.index ((ChessSpiral.nth s k).sub s) = 0 := by
          simp only [ChessSpiral.index, h0, if_true]
        rw [hk] at this
        have hq : (0 : Int) < (2 * ((q : Int) + 1) - 1) * (2 * ((q : Int) + 1) - 1) := by
          have : (0 : Int) ≤ q := Int.ofNat_nonneg q
          nlinarith
        omega
      obtain ⟨l, u⟩ := ChessSpiral.index_range_chess _ h0
      rw [hk] at l u
      generalize ((ChessSpiral.nth s k).sub s).Chess = M at *
      push_cast
      rcases lt_trichotomy M ((q : Int) + 1) with hlt | heq | hgt
      · have := ChessSpiral.ring_gap_chess M ((q : Int) + 1) hn (by omega)
        omega
      · exact heq
      · have := ChessSpiral.ring_gap_chess ((q : Int) + 1) M (by omega) (by omega)
        omega

theorem DijReach.dij_reach_inv [LinearOrder Dist] [DecidableEq Node]
    {H : StdHeap (DistUpdate Node Dist) DistUpdate.lt} {st : DiskstraState Node Dist}
    {b : Bool} (h : DijReach H st b) :
    DijInv st ∧ (b = true →
      (DijkstraEvent.visitsOf st.log).head? = (DijkstraEvent.popsOf st.log).head?) := by
  induction h with
  | init => exact ⟨DijInv.dij_init, fun _ => rfl⟩
  | look st n d _ ih =>
    refine ⟨ih.1.dij_look H n d, fun hb => ?_⟩
    have hp : DijkstraEvent.popsOf (DiskstraState.Look H st n d).log =
        DijkstraEvent.popsOf st.log := by
      rw [DiskstraState.Look_eq]
      simp [DijkstraEvent.popsOf, List.filterMap_cons]
    have hv : DijkstraEvent.visitsOf (DiskstraState.Look H st n d).log =
        DijkstraEvent.visitsOf st.log := by
      rw [DiskstraState.Look_eq]
      simp [DijkstraEvent.visitsOf, List.filterMap_cons]
    rw [hp, hv]
    exact ih.2 hb
  | ret st _ ih => exact ⟨ih.1, fun hb => absurd hb (by decide)⟩
  | fresh st u rest _ hperm hheap _ hd ih =>
    refine ⟨ih.1.dij_finalize u rest hperm hheap hd, fun _ => ?_⟩
    simp [DiskstraState.finalize, DijkstraEvent.visitsOf, DijkstraEvent.popsOf,
      List.filterMap_cons]
  | stale st u rest d _ hperm hheap _ hd ih =>
    exact ⟨ih.1.dij_discard u rest d hperm hheap hd, fun hb => absurd hb (by decide)⟩

theorem DijReach.dij_reach_lookAll [LinearOrder Dist] [DecidableEq Node]
    (H : StdHeap (DistUpdate Node Dist) DistUpdate.lt) (looks : List (Node × Dist)) :
    ∀ st : DiskstraState Node Dist, DijReach H st true →
      DijReach H (DiskstraState.LookAll H st looks) true := by
  induction looks with
  | nil => exact fun st h => h
  | cons l ls ih =>
    intro st h
    rw [DiskstraState.LookAll_cons]
    exact ih _ (DijReach.look st l.1 l.2 h)

/-- The state in which a run ends is one of the states of `DijReach`, between two
iterations of the loop. -/
theorem DiskstraState.dij_Run_reach [LinearOrder Dist] [DecidableEq Node]
    (H : StdHeap (DistUpdate Node Dist) DistUpdate.lt)
    (start : σ → List (Node × Dist) × σ)
    (visit : Int → Option Node → σ → Node → Dist → List (Node × Dist) × σ)
    (steps : Nat) (s0 : σ) (st : DiskstraState Node Dist) (s : σ)
    (h : DiskstraState.Run H start visit steps s0 = some (st, s)) :
    DijReach H st false := by
  refine (DiskstraState.dij_loop_rule H visit (fun st => DijReach H st false)
    (fun _ h => h.dij_reach_inv.1.heap) ?_ ?_ steps _ _ st s
    (DijReach.ret _ (DijReach.dij_reach_lookAll H (start s0).1 _ DijReach.init)) h).1
  · intro st s u rest hP hperm hrest hmin hd
    exact DijReach.ret _ (DijReach.dij_reach_lookAll H _ _
      (DijReach.fresh st u rest hP hperm hrest hmin hd))
  · intro st u rest d hP hperm hrest hmin hd
    exact DijReach.stale st u rest d hP hperm hrest hmin hd

/-- Counterexample to C31 as stated: in the run on `exampleEdges` from node `0` the last
`Pop` takes the candidate for node `1` at distance `5`, which is stale, node `1` having
been finalized at distance `2`; the run ends with that candidate in `current_`, while
the candidate finalized last is the one for node `1` at distance `2`. -/
theorem Dijkstra_current_counterexample :
    ∃ st, DiskstraState.Run (sortHeap (Fin 3) Int) (graphSeed [0]) (graphVisit exampleEdges)
        4 () = some (st, ()) ∧
      st.current_ = some { node := 1, dist := 5, parent := some 0, depth := 1 } ∧
      (DijkstraEvent.visitsOf st.log).head? =
        some { node := 1, dist := 2, parent := some 2, depth := 2 } ∧
      st.distances_ 1 = some 2 :=
  ⟨_, rfl, rfl, rfl, rfl⟩

/-- C31, amended: in every state a Dijkstra run passes through, `current_` is none as
long as no `Pop` has happened and otherwise holds the candidate the last `Pop` took,
whether or not its node was finalized by it: both kinds of iteration of the loop set it
to the candidate taken, and `Look` leaves it as it is. While callback code runs, it is
the candidate finalized last, that is the one being visited, and none during the seed
callback; the visits are the finalizations of the map of distances. -/
theorem DiskstraState.current_is_last_pop [LinearOrder Dist] [DecidableEq Node]
    (H : StdHeap (DistUpdate Node Dist) DistUpdate.lt) (st : DiskstraState Node Dist)
    (b : Bool) (h : DijReach H st b) :
    st.current_ = (DijkstraEvent.popsOf st.log).head? ∧
    (DijkstraEvent.popsOf st.log = [] → st.current_ = none) ∧
    (b = true → st.current_ = (DijkstraEvent.visitsOf st.log).head?) ∧
    (∀ u rest, (st.finalize u rest).current_ = some u ∧ (st.discard u rest).current_ = some u) ∧
    (∀ n d, (DiskstraState.Look H st n d).current_ = st.current_) ∧
    (∀ n d, st.distances_ n = some d ↔
      ∃ u ∈ DijkstraEvent.visitsOf st.log, u.node = n ∧ u.dist = d) := by
  obtain ⟨hI, hv⟩ := h.dij_reach_inv
  refine ⟨hI.current_eq, ?_, ?_, fun _ _ => ⟨rfl, rfl⟩, fun _ _ => rfl, hI.dist_visit⟩
  · intro hp
    rw [hI.current_eq, hp]
    rfl
  · intro hb
    rw [hI.current_eq, hv hb]

/-- Witness for C31: the state in which the run on `exampleEdges` from node `0` ends;
its last `Pop` took the candidate for node `1` at distance `5`. -/
theorem DiskstraState.current_is_last_pop_witness :
    ∃ st, DiskstraState.Run (sortHeap (Fin 3) Int) (graphSeed [0]) (graphVisit exampleEdges)
        4 () = some (st, ()) ∧
      DijReach (sortHeap (Fin 3) Int) st false ∧
      (DijkstraEvent.popsOf st.log).head? =
        some { node := 1, dist := 5, parent := some 0, depth := 1 } ∧
      st.current_ = (DijkstraEvent.popsOf st.log).head? := by
  have reach := fun st h => DiskstraState.dij_Run_reach (sortHeap (Fin 3) Int)
    (graphSeed [0]) (graphVisit exampleEdges) 4 () st () h
  have key := fun st h =>
    (DiskstraState.current_is_last_pop (sortHeap (Fin 3) Int) st false (reach st h)).1
  exact ⟨_, rfl, reach _ rfl, rfl, key _ rfl⟩

theorem BFSState.bfs_runProg_note [DecidableEq Node] {τ : Type} (t : τ)
    (prog : BFSProg Node σ) :
    ∀ st : BFSState Node, st.runProg (BFSProg.withNote prog t) =
      (st.runProg prog).map (fun r => (r.1, r.2, t)) := by
  induction prog with
  | done s => exact fun _ => rfl
  | look n k ih =>
    intro st
    simp only [BFSProg.withNote, BFSState.runProg]
    rcases st.Look n with _ | ⟨e, st1⟩
    · rfl
    · exact ih e st1

theorem BFSState.bfs_runProg_visitNotes [DecidableEq Node] (prog : BFSProg Node σ)
    (st st' : BFSState Node) (s' : σ) (h : st.runProg prog = some (st', s')) :
    BFSEvent.visitNotes st'.log = BFSEvent.visitNotes st.log :=
  BFSState.bfs_runProg_rule
    (fun x => BFSEvent.visitNotes x.log = BFSEvent.visitNotes st.log)
    (fun x n hx _ => by
      rw [← hx]
      simp [BFSState.discover, BFSEvent.visitNotes, List.filterMap_cons])
    (fun x n d hx _ => by
      rw [← hx]
      simp [BFSState.noteLook, BFSEvent.visitNotes, List.filterMap_cons])
    prog st st' s' rfl h

/-- The loop with the noting visit callback does what the loop with the plain one does,
and the notes are the visits of the log. -/
theorem BFSState.bfs_loop_note [DecidableEq Node] (visit : Int → σ → Node → BFSProg Node σ) :
    ∀ (steps : Nat) (st : BFSState Node) (s : σ),
      BFSState.loop (BFSProg.notedVisit visit) steps st (s, BFSEvent.visitNotes st.log) =
        (BFSState.loop visit steps st s).map
          (fun r => (r.1, r.2, BFSEvent.visitNotes r.1.log)) := by
  intro steps
  induction steps with
  | zero =>
    intro st s
    rcases hq : st.queue_ with _ | ⟨node, rest⟩
    · rw [BFSState.bfs_loop_nil _ 0 st _ hq, BFSState.bfs_loop_nil _ 0 st _ hq]
      rfl
    · rw [BFSState.bfs_loop_cons_zero _ st _ node rest hq,
        BFSState.bfs_loop_cons_zero _ st _ node rest hq]
      rfl
  | succ steps ih =>
    intro st s
    rcases hq : st.queue_ with _ | ⟨node, rest⟩
    · rw [BFSState.bfs_loop_nil _ _ st _ hq, BFSState.bfs_loop_nil _ _ st _ hq]
      rfl
    · rcases hd : st.depths_ node with _ | d
      · have h1 : BFSState.loop (BFSProg.notedVisit visit) (steps + 1) st
            (s, BFSEvent.visitNotes st.log) = none := by
          rw [BFSState.loop]
          simp only [hq, hd]
        have h2 : BFSState.loop visit (steps + 1) st s = none := by
          rw [BFSState.loop]
          simp only [hq, hd]
        rw [h1, h2]
        rfl
      · rw [BFSState.bfs_loop_cons_succ _ steps st _ node rest d hq hd,
          BFSState.bfs_loop_cons_succ _ steps st _ node rest d hq hd]
        have hn : BFSEvent.visitNotes st.log ++ [(node, d)] =
            BFSEvent.visitNotes (st.dequeue node rest d).log := by
          simp [BFSState.dequeue, BFSEvent.visitNotes, List.filterMap_cons]
        have hv : BFSProg.notedVisit visit d (s, BFSEvent.visitNotes st.log) node =
            BFSProg.withNote (visit d s node) (BFSEvent.visitNotes (st.dequeue node rest d).log) := by
          rw [← hn]
          rfl
        rw [hv, BFSState.bfs_runProg_note]
        rcases hr : (st.dequeue node rest d).runProg (visit d s node) with _ | ⟨st2, s2⟩
        · rfl
        · simp only [Option.map_some']
          rw [← BFSState.bfs_runProg_visitNotes _ _ st2 s2 hr]
          exact ih st2 s2

theorem BFSState.bfs_Run_note [DecidableEq Node] (start : Int → σ → BFSProg Node σ)
    (visit : Int → σ → Node → BFSProg Node σ) (steps : Nat) (s0 : σ) :
    BFSState.Run (BFSProg.notedStart start) (BFSProg.notedVisit visit) steps (s0, []) =
      (BFSState.Run start visit steps s0).map
        (fun r => (r.1, r.2, BFSEvent.visitNotes r.1.log)) := by
  unfold BFSState.Run
  have hs : BFSProg.notedStart start (BFSState.init : BFSState Node).Depth
      (s0, ([] : List (Node × Int))) =
      BFSProg.withNote (start (BFSState.init : BFSState Node).Depth s0) [] := rfl
  simp only [hs, BFSState.bfs_runProg_note]
  rcases hr : (BFSState.init : BFSState Node).runProg
      (start (BFSState.init : BFSState Node).Depth s0) with _ | ⟨st1, s1⟩
  · rfl
  · simp only [Option.map_some']
    have hv := BFSState.bfs_runProg_visitNotes _ _ st1 s1 hr
    have h0 : BFSEvent.visitNotes (BFSState.init : BFSState Node).log = [] := rfl
    rw [h0] at hv
    rw [← hv]
    exact BFSState.bfs_loop_note visit steps st1 s1

/-- A `Look` leaves the value of `Depth()` as it is. -/
theorem BFSState.bfs_Look_depth [DecidableEq Node] (st : BFSState Node) (n : Node)
    (e : BFSEdge) (st' : BFSState Node) (hl : st.Look n = some (e, st')) :
    st'.Depth = st.Depth := by
  rcases hn : st.depths_ n with _ | d
  · rw [BFSState.bfs_Look_new st n hn] at hl
    simp only [Option.some.injEq, Prod.mk.injEq] at hl
    rw [← hl.2]
    rfl
  · rw [BFSState.bfs_Look_old st n d hn] at hl
    split_ifs at hl <;> simp only [Option.some.injEq, Prod.mk.injEq] at hl <;>
      (rw [← hl.2]; rfl)

/-- C6: in a completed BFS run every node named by a `Look` was visited exactly once, and
the value `Depth()` had during the visit of a node is the depth the returned map holds
for it: the same run with a visit callback that also notes its node and the `Depth()` it
is given returns the same map, the notes are the visits of the log in their order, they
hold every node named by a `Look` once, and each note of a node `n` with a depth `d` has
`d` as the depth of `n` in the returned map. No `Look` changes the value of `Depth()`, so
it is the same during the whole visit. -/
theorem BFS_visit_once [DecidableEq Node] (start : Int → σ → BFSProg Node σ)
    (visit : Int → σ → Node → BFSProg Node σ) (steps : Nat) (s0 : σ)
    (st : BFSState Node) (s : σ) (h : BFSState.Run start visit steps s0 = some (st, s)) :
    BFS start visit steps s0 = some (st.depths_, s) ∧
    (∀ n, BFSEvent.look n ∈ st.log → st.visited.count n = 1) ∧
    (∀ n d, BFSEvent.visit n d ∈ st.log → st.depths_ n = some d) ∧
    BFS (BFSProg.notedStart start) (BFSProg.notedVisit visit) steps (s0, []) =
      some (st.depths_, s, BFSEvent.visitNotes st.log) ∧
    (∀ n, BFSEvent.look n ∈ st.log →
      ((BFSEvent.visitNotes st.log).map (fun r => r.1)).count n = 1) ∧
    (∀ n d, (n, d) ∈ BFSEvent.visitNotes st.log → st.depths_ n = some d) ∧
    (∀ (x : BFSState Node) (n : Node) (e : BFSEdge) (x' : BFSState Node),
      x.Look n = some (e, x') → x'.Depth = x.Depth) := by
  obtain ⟨hI, hq⟩ := BFSState.bfs_Run_inv start visit steps s0 st s h
  have hcount : ∀ n, BFSEvent.look n ∈ st.log → st.visited.count n = 1 := by
    intro n hn
    obtain ⟨d, hd⟩ := (hI.look_iff n).mp hn
    have hmem : n ∈ st.visited := by
      rcases hI.disc n d hd with h1 | h1
      · rw [hq] at h1
        cases h1
      · exact h1
    exact List.count_eq_one_of_mem hI.visited_nodup hmem
  have hmap : (BFSEvent.visitNotes st.log).map (fun r => r.1) = st.visited.reverse := by
    simp only [BFSEvent.visitNotes, BFSState.visited, List.map_reverse, List.map_filterMap]
    congr 2
    funext ev
    cases ev <;> rfl
  have hmemn : ∀ n d, (n, d) ∈ BFSEvent.visitNotes st.log → BFSEvent.visit n d ∈ st.log := by
    intro n d hm
    simp only [BFSEvent.visitNotes, List.mem_reverse, List.mem_filterMap] at hm
    obtain ⟨ev, hev, he⟩ := hm
    cases ev with
    | look m => cases he
    | visit m d' =>
      simp only [Option.some.injEq, Prod.mk.injEq] at he
      obtain ⟨rfl, rfl⟩ := he
      exact hev
  refine ⟨by simp [BFS, h], hcount, hI.visit_depth, ?_, ?_, ?_,
    fun x n e x' hl => BFSState.bfs_Look_depth x n e x' hl⟩
  · have := BFSState.bfs_Run_note start visit steps s0
    rw [h] at this
    simp only [BFS, this, Option.map_some']
  · intro n hn
    rw [hmap, List.count_reverse]
    exact hcount n hn
  · intro n d hm
    exact hI.visit_depth n d (hmemn n d hm)

/-- Witness for C6: the run on `exampleSucc` seeded with `0` completes in two steps; the
visit of `0` is given the depth `0` and the visit of `1` the depth `1`. -/
theorem BFS_visit_once_witness :
    ∃ st, BFSState.Run (fun _ s => BFSProg.lookAll s [0]) (fun _ s u =>
        BFSProg.lookAll s (exampleSucc u)) 2 () = some (st, ()) ∧
      st.log.reverse = [BFSEvent.look 0, BFSEvent.visit 0 0, BFSEvent.look 1, BFSEvent.look 0,
        BFSEvent.visit 1 1, BFSEvent.look 0] ∧
      (st.depths_ 0, st.depths_ 1, st.depths_ 2) = (some 0, some 1, none) ∧
      BFSEvent.visitNotes st.log = [(0, 0), (1, 1)] ∧
      BFS (BFSProg.notedStart (fun _ s => BFSProg.lookAll s [0]))
          (BFSProg.notedVisit (fun _ s u => BFSProg.lookAll s (exampleSucc u))) 2 ((), []) =
        some (st.depths_, (), [(0, 0), (1, 1)]) ∧
      BFS (fun _ s => BFSProg.lookAll s [0]) (fun _ s u =>
        BFSProg.lookAll s (exampleSucc u)) 2 () = some (st.depths_, ()) ∧
      (∀ n, BFSEvent.look n ∈ st.log → st.visited.count n = 1) ∧
      (∀ n d, BFSEvent.visit n d ∈ st.log → st.depths_ n = some d) ∧
      BFS (BFSProg.notedStart (fun _ s => BFSProg.lookAll s [0]))
          (BFSProg.notedVisit (fun _ s u => BFSProg.lookAll s (exampleSucc u))) 2 ((), []) =
        some (st.depths_, (), BFSEvent.visitNotes st.log) ∧
      (∀ n, BFSEvent.look n ∈ st.log →
        ((BFSEvent.visitNotes st.log).map (fun r => r.1)).count n = 1) ∧
      (∀ n d, (n, d) ∈ BFSEvent.visitNotes st.log → st.depths_ n = some d) ∧
      (∀ (x : BFSState Nat) (n : Nat) (e : BFSEdge) (x' : BFSState Nat),
        x.Look n = some (e, x') → x'.Depth = x.Depth) :=
  ⟨_, rfl, rfl, rfl, rfl, rfl, BFS_visit_once (fun _ s => BFSProg.lookAll s [0]) (fun _ s u =>
    BFSProg.lookAll s (exampleSucc u)) 2 () _ () rfl⟩

theorem DFSState.looked_noteLook (st : DFSState Node) (n : Node) :
    (st.noteLook n).looked = st.looked ++ [n] := by
  simp [DFSState.looked, DFSState.noteLook, List.filterMap_cons]

theorem DFSState.looked_enterNode [DecidableEq Node] (st : DFSState Node) (n : Node) :
    (st.enterNode n).looked = st.looked ++ [n] := by
  simp [DFSState.looked, DFSState.enterNode, List.filterMap_cons]

theorem DFSState.dfs_runProg_looks
    (look : DFSState Node → σ → Node → Option (DFSEdge × DFSState Node × σ))
    (look' : DFSState Node → σ × List Node → Node →
      Option (DFSEdge × DFSState Node × σ × List Node))
    (hlook : ∀ st s n, look' st (s, st.looked ++ [n]) n =
      (look st s n).map (fun r => (r.1, r.2.1, r.2.2, r.2.1.looked))) :
    ∀ (prog : DFSProg Node σ) (st : DFSState Node),
      DFSState.runProg look' st (DFSProg.withLooks prog st.looked) =
        (DFSState.runProg look st prog).map (fun r => (r.1, r.2, r.1.looked)) := by
  intro prog
  induction prog with
  | done s => exact fun _ => rfl
  | look s n k ih =>
    intro st
    simp only [DFSProg.withLooks, DFSState.runProg]
    rw [hlook st s n]
    rcases hl : look st s n with _ | ⟨e, st1, s1⟩
    · rfl
    · simp only [Option.map_some']
      exact ih e st1.Path s1 st1

/-- With the list of the caller holding the nodes of all earlier `Look` calls and `n`, the
call `Look(n)` does with the listing visit callback what it does with the plain one, and
the list holds the nodes of all `Look` calls after it. -/
theorem DFSState.dfs_Look_looks [DecidableEq Node]
    (visit : List Node → σ → Node → DFSProg Node σ) :
    ∀ (depth : Nat) (st : DFSState Node) (s : σ) (n : Node),
      DFSState.Look (DFSProg.notedVisit visit) depth st (s, st.looked ++ [n]) n =
        (DFSState.Look visit depth st s n).map
          (fun r => (r.1, r.2.1, r.2.2, r.2.1.looked)) := by
  intro depth
  induction depth with
  | zero =>
    intro st s n
    rcases hn : st.enter_times_ n with _ | t
    · rw [DFSState.dfs_Look_new_zero _ st _ n hn, DFSState.dfs_Look_new_zero _ st _ n hn]
      rfl
    · rw [DFSState.dfs_Look_old _ 0 st _ n t hn, DFSState.dfs_Look_old _ 0 st _ n t hn]
      rcases st.classify n with _ | c
      · rfl
      · simp only [Option.map_some', DFSState.looked_noteLook]
  | succ depth ih =>
    intro st s n
    rcases hn : st.enter_times_ n with _ | t
    · rw [DFSState.dfs_Look_new_succ _ depth st _ n hn,
        DFSState.dfs_Look_new_succ _ depth st _ n hn]
      have hc : DFSProg.notedVisit visit (st.path_ ++ [n]) (s, st.looked ++ [n]) n =
          DFSProg.withLooks (visit (st.path_ ++ [n]) s n) (st.enterNode n).looked := by
        rw [DFSState.looked_enterNode]
        rfl
      rw [hc, DFSState.dfs_runProg_looks (DFSState.Look visit depth)
        (DFSState.Look (DFSProg.notedVisit visit) depth) (fun st s n => ih st s n)]
      rcases hr : DFSState.runProg (DFSState.Look visit depth) (st.enterNode n)
          (visit (st.path_ ++ [n]) s n) with _ | ⟨st2, s2⟩
      · rfl
      · rfl
    · rw [DFSState.dfs_Look_old _ (depth + 1) st _ n t hn,
        DFSState.dfs_Look_old _ (depth + 1) st _ n t hn]
      rcases st.classify n with _ | c
      · rfl
      · simp only [Option.map_some', DFSState.looked_noteLook]

/-- C18: when a DFS run completes, a node has an enter time iff it has an exit time, and
iff some `Look` of the run named it: the same run with callbacks that also list every
node they pass to `Look` returns the same two maps, and a node is in that list iff it
has an enter time. -/
theorem DFS_result_keys [DecidableEq Node] (start : List Node → σ → DFSProg Node σ)
    (visit : List Node → σ → Node → DFSProg Node σ) (depth : Nat) (s0 : σ)
    (st : DFSState Node) (s : σ) (h : DFSState.Run start visit depth s0 = some (st, s)) :
    DFS start visit depth s0 =
      some ({ enter_times := st.enter_times_, exit_times := st.exit_times_ }, s) ∧
    (∀ n, ((∃ e, st.enter_times_ n = some e) ↔ ∃ x, st.exit_times_ n = some x) ∧
      ((∃ e, st.enter_times_ n = some e) ↔ DFSEvent.look n ∈ st.log)) ∧
    DFS (DFSProg.notedStart start) (DFSProg.notedVisit visit) depth (s0, []) =
      some ({ enter_times := st.enter_times_, exit_times := st.exit_times_ }, s, st.looked) ∧
    (∀ n, n ∈ st.looked ↔ ∃ e, st.enter_times_ n = some e) ∧
    (∀ n, n ∈ st.looked ↔ ∃ x, st.exit_times_ n = some x) := by
  obtain ⟨hI, hp⟩ := DFSState.dfs_Run_inv start visit depth s0 st s h
  have hkeys : ∀ n, (∃ e, st.enter_times_ n = some e) ↔ ∃ x, st.exit_times_ n = some x := by
    intro n
    constructor
    · rintro ⟨e, he⟩
      rcases hx : st.exit_times_ n with _ | x
      · have := (hI.path_open n).mpr ⟨⟨e, he⟩, hx⟩
        rw [hp] at this
        cases this
      · exact ⟨x, rfl⟩
    · rintro ⟨x, hx⟩
      obtain ⟨e, he, -⟩ := hI.exit_lt n x hx
      exact ⟨e, he⟩
  have hlooked : ∀ n, n ∈ st.looked ↔ DFSEvent.look n ∈ st.log := by
    intro n
    simp only [DFSState.looked, List.mem_reverse, List.mem_filterMap]
    constructor
    · rintro ⟨ev, hev, he⟩
      cases ev with
      | look m =>
        simp only [Option.some.injEq] at he
        rw [← he]
        exact hev
      | visit m => cases he
    · intro hn
      exact ⟨DFSEvent.look n, hn, rfl⟩
  refine ⟨by simp [DFS, h], fun n => ⟨hkeys n, (hI.look_iff n).symm⟩, ?_, ?_, ?_⟩
  · have hrun := DFSState.dfs_runProg_looks (DFSState.Look visit depth)
      (DFSState.Look (DFSProg.notedVisit visit) depth)
      (fun st s n => DFSState.dfs_Look_looks visit depth st s n)
      (start (DFSState.init : DFSState Node).Path s0) DFSState.init
    have h' : DFSState.runProg (DFSState.Look visit depth) DFSState.init
        (start (DFSState.init : DFSState Node).Path s0) = some (st, s) := h
    rw [h'] at hrun
    have hrun' : DFSState.Run (DFSProg.notedStart start) (DFSProg.notedVisit visit) depth
        (s0, []) = some (st, s, st.looked) := hrun
    simp only [DFS, hrun']
  · intro n
    rw [hlooked n]
    exact hI.look_iff n
  · intro n
    rw [hlooked n, hI.look_iff n]
    exact hkeys n

/-- Witness for C18: the run on `exampleSucc` seeded with `0` and `1`; the callbacks
call `Look` five times, for the nodes `0` and `1`, which are the keys of both maps. -/
theorem DFS_result_keys_witness :
    ∃ st, DFSState.Run exampleDFSStart exampleDFSVisit 2 () = some (st, ()) ∧
      st.looked = [0, 1, 0, 0, 1] ∧
      (st.enter_times_ 0, st.enter_times_ 1, st.enter_times_ 2) = (some 0, some 1, none) ∧
      (st.exit_times_ 0, st.exit_times_ 1, st.exit_times_ 2) = (some 3, some 2, none) ∧
      DFS exampleDFSStart exampleDFSVisit 2 () =
        some ({ enter_times := st.enter_times_, exit_times := st.exit_times_ }, ()) ∧
      (∀ n, ((∃ e, st.enter_times_ n = some e) ↔ ∃ x, st.exit_times_ n = some x) ∧
        ((∃ e, st.enter_times_ n = some e) ↔ DFSEvent.look n ∈ st.log)) ∧
      DFS (DFSProg.notedStart exampleDFSStart) (DFSProg.notedVisit exampleDFSVisit) 2
          ((), []) =
        some ({ enter_times := st.enter_times_, exit_times := st.exit_times_ }, (),
          st.looked) ∧
      (∀ n, n ∈ st.looked ↔ ∃ e, st.enter_times_ n = some e) ∧
      (∀ n, n ∈ st.looked ↔ ∃ x, st.exit_times_ n = some x) :=
  ⟨_, rfl, rfl, rfl, rfl, DFS_result_keys exampleDFSStart exampleDFSVisit 2 () _ () rfl⟩

/-- From a state of `BFSReach` every callback body runs to its end, through states of
`BFSReach`, and every `Look` of it is called in a state of `BFSReach`. -/
theorem BFSReach.bfs_reach_runProg [DecidableEq Node] (prog : BFSProg Node σ) :
    ∀ (st : BFSState Node) (tr : List (BFSState Node × Node)), BFSReach st →
      (∀ p ∈ tr, BFSReach p.1) →
      ∃ st' s' tr', st.runProgTrace prog tr = some (st', s', tr') ∧
        st.runProg prog = some (st', s') ∧ BFSReach st' ∧ ∀ p ∈ tr', BFSReach p.1 := by
  induction prog with
  | done s => exact fun st tr h htr => ⟨st, s, tr, rfl, rfl, h, htr⟩
  | look n k ih =>
    intro st tr h htr
    obtain ⟨e, st1, hl, -⟩ := BFSState.bfs_Look_inv st n h.bfs_reach_inv
    have htr1 : ∀ p ∈ tr ++ [(st, n)], BFSReach p.1 := by
      intro p hp
      rcases List.mem_append.mp hp with hp | hp
      · exact htr p hp
      · rw [List.mem_singleton.mp hp]
        exact h
    obtain ⟨st2, s2, tr2, ht, hr, h2, htr2⟩ :=
      ih e st1 (tr ++ [(st, n)]) (BFSReach.ret st n e st1 h hl) htr1
    refine ⟨st2, s2, tr2, ?_, ?_, h2, htr2⟩
    · simp only [BFSState.runProgTrace, hl]
      exact ht
    · simp only [BFSState.runProg, hl]
      exact hr

/-- From a state of `BFSReach` the loop makes any number of iterations without a failure
and stays in `BFSReach`; the loop with a budget returns the same state, or it has no
result and the queue is not empty after the iterations the budget allows. -/
theorem BFSReach.bfs_reach_loop [DecidableEq Node] (visit : Int → σ → Node → BFSProg Node σ) :
    ∀ (steps : Nat) (st : BFSState Node) (s : σ) (tr : List (BFSState Node × Node)),
      BFSReach st → (∀ p ∈ tr, BFSReach p.1) →
      ∃ st' s' tr', BFSState.loopUpTo visit steps st s tr = some (st', s', tr') ∧
        BFSReach st' ∧ (∀ p ∈ tr', BFSReach p.1) ∧
        (BFSState.loop visit steps st s = some (st', s') ∨
          (BFSState.loop visit steps st s = none ∧ st'.queue_ ≠ [])) := by
  intro steps
  induction steps with
  | zero =>
    intro st s tr h htr
    refine ⟨st, s, tr, rfl, h, htr, ?_⟩
    rcases hq : st.queue_ with _ | ⟨node, rest⟩
    · exact Or.inl (BFSState.bfs_loop_nil visit 0 st s hq)
    · exact Or.inr ⟨BFSState.bfs_loop_cons_zero visit st s node rest hq, by simp⟩
  | succ steps ih =>
    intro st s tr h htr
    rcases hq : st.queue_ with _ | ⟨node, rest⟩
    · refine ⟨st, s, tr, ?_, h, htr, Or.inl (BFSState.bfs_loop_nil visit _ st s hq)⟩
      simp only [BFSState.loopUpTo, hq]
    · obtain ⟨⟨d, hd⟩, -⟩ := h.bfs_reach_inv.queue_mem node
        (by rw [hq]; exact List.mem_cons_self _ _)
      obtain ⟨st2, s2, tr2, ht, hr, h2, htr2⟩ :=
        BFSReach.bfs_reach_runProg (visit d s node) _ tr
          (BFSReach.visit st node rest d h hq hd) htr
      obtain ⟨st', s', tr', hu, h', htr', hl⟩ := ih st2 s2 tr2 h2 htr2
      refine ⟨st', s', tr', ?_, h', htr', ?_⟩
      · have hstep : BFSState.loopUpTo visit (steps + 1) st s tr =
            match (st.dequeue node rest d).runProgTrace (visit d s node) tr with
            | none => none
            | some (st2, s2, tr2) => BFSState.loopUpTo visit steps st2 s2 tr2 := by
          rw [BFSState.loopUpTo]
          simp only [hq, hd]
          rfl
        rw [hstep]
        simp only [ht]
        exact hu
      · rw [BFSState.bfs_loop_cons_succ visit steps st s node rest d hq hd]
        simp only [hr]
        exact hl

/-- A run never fails: cut off after any number of iterations it has reached a state of
`BFSReach` through `Look` calls in states of `BFSReach`, and the run with a budget
returns that state or has used up its budget. -/
theorem BFSReach.bfs_reach_Run [DecidableEq Node] (start : Int → σ → BFSProg Node σ)
    (visit : Int → σ → Node → BFSProg Node σ) (steps : Nat) (s0 : σ) :
    ∃ st' s' tr', BFSState.RunUpTo start visit steps s0 = some (st', s', tr') ∧
      BFSReach st' ∧ (∀ p ∈ tr', BFSReach p.1) ∧
      (BFSState.Run start visit steps s0 = some (st', s') ∨
        (BFSState.Run start visit steps s0 = none ∧ st'.queue_ ≠ [])) := by
  obtain ⟨st1, s1, tr1, ht, hr, h1, htr1⟩ := BFSReach.bfs_reach_runProg
    (start (BFSState.init : BFSState Node).Depth s0) BFSState.init [] BFSReach.init
    (fun p hp => by cases hp)
  obtain ⟨st', s', tr', hu, h', htr', hl⟩ :=
    BFSReach.bfs_reach_loop visit steps st1 s1 tr1 h1 htr1
  refine ⟨st', s', tr', ?_, h', htr', ?_⟩
  · simp only [BFSState.RunUpTo, ht]
    exact hu
  · simp only [BFSState.Run, hr]
    exact hl

/-- The state in which a run ends is a state of `BFSReach`. -/
theorem BFSState.bfs_Run_reach [DecidableEq Node] (start : Int → σ → BFSProg Node σ)
    (visit : Int → σ → Node → BFSProg Node σ) (steps : Nat) (s0 : σ)
    (st : BFSState Node) (s : σ) (h : BFSState.Run start visit steps s0 = some (st, s)) :
    BFSReach st := by
  obtain ⟨st', s', tr', -, h', -, hl⟩ := BFSReach.bfs_reach_Run start visit steps s0
  rcases hl with hl | ⟨hl, -⟩
  · rw [h] at hl
    simp only [Option.some.injEq, Prod.mk.injEq] at hl
    rw [hl.1]
    exact h'
  · rw [h] at hl
    cases hl

/-- A `Look` that answers Loose found a recorded depth of at most `Depth()`. -/
theorem BFSState.bfs_Look_loose [DecidableEq Node] (st : BFSState Node) (n : Node)
    (e : BFSEdge) (st' : BFSState Node) (hl : st.Look n = some (e, st'))
    (he : e = BFSEdge.kLoose) : ∃ d, st.depths_ n = some d ∧ d ≤ st.depth_ := by
  rcases hn : st.depths_ n with _ | d
  · rw [BFSState.bfs_Look_new st n hn] at hl
    simp only [Option.some.injEq, Prod.mk.injEq] at hl
    rw [he] at hl
    exact absurd hl.1 (by decide)
  · refine ⟨d, rfl, ?_⟩
    rw [BFSState.bfs_Look_old st n d hn] at hl
    by_cases h1 : d = st.depth_ + 1
    · rw [if_pos h1] at hl
      simp only [Option.some.injEq, Prod.mk.injEq] at hl
      rw [he] at hl
      exact absurd hl.1 (by decide)
    · by_contra h2
      rw [if_neg h1, if_neg h2] at hl
      cases hl

/-- What holds of a state of `BFSReach` and a node at the moment of a `Look`: the
recorded depths are at most `Depth() + 1`, and the `Look` returns. -/
theorem BFSReach.bfs_reach_look [DecidableEq Node] {st : BFSState Node} (h : BFSReach st)
    (n : Node) :
    (∀ k d, st.depths_ k = some d → d ≤ st.depth_ + 1) ∧
    ∃ e st', st.Look n = some (e, st') := by
  refine ⟨fun k d hd => (h.bfs_reach_inv.depth_bound k d hd).2, ?_⟩
  obtain ⟨e, st', hl, -⟩ := BFSState.bfs_Look_inv st n h.bfs_reach_inv
  exact ⟨e, st', hl⟩

/-- C28: in every state in which BFS callback code can run, every node with a recorded
depth has a depth of at most `Depth() + 1`; so every `Look` returns (the `assert` on the
Loose branch holds); every callback body runs to its end, whatever `Look` calls it
issues; the lookup of the depth of the front node of the queue succeeds. These are the
states of the runs: from such a state the loop makes any number of iterations without a
failure, as does a whole run from its start, whatever the callbacks are; every `Look` of
the run is called in such a state, with all recorded depths at most `Depth() + 1`, and
returns; and a run with a budget has no result only when the queue is not empty after
the iterations the budget allows. -/
theorem BFS_Look_never_fails [DecidableEq Node] (st : BFSState Node) (h : BFSReach st) :
    (∀ n d, st.depths_ n = some d → d ≤ st.depth_ + 1) ∧
    (∀ n, ∃ e st', st.Look n = some (e, st') ∧ BFSReach st') ∧
    (∀ n e st', st.Look n = some (e, st') → e = BFSEdge.kLoose →
      ∃ d, st.depths_ n = some d ∧ d ≤ st.depth_) ∧
    (∀ (τ : Type) (prog : BFSProg Node τ), ∃ st' s', st.runProg prog = some (st', s')) ∧
    (∀ node rest, st.queue_ = node :: rest → ∃ d, st.depths_ node = some d) ∧
    (∀ (τ : Type) (visit : Int → τ → Node → BFSProg Node τ) (steps : Nat) (s : τ),
      ∃ st' s' tr, BFSState.loopUpTo visit steps st s [] = some (st', s', tr) ∧
        BFSReach st' ∧
        (∀ p ∈ tr, BFSReach p.1 ∧ (∀ k d, p.1.depths_ k = some d → d ≤ p.1.depth_ + 1) ∧
          ∃ e x, p.1.Look p.2 = some (e, x)) ∧
        (BFSState.loop visit steps st s = some (st', s') ∨
          (BFSState.loop visit steps st s = none ∧ st'.queue_ ≠ []))) ∧
    (∀ (τ : Type) (start : Int → τ → BFSProg Node τ) (visit : Int → τ → Node → BFSProg Node τ)
      (steps : Nat) (s0 : τ),
      ∃ st' s' tr, BFSState.RunUpTo start visit steps s0 = some (st', s', tr) ∧
        BFSReach st' ∧
        (∀ p ∈ tr, BFSReach p.1 ∧ (∀ k d, p.1.depths_ k = some d → d ≤ p.1.depth_ + 1) ∧
          ∃ e x, p.1.Look p.2 = some (e, x)) ∧
        (BFSState.Run start visit steps s0 = some (st', s') ∨
          (BFSState.Run start visit steps s0 = none ∧ st'.queue_ ≠ []))) := by
  have hI := h.bfs_reach_inv
  refine ⟨fun n d hd => (hI.depth_bound n d hd).2, ?_,
    fun n e st' hl he => BFSState.bfs_Look_loose st n e st' hl he, ?_, ?_, ?_, ?_⟩
  · intro n
    obtain ⟨e, st', hl, -⟩ := BFSState.bfs_Look_inv st n hI
    exact ⟨e, st', hl, BFSReach.ret st n e st' h hl⟩
  · intro τ prog
    obtain ⟨st', s', hr, -⟩ := BFSState.bfs_runProg_inv prog st hI
    exact ⟨st', s', hr⟩
  · intro node rest hq
    exact (hI.queue_mem node (by rw [hq]; exact List.mem_cons_self _ _)).1
  · intro τ visit steps s
    obtain ⟨st', s', tr, hu, h', htr, hl⟩ :=
      BFSReach.bfs_reach_loop visit steps st s [] h (fun p hp => by cases hp)
    exact ⟨st', s', tr, hu, h',
      fun p hp => ⟨htr p hp, (htr p hp).bfs_reach_look p.2⟩, hl⟩
  · intro τ start visit steps s0
    obtain ⟨st', s', tr, hu, h', htr, hl⟩ := BFSReach.bfs_reach_Run start visit steps s0
    exact ⟨st', s', tr, hu, h',
      fun p hp => ⟨htr p hp, (htr p hp).bfs_reach_look p.2⟩, hl⟩

/-- Witness for C28: the run on `exampleFinSucc` seeded with `0`. Its `Look` calls are
for the nodes `0, 1, 2, 2`, at the values `-1, 0, 0, 1` of `Depth()`; at the last one the
node `2` has the depth `1`, so the call takes the Loose branch. The run ends with the
depths `0, 1, 1` recorded and `Depth()` equal to `1`; there `Look(0)` and `Look(2)` take
the Loose branch. -/
theorem BFS_Look_never_fails_witness :
    ∃ (st : BFSState (Fin 3)) (tr : List (BFSState (Fin 3) × Fin 3)),
      BFSState.Run (fun _ s => BFSProg.lookAll s [0])
        (fun _ s u => BFSProg.lookAll s (exampleFinSucc u)) 3 () = some (st, ()) ∧
      BFSState.RunUpTo (fun _ s => BFSProg.lookAll s [0])
        (fun _ s u => BFSProg.lookAll s (exampleFinSucc u)) 3 () = some (st, (), tr) ∧
      tr.map (fun p => (p.2, p.1.depth_, p.1.depths_ p.2, (p.1.Look p.2).map (fun r => r.1))) =
        [(0, -1, none, some BFSEdge.kTree), (1, 0, none, some BFSEdge.kTree),
          (2, 0, none, some BFSEdge.kTree), (2, 1, some 1, some BFSEdge.kLoose)] ∧
      BFSReach st ∧
      (st.depths_ 0, st.depths_ 1, st.depths_ 2, st.depth_) = (some 0, some 1, some 1, 1) ∧
      st.Look 0 = some (BFSEdge.kLoose, st.noteLook 0) ∧
      st.Look 2 = some (BFSEdge.kLoose, st.noteLook 2) ∧
      (∀ n d, st.depths_ n = some d → d ≤ st.depth_ + 1) ∧
      (∀ n e st', st.Look n = some (e, st') → e = BFSEdge.kLoose →
        ∃ d, st.depths_ n = some d ∧ d ≤ st.depth_) := by
  have reach := fun st h => BFSState.bfs_Run_reach (fun _ s => BFSProg.lookAll s [0])
    (fun _ s u => BFSProg.lookAll s (exampleFinSucc u)) 3 () st () h
  have key1 := fun (st : BFSState (Fin 3)) h => (BFS_Look_never_fails st (reach st h)).1
  have key2 := fun (st : BFSState (Fin 3)) h => (BFS_Look_never_fails st (reach st h)).2.2.1
  exact ⟨_, _, rfl, rfl, rfl, reach _ rfl, rfl, rfl, rfl, key1 _ rfl, key2 _ rfl⟩

theorem DijChain.dij_note_chain {vis : List (DistUpdate Node Dist)}
    {u : DistUpdate Node Dist} {k : Nat} (h : DijChain vis u k) :
    DijNoteChain (vis.map (fun u => (u.node, u.depth, u.parent)))
      (u.node, u.depth, u.parent) k := by
  induction h with
  | root u hu hp => exact DijNoteChain.root _ (List.mem_map_of_mem _ hu) hp
  | step u w k hsub hp hd _ ih =>
    have hmap := List.Sublist.map
      (fun (x : DistUpdate Node Dist) => ((x.node, x.depth, x.parent) : Node × Int × Option Node))
      hsub
    exact DijNoteChain.step _ (w.node, w.depth, w.parent) k hmap hp hd ih

theorem DiskstraState.dij_lookAll_visits [LinearOrder Dist]
    (H : StdHeap (DistUpdate Node Dist) DistUpdate.lt) (looks : List (Node × Dist)) :
    ∀ st : DiskstraState Node Dist,
      DijkstraEvent.visitsOf (DiskstraState.LookAll H st looks).log =
        DijkstraEvent.visitsOf st.log := by
  induction looks with
  | nil => exact fun _ => rfl
  | cons l ls ih =>
    intro st
    rw [DiskstraState.LookAll_cons, ih, DiskstraState.Look_eq]
    simp [DijkstraEvent.visitsOf, List.filterMap_cons]

/-- The loop with the noting visit callback does what the loop with the plain one does,
and the notes are the visits of the log. -/
theorem DiskstraState.dij_loop_note [LinearOrder Dist] [DecidableEq Node]
    (H : StdHeap (DistUpdate Node Dist) DistUpdate.lt)
    (visit : Int → Option Node → σ → Node → Dist → List (Node × Dist) × σ) :
    ∀ (steps : Nat) (st : DiskstraState Node Dist) (s : σ),
      DiskstraState.loop H (DiskstraState.notedVisit visit) steps st
          (s, DijkstraEvent.visitNotes st.log) =
        (DiskstraState.loop H visit steps st s).map
          (fun r => (r.1, r.2, DijkstraEvent.visitNotes r.1.log)) := by
  intro steps
  induction steps with
  | zero =>
    intro st s
    by_cases hq : st.queue_ = []
    · rw [DiskstraState.dij_loop_nil H _ 0 st _ hq, DiskstraState.dij_loop_nil H _ 0 st _ hq]
      rfl
    · rw [DiskstraState.dij_loop_zero H _ st _ hq, DiskstraState.dij_loop_zero H _ st _ hq]
      rfl
  | succ steps ih =>
    intro st s
    by_cases hq : st.queue_ = []
    · rw [DiskstraState.dij_loop_nil H _ _ st _ hq, DiskstraState.dij_loop_nil H _ _ st _ hq]
      rfl
    · obtain ⟨a, r, hq'⟩ := List.exists_cons_of_ne_nil hq
      rcases hlast : (H.pop_heap st.queue_).getLast? with _ | u
      · have hpop : DiskstraState.Pop H st = none := by
          simp only [DiskstraState.Pop, hlast]
        have h1 : DiskstraState.loop H (DiskstraState.notedVisit visit) (steps + 1) st
            (s, DijkstraEvent.visitNotes st.log) = none := by
          rw [DiskstraState.loop]
          simp only [hq', hpop]
        have h2 : DiskstraState.loop H visit (steps + 1) st s = none := by
          rw [DiskstraState.loop]
          simp only [hq', hpop]
        rw [h1, h2]
        rfl
      · have hpop : DiskstraState.Pop H st =
            some (u, { st with queue_ := (H.pop_heap st.queue_).dropLast }) := by
          simp only [DiskstraState.Pop, hlast]
        rcases hd : st.distances_ u.node with _ | d
        · rw [DiskstraState.dij_loop_succ_new H _ steps st _ hq u _ hpop hd,
            DiskstraState.dij_loop_succ_new H _ steps st _ hq u _ hpop hd]
          have hv : DijkstraEvent.visitNotes (DiskstraState.LookAll H
              (st.finalize u (H.pop_heap st.queue_).dropLast)
              (visit u.depth u.parent s u.node u.dist).1).log =
              DijkstraEvent.visitNotes st.log ++ [(u.node, u.depth, u.parent)] := by
            simp only [DijkstraEvent.visitNotes, DiskstraState.dij_lookAll_visits]
            simp [DiskstraState.finalize, DijkstraEvent.visitsOf, List.filterMap_cons]
          have := ih (DiskstraState.LookAll H (st.finalize u (H.pop_heap st.queue_).dropLast)
            (visit u.depth u.parent s u.node u.dist).1)
            (visit u.depth u.parent s u.node u.dist).2
          rw [hv] at this
          exact this
        · rw [DiskstraState.dij_loop_succ_old H _ steps st _ hq u _ d hpop hd,
            DiskstraState.dij_loop_succ_old H _ steps st _ hq u _ d hpop hd]
          have hv : DijkstraEvent.visitNotes
              (st.discard u (H.pop_heap st.queue_).dropLast).log =
              DijkstraEvent.visitNotes st.log := by
            simp [DijkstraEvent.visitNotes, DiskstraState.discard, DijkstraEvent.visitsOf,
              List.filterMap_cons]
          have := ih (st.discard u (H.pop_heap st.queue_).dropLast) s
          rw [hv] at this
          exact this

theorem DiskstraState.dij_Run_note [LinearOrder Dist] [DecidableEq Node]
    (H : StdHeap (DistUpdate Node Dist) DistUpdate.lt)
    (start : σ → List (Node × Dist) × σ)
    (visit : Int → Option Node → σ → Node → Dist → List (Node × Dist) × σ)
    (steps : Nat) (s0 : σ) :
    DiskstraState.Run H (DiskstraState.notedStart start) (DiskstraState.notedVisit visit)
        steps (s0, []) =
      (DiskstraState.Run H start visit steps s0).map
        (fun r => (r.1, r.2, DijkstraEvent.visitNotes r.1.log)) := by
  have hv : DijkstraEvent.visitNotes (DiskstraState.LookAll H
      (DiskstraState.init : DiskstraState Node Dist) (start s0).1).log = [] := by
    simp only [DijkstraEvent.visitNotes, DiskstraState.dij_lookAll_visits]
    rfl
  have := DiskstraState.dij_loop_note H visit steps
    (DiskstraState.LookAll H (DiskstraState.init : DiskstraState Node Dist) (start s0).1)
    (start s0).2
  rw [hv] at this
  exact this

/-- C30: in a completed Dijkstra run, with the visits read in the order of time, every
finalized node has a visit, the visits are for distinct nodes, and for every visit the
depth is a number `k ≥ 0` such that following the parents takes exactly `k` steps to a
visit without parent, each step going to an earlier visit whose depth is one less. The
depths and parents are the values `Depth()` and `Parent()` reported during the visits:
the same run with a visit callback that also notes its node with the `Depth()` and the
`Parent()` it is given returns the same map, and its notes are the visits; so the chain
holds of the notes. The `Look` calls of a callback change neither `Depth()` nor
`Parent()`, so the values are the same during the whole visit. -/
theorem Dijkstra_parent_chain [LinearOrder Dist] [DecidableEq Node]
    (H : StdHeap (DistUpdate Node Dist) DistUpdate.lt)
    (start : σ → List (Node × Dist) × σ)
    (visit : Int → Option Node → σ → Node → Dist → List (Node × Dist) × σ)
    (steps : Nat) (s0 : σ) (st : DiskstraState Node Dist) (s : σ)
    (h : DiskstraState.Run H start visit steps s0 = some (st, s)) :
    (∀ n d, st.distances_ n = some d →
      ∃ u ∈ DijkstraEvent.visitsOf st.log.reverse, u.node = n ∧ u.dist = d) ∧
    ((DijkstraEvent.visitsOf st.log.reverse).map (fun u => u.node)).Nodup ∧
    (∀ u ∈ DijkstraEvent.visitsOf st.log.reverse,
      ∃ k : Nat, u.depth = k ∧ DijChain (DijkstraEvent.visitsOf st.log.reverse) u k) ∧
    Dijkstra H (DiskstraState.notedStart start) (DiskstraState.notedVisit visit) steps
        (s0, []) = some (st.distances_, s, DijkstraEvent.visitNotes st.log) ∧
    (∀ n d, st.distances_ n = some d → ∃ r ∈ DijkstraEvent.visitNotes st.log, r.1 = n) ∧
    ((DijkstraEvent.visitNotes st.log).map (fun r => r.1)).Nodup ∧
    (∀ r ∈ DijkstraEvent.visitNotes st.log,
      ∃ k : Nat, r.2.1 = k ∧ DijNoteChain (DijkstraEvent.visitNotes st.log) r k) ∧
    (∀ (x : DiskstraState Node Dist) (looks : List (Node × Dist)),
      (DiskstraState.LookAll H x looks).Depth = x.Depth ∧
      (DiskstraState.LookAll H x looks).Parent = x.Parent) := by
  obtain ⟨hI, hP⟩ := DiskstraState.dij_Run_par H start visit steps s0 st s h
  have hrev : DijkstraEvent.visitsOf st.log.reverse = (DijkstraEvent.visitsOf st.log).reverse := by
    simp only [DijkstraEvent.visitsOf, List.filterMap_reverse]
  have hchain : ∀ u ∈ (DijkstraEvent.visitsOf st.log).reverse,
      ∃ k : Nat, u.depth = k ∧ DijChain (DijkstraEvent.visitsOf st.log).reverse u k := by
    intro u hu
    obtain ⟨pre, post, hl⟩ := List.append_of_mem (List.mem_reverse.mp hu)
    exact hP.dij_chain post.length pre u post hl rfl
  have hnodup : ((DijkstraEvent.visitsOf st.log).reverse.map (fun u => u.node)).Nodup := by
    rw [List.map_reverse, List.nodup_reverse]
    exact hI.visit_nodup
  rw [hrev]
  refine ⟨?_, hnodup, hchain, ?_, ?_, ?_, ?_, ?_⟩
  · intro n d hd
    obtain ⟨u, hu, hn, hdd⟩ := (hI.dist_visit n d).mp hd
    exact ⟨u, List.mem_reverse.mpr hu, hn, hdd⟩
  · have := DiskstraState.dij_Run_note H start visit steps s0
    rw [h] at this
    simp only [Dijkstra, this, Option.map_some']
  · intro n d hd
    obtain ⟨u, hu, hn, -⟩ := (hI.dist_visit n d).mp hd
    exact ⟨(u.node, u.depth, u.parent),
      List.mem_map_of_mem _ (List.mem_reverse.mpr hu), hn⟩
  · simp only [DijkstraEvent.visitNotes, List.map_map]
    exact hnodup
  · intro r hr
    simp only [DijkstraEvent.visitNotes, List.mem_map] at hr
    obtain ⟨u, hu, rfl⟩ := hr
    obtain ⟨k, hk, hc⟩ := hchain u hu
    exact ⟨k, hk, hc.dij_note_chain⟩
  · intro x looks
    simp only [DiskstraState.Depth, DiskstraState.Parent,
      DiskstraState.dij_lookAll_current H looks x, and_self]

/-- Witness for C30: the run on `exampleEdges` from node `0`: the visit of `0` is given
the depth `0` and no parent, the visit of `2` the depth `1` and the parent `0`, and the
visit of `1` the depth `2` and the parent `2`. -/
theorem Dijkstra_parent_chain_witness :
    ∃ st, DiskstraState.Run (sortHeap (Fin 3) Int) (graphSeed [0]) (graphVisit exampleEdges)
        4 () = some (st, ()) ∧
      (DijkstraEvent.visitsOf st.log.reverse).map (fun u => (u.node, u.depth, u.parent)) =
        [(0, 0, none), (2, 1, some 0), (1, 2, some 2)] ∧
      (∀ u ∈ DijkstraEvent.visitsOf st.log.reverse,
        ∃ k : Nat, u.depth = k ∧ DijChain (DijkstraEvent.visitsOf st.log.reverse) u k) ∧
      DijkstraEvent.visitNotes st.log = [(0, 0, none), (2, 1, some 0), (1, 2, some 2)] ∧
      Dijkstra (sortHeap (Fin 3) Int) (DiskstraState.notedStart (graphSeed [0]))
          (DiskstraState.notedVisit (graphVisit exampleEdges)) 4 ((), []) =
        some (st.distances_, (), DijkstraEvent.visitNotes st.log) ∧
      (∀ r ∈ DijkstraEvent.visitNotes st.log,
        ∃ k : Nat, r.2.1 = k ∧ DijNoteChain (DijkstraEvent.visitNotes st.log) r k) := by
  have key := fun st h =>
    (Dijkstra_parent_chain (sortHeap (Fin 3) Int) (graphSeed [0]) (graphVisit exampleEdges)
      4 () st () h).2.2
  exact ⟨_, rfl, rfl, (key _ rfl).1, rfl, (key _ rfl).2.1, (key _ rfl).2.2.2.2.1⟩

end GraphSearch
